import Mathlib

/-!
# Sneller: value opcodes, sparse index, expression simplifier, keyword lookup, executor

A shallow embedding of five parts of the repository.

* `vm/interpvalue.go`: the Go reference implementations of the value opcodes
  (`bclitrefgo`, `bcisnullvgo`, `bcisnotnullvgo`, `bcistruevgo`, `bcisfalsevgo`,
  `bctypebitsgo`, `bcchecktaggo`, `bcobjectsizego`, `bcfindsymgo`, `bcfindsym2go`) together
  with the helpers they use (`typeBitsLookupTable`, `countValuesInList`,
  `countValuesInStruct`), in the namespace `vm`.
* `ion/blockfmt/sparse.go`: the methods of `SparseIndex`, in the namespace `blockfmt`,
  with Go's `sort.Search`.
* `expr/simplify_gen.go`: the generated rules of the expression simplifier, in the
  namespace `expr`.
* `expr/partiql/_generate/main.go`: the generator of the keyword lookup (`findBestSplit`,
  the bounds of `writeLookupFunctionBody`, the function `equalASCIILettersN` that it
  writes), in the namespace `partiql`.
* `plan/exec.go`: `mkexec`, in the namespace `plan`.

Conventions of the embedding:

* machine integers are natural numbers; `uint32` arithmetic is reduced modulo `2 ^ 32`
  where the source can wrap; `int` and `int64` are `Int`, wrapped to 64 bits where an
  argument of the caller enters a sum (`mkexec`);
* a fixed array `[bcLaneCount]T` is a function `Fin bcLaneCount → T`, the zero value of a
  register being the constant-zero function; a slice is a list;
* a handler `func bcXgo(bc *bytecode, pc int) int` is a function of the operands that
  `argptr` and `bcword` resolve at `pc`; it returns the values it stores to its output
  registers and the program counter it returns;
* a handler or method that does not return, because of a Go run-time panic (a slice or
  index expression out of range, a call of `panic`) or of a loop that never ends, has the
  result `none`;
* a method with a pointer receiver is a function from the value before the call to the
  value after it; a `nil` pointer result is `none`;
* declarations that the translated files use and that are outside them are parameters of
  the definitions, with instances for the examples.
-/

namespace vm

/-! ## Data model -/

/-- Modelled from the spec: the lane count `bcLaneCount` is declared outside
`vm/interpvalue.go`; the spec fixes it to a power of two (16) and the mask register is a
`uint16`, one bit per lane. -/
abbrev bcLaneCount : Nat := 16

/-- Register `vRegData`: per lane a value reference (`offsets`, `sizes`, both `uint32`),
the first byte of the value (`typeL`, a `byte`) and the size of its header
(`headerSize`, a `byte`). -/
structure vRegData where
  offsets : Fin bcLaneCount → Nat
  sizes : Fin bcLaneCount → Nat
  typeL : Fin bcLaneCount → Nat
  headerSize : Fin bcLaneCount → Nat

/-- Register `kRegData`: the lane mask, a `uint16`. -/
structure kRegData where
  mask : Nat

/-- Register `i64RegData`: per lane an `int64`. -/
structure i64RegData where
  values : Fin bcLaneCount → Int

/-- The zero value `vRegData{}`. -/
def vRegData.zero : vRegData :=
  { offsets := fun _ => 0, sizes := fun _ => 0, typeL := fun _ => 0, headerSize := fun _ => 0 }

/-- The zero value `i64RegData{}`. -/
def i64RegData.zero : i64RegData :=
  { values := fun _ => 0 }

/-- One lane of a `vRegData` register: `(offset, size, tag, header size)`. -/
def vRegData.slot (v : vRegData) (i : Fin bcLaneCount) : Nat × Nat × Nat × Nat :=
  (v.offsets i, v.sizes i, v.typeL i, v.headerSize i)

/-- The register whose lanes all hold the slot `(offset, size, tag, headerSize)`. -/
def vRegData.splat (offset size tag headerSize : Nat) : vRegData :=
  { offsets := fun _ => offset, sizes := fun _ => size, typeL := fun _ => tag,
    headerSize := fun _ => headerSize }

/-- Go's bit-clear operator `x &^ y`. -/
def bitClear (x y : Nat) : Nat :=
  x ^^^ (x &&& y)

/-- A lookup table that is used to convert ION type to our own type. -/
def typeBitsLookupTable : List Nat :=
  [ 1 <<< 0, -- null -> null
    1 <<< 1, -- bool -> bool
    1 <<< 2, -- uint -> number
    1 <<< 2, -- int -> number
    1 <<< 2, -- float -> number
    1 <<< 2, -- decimal -> number
    1 <<< 3, -- timestamp -> timestamp
    1 <<< 4, -- symbol -> string
    1 <<< 4, -- string -> string
    0,       -- clob is unused
    0,       -- blob is unused
    1 <<< 5, -- list -> list
    0,       -- sexp is unused
    1 <<< 6, -- struct -> struct
    0,       -- annotation is unused
    0 ]      -- reserved is unused

/-- Indexing `typeBitsLookupTable[n]`; the index is the high nibble of a byte. -/
def typeBits (n : Nat) : Nat :=
  typeBitsLookupTable.getD n 0

/-! ## Tag predicates -/

/-- Handler `bcisnullvgo`: clears the mask bit of every lane whose tag is not `0x0F`. -/
def bcisnullvgo (src : vRegData) (k : kRegData) (pc : Nat) : kRegData × Nat :=
  let msk := (List.finRange bcLaneCount).foldl
    (fun msk i => if src.typeL i ≠ 0x0F then bitClear msk (1 <<< i.val) else msk) k.mask
  ({ mask := msk }, pc + 6)

/-- Handler `bcisnotnullvgo`: clears the mask bit of every lane whose tag is `0x0F`. -/
def bcisnotnullvgo (src : vRegData) (k : kRegData) (pc : Nat) : kRegData × Nat :=
  let msk := (List.finRange bcLaneCount).foldl
    (fun msk i => if src.typeL i = 0x0F then bitClear msk (1 <<< i.val) else msk) k.mask
  ({ mask := msk }, pc + 6)

/-- Handler `bcistruevgo`: clears the mask bit of every lane whose tag is not `0x11`. -/
def bcistruevgo (src : vRegData) (k : kRegData) (pc : Nat) : kRegData × Nat :=
  let msk := (List.finRange bcLaneCount).foldl
    (fun msk i => if src.typeL i ≠ 0x11 then bitClear msk (1 <<< i.val) else msk) k.mask
  ({ mask := msk }, pc + 6)

/-- Handler `bcisfalsevgo`: clears the mask bit of every lane whose tag is not `0x10`. -/
def bcisfalsevgo (src : vRegData) (k : kRegData) (pc : Nat) : kRegData × Nat :=
  let msk := (List.finRange bcLaneCount).foldl
    (fun msk i => if src.typeL i ≠ 0x10 then bitClear msk (1 <<< i.val) else msk) k.mask
  ({ mask := msk }, pc + 6)

/-! ## Type classification -/

/-- Handler `bctypebitsgo`: every lane of the mask receives the table entry of the high
nibble of its tag; the destination starts as the zero register. -/
def bctypebitsgo (src : vRegData) (k : kRegData) (pc : Nat) : i64RegData × Nat :=
  let dst := (List.finRange bcLaneCount).foldl
    (fun (dst : i64RegData) i =>
      if k.mask &&& (1 <<< i.val) ≠ 0 then
        { values := Function.update dst.values i (Int.ofNat (typeBits (src.typeL i >>> 4))) }
      else dst)
    i64RegData.zero
  (dst, pc + 6)

/-- One iteration of the loop of `bcchecktaggo` on the pair `(dst, msk)`. -/
def bcchecktaggo.step (src : vRegData) (tags : Nat) (st : vRegData × Nat)
    (i : Fin bcLaneCount) : vRegData × Nat :=
  if st.2 &&& (1 <<< i.val) ≠ 0 then
    if tags &&& (1 <<< (src.typeL i >>> 4)) ≠ 0 then
      ({ offsets := Function.update st.1.offsets i (src.offsets i),
         sizes := Function.update st.1.sizes i (src.sizes i),
         typeL := Function.update st.1.typeL i (src.typeL i),
         headerSize := Function.update st.1.headerSize i (src.headerSize i) }, st.2)
    else (st.1, bitClear st.2 (1 <<< i.val))
  else st

/-- Handler `bcchecktaggo`: `tags` is the immediate `uint(bcword(bc, pc+6))`. -/
def bcchecktaggo (src : vRegData) (tags : Nat) (k : kRegData) (pc : Nat) :
    vRegData × kRegData × Nat :=
  let st := (List.finRange bcLaneCount).foldl (bcchecktaggo.step src tags)
    (vRegData.zero, k.mask)
  (st.1, { mask := st.2 }, pc + 10)

/-! ## Object size -/

/-- Package `ion` is outside `vm/interpvalue.go`, so its decoding functions are
parameters of the embedding. `SizeOf msg` is `ion.SizeOf(msg)`, the total size of the
value encoded at the start of `msg`. `labelOf msg` stands for
`ion.ReadLabel(msg)`: `none` is a non-nil error, `some (sym, n)` is the symbol `sym`
together with the number `n` of bytes of `msg` that the label takes, the slice returned by
`ion.ReadLabel` being the rest of `msg`. `HeaderSizeOf msg` is `ion.HeaderSizeOf(msg)`,
the size of the header of the value encoded at the start of `msg`. -/
structure IonDecoder where
  SizeOf : List Nat → Int
  labelOf : List Nat → Option (Nat × Nat)
  HeaderSizeOf : List Nat → Int

/-- The call `ion.ReadLabel(msg)`: the symbol and the rest of `msg`, or `none` on error. -/
def IonDecoder.ReadLabel (D : IonDecoder) (msg : List Nat) : Option (Nat × List Nat) :=
  (D.labelOf msg).map (fun p => (p.1, msg.drop p.2))

/-- Wire type code `ion.ListType`, the index of `list` in `typeBitsLookupTable`. -/
def ion.ListType : Nat := 0x0B

/-- Wire type code `ion.StructType`, the index of `struct` in `typeBitsLookupTable`. -/
def ion.StructType : Nat := 0x0D

/-- The loop of `countValuesInList`. The body shortens `msg` by at least one byte, so the
fuel `len(msg)` never runs out before `msg` is empty. The slice expression
`msg[valueSize:]` panics when `valueSize` exceeds `len(msg)`. -/
def countValuesInList.loop (D : IonDecoder) : Nat → List Nat → Int → Option Int
  | 0, _, count => some count
  | fuel + 1, msg, count =>
    if msg.length ≠ 0 then
      let valueSize := D.SizeOf msg
      -- sanity check: shouldn't happen if the data is valid
      if valueSize ≤ 0 then some (-1)
      else if (msg.length : Int) < valueSize then none
      else countValuesInList.loop D fuel (msg.drop valueSize.toNat) (count + 1)
    else some count

/-- Function `countValuesInList`; `none` is a run-time panic. -/
def countValuesInList (D : IonDecoder) (msg : List Nat) : Option Int :=
  countValuesInList.loop D msg.length msg 0

/-- The loop of `countValuesInStruct`, with the fuel of `countValuesInList.loop`. -/
def countValuesInStruct.loop (D : IonDecoder) : Nat → List Nat → Int → Option Int
  | 0, _, count => some count
  | fuel + 1, msg, count =>
    if msg.length ≠ 0 then
      match D.ReadLabel msg with
      | none => some (-1)
      | some (_, val) =>
        let valueSize := D.SizeOf val
        -- sanity check: shouldn't happen if the data is valid
        if valueSize ≤ 0 then some (-1)
        else if (val.length : Int) < valueSize then none
        else countValuesInStruct.loop D fuel (val.drop valueSize.toNat) (count + 1)
    else some count

/-- Function `countValuesInStruct`; `none` is a run-time panic. -/
def countValuesInStruct (D : IonDecoder) (msg : List Nat) : Option Int :=
  countValuesInStruct.loop D msg.length msg 0

/-- A reference `vmref{offset, size}` into the virtual memory of the interpreter. -/
structure vmref where
  offset : Nat
  size : Nat

/-- The interpreter state `bytecode`, as far as the value opcodes read or write it: the
fault field `err` (0 when no fault is set), `scratchoff` and the mask
`vmState.validLanes.mask`. -/
structure bytecode where
  err : Nat
  scratchoff : Nat
  validLanes : Nat

/-- The bytes `content` that `bcobjectsizego` resolves for lane `i`: the value without its
header. `mem` is the method `vmref.mem`, which is declared outside this file. -/
def bcobjectsizego.content (mem : vmref → List Nat) (src : vRegData) (i : Fin bcLaneCount) :
    List Nat :=
  mem { offset := (src.offsets i + src.headerSize i) % 2 ^ 32,
        size := (src.sizes i + 2 ^ 32 - src.headerSize i) % 2 ^ 32 }

/-- One iteration of the loop of `bcobjectsizego` on the pair `(dst, msk)`; `none` when
the walk over the content panics. -/
def bcobjectsizego.step (D : IonDecoder) (mem : vmref → List Nat) (src : vRegData)
    (st : i64RegData × Nat) (i : Fin bcLaneCount) : Option (i64RegData × Nat) :=
  if st.2 &&& (1 <<< i.val) = 0 then some st
  else
    let ionType := src.typeL i >>> 4
    let content := bcobjectsizego.content mem src i
    if ionType = ion.ListType then
      match countValuesInList D content with
      | none => none
      | some count =>
        if count ≥ 0 then some ({ values := Function.update st.1.values i count }, st.2)
        else some (st.1, bitClear st.2 (1 <<< i.val))
    else if ionType = ion.StructType then
      match countValuesInStruct D content with
      | none => none
      | some count =>
        if count ≥ 0 then some ({ values := Function.update st.1.values i count }, st.2)
        else some (st.1, bitClear st.2 (1 <<< i.val))
    else some (st.1, bitClear st.2 (1 <<< i.val))

/-- Handler `bcobjectsizego`. The first component is the interpreter state after the
handler, which it never assigns; the second is `none` when the handler panics, and else
the stored integer register, the stored mask and the returned program counter. -/
def bcobjectsizego (D : IonDecoder) (mem : vmref → List Nat) (bc : bytecode)
    (src : vRegData) (k : kRegData) (pc : Nat) :
    bytecode × Option (i64RegData × kRegData × Nat) :=
  let st := (List.finRange bcLaneCount).foldl
    (fun st i => st.bind (fun s => bcobjectsizego.step D mem src s i))
    (some (i64RegData.zero, k.mask))
  (bc, st.map (fun s => (s.1, { mask := s.2 }, pc + 8)))

/-- The count that the loop body of `bcobjectsizego` obtains for lane `i`: `none` when the
walk panics, `some (-1)` when the lane holds no container or a malformed one. -/
def bcobjectsizego.count (D : IonDecoder) (mem : vmref → List Nat) (src : vRegData)
    (i : Fin bcLaneCount) : Option Int :=
  if src.typeL i >>> 4 = ion.ListType then
    countValuesInList D (bcobjectsizego.content mem src i)
  else if src.typeL i >>> 4 = ion.StructType then
    countValuesInStruct D (bcobjectsizego.content mem src i)
  else some (-1)

/-- The bytes `v` are one encoded value for `D`: wherever they start a message, `SizeOf`
reads their length, which is positive. -/
def IonDecoder.IsValue (D : IonDecoder) (v : List Nat) : Prop :=
  0 < v.length ∧ ∀ rest, D.SizeOf (v ++ rest) = (v.length : Int)

/-- The bytes `f` are one encoded `(symbol-id, value)` pair for `D`: a label that
`ReadLabel` reads wherever it starts a message, followed by one encoded value. -/
def IonDecoder.IsField (D : IonDecoder) (f : List Nat) : Prop :=
  ∃ l v sym, f = l ++ v ∧ (∀ rest, D.ReadLabel (l ++ rest) = some (sym, rest)) ∧ D.IsValue v

/-- Modelled from the spec: the content `t` is truncated for `D` when it is not empty and
the size read at its start is non-positive ("any non-positive size read indicates
truncation/malformation"). -/
def IonDecoder.IsTruncated (D : IonDecoder) (t : List Nat) : Prop :=
  t ≠ [] ∧ D.SizeOf t ≤ 0

/-! ## Literal reference -/

/-- The register `v` with the slot `(offset, size, tag, header size)` stored in lane
`i`. -/
def vRegData.set (v : vRegData) (i : Fin bcLaneCount) (s : Nat × Nat × Nat × Nat) :
    vRegData :=
  { offsets := Function.update v.offsets i s.1,
    sizes := Function.update v.sizes i s.2.1,
    typeL := Function.update v.typeL i s.2.2.1,
    headerSize := Function.update v.headerSize i s.2.2.2 }

/-- Handler `bclitrefgo`: `offset`, `size`, `tlv` and `headerSize` are the immediates
`bcword32(bc, pc+2)`, `bcword32(bc, pc+6)`, `bcword8(bc, pc+10)` and
`bcword8(bc, pc+11)`; the mask is `bc.vmState.validLanes.mask`. -/
def bclitrefgo (bc : bytecode) (offset size tlv headerSize : Nat) (pc : Nat) :
    vRegData × Nat :=
  let offset := (offset + bc.scratchoff) % 2 ^ 32
  let msk := bc.validLanes
  let dst := (List.finRange bcLaneCount).foldl
    (fun (dst : vRegData) i =>
      if msk &&& (1 <<< i.val) ≠ 0 then dst.set i (offset, size, tlv, headerSize) else dst)
    vRegData.zero
  (dst, pc + 12)

/-! ## Symbol lookup -/

/-- Register `bRegData`: per lane a byte range (`offsets`, `sizes`, both `uint32`). -/
structure bRegData where
  offsets : Fin bcLaneCount → Nat
  sizes : Fin bcLaneCount → Nat

/-- The register whose lanes all hold the byte range `(offset, size)`. -/
def bRegData.splat (offset size : Nat) : bRegData :=
  { offsets := fun _ => offset, sizes := fun _ => size }

/-- Modelled from the spec: the fault code `bcerrCorrupt` is declared outside
`vm/interpvalue.go`; it is the fatal corruption fault, and the embedding only uses that it
differs from 0, the value of `bc.err` when no fault is set. -/
def bcerrCorrupt : Nat := 1

/-- How the loop `symsearch` over one lane ends. `done last found`: the loop is left by
its condition or by `break symsearch`; `last` is the slot that the loop assigned last to
the lane of `dstv` (`none` when it assigned nothing) and `found` tells whether the bit of
the lane was set in `retmask`. `corrupt last`: `ion.ReadLabel` failed, `bc.err` is set and
the loop over the lanes is left by `break outer`. `panic`: a run-time panic (`mem[0]` on
an empty slice, or `mem[ion.SizeOf(mem):]` out of range). `hang`: an iteration left `mem`
as it was, so the loop never ends. -/
inductive findsym.Scan where
  | done (last : Option (Nat × Nat × Nat × Nat)) (found : Bool)
  | corrupt (last : Option (Nat × Nat × Nat × Nat))
  | panic
  | hang
  deriving DecidableEq

/-- The loop `symsearch` of `bcfindsymgo` and of `bcfindsym2go`, which differ only in the
name of the end `e` of the byte range (`start + width` or `end`). Every iteration that
goes on shortens `mem`, so the fuel `len(mem)` does not run out. -/
def findsym.scan (D : IonDecoder) (symbol e : Nat) :
    Nat → List Nat → Option (Nat × Nat × Nat × Nat) → findsym.Scan
  | 0, mem, last => if mem.length > 0 then findsym.Scan.hang else findsym.Scan.done last false
  | fuel + 1, mem, last =>
    if mem.length > 0 then
      match D.ReadLabel mem with
      | none => findsym.Scan.corrupt last
      | some (sym, val) =>
        if sym > symbol then findsym.Scan.done last false
        else
          match val with
          | [] => findsym.Scan.panic
          | tlv :: _ =>
            let slot := ((e + (2 ^ 32 - val.length % 2 ^ 32)) % 2 ^ 32,
              (D.SizeOf val % 2 ^ 32).toNat, tlv, (D.HeaderSizeOf val % 256).toNat)
            if sym = symbol then findsym.Scan.done (some slot) true
            else if D.SizeOf val < 0 ∨ (val.length : Int) < D.SizeOf val then
              findsym.Scan.panic
            else if (val.drop (D.SizeOf val).toNat).length < mem.length then
              findsym.scan D symbol e fuel (val.drop (D.SizeOf val).toNat) (some slot)
            else findsym.Scan.hang
    else findsym.Scan.done last false

/-- The state of the loop over the lanes in `bcfindsymgo` and `bcfindsym2go`: the output
register `dstv`, the mask `retmask`, the fault field `bc.err` and whether `break outer`
was taken. -/
structure findsym.State where
  dstv : vRegData
  retmask : Nat
  err : Nat
  stop : Bool

/-- The register `v` with lane `i` assigned when the scan assigned a slot. -/
def vRegData.setLast (v : vRegData) (i : Fin bcLaneCount)
    (last : Option (Nat × Nat × Nat × Nat)) : vRegData :=
  match last with
  | none => v
  | some s => v.set i s

/-- The state after the loop `symsearch` over lane `i` has ended as `r`: `none` when the
handler does not return (run-time panic or endless loop). -/
def findsym.finish (st : findsym.State) (i : Fin bcLaneCount) (r : findsym.Scan) :
    Option findsym.State :=
  match r with
  | findsym.Scan.done last found =>
    some { dstv := st.dstv.setLast i last,
           retmask := if found then st.retmask ||| (1 <<< i.val) else st.retmask,
           err := st.err, stop := false }
  | findsym.Scan.corrupt last =>
    some { dstv := st.dstv.setLast i last, retmask := st.retmask, err := bcerrCorrupt,
           stop := true }
  | findsym.Scan.panic => none
  | findsym.Scan.hang => none

/-- The scan of lane `i` in `bcfindsymgo`: the bytes `vmref{start, width}.mem()`. -/
def bcfindsymgo.lane (D : IonDecoder) (mem : vmref → List Nat) (symbol : Nat)
    (src : bRegData) (i : Fin bcLaneCount) : findsym.Scan :=
  let start := src.offsets i
  let width := src.sizes i
  let m := mem { offset := start, size := width }
  findsym.scan D symbol ((start + width) % 2 ^ 32) m.length m none

/-- One iteration of the loop over the lanes of `bcfindsymgo`. -/
def bcfindsymgo.step (D : IonDecoder) (mem : vmref → List Nat) (symbol : Nat)
    (src : bRegData) (srcmask : Nat) (st : findsym.State) (i : Fin bcLaneCount) :
    Option findsym.State :=
  if st.stop then some st
  else
    let dstv := st.dstv.set i (src.offsets i, 0, 0, 0)
    if srcmask &&& (1 <<< i.val) = 0 then
      some { dstv := dstv, retmask := st.retmask, err := st.err, stop := false }
    else
      findsym.finish { dstv := dstv, retmask := st.retmask, err := st.err, stop := false } i
        (bcfindsymgo.lane D mem symbol src i)

/-- Handler `bcfindsymgo`. `dstv` is the output register before the handler, which the
handler writes in place; `symbol` is the immediate read by `ion.ReadLabel` at `pc+6`.
The result is the interpreter state after the handler and, unless the handler does not
return (`none`), the output register, the stored mask and the returned program counter. -/
def bcfindsymgo (D : IonDecoder) (mem : vmref → List Nat) (bc : bytecode) (dstv : vRegData)
    (srcb : bRegData) (symbol : Nat) (srck : kRegData) (pc : Nat) :
    bytecode × Option (vRegData × kRegData × Nat) :=
  match (List.finRange bcLaneCount).foldl
    (fun st i => st.bind (fun s => bcfindsymgo.step D mem symbol srcb srck.mask s i))
    (some { dstv := dstv, retmask := 0, err := bc.err, stop := false }) with
  | none => (bc, none)
  | some st =>
    ({ err := st.err, scratchoff := bc.scratchoff, validLanes := bc.validLanes },
      some (st.dstv, { mask := st.retmask }, pc + 12))

/-- The byte range that `bcfindsym2go` scans in lane `i`: from `searchpos` to `end`,
`none` when `searchpos >= end`. -/
def bcfindsym2go.range (srcb : bRegData) (srcv : vRegData) (srck : Nat)
    (i : Fin bcLaneCount) : Option vmref :=
  let e := (srcb.offsets i + srcb.sizes i) % 2 ^ 32
  let searchpos :=
    if srck &&& (1 <<< i.val) ≠ 0 then (srcv.offsets i + srcv.sizes i) % 2 ^ 32
    else srcb.offsets i
  if searchpos ≥ e then none
  else some { offset := searchpos, size := (e + 2 ^ 32 - searchpos) % 2 ^ 32 }

/-- The scan of lane `i` in `bcfindsym2go`: nothing when `searchpos >= end`, else the
bytes `vmref{searchpos, end - searchpos}.mem()`. -/
def bcfindsym2go.lane (D : IonDecoder) (mem : vmref → List Nat) (symbol : Nat)
    (srcb : bRegData) (srcv : vRegData) (srck : Nat) (i : Fin bcLaneCount) :
    findsym.Scan :=
  match bcfindsym2go.range srcb srcv srck i with
  | none => findsym.Scan.done none false
  | some r =>
    findsym.scan D symbol ((srcb.offsets i + srcb.sizes i) % 2 ^ 32) (mem r).length (mem r)
      none

/-- One iteration of the loop over the lanes of `bcfindsym2go`. -/
def bcfindsym2go.step (D : IonDecoder) (mem : vmref → List Nat) (symbol : Nat)
    (srcb : bRegData) (srcv : vRegData) (srck srcmask : Nat) (st : findsym.State)
    (i : Fin bcLaneCount) : Option findsym.State :=
  if st.stop then some st
  else if srcmask &&& (1 <<< i.val) = 0 then some st
  else findsym.finish st i (bcfindsym2go.lane D mem symbol srcb srcv srck i)

/-- Handler `bcfindsym2go`. The output register starts as `srcv` (`*dstv = srcv`);
`srck` is the mask at `pc+8`, `symbol` the immediate at `pc+10` and `srcmask` the mask at
`pc+14`. -/
def bcfindsym2go (D : IonDecoder) (mem : vmref → List Nat) (bc : bytecode)
    (srcb : bRegData) (srcv : vRegData) (srck : kRegData) (symbol : Nat)
    (srcmask : kRegData) (pc : Nat) : bytecode × Option (vRegData × kRegData × Nat) :=
  match (List.finRange bcLaneCount).foldl
    (fun st i => st.bind (fun s =>
      bcfindsym2go.step D mem symbol srcb srcv srck.mask srcmask.mask s i))
    (some { dstv := srcv, retmask := 0, err := bc.err, stop := false }) with
  | none => (bc, none)
  | some st =>
    ({ err := st.err, scratchoff := bc.scratchoff, validLanes := bc.validLanes },
      some (st.dstv, { mask := st.retmask }, pc + 16))

/-! ## Well-formed struct bodies and what the lookup finds in them -/

/-- One field of a struct: its symbol id, the bytes of its label and the bytes of its
value. -/
structure Field where
  sym : Nat
  label : List Nat
  value : List Nat

/-- The encoding of a field: the label followed by the value. -/
def Field.bytes (f : Field) : List Nat :=
  f.label ++ f.value

/-- The encoding of a sequence of fields, a struct body. -/
def fieldBytes (fs : List Field) : List Nat :=
  (fs.map Field.bytes).flatten

/-- The field `f` is well-formed for `D`: `ReadLabel` reads its symbol from its label
wherever the label starts a message, its value is one encoded value, and the header size
of the value does not depend on the bytes that follow it. -/
def IonDecoder.Encodes (D : IonDecoder) (f : Field) : Prop :=
  (∀ rest, D.ReadLabel (f.label ++ rest) = some (f.sym, rest)) ∧ D.IsValue f.value
    ∧ ∀ rest, D.HeaderSizeOf (f.value ++ rest) = D.HeaderSizeOf f.value

/-- The slot of the value of `f` in a byte range that ends at `e`, when the bytes `after`
follow the value up to `e`. -/
def findsym.valueSlot (D : IonDecoder) (e : Nat) (f : Field) (after : List Nat) :
    Nat × Nat × Nat × Nat :=
  ((e + (2 ^ 32 - (f.value ++ after).length % 2 ^ 32)) % 2 ^ 32,
    ((f.value.length : Int) % 2 ^ 32).toNat, f.value.headD 0,
    (D.HeaderSizeOf f.value % 256).toNat)

/-- What a scan for `symbol` leaves on a sequence of fields: the slot of the last field
it visited (the fields up to the first one whose symbol is not below `symbol`, that one
included when it is `symbol`), else `last`; and whether it met `symbol`. -/
def findsym.lookup (D : IonDecoder) (symbol e : Nat) :
    List Field → Option (Nat × Nat × Nat × Nat) → Option (Nat × Nat × Nat × Nat) × Bool
  | [], last => (last, false)
  | f :: t, last =>
    if f.sym > symbol then (last, false)
    else if f.sym = symbol then (some (findsym.valueSlot D e f (fieldBytes t)), true)
    else findsym.lookup D symbol e t (some (findsym.valueSlot D e f (fieldBytes t)))

/-- What one lane does to the state of the loop over the lanes. `cont slot found`: the
lane ends with `slot` assigned to its lane of `dstv` (nothing assigned for `none`) and its
bit set in `retmask` when `found`. `fault slot`: the lane ends by `break outer` with
`bc.err` set. `abort`: the handler does not return. -/
inductive findsym.Effect where
  | cont (slot : Option (Nat × Nat × Nat × Nat)) (found : Bool)
  | fault (slot : Option (Nat × Nat × Nat × Nat))
  | abort

/-- The slot that an effect assigns. -/
def findsym.Effect.slot : findsym.Effect → Option (Nat × Nat × Nat × Nat)
  | findsym.Effect.cont s _ => s
  | findsym.Effect.fault s => s
  | findsym.Effect.abort => none

/-- Whether an effect sets the bit of its lane. -/
def findsym.Effect.found : findsym.Effect → Bool
  | findsym.Effect.cont _ f => f
  | findsym.Effect.fault _ => false
  | findsym.Effect.abort => false

/-- Whether an effect lets the loop over the lanes go on. -/
def findsym.Effect.isCont : findsym.Effect → Bool
  | findsym.Effect.cont _ _ => true
  | findsym.Effect.fault _ => false
  | findsym.Effect.abort => false

/-- The loop over the lanes, with the effect of every lane given. -/
def findsym.apply (eff : Fin bcLaneCount → findsym.Effect) (st : findsym.State)
    (i : Fin bcLaneCount) : Option findsym.State :=
  if st.stop then some st
  else
    match eff i with
    | findsym.Effect.cont slot found =>
      some { dstv := st.dstv.setLast i slot,
             retmask := if found then st.retmask ||| (1 <<< i.val) else st.retmask,
             err := st.err, stop := false }
    | findsym.Effect.fault slot =>
      some { dstv := st.dstv.setLast i slot, retmask := st.retmask, err := bcerrCorrupt,
             stop := true }
    | findsym.Effect.abort => none

/-- The effect of lane `i` in `bcfindsymgo`. -/
def bcfindsymgo.effect (D : IonDecoder) (mem : vmref → List Nat) (symbol : Nat)
    (src : bRegData) (srcmask : Nat) (i : Fin bcLaneCount) : findsym.Effect :=
  if srcmask &&& (1 <<< i.val) = 0 then
    findsym.Effect.cont (some (src.offsets i, 0, 0, 0)) false
  else
    match bcfindsymgo.lane D mem symbol src i with
    | findsym.Scan.done last found =>
      findsym.Effect.cont (some (last.getD (src.offsets i, 0, 0, 0))) found
    | findsym.Scan.corrupt last =>
      findsym.Effect.fault (some (last.getD (src.offsets i, 0, 0, 0)))
    | findsym.Scan.panic => findsym.Effect.abort
    | findsym.Scan.hang => findsym.Effect.abort

/-- The effect of lane `i` in `bcfindsym2go`. -/
def bcfindsym2go.effect (D : IonDecoder) (mem : vmref → List Nat) (symbol : Nat)
    (srcb : bRegData) (srcv : vRegData) (srck srcmask : Nat) (i : Fin bcLaneCount) :
    findsym.Effect :=
  if srcmask &&& (1 <<< i.val) = 0 then findsym.Effect.cont none false
  else
    match bcfindsym2go.lane D mem symbol srcb srcv srck i with
    | findsym.Scan.done last found => findsym.Effect.cont last found
    | findsym.Scan.corrupt last => findsym.Effect.fault last
    | findsym.Scan.panic => findsym.Effect.abort
    | findsym.Scan.hang => findsym.Effect.abort

/-! ## A decoder for the examples -/

/-- Reads a VarUInt: seven bits per byte, most significant first, the last byte marked by
bit 7. Returns the number and the count of bytes read, `none` when no last byte comes. -/
def ion.readVarUInt : List Nat → Nat → Nat → Option (Nat × Nat)
  | [], _, _ => none
  | b :: rest, acc, n =>
    if 0x80 ≤ b then some (acc * 128 + b % 128, n + 1)
    else ion.readVarUInt rest (acc * 128 + b) (n + 1)

/-- The size that the header at the start of `msg` declares: one byte for null (`0x_F`)
and bool (`0x1_`), a length in the low nibble, or a VarUInt length after the nibble
`0xE`. -/
def ion.declaredSize : List Nat → Option Nat
  | [] => none
  | tag :: rest =>
    if tag % 16 = 0x0F ∨ tag >>> 4 = 1 then some 1
    else if tag % 16 = 0x0E then (ion.readVarUInt rest 0 0).map (fun p => 1 + p.2 + p.1)
    else some (1 + tag % 16)

/-- Modelled from the spec: package `ion` is outside `vm/interpvalue.go`. This decoder
reads the tag-length-value format with the type code in the high nibble of the tag, and
reports content that is truncated (no header, or fewer bytes than the header declares)
by the size -1. It instantiates the theorems, which hold for every decoder. -/
def ion.decoder : IonDecoder where
  SizeOf := fun msg =>
    match ion.declaredSize msg with
    | none => -1
    | some n => if n ≤ msg.length then (n : Int) else -1
  labelOf := fun msg => ion.readVarUInt msg 0 0
  HeaderSizeOf := fun msg =>
    match msg with
    | [] => -1
    | tag :: rest =>
      if tag % 16 = 0x0F ∨ tag >>> 4 = 1 then 1
      else if tag % 16 = 0x0E then
        match ion.readVarUInt rest 0 0 with
        | none => -1
        | some p => 1 + (p.2 : Int)
      else 1

/-- Modelled from the spec: package `ion` is outside `vm/interpvalue.go`. This decoder reads
the format of `ion.decoder`, but its `SizeOf` is the size that the header at the start of
the message declares, whether or not that many bytes follow; only a header that cannot be
read (no byte, or a length field that does not end) gives -1. -/
def ion.headerDecoder : IonDecoder where
  SizeOf := fun msg =>
    match ion.declaredSize msg with
    | none => -1
    | some n => (n : Int)
  labelOf := ion.decoder.labelOf
  HeaderSizeOf := ion.decoder.HeaderSizeOf

/-- Modelled from the spec: `resolve(buffer, ref)` returns the byte slice
`buffer[ref.offset .. ref.offset+ref.size]` of the scratch buffer; the examples use it
for references that lie inside the buffer. -/
def vmref.mem (buffer : List Nat) (r : vmref) : List Nat :=
  (buffer.drop r.offset).take r.size

/-- A scratch buffer for the examples: the list `0xB3 0x21 0x05 0x11` of an integer and a
bool at offset 0, the list `0xB2 0x11 0x23` with a truncated second child at offset 4, and
the struct `0xD5 0x84 0x21 0x05 0x85 0x11` of two fields at offset 7. -/
def exampleScratch : List Nat :=
  [0xB3, 0x21, 0x05, 0x11, 0xB2, 0x11, 0x23, 0xD5, 0x84, 0x21, 0x05, 0x85, 0x11]

/-- A scratch buffer with the struct `{2:"A", 5:"B", 9:"C"}`: the header `0xD9` and the
fields `0x82 0x81 0x41`, `0x85 0x81 0x42`, `0x89 0x81 0x43`, the body at offset 1. -/
def exampleStruct : List Nat :=
  [0xD9, 0x82, 0x81, 0x41, 0x85, 0x81, 0x42, 0x89, 0x81, 0x43]

/-- The fields of `exampleStruct`. -/
def exampleFields : List Field :=
  [{ sym := 2, label := [0x82], value := [0x81, 0x41] },
   { sym := 5, label := [0x85], value := [0x81, 0x42] },
   { sym := 9, label := [0x89], value := [0x81, 0x43] }]

/-- A struct body whose first field `0x82 0x81 0x41` is followed by the byte `0x05`, a
VarUInt that does not end: no label can be read from it. -/
def exampleUnreadable : List Nat :=
  [0x82, 0x81, 0x41, 0x05]

/-- A struct body that is the label `0x85` alone: no value byte follows the label. -/
def exampleNoValue : List Nat :=
  [0x85]

/-- A struct body with the label `0x85` and the value header `0x23`, which declares three
bytes of content that do not follow: the size decoder of the examples reads -1. -/
def exampleNoSize : List Nat :=
  [0x85, 0x23]

/-- A byte-range register that holds the body of `exampleStruct` in lane 0 and the range
`(100, 0)` in every other lane. -/
def exampleRanges : bRegData :=
  { offsets := fun i => if i.val = 0 then 1 else 100,
    sizes := fun i => if i.val = 0 then 9 else 0 }

/-- A value register that holds a null sentinel in lane 0 and the bool `true` at offset 9
in every other lane. -/
def exampleValues : vRegData :=
  { offsets := fun i => if i.val = 0 then 0 else 9, sizes := fun _ => 1,
    typeL := fun i => if i.val = 0 then 0x0F else 0x11, headerSize := fun _ => 1 }

/-- An interpreter state for the examples: no fault, all lanes valid. -/
def exampleBytecode : bytecode :=
  { err := 0, scratchoff := 0, validLanes := 0xFFFF }

end vm

namespace date

/-- Type `date.Time` is declared outside the translated sources. A time is represented by
its position on the time line, an integer count of the unit of the clock, so that
`Before` is `<` and the zero value `date.Time{}` is `0`. -/
abbrev Time : Type := Int

end date

namespace sort

/-- The loop of Go's `sort.Search(n, f)`: a binary search on `[i, j)`. Every iteration
shrinks `j - i`, so the fuel `n` never runs out while `i < j`. The midpoint
`int(uint(i+j) >> 1)` is `(i + j) / 2`. -/
def Search.loop (f : Nat → Bool) : Nat → Nat → Nat → Nat
  | 0, i, _ => i
  | fuel + 1, i, j =>
    if i < j then
      let h := (i + j) / 2
      if !f h then Search.loop f fuel (h + 1) j else Search.loop f fuel i h
    else i

/-- Go's `sort.Search(n, f)`: the smallest index in `[0, n)` at which `f` is true, given
that `f` is false on a prefix and true on the rest, and `n` when there is none. -/
def Search (n : Nat) (f : Nat → Bool) : Nat :=
  Search.loop f n 0 n

end sort

namespace expr

/-- A component of the rest of a path expression. `expr.Dot` is the only component type
that `GetPath` accepts; every other component type is `other`. -/
inductive PathComponent where
  | Dot (Field : String)
  | other (kind : Nat)
  deriving DecidableEq

/-- The path expression `expr.Path`: the first field and the list of the components that
`Rest`, `Next()` enumerate. -/
structure Path where
  First : String
  Rest : List PathComponent
  deriving DecidableEq


/-! ## The expression simplifier of `expr/simplify_gen.go` -/

/-- The operators of `*Arithmetic` that the rules name; `other` is any other constant of
the type, which is declared outside `expr/simplify_gen.go`. -/
inductive ArithOp where
  | AddOp | SubOp | MulOp | DivOp | ModOp
  | other (code : Nat)
  deriving DecidableEq

/-- The builtin functions that the rules name; `other` is any other constant of the
type. -/
inductive BuiltinOp where
  | Abs | CharLength | Concat | Contains
  | DateExtractDay | DateExtractHour | DateExtractMicrosecond | DateExtractMillisecond
  | DateExtractMinute | DateExtractMonth | DateExtractSecond | DateExtractYear
  | Lower | Ltrim | Rtrim | Sign | Substring | ToUnixEpoch | ToUnixMicro | Trim | Upper
  | other (code : Nat)
  deriving DecidableEq

/-- The operators of `*Comparison` that the rules name; `other` is any other constant of
the type. -/
inductive CmpOp where
  | Equals | Greater | GreaterEquals | Ilike | Like | Less | LessEquals | NotEquals
  | other (code : Nat)
  deriving DecidableEq

/-- The keys of `*IsKey` that the rules name; `other` is any other constant of the
type. -/
inductive Keyword where
  | IsFalse | IsMissing | IsNotFalse | IsNotMissing | IsNotNull | IsNotTrue | IsNull
  | IsTrue
  | other (code : Nat)
  deriving DecidableEq

/-- The operators of `*Logical` that the rules name; `other` is any other constant of the
type. -/
inductive LogicalOp where
  | OpAnd | OpOr | OpXnor | OpXor
  | other (code : Nat)
  deriving DecidableEq

/-- Interface `Node`, with the node types that the rules of the simplifier test for, the
path expression `*Path`, and `other` for a node of any other type. A `Float` holds the
bits of its `float64`. The types are declared outside `expr/simplify_gen.go`. -/
inductive Node where
  | Arithmetic (Op : ArithOp) (Left Right : Node)
  | Builtin (Func : BuiltinOp) (Args : List Node)
  | Comparison (Op : CmpOp) (Left Right : Node)
  | IsKey (Key : Keyword) (Expr : Node)
  | Logical (Op : LogicalOp) (Left Right : Node)
  | Not (Expr : Node)
  | Bool (v : Bool)
  | Integer (v : Int)
  | Float (bits : Nat)
  | Rational (v : Rat)
  | String (v : String)
  | Timestamp (Value : date.Time)
  | Null
  | Missing
  | Path (p : Path)
  | other (kind : Nat)

/-- Interface `Hint`: the method `TypeOf` returns the type set of a node, a bit set. -/
structure Hint where
  TypeOf : Node → Nat

/-- The declarations of package `expr`, of `date.Time` and of the Go library that the
rules call and that are outside `expr/simplify_gen.go`; they are parameters of the
embedding. `TypeOf`, `miss` and `null` are the functions of these names; the fields whose
names end in `Type` are the constants of type `TypeSet`; `isConstant x` and `isNumber x` are the
type assertions `x.(Constant)` and `x.(number)`, and `rat x` is `x.rat()`; `Equals x y` is
the method call `x.Equals(y)`; `Call name args` is `Call(name, args...)`;
`RuneCountInString`, `Contains`, `ContainsAny`, `ToLower` and `ToUpper` are the functions
of `unicode/utf8` and `strings`; `Day` to `UnixMicro` are the methods of `date.Time`. -/
structure Prims where
  TypeOf : Node → Hint → Nat
  miss : Node → Hint → Bool
  null : Node → Hint → Bool
  NumericType : Nat
  MissingType : Nat
  BoolType : Nat
  NullType : Nat
  StringType : Nat
  LogicalType : Nat
  isConstant : Node → Bool
  isNumber : Node → Bool
  rat : Node → Rat
  Equals : Node → Node → Bool
  Call : String → List Node → Node
  isUpper : String → Bool
  isLower : String → Bool
  staticSubstr : String → Int → Int → Node
  isSubstringSearchPattern : String → String × Bool
  RuneCountInString : String → Int
  Contains : String → String → Bool
  ContainsAny : String → String → Bool
  ToLower : String → String
  ToUpper : String → String
  Day : date.Time → Int
  Hour : date.Time → Int
  Minute : date.Time → Int
  Month : date.Time → Int
  Second : date.Time → Int
  Year : date.Time → Int
  Nanosecond : date.Time → Int
  Unix : date.Time → Int
  UnixMicro : date.Time → Int

/-- Function `simplifyClass0` on the fields of `src *Arithmetic`; `none` is `nil`. The
rules of a case are tried in order, a rule that does not return falls through to the
next. -/
def simplifyClass0 (P : Prims) (Op : ArithOp) (Left Right : Node) (h : Hint) :
    Option Node :=
  match Op with
  | .AddOp =>
    -- (add x (int "0")), "TypeOf(x, h) == (NumericType|MissingType)" -> x
    (match Right with
      | .Integer t =>
        if P.Equals (.Integer 0) (.Integer t) ∧
            P.TypeOf Left h = P.NumericType ||| P.MissingType then some Left
        else none
      | _ => none) <|>
    -- (add (constant x) y), "_, ok := y.(Constant); !ok" -> (add y x)
    (if P.isConstant Left ∧ ¬ P.isConstant Right then
        some (.Arithmetic .AddOp Right Left)
      else none) <|>
    -- (add (add x (constant y)) (constant z)) -> (add x (add y z))
    (match Left with
      | .Arithmetic .AddOp x y =>
        if P.isConstant Right ∧ P.isConstant y then
          some (.Arithmetic .AddOp x (.Arithmetic .AddOp y Right))
        else none
      | _ => none) <|>
    -- (add (add a (constant b)) (add c (constant d))) -> (add (add a c) (add b d))
    (match Left, Right with
      | .Arithmetic .AddOp a b, .Arithmetic .AddOp c d =>
        if P.isConstant b ∧ P.isConstant d then
          some (.Arithmetic .AddOp (.Arithmetic .AddOp a c) (.Arithmetic .AddOp b d))
        else none
      | _, _ => none)
  | .DivOp =>
    -- (div x (int "1")), "TypeOf(x, h) == (NumericType|MissingType)" -> x
    (match Right with
      | .Integer t =>
        if P.Equals (.Integer 1) (.Integer t) ∧
            P.TypeOf Left h = P.NumericType ||| P.MissingType then some Left
        else none
      | _ => none) <|>
    -- (div _ (int "0")) -> (missing)
    (match Right with
      | .Integer t => if P.Equals (.Integer 0) (.Integer t) then some .Missing else none
      | _ => none)
  | .ModOp =>
    -- (mod _ (int "0")) -> (missing)
    (match Right with
      | .Integer t => if P.Equals (.Integer 0) (.Integer t) then some .Missing else none
      | _ => none)
  | .MulOp =>
    -- (mul x (int "1")), "TypeOf(x, h) == (NumericType|MissingType)" -> x
    (match Right with
      | .Integer t =>
        if P.Equals (.Integer 1) (.Integer t) ∧
            P.TypeOf Left h = P.NumericType ||| P.MissingType then some Left
        else none
      | _ => none) <|>
    -- (mul (constant x) y), "_, ok := y.(Constant); !ok" -> (mul y x)
    (if P.isConstant Left ∧ ¬ P.isConstant Right then
        some (.Arithmetic .MulOp Right Left)
      else none) <|>
    -- (mul (mul x (constant y)) (constant z)) -> (mul x (mul y z))
    (match Left with
      | .Arithmetic .MulOp x y =>
        if P.isConstant Right ∧ P.isConstant y then
          some (.Arithmetic .MulOp x (.Arithmetic .MulOp y Right))
        else none
      | _ => none) <|>
    -- (mul (mul a (constant b)) (mul c (constant d))) -> (mul (mul a c) (mul b d))
    (match Left, Right with
      | .Arithmetic .MulOp a b, .Arithmetic .MulOp c d =>
        if P.isConstant b ∧ P.isConstant d then
          some (.Arithmetic .MulOp (.Arithmetic .MulOp a c) (.Arithmetic .MulOp b d))
        else none
      | _, _ => none)
  | .SubOp =>
    -- (sub x (int "0")), "TypeOf(x, h) == (NumericType|MissingType)" -> x
    (match Right with
      | .Integer t =>
        if P.Equals (.Integer 0) (.Integer t) ∧
            P.TypeOf Left h = P.NumericType ||| P.MissingType then some Left
        else none
      | _ => none)
  | .other _ => none


/-- Function `simplifyClass1` on the fields of `src *Builtin`; `none` is `nil`. The rules
of a case are tried in order. The division of `int` truncates. -/
def simplifyClass1 (P : Prims) (Func : BuiltinOp) (Args : List Node) (h : Hint) :
    Option Node :=
  match Func with
  | .Abs =>
    match Args with
    | [a0] =>
      -- (abs (number x)) -> "(*Rational)(new(big.Rat).Abs(x.rat()))"
      if P.isNumber a0 then some (.Rational |P.rat a0|) else none
    | _ => none
  | .CharLength =>
    match Args with
    | [a0] =>
      -- (char_length (string x)) -> (int "utf8.RuneCountInString(string(x))")
      (match a0 with
        | .String x => some (.Integer (P.RuneCountInString x))
        | _ => none) <|>
      -- (char_length (lower x)) -> (char_length x)
      (match a0 with
        | .Builtin .Lower [x] => some (P.Call "CHAR_LENGTH" [x])
        | _ => none) <|>
      -- (char_length (upper x)) -> (char_length x)
      (match a0 with
        | .Builtin .Upper [x] => some (P.Call "CHAR_LENGTH" [x])
        | _ => none) <|>
      -- (char_length (concat x y)) -> (add (char_length x) (char_length y))
      (match a0 with
        | .Builtin .Concat [x, y] =>
          some (.Arithmetic .AddOp (P.Call "CHAR_LENGTH" [x]) (P.Call "CHAR_LENGTH" [y]))
        | _ => none)
    | _ => none
  | .Concat =>
    match Args with
    | [a0, a1] =>
      -- (concat (upper x) (string y)), "isUpper(string(y))" -> (upper (concat x y))
      (match a0, a1 with
        | .Builtin .Upper [x], .String y =>
          if P.isUpper y then some (P.Call "UPPER" [P.Call "CONCAT" [x, .String y]])
          else none
        | _, _ => none) <|>
      -- (concat (string x) (concat (string y) z)) -> (concat (string "x + y") z)
      (match a0, a1 with
        | .String x, .Builtin .Concat [.String y, z] =>
          some (P.Call "CONCAT" [.String (x ++ y), z])
        | _, _ => none) <|>
      -- (concat (upper x) (upper y)) -> (upper (concat x y))
      (match a0, a1 with
        | .Builtin .Upper [x], .Builtin .Upper [y] =>
          some (P.Call "UPPER" [P.Call "CONCAT" [x, y]])
        | _, _ => none) <|>
      -- (concat (lower x) (string y)), "isLower(string(y))" -> (lower (concat x y))
      (match a0, a1 with
        | .Builtin .Lower [x], .String y =>
          if P.isLower y then some (P.Call "LOWER" [P.Call "CONCAT" [x, .String y]])
          else none
        | _, _ => none) <|>
      -- (concat (lower x) (lower y)) -> (lower (concat x y))
      (match a0, a1 with
        | .Builtin .Lower [x], .Builtin .Lower [y] =>
          some (P.Call "LOWER" [P.Call "CONCAT" [x, y]])
        | _, _ => none) <|>
      -- (concat (string x) (upper y)), "isUpper(string(x))" -> (upper (concat x y))
      (match a0, a1 with
        | .String x, .Builtin .Upper [y] =>
          if P.isUpper x then some (P.Call "UPPER" [P.Call "CONCAT" [.String x, y]])
          else none
        | _, _ => none) <|>
      -- (concat (string x) (lower y)), "isLower(string(x))" -> (lower (concat x y))
      (match a0, a1 with
        | .String x, .Builtin .Lower [y] =>
          if P.isLower x then some (P.Call "LOWER" [P.Call "CONCAT" [.String x, y]])
          else none
        | _, _ => none) <|>
      -- (concat (string x) (string y)) -> (string "x + y")
      (match a0, a1 with
        | .String x, .String y => some (.String (x ++ y))
        | _, _ => none)
    | _ => none
  | .Contains =>
    match Args with
    | [a0, a1] =>
      -- (contains (lower _) (string y)), "!isLower(string(y))" -> (bool "false")
      (match a0, a1 with
        | .Builtin .Lower [_], .String y =>
          if ¬ P.isLower y then some (.Bool false) else none
        | _, _ => none) <|>
      -- (contains (lower x) (string y)), "isLower(string(y))" -> (contains_ci x y)
      (match a0, a1 with
        | .Builtin .Lower [x], .String y =>
          if P.isLower y then some (P.Call "CONTAINS_CI" [x, .String y]) else none
        | _, _ => none) <|>
      -- (contains (upper _) (string y)), "!isUpper(string(y))" -> (bool "false")
      (match a0, a1 with
        | .Builtin .Upper [_], .String y =>
          if ¬ P.isUpper y then some (.Bool false) else none
        | _, _ => none) <|>
      -- (contains (upper x) (string y)), "isUpper(string(y))" -> (contains_ci x y)
      (match a0, a1 with
        | .Builtin .Upper [x], .String y =>
          if P.isUpper y then some (P.Call "CONTAINS_CI" [x, .String y]) else none
        | _, _ => none) <|>
      -- (contains (string x) (string y)) -> "Bool(strings.Contains(string(x), string(y)))"
      (match a0, a1 with
        | .String x, .String y => some (.Bool (P.Contains x y))
        | _, _ => none)
    | _ => none
  | .DateExtractDay =>
    match Args with
    -- (date_extract_day (ts x)) -> (int "x.Value.Day()")
    | [.Timestamp x] => some (.Integer (P.Day x))
    | _ => none
  | .DateExtractHour =>
    match Args with
    -- (date_extract_hour (ts x)) -> (int "x.Value.Hour()")
    | [.Timestamp x] => some (.Integer (P.Hour x))
    | _ => none
  | .DateExtractMicrosecond =>
    match Args with
    -- (date_extract_microsecond (ts x)) -> (int "x.Value.Nanosecond() / 1000")
    | [.Timestamp x] => some (.Integer ((P.Nanosecond x).tdiv 1000))
    | _ => none
  | .DateExtractMillisecond =>
    match Args with
    -- (date_extract_millisecond (ts x)) -> (int "x.Value.Nanosecond() / 1000000")
    | [.Timestamp x] => some (.Integer ((P.Nanosecond x).tdiv 1000000))
    | _ => none
  | .DateExtractMinute =>
    match Args with
    -- (date_extract_minute (ts x)) -> (int "x.Value.Minute()")
    | [.Timestamp x] => some (.Integer (P.Minute x))
    | _ => none
  | .DateExtractMonth =>
    match Args with
    -- (date_extract_month (ts x)) -> (int "x.Value.Month()")
    | [.Timestamp x] => some (.Integer (P.Month x))
    | _ => none
  | .DateExtractSecond =>
    match Args with
    -- (date_extract_second (ts x)) -> (int "x.Value.Second()")
    | [.Timestamp x] => some (.Integer (P.Second x))
    | _ => none
  | .DateExtractYear =>
    match Args with
    -- (date_extract_year (ts x)) -> (int "x.Value.Year()")
    | [.Timestamp x] => some (.Integer (P.Year x))
    | _ => none
  | .Lower =>
    match Args with
    -- (lower (string x)) -> (string "strings.ToLower(string(x))")
    | [.String x] => some (.String (P.ToLower x))
    | _ => none
  | .Ltrim =>
    match Args with
    | [a0] =>
      -- (ltrim (upper x)) -> (upper (ltrim x))
      (match a0 with
        | .Builtin .Upper [x] => some (P.Call "UPPER" [P.Call "LTRIM" [x]])
        | _ => none) <|>
      -- (ltrim (rtrim x)) -> (trim x)
      (match a0 with
        | .Builtin .Rtrim [x] => some (P.Call "TRIM" [x])
        | _ => none) <|>
      -- (ltrim inner:(trim _)) -> inner
      (match a0 with
        | .Builtin .Trim [_] => some a0
        | _ => none) <|>
      -- (ltrim inner:(ltrim _)) -> inner
      (match a0 with
        | .Builtin .Ltrim [_] => some a0
        | _ => none) <|>
      -- (ltrim (upper x)) -> (upper (ltrim x))
      (match a0 with
        | .Builtin .Upper [x] => some (P.Call "UPPER" [P.Call "LTRIM" [x]])
        | _ => none)
    | _ => none
  | .Rtrim =>
    match Args with
    | [a0] =>
      -- (rtrim inner:(rtrim _)) -> inner
      (match a0 with
        | .Builtin .Rtrim [_] => some a0
        | _ => none) <|>
      -- (rtrim (lower x)) -> (lower (rtrim x))
      (match a0 with
        | .Builtin .Lower [x] => some (P.Call "LOWER" [P.Call "RTRIM" [x]])
        | _ => none) <|>
      -- (rtrim inner:(trim _)) -> inner
      (match a0 with
        | .Builtin .Trim [_] => some a0
        | _ => none) <|>
      -- (rtrim (lower x)) -> (lower (rtrim x))
      (match a0 with
        | .Builtin .Lower [x] => some (P.Call "LOWER" [P.Call "RTRIM" [x]])
        | _ => none) <|>
      -- (rtrim (ltrim x)) -> (trim x)
      (match a0 with
        | .Builtin .Ltrim [x] => some (P.Call "TRIM" [x])
        | _ => none)
    | _ => none
  | .Sign =>
    match Args with
    | [a0] =>
      -- (sign (number x)) -> "(*Rational)(new(big.Rat).SetInt64(int64(x.rat().Sign())))"
      if P.isNumber a0 then some (.Rational ((Int.sign (P.rat a0).num : Int) : Rat))
      else none
    | _ => none
  | .Substring =>
    match Args with
    | [a0, a1] =>
      -- (substring (string s) (int start)) -> "staticSubstr(s, start, -1)"
      (match a0, a1 with
        | .String s, .Integer start => some (P.staticSubstr s start (-1))
        | _, _ => none) <|>
      -- (substring (upper x) off) -> (upper (substring x off))
      (match a0 with
        | .Builtin .Upper [x] => some (P.Call "UPPER" [P.Call "SUBSTRING" [x, a1]])
        | _ => none) <|>
      -- (substring s x) -> (substring s x (int "1<<21"))
      some (P.Call "SUBSTRING" [a0, a1, .Integer (2 ^ 21)]) <|>
      -- (substring s (int "1")), "TypeOf(s, h) == StringType|MissingType" -> s
      (match a1 with
        | .Integer t =>
          if P.Equals (.Integer 1) (.Integer t) ∧
              P.TypeOf a0 h = P.StringType ||| P.MissingType then some a0
          else none
        | _ => none) <|>
      -- (substring (lower x) off) -> (lower (substring x off))
      (match a0 with
        | .Builtin .Lower [x] => some (P.Call "LOWER" [P.Call "SUBSTRING" [x, a1]])
        | _ => none)
    | [a0, a1, a2] =>
      -- (substring (upper x) off len) -> (upper (substring x off len))
      (match a0 with
        | .Builtin .Upper [x] => some (P.Call "UPPER" [P.Call "SUBSTRING" [x, a1, a2]])
        | _ => none) <|>
      -- (substring (lower x) off len) -> (lower (substring x off len))
      (match a0 with
        | .Builtin .Lower [x] => some (P.Call "LOWER" [P.Call "SUBSTRING" [x, a1, a2]])
        | _ => none) <|>
      -- (substring (string s) (int start) (int len)) -> "staticSubstr(s, start, len)"
      (match a0, a1, a2 with
        | .String s, .Integer start, .Integer len => some (P.staticSubstr s start len)
        | _, _, _ => none)
    | _ => none
  | .ToUnixEpoch =>
    match Args with
    -- (to_unix_epoch (ts x)) -> (int "x.Value.Unix()")
    | [.Timestamp x] => some (.Integer (P.Unix x))
    | _ => none
  | .ToUnixMicro =>
    match Args with
    -- (to_unix_micro (ts x)) -> (int "x.Value.UnixMicro()")
    | [.Timestamp x] => some (.Integer (P.UnixMicro x))
    | _ => none
  | .Trim =>
    match Args with
    | [a0] =>
      -- (trim (upper x)) -> (upper (trim x))
      (match a0 with
        | .Builtin .Upper [x] => some (P.Call "UPPER" [P.Call "TRIM" [x]])
        | _ => none) <|>
      -- (trim inner:(trim _)) -> inner
      (match a0 with
        | .Builtin .Trim [_] => some a0
        | _ => none) <|>
      -- (trim (lower x)) -> (lower (trim x))
      (match a0 with
        | .Builtin .Lower [x] => some (P.Call "LOWER" [P.Call "TRIM" [x]])
        | _ => none)
    | _ => none
  | .Upper =>
    match Args with
    -- (upper (string x)) -> (string "strings.ToUpper(string(x))")
    | [.String x] => some (.String (P.ToUpper x))
    | _ => none
  | .other _ => none


/-- Function `simplifyClass2` on the fields of `src *Comparison`; `none` is `nil`. -/
def simplifyClass2 (P : Prims) (Op : CmpOp) (Left Right : Node) (h : Hint) :
    Option Node :=
  match Op with
  | .Equals =>
    -- (eq (upper _) (string lit)), "!isUpper(string(lit))" -> (bool "false")
    (match Left, Right with
      | .Builtin .Upper [_], .String lit =>
        if ¬ P.isUpper lit then some (.Bool false) else none
      | _, _ => none) <|>
    -- (eq (lower x) (string lit)), "isLower(string(lit))" -> (equals_ci x lit)
    (match Left, Right with
      | .Builtin .Lower [x], .String lit =>
        if P.isLower lit then some (P.Call "EQUALS_CI" [x, .String lit]) else none
      | _, _ => none) <|>
    -- (eq x x), "TypeOf(x, h)&MissingType == 0" -> (bool "true")
    (if P.Equals Left Right ∧ P.TypeOf Left h &&& P.MissingType = 0 then
        some (.Bool true)
      else none) <|>
    -- (eq (upper x) (string lit)), "isUpper(string(lit))" -> (equals_ci x lit)
    (match Left, Right with
      | .Builtin .Upper [x], .String lit =>
        if P.isUpper lit then some (P.Call "EQUALS_CI" [x, .String lit]) else none
      | _, _ => none) <|>
    -- (eq (lower _) (string lit)), "!isLower(string(lit))" -> (bool "false")
    (match Left, Right with
      | .Builtin .Lower [_], .String lit =>
        if ¬ P.isLower lit then some (.Bool false) else none
      | _, _ => none)
  | .Greater =>
    -- (gt (ts x) (ts y)) -> (bool "y.Value.Before(x.Value)")
    (match Left, Right with
      | .Timestamp x, .Timestamp y => some (.Bool (decide (y < x)))
      | _, _ => none)
  | .GreaterEquals =>
    -- (gte x x), "TypeOf(x, h)&MissingType == 0" -> (bool "true")
    (if P.Equals Left Right ∧ P.TypeOf Left h &&& P.MissingType = 0 then
        some (.Bool true)
      else none) <|>
    -- (gte (ts x) (ts y)) -> (bool "y.Value.Before(x.Value) || x.Value == y.Value")
    (match Left, Right with
      | .Timestamp x, .Timestamp y => some (.Bool (decide (y < x) || decide (x = y)))
      | _, _ => none)
  | .Ilike =>
    -- (ilike x (string pat)), "!strings.ContainsAny(string(pat), \"%_\")"
    --   -> (equals_ci x pat)
    (match Right with
      | .String pat =>
        if ¬ P.ContainsAny pat "%_" then some (P.Call "EQUALS_CI" [Left, .String pat])
        else none
      | _ => none) <|>
    -- (ilike x (string pat)), "term, ok := isSubstringSearchPattern(string(pat)); ok"
    --   -> (contains_ci x "String(term)")
    (match Right with
      | .String pat =>
        if (P.isSubstringSearchPattern pat).2 then
          some (P.Call "CONTAINS_CI" [Left, .String (P.isSubstringSearchPattern pat).1])
        else none
      | _ => none)
  | .Like =>
    -- (like x (string pat)), "!strings.ContainsAny(string(pat), \"%_\")" -> (eq x pat)
    (match Right with
      | .String pat =>
        if ¬ P.ContainsAny pat "%_" then some (.Comparison .Equals Left (.String pat))
        else none
      | _ => none) <|>
    -- (like (lower _) (string pat)), "!isLower(string(pat))" -> (bool "false")
    (match Left, Right with
      | .Builtin .Lower [_], .String pat =>
        if ¬ P.isLower pat then some (.Bool false) else none
      | _, _ => none) <|>
    -- (like (upper x) (string pat)), "isUpper(string(pat))" -> (ilike x pat)
    (match Left, Right with
      | .Builtin .Upper [x], .String pat =>
        if P.isUpper pat then some (.Comparison .Ilike x (.String pat)) else none
      | _, _ => none) <|>
    -- (like (upper _) (string pat)), "!isUpper(string(pat))" -> (bool "false")
    (match Left, Right with
      | .Builtin .Upper [_], .String pat =>
        if ¬ P.isUpper pat then some (.Bool false) else none
      | _, _ => none) <|>
    -- (like x (string pat)), "term, ok := isSubstringSearchPattern(string(pat)); ok"
    --   -> (contains x "String(term)")
    (match Right with
      | .String pat =>
        if (P.isSubstringSearchPattern pat).2 then
          some (P.Call "CONTAINS" [Left, .String (P.isSubstringSearchPattern pat).1])
        else none
      | _ => none) <|>
    -- (like (lower x) (string pat)), "isLower(string(pat))" -> (ilike x pat)
    (match Left, Right with
      | .Builtin .Lower [x], .String pat =>
        if P.isLower pat then some (.Comparison .Ilike x (.String pat)) else none
      | _, _ => none)
  | .Less =>
    -- (lt (ts x) (ts y)) -> (bool "x.Value.Before(y.Value)")
    (match Left, Right with
      | .Timestamp x, .Timestamp y => some (.Bool (decide (x < y)))
      | _, _ => none)
  | .LessEquals =>
    -- (lte (ts x) (ts y)) -> (bool "x.Value.Before(y.Value) || x.Value == y.Value")
    (match Left, Right with
      | .Timestamp x, .Timestamp y => some (.Bool (decide (x < y) || decide (x = y)))
      | _, _ => none) <|>
    -- (lte x x), "TypeOf(x, h)&MissingType == 0" -> (bool "true")
    (if P.Equals Left Right ∧ P.TypeOf Left h &&& P.MissingType = 0 then
        some (.Bool true)
      else none)
  | .NotEquals =>
    -- (neq (upper x) (string lit)), "isUpper(string(lit))"
    --   -> "&Not{Call(\"EQUALS_CI\", x, lit)}"
    (match Left, Right with
      | .Builtin .Upper [x], .String lit =>
        if P.isUpper lit then some (.Not (P.Call "EQUALS_CI" [x, .String lit])) else none
      | _, _ => none) <|>
    -- (neq (lower x) (string lit)), "isLower(string(lit))"
    --   -> "&Not{Call(\"EQUALS_CI\", x, lit)}"
    (match Left, Right with
      | .Builtin .Lower [x], .String lit =>
        if P.isLower lit then some (.Not (P.Call "EQUALS_CI" [x, .String lit])) else none
      | _, _ => none) <|>
    -- (neq x x), "TypeOf(x, h)&MissingType == 0" -> (bool "true")
    (if P.Equals Left Right ∧ P.TypeOf Left h &&& P.MissingType = 0 then
        some (.Bool true)
      else none)
  | .other _ => none

/-- Function `simplifyClass3` on the fields of `src *IsKey`; `none` is `nil`. -/
def simplifyClass3 (P : Prims) (Key : Keyword) (Expr : Node) (h : Hint) : Option Node :=
  match Key with
  | .IsFalse =>
    -- (is_false x), "TypeOf(x, h)&BoolType == 0" -> (bool "false")
    (if P.TypeOf Expr h &&& P.BoolType = 0 then some (.Bool false) else none) <|>
    -- (is_false (bool x)) -> (bool "!x")
    (match Expr with
      | .Bool x => some (.Bool (!x))
      | _ => none)
  | .IsMissing =>
    -- (is_missing x), "TypeOf(x, h)&MissingType == 0" -> (bool "false")
    (if P.TypeOf Expr h &&& P.MissingType = 0 then some (.Bool false) else none) <|>
    -- (is_missing (constant _)) -> (bool "false")
    (if P.isConstant Expr then some (.Bool false) else none) <|>
    -- (is_missing x), "miss(x, h)" -> (bool "true")
    (if P.miss Expr h then some (.Bool true) else none) <|>
    -- (is_missing (missing)) -> (bool "true")
    (match Expr with
      | .Missing => some (.Bool true)
      | _ => none)
  | .IsNotFalse =>
    -- (is_not_false (bool x)) -> (bool x)
    (match Expr with
      | .Bool x => some (.Bool x)
      | _ => none) <|>
    -- (is_not_false x), "TypeOf(x, h)&BoolType == 0" -> (bool "true")
    (if P.TypeOf Expr h &&& P.BoolType = 0 then some (.Bool true) else none)
  | .IsNotMissing =>
    -- (is_not_missing x), "TypeOf(x, h) == MissingType" -> (bool "false")
    (if P.TypeOf Expr h = P.MissingType then some (.Bool false) else none) <|>
    -- (is_not_missing (constant _)) -> (bool "true")
    (if P.isConstant Expr then some (.Bool true) else none) <|>
    -- (is_not_missing x), "TypeOf(x, h)&MissingType == 0" -> (bool "true")
    (if P.TypeOf Expr h &&& P.MissingType = 0 then some (.Bool true) else none) <|>
    -- (is_not_missing (missing)) -> (bool "false")
    (match Expr with
      | .Missing => some (.Bool false)
      | _ => none)
  | .IsNotNull =>
    -- (is_not_null (null)) -> (bool "false")
    (match Expr with
      | .Null => some (.Bool false)
      | _ => none) <|>
    -- (is_not_null x), "null(x, h)" -> (bool "false")
    (if P.null Expr h then some (.Bool false) else none) <|>
    -- (is_not_null x), "TypeOf(x, h)&NullType == 0" -> (bool "true")
    (if P.TypeOf Expr h &&& P.NullType = 0 then some (.Bool true) else none)
  | .IsNotTrue =>
    -- (is_not_true x), "TypeOf(x, h)&BoolType == 0" -> (bool "true")
    (if P.TypeOf Expr h &&& P.BoolType = 0 then some (.Bool true) else none) <|>
    -- (is_not_true (bool x)) -> (bool "!x")
    (match Expr with
      | .Bool x => some (.Bool (!x))
      | _ => none)
  | .IsNull =>
    -- (is_null x), "TypeOf(x, h)&NullType == 0" -> (bool "false")
    (if P.TypeOf Expr h &&& P.NullType = 0 then some (.Bool false) else none) <|>
    -- (is_null x), "null(x, h)" -> (bool "true")
    (if P.null Expr h then some (.Bool true) else none) <|>
    -- (is_null (null)) -> (bool "true")
    (match Expr with
      | .Null => some (.Bool true)
      | _ => none)
  | .IsTrue =>
    -- (is_true (bool x)) -> (bool x)
    (match Expr with
      | .Bool x => some (.Bool x)
      | _ => none) <|>
    -- (is_true x), "TypeOf(x, h)&BoolType == 0" -> (bool "false")
    (if P.TypeOf Expr h &&& P.BoolType = 0 then some (.Bool false) else none)
  | .other _ => none

/-- Function `simplifyClass4` on the fields of `src *Logical`; `none` is `nil`. -/
def simplifyClass4 (P : Prims) (Op : LogicalOp) (Left Right : Node) (h : Hint) :
    Option Node :=
  match Op with
  | .OpAnd =>
    -- (and x x), "TypeOf(x, h) == LogicalType" -> x
    (if P.Equals Left Right ∧ P.TypeOf Left h = P.LogicalType then some Left
      else none) <|>
    -- (and (bool x) y), "x && TypeOf(y, h) == LogicalType" -> y
    (match Left with
      | .Bool x => if x ∧ P.TypeOf Right h = P.LogicalType then some Right else none
      | _ => none) <|>
    -- (and x (bool y)), "y && TypeOf(x, h) == LogicalType" -> x
    (match Right with
      | .Bool y => if y ∧ P.TypeOf Left h = P.LogicalType then some Left else none
      | _ => none) <|>
    -- (and (bool x) (bool y)) -> (bool "x && y")
    (match Left, Right with
      | .Bool x, .Bool y => some (.Bool (x && y))
      | _, _ => none)
  | .OpOr =>
    -- (or x x), "TypeOf(x, h) == LogicalType" -> x
    (if P.Equals Left Right ∧ P.TypeOf Left h = P.LogicalType then some Left
      else none) <|>
    -- (or (bool x) y), "!x", "TypeOf(y, h) == LogicalType" -> y
    (match Left with
      | .Bool x => if ¬ x ∧ P.TypeOf Right h = P.LogicalType then some Right else none
      | _ => none) <|>
    -- (or x (bool y)), "!y", "TypeOf(x, h) == LogicalType" -> x
    (match Right with
      | .Bool y => if ¬ y ∧ P.TypeOf Left h = P.LogicalType then some Left else none
      | _ => none) <|>
    -- (or (bool x) (bool y)) -> (bool "x || y")
    (match Left, Right with
      | .Bool x, .Bool y => some (.Bool (x || y))
      | _, _ => none)
  | .OpXnor =>
    -- (xnor (bool x) (bool y)) -> (bool "x == y")
    (match Left, Right with
      | .Bool x, .Bool y => some (.Bool (x == y))
      | _, _ => none)
  | .OpXor =>
    -- (xor (bool x) (bool y)) -> (bool "x != y")
    (match Left, Right with
      | .Bool x, .Bool y => some (.Bool (x != y))
      | _, _ => none)
  | .other _ => none

/-- Function `simplify1`: the type switch on `src`. -/
def simplify1 (P : Prims) (src : Node) (h : Hint) : Option Node :=
  match src with
  | .Arithmetic Op Left Right => simplifyClass0 P Op Left Right h
  | .Builtin Func Args => simplifyClass1 P Func Args h
  | .Comparison Op Left Right => simplifyClass2 P Op Left Right h
  | .IsKey Key Expr => simplifyClass3 P Key Expr h
  | .Logical Op Left Right => simplifyClass4 P Op Left Right h
  | _ => none

mutual
/-- The nodes `x` and `y` are the same expression. -/
def sameNode : Node → Node → Bool
  | .Arithmetic o l r, .Arithmetic o' l' r' => o == o' && sameNode l l' && sameNode r r'
  | .Builtin f a, .Builtin f' a' => f == f' && sameNodes a a'
  | .Comparison o l r, .Comparison o' l' r' => o == o' && sameNode l l' && sameNode r r'
  | .IsKey k e, .IsKey k' e' => k == k' && sameNode e e'
  | .Logical o l r, .Logical o' l' r' => o == o' && sameNode l l' && sameNode r r'
  | .Not e, .Not e' => sameNode e e'
  | .Bool v, .Bool v' => v == v'
  | .Integer v, .Integer v' => v == v'
  | .Float v, .Float v' => v == v'
  | .Rational v, .Rational v' => v == v'
  | .String v, .String v' => v == v'
  | .Timestamp v, .Timestamp v' => v == v'
  | .Null, .Null => true
  | .Missing, .Missing => true
  | .Path p, .Path p' => p == p'
  | .other n, .other n' => n == n'
  | _, _ => false
/-- The lists `xs` and `ys` hold the same expressions. -/
def sameNodes : List Node → List Node → Bool
  | [], [] => true
  | x :: xs, y :: ys => sameNode x y && sameNodes xs ys
  | _, _ => false
end

/-- Modelled from the spec: the declarations of package `expr` behind `Prims` are outside
`expr/simplify_gen.go`. In this instance a type set has one bit per wire type code of the
classification table (null 0, bool 1, the numbers 2 to 5, timestamp 6, symbol 7, string 8)
and the bit 15 for MISSING; a constant node has the type of its value and any other node
the type that the hint gives; `Equals` compares the expressions; the fields that the
examples do not read are simple stand-ins. It instantiates the theorems, which hold for
every `Prims`. -/
def examplePrims : Prims where
  TypeOf := fun x h =>
    match x with
    | .Null => 0x0001
    | .Bool _ => 0x0002
    | .Integer _ => 0x000C
    | .Float _ => 0x0010
    | .Rational _ => 0x0020
    | .Timestamp _ => 0x0040
    | .String _ => 0x0100
    | .Missing => 0x8000
    | _ => h.TypeOf x
  miss := fun x _ =>
    match x with
    | .Missing => true
    | _ => false
  null := fun x _ =>
    match x with
    | .Null => true
    | _ => false
  NumericType := 0x003C
  MissingType := 0x8000
  BoolType := 0x0002
  NullType := 0x0001
  StringType := 0x0180
  LogicalType := 0x8002
  isConstant := fun x =>
    match x with
    | .Null | .Bool _ | .Integer _ | .Float _ | .Rational _ | .Timestamp _ | .String _ =>
      true
    | _ => false
  isNumber := fun x =>
    match x with
    | .Integer _ | .Float _ | .Rational _ => true
    | _ => false
  rat := fun x =>
    match x with
    | .Integer v => v
    | .Rational v => v
    | _ => 0
  Equals := sameNode
  Call := fun name args =>
    .Builtin (match name with
      | "UPPER" => .Upper
      | "LOWER" => .Lower
      | "CONCAT" => .Concat
      | "CHAR_LENGTH" => .CharLength
      | "LTRIM" => .Ltrim
      | "RTRIM" => .Rtrim
      | "TRIM" => .Trim
      | "SUBSTRING" => .Substring
      | "CONTAINS" => .Contains
      | _ => .other 0) args
  isUpper := fun s => decide (s.toUpper = s)
  isLower := fun s => decide (s.toLower = s)
  staticSubstr := fun s _ _ => .String s
  isSubstringSearchPattern := fun s => (s, false)
  RuneCountInString := fun s => s.length
  Contains := fun s sub => decide (sub.data <:+: s.data)
  ContainsAny := fun s chars => s.any (fun c => chars.contains c)
  ToLower := fun s => s.toLower
  ToUpper := fun s => s.toUpper
  Day := fun _ => 1
  Hour := fun _ => 0
  Minute := fun _ => 0
  Month := fun _ => 1
  Second := fun _ => 0
  Year := fun _ => 1970
  Nanosecond := fun _ => 0
  Unix := fun t => t
  UnixMicro := fun t => t * 1000000

/-- The hint of the test "`c is not missing`" of `plan/pir/build_test.go`, in the way of
`flatSchema`: the binding `c` is an unsigned count, any other path is MISSING, and a
node that is no path has any type. -/
def exampleHint : Hint :=
  { TypeOf := fun x =>
      match x with
      | .Path p => if p.First = "c" ∧ p.Rest = [] then 0x0004 else 0x8000
      | _ => 0xFFFF }

/-- The path expression `c`. -/
def exampleCount : Node :=
  .Path { First := "c", Rest := [] }

end expr

namespace blockfmt

/-- Type `TimeIndex` is declared outside `ion/blockfmt/sparse.go`, so its methods are
parameters of the embedding, on a carrier `T` of the values of the type. `zero` is the
zero value `TimeIndex{}`; `Min` and `Max` return the pair `(date.Time, bool)`. -/
structure TimeIndex (T : Type) where
  zero : T
  Push : T → date.Time → date.Time → T
  PushEmpty : T → Int → T
  EditLatest : T → date.Time → date.Time → T
  Blocks : T → Int
  Min : T → date.Time × Bool
  Max : T → date.Time × Bool

/-- Struct `timeIndex`. -/
structure timeIndex (T : Type) where
  path : List String
  ranges : T
  deriving DecidableEq

/-- Struct `SparseIndex`. -/
structure SparseIndex (T : Type) where
  indices : List (timeIndex T)
  blocks : Int
  deriving DecidableEq

/-- The zero value of `SparseIndex`, from which `new(SparseIndex)` and
`blockfmt.Trailer{}` start. -/
def SparseIndex.zero {T : Type} : SparseIndex T :=
  { indices := [], blocks := 0 }

/-- Struct `TimeRange`, as far as `SparseIndex.Push` reads it. -/
structure TimeRange where
  path : List String
  min : date.Time
  max : date.Time
  deriving DecidableEq

/-- Interface `Range`: a value is a `*TimeRange` or a range of another type, for which the
type assertion `rng[i].(*TimeRange)` fails. -/
inductive Range where
  | TimeRange (tr : TimeRange)
  | other (path : List String)
  deriving DecidableEq

/-- The index that `sort.Search` returns in `search`, `push` and `update`. The function
`pathless` is declared outside `sparse.go` and is a parameter. `sort.Search` calls the
closure below `len(s.indices)` only; the value out of range is never read. -/
def SparseIndex.find {T : Type} (pathless : List String → List String → Bool)
    (s : SparseIndex T) (path : List String) : Nat :=
  sort.Search s.indices.length (fun i =>
    match s.indices[i]? with
    | some e => !pathless e.path path
    | none => true)

/-- Method `SparseIndex.search`: the entry that the returned pointer refers to, `none` for
`nil`. `slices.Equal` is the equality of lists. -/
def SparseIndex.search {T : Type} (pathless : List String → List String → Bool)
    (s : SparseIndex T) (path : List String) : Option (timeIndex T) :=
  let j := s.find pathless path
  match s.indices[j]? with
  | some e => if path = e.path then some e else none
  | none => none

/-- Method `SparseIndex.Get`: the `TimeIndex` that the returned pointer refers to. -/
def SparseIndex.Get {T : Type} (pathless : List String → List String → Bool)
    (s : SparseIndex T) (path : List String) : Option T :=
  match s.search pathless path with
  | some idx => some idx.ranges
  | none => none

/-- The entries after `append(s.indices, timeIndex{})`, `copy(s.indices[j+1:],
s.indices[j:])` and the assignment of `s.indices[j]`. -/
def insertAt {T : Type} (indices : List (timeIndex T)) (j : Nat) (e : timeIndex T) :
    List (timeIndex T) :=
  indices.take j ++ e :: indices.drop j

/-- Method `SparseIndex.push`. -/
def SparseIndex.push {T : Type} (X : TimeIndex T)
    (pathless : List String → List String → Bool) (s : SparseIndex T)
    (path : List String) (min max : date.Time) : SparseIndex T :=
  let j := s.find pathless path
  let fresh : timeIndex T := { path := path, ranges := X.Push X.zero min max }
  match s.indices[j]? with
  | some e =>
    if path = e.path then
      { s with indices := s.indices.set j { e with ranges := X.Push e.ranges min max } }
    else
      -- insertion-sort a new path entry
      { s with indices := insertAt s.indices j fresh }
  | none => { s with indices := insertAt s.indices j fresh }

/-- Method `SparseIndex.update`. -/
def SparseIndex.update {T : Type} (X : TimeIndex T)
    (pathless : List String → List String → Bool) (s : SparseIndex T)
    (path : List String) (min max : date.Time) : SparseIndex T :=
  let j := s.find pathless path
  let fresh : timeIndex T :=
    { path := path, ranges := X.PushEmpty (X.Push X.zero min max) (s.blocks - 1) }
  match s.indices[j]? with
  | some e =>
    if path = e.path then
      { s with indices := s.indices.set j { e with ranges := X.EditLatest e.ranges min max } }
    else
      -- insertion-sort a new path entry
      { s with indices := insertAt s.indices j fresh }
  | none => { s with indices := insertAt s.indices j fresh }

/-- The loop of `bump` over the entries, `blocks` being the incremented count; `none` is
the panic "bad block bookkeeping". -/
def SparseIndex.bump.loop {T : Type} (X : TimeIndex T) (blocks : Int) :
    List (timeIndex T) → Option (List (timeIndex T))
  | [] => some []
  | e :: rest =>
    let b := X.Blocks e.ranges
    if b < blocks then
      (SparseIndex.bump.loop X blocks rest).map
        (fun l => { e with ranges := X.PushEmpty e.ranges (blocks - b) } :: l)
    else if b > blocks then none
    else (SparseIndex.bump.loop X blocks rest).map (fun l => e :: l)

/-- Method `SparseIndex.bump`: make sure every sub-range points to the same number of
blocks; `none` when it panics. -/
def SparseIndex.bump {T : Type} (X : TimeIndex T) (s : SparseIndex T) :
    Option (SparseIndex T) :=
  (SparseIndex.bump.loop X (s.blocks + 1) s.indices).map
    (fun l => { indices := l, blocks := s.blocks + 1 })

/-- The body of the loop of `SparseIndex.Push` for one range. -/
def SparseIndex.Push.step {T : Type} (X : TimeIndex T)
    (pathless : List String → List String → Bool) (s : SparseIndex T) (r : Range) :
    SparseIndex T :=
  match r with
  | .TimeRange tr => s.push X pathless tr.path tr.min tr.max
  | .other _ => s

/-- Method `SparseIndex.Push`; `none` when `bump` panics. -/
def SparseIndex.Push {T : Type} (X : TimeIndex T)
    (pathless : List String → List String → Bool) (s : SparseIndex T) (rng : List Range) :
    Option (SparseIndex T) :=
  (rng.foldl (SparseIndex.Push.step X pathless) s).bump X

/-- The loop of `GetPath` that flattens the rest of a path; `none` when a component is
not an `*expr.Dot`. -/
def SparseIndex.GetPath.flatten : List expr.PathComponent → List String →
    Option (List String)
  | [], flat => some flat
  | .Dot field :: rest, flat => SparseIndex.GetPath.flatten rest (flat ++ [field])
  | .other _ :: _, _ => none

/-- Method `SparseIndex.GetPath`. -/
def SparseIndex.GetPath {T : Type} (pathless : List String → List String → Bool)
    (s : SparseIndex T) (p : expr.Path) : Option T :=
  match SparseIndex.GetPath.flatten p.Rest [p.First] with
  | none => none
  | some flat => s.Get pathless flat

/-- Method `SparseIndex.MinMax`: the results `(min, max, ok)`. -/
def SparseIndex.MinMax {T : Type} (X : TimeIndex T)
    (pathless : List String → List String → Bool) (s : SparseIndex T) (p : expr.Path) :
    date.Time × date.Time × Bool :=
  match s.GetPath pathless p with
  | none => (0, 0, false)
  | some tr => ((X.Min tr).1, (X.Max tr).1, (X.Min tr).2)

/-- The sparse index that `mkindex` of `plan/pir/build_test.go` builds: one call of
`Push` per block, from the zero value; `none` when a call panics. -/
def mkindex {T : Type} (X : TimeIndex T) (pathless : List String → List String → Bool)
    (rs : List (List Range)) : Option (SparseIndex T) :=
  rs.foldl (fun t r => t.bind (fun s => s.Push X pathless r)) (some SparseIndex.zero)

/-- A call of `push` or of `update`. -/
inductive Call where
  | push (path : List String) (min max : date.Time)
  | update (path : List String) (min max : date.Time)

/-- The index after one call of `push` or `update`. -/
def SparseIndex.call {T : Type} (X : TimeIndex T)
    (pathless : List String → List String → Bool) (s : SparseIndex T) :
    Call → SparseIndex T
  | .push path min max => s.push X pathless path min max
  | .update path min max => s.update X pathless path min max

/-- The order that the binary search needs from `pathless`: a strict total order of the
paths. -/
def StrictTotal (pathless : List String → List String → Bool) : Prop :=
  (∀ a, pathless a a = false) ∧
  (∀ a b c, pathless a b = true → pathless b c = true → pathless a c = true) ∧
  (∀ a b, a ≠ b → pathless a b = true ∨ pathless b a = true)

/-- The entries are strictly increasing in the order `pathless`. -/
def SparseIndex.Sorted {T : Type} (pathless : List String → List String → Bool)
    (s : SparseIndex T) : Prop :=
  s.indices.Pairwise (fun a b => pathless a.path b.path = true)

/-- The block counts that the bookkeeping of `SparseIndex` relies on: the zero value has
no block, `Push` adds one block and `PushEmpty(n)` adds `n` blocks, for a positive `n`. -/
structure TimeIndex.CountsBlocks {T : Type} (X : TimeIndex T) : Prop where
  zero : X.Blocks X.zero = 0
  Push : ∀ t a b, X.Blocks (X.Push t a b) = X.Blocks t + 1
  PushEmpty : ∀ t n, 0 < n → X.Blocks (X.PushEmpty t n) = X.Blocks t + n

/-- The extremes that `Min` and `Max` report: none for the zero value, and after `Push`
the smaller of the minima and the larger of the maxima. -/
structure TimeIndex.KeepsExtremes {T : Type} (X : TimeIndex T) : Prop where
  zeroMin : (X.Min X.zero).2 = false
  zeroMax : (X.Max X.zero).2 = false
  PushMin : ∀ t a b, X.Min (X.Push t a b) =
    (if (X.Min t).2 then min (X.Min t).1 a else a, true)
  PushMax : ∀ t a b, X.Max (X.Push t a b) =
    (if (X.Max t).2 then max (X.Max t).1 b else b, true)


/-- What `push` and `update` do to the entries once `sort.Search` has returned `j`: the
entry at `j` is replaced when it has the path, and else a fresh entry is inserted at `j`. -/
def upsert {T : Type} (indices : List (timeIndex T)) (j : Nat) (path : List String)
    (hit : T → T) (fresh : T) : List (timeIndex T) :=
  match indices[j]? with
  | some e =>
    if path = e.path then indices.set j { e with ranges := hit e.ranges }
    else insertAt indices j { path := path, ranges := fresh }
  | none => insertAt indices j { path := path, ranges := fresh }


/-- The values of the time index of the examples: the number of blocks, and the smallest
minimum and the largest maximum pushed so far, if any. -/
structure Summary where
  blocks : Int
  extremes : Option (date.Time × date.Time)
  deriving DecidableEq

/-- Modelled from the spec: type `TimeIndex` is outside `ion/blockfmt/sparse.go`. This
instance keeps, for one path, the number of blocks and the extremes of the ranges pushed
so far ("`min_max(path) -> (min, max, ok)`"); `EditLatest` replaces the extremes. It
instantiates the theorems, which hold for every `TimeIndex` with the stated laws. -/
def exampleTimeIndex : TimeIndex Summary where
  zero := { blocks := 0, extremes := none }
  Push := fun t a b =>
    { blocks := t.blocks + 1,
      extremes := match t.extremes with
        | none => some (a, b)
        | some (lo, hi) => some (min lo a, max hi b) }
  PushEmpty := fun t n => { t with blocks := t.blocks + n }
  EditLatest := fun t a b => { t with extremes := some (a, b) }
  Blocks := fun t => t.blocks
  Min := fun t =>
    match t.extremes with
    | none => (0, false)
    | some (lo, _) => (lo, true)
  Max := fun t =>
    match t.extremes with
    | none => (0, false)
    | some (_, hi) => (hi, true)

/-- Modelled from the spec: function `pathless` is outside `ion/blockfmt/sparse.go`. This
instance orders the paths ("keyed by field path") component by component, and the
components character by character. It instantiates the theorems, which hold for every
strict total order of the paths. -/
def examplePathless (a b : List String) : Bool :=
  decide (List.Lex (List.Lex (fun x y : Char => x < y))
    (a.map String.data) (b.map String.data))

/-- The blocks of the index of the test "aggregates can be fully eliminated using the
index" of `plan/pir/build_test.go`, the time `now(h)` being `h` hours after the base
time, here in hours. -/
def exampleBlocks : List (List Range) :=
  [[.TimeRange { path := ["t", "ts"], min := 0, max := 1 }],
   [.TimeRange { path := ["t", "ts"], min := 1, max := 2 },
    .TimeRange { path := ["x", "xx"], min := 10, max := 20 }]]


/-- The type assertion `rng[i].(*TimeRange)` of `SparseIndex.Push` succeeds. -/
def Range.isTimeRange : Range → Bool
  | .TimeRange _ => true
  | .other _ => false

/-- The paths of the time ranges of the argument of `SparseIndex.Push`, in order. -/
def timePaths (rng : List Range) : List (List String) :=
  rng.filterMap (fun r =>
    match r with
    | .TimeRange tr => some tr.path
    | .other _ => none)


/-- The index that `mkindex` builds from `exampleBlocks` with the instances of the
examples: two blocks, the extremes `0` and `2` for `t.ts`, and `10` and `20` for `x.xx`. -/
def exampleIndex : SparseIndex Summary :=
  { blocks := 2,
    indices := [
      { path := ["t", "ts"], ranges := { blocks := 2, extremes := some (0, 2) } },
      { path := ["x", "xx"], ranges := { blocks := 2, extremes := some (10, 20) } }] }

/-- The argument of a third call of `Push`: one time range and one range of another
type. -/
def exampleThirdBlock : List Range :=
  [.TimeRange { path := ["t", "ts"], min := 2, max := 3 }, .other ["y"]]

/-- The time ranges of the path `t.ts` in `exampleBlocks`. -/
def exampleSpans : List (date.Time × date.Time) :=
  [(0, 1), (1, 2)]

/-- The path expression `t.ts`. -/
def examplePath : expr.Path :=
  { First := "t", Rest := [.Dot "ts"] }

/-- A sequence of calls of `push` and `update` with paths out of order. -/
def exampleCalls : List Call :=
  [.push ["x", "xx"] 10 20, .update ["t", "ts"] 0 1, .push ["t", "ts"] 1 2,
   .update ["a"] 5 6]

/-- The argument of a call of `Push` with two time ranges of the path `t.ts`. -/
def exampleTwice : List Range :=
  [.TimeRange { path := ["t", "ts"], min := 2, max := 3 },
   .TimeRange { path := ["t", "ts"], min := 3, max := 4 }]

end blockfmt

namespace partiql

/-! ## The generator of the keyword lookup, `expr/partiql/_generate/main.go` -/

/-- Struct `Entry`: the bytes of the upper-case keyword and the Go value. -/
structure Entry where
  keyword : List Nat
  govalue : String
  deriving DecidableEq

/-- The function `equalASCIILettersN` that `writeImplementation` writes for a length `N`:
the loop over the two arrays of `N` bytes, with `^` and `&` of bytes. -/
def equalASCIILetters : List Nat → List Nat → Bool
  | c :: anyCase, u :: upperCaseLetters =>
    if (u ^^^ c) &&& 0xdf ≠ 0 then false
    else equalASCIILetters anyCase upperCaseLetters
  | _, _ => true

/-- The first loop of `writeLookupFunctionBody` over the keywords, on the pair
`(minlength, maxlength)`. -/
def writeLookupFunctionBody.lengths : List Entry → Int × Int → Int × Int
  | [], mm => mm
  | e :: rest, (minlength, maxlength) =>
    let n : Int := e.keyword.length
    if n > maxlength then
      writeLookupFunctionBody.lengths rest (minlength, n)
    else if n < minlength then
      writeLookupFunctionBody.lengths rest (n, maxlength)
    else
      writeLookupFunctionBody.lengths rest (minlength, maxlength)

/-- What `writeLookupFunctionBody` writes about the lengths: the bounds `minlength` and
`maxlength` of the guard `if n < minlength || n > maxlength`, and the lengths `l` of the
lines `case l:` of the switch. -/
structure LookupBody where
  minlength : Int
  maxlength : Int
  cases : List Int
  deriving DecidableEq

/-- Function `writeLookupFunctionBody`, as far as the lengths go: the bounds start from
`100_000` and `0`; the loop `for l := minlength; l <= maxlength; l++` writes a case for
every `l` that is the length of a keyword (a key of `bylen`). -/
def writeLookupFunctionBody (keywords : List Entry) : LookupBody :=
  let mm := writeLookupFunctionBody.lengths keywords (100000, 0)
  { minlength := mm.1,
    maxlength := mm.2,
    cases := ((List.range (mm.2 + 1 - mm.1).toNat).map (fun k => mm.1 + (k : Int))).filter
      (fun l => keywords.any (fun e => decide ((e.keyword.length : Int) = l))) }

/-- The guard that `writeLookupFunctionBody` writes, `if n < minlength || n > maxlength`:
the lookup returns the default value for the length `n`. -/
def LookupBody.rejects (b : LookupBody) (n : Int) : Bool :=
  decide (n < b.minlength) || decide (n > b.maxlength)

/-- The inner loop of `findBestSplit`: the set of the bytes `word.keyword[idx]`, a list
without repetition; `none` when an index is out of range. -/
def findBestSplit.set (idx : Nat) : List Entry → List Nat → Option (List Nat)
  | [], set => some set
  | word :: words, set =>
    match word.keyword[idx]? with
    | none => none
    | some c => findBestSplit.set idx words (List.insert c set)

/-- The loop of `findBestSplit` over `freeIndices`, from the position `i`, and the final
test of `index`; `none` is a panic. -/
def findBestSplit.loop (words : List Entry) : List Int → Nat → Int → Int → Option Int
  | [], _, index, _ => if index < 0 then none else some index
  | idx :: rest, i, index, conflicts =>
    if idx < 0 then findBestSplit.loop words rest (i + 1) index conflicts
    else
      match findBestSplit.set idx.toNat words [] with
      | none => none
      | some set =>
        let diff : Int := (words.length : Int) - (set.length : Int)
        if diff < conflicts then
          if diff = 0 then some (i : Int)
          else findBestSplit.loop words rest (i + 1) (i : Int) diff
        else findBestSplit.loop words rest (i + 1) index conflicts

/-- Function `findBestSplit`; `none` is a panic. -/
def findBestSplit (words : List Entry) (freeIndices : List Int) : Option Int :=
  if words.length ≤ 1 then none
  else findBestSplit.loop words freeIndices 0 (-1) words.length

/-- The number of collisions of the words at the byte position `idx`: the number of words
minus the number of distinct bytes at that position. -/
def collisions (words : List Entry) (idx : Nat) : Int :=
  (words.length : Int) - ((words.filterMap (fun w => w.keyword[idx]?)).dedup.length : Int)

/-- An entry for a keyword in ASCII whose Go value is the keyword, as `readEntryList`
reads a line without a space. -/
def entry (keyword : String) : Entry :=
  { keyword := keyword.data.map Char.toNat, govalue := keyword }

/-- The keywords `AS` and `AND`, the shorter one first. -/
def exampleAscending : List Entry :=
  [entry "AS", entry "AND"]

/-- Four keywords of three letters: three collisions of the first letters, one of the
second letters and one of the third letters. -/
def exampleWords : List Entry :=
  [entry "AND", entry "ANY", entry "ADD", entry "ALL"]

end partiql

namespace plan

/-! ## The executor of `plan/exec.go` -/

/-- The value of type `int` (64 bits, two's complement) that an integer wraps to. -/
def wrapInt (x : Int) : Int :=
  (x + 2 ^ 63) % 2 ^ 64 - 2 ^ 63

/-- Struct `ExecParams`, declared outside `plan/exec.go`: the field that `mkexec` reads,
of type `int`. -/
structure ExecParams where
  Parallel : Int
  deriving DecidableEq

/-- Struct `task`: the table and the sink, `none` for `nil`; the types `vm.Table` and
`vm.QuerySink` are declared outside `plan/exec.go` and their values are numbered. -/
structure task where
  input : Option Nat
  sink : Option Nat
  deriving DecidableEq

/-- Struct `executor`, as far as `mkexec` sets it; the type `Input` is declared outside
`plan/exec.go`. -/
structure executor (Input : Type) where
  ep : ExecParams
  inputs : List Input
  subp : Int
  tasks : List task

/-- Function `mkexec`. The sum `ep.Parallel + len(inputs) - 1` wraps as an `int`, and `/`
truncates. -/
def mkexec {Input : Type} (ep : ExecParams) (inputs : List Input) : executor Input :=
  let e : executor Input := { ep := ep, inputs := inputs, subp := 1, tasks := [] }
  if inputs.length > 0 then
    let tasks := List.replicate inputs.length ({ input := none, sink := none } : task)
    let subp := (wrapInt (ep.Parallel + (inputs.length : Int) - 1)).tdiv (inputs.length : Int)
    if subp ≤ 0 then { e with tasks := tasks, subp := 1 }
    else { e with tasks := tasks, subp := subp }
  else e

end plan

namespace vm

/-! ## Loops over the lanes -/

/-- An observation that no step of a loop changes is the same after the loop. -/
theorem foldl_frame {S ι V : Type} (step : S → ι → S) (v : S → V) (l : List ι)
    (h : ∀ i ∈ l, ∀ s, v (step s i) = v s) (s : S) : v (l.foldl step s) = v s := by
  induction l generalizing s with
  | nil => rfl
  | cons a t ih =>
    rw [List.foldl_cons, ih (fun i hi => h i (List.mem_cons_of_mem a hi)),
      h a (List.mem_cons_self a t)]

/-- An observation of lane `j` that only the step of lane `j` changes, and that this step
computes from the observation alone, is after the loop what the step of lane `j` makes of
the initial state. -/
theorem foldl_lane {S ι V : Type} (step : S → ι → S) (v : S → V) (j : ι)
    (hframe : ∀ i, i ≠ j → ∀ s, v (step s i) = v s)
    (hown : ∀ s t, v s = v t → v (step s j) = v (step t j))
    (l : List ι) (hnd : l.Nodup) (hj : j ∈ l) (s : S) :
    v (l.foldl step s) = v (step s j) := by
  induction l generalizing s with
  | nil => simp at hj
  | cons a t ih =>
    rw [List.nodup_cons] at hnd
    rw [List.foldl_cons]
    by_cases haj : a = j
    · subst haj
      exact foldl_frame step v t
        (fun i hi s0 => hframe i (fun e => hnd.1 (e ▸ hi)) s0) (step s a)
    · have hjt : j ∈ t := by
        rcases List.mem_cons.mp hj with e | e
        · exact absurd e.symm haj
        · exact e
      rw [ih hnd.2 hjt (step s a)]
      exact hown _ _ (hframe a haj s)

/-! ## Bit lemmas -/

theorem testBit_bitClear (x y n : Nat) :
    (bitClear x y).testBit n = (x.testBit n && !y.testBit n) := by
  unfold bitClear
  rw [Nat.testBit_xor, Nat.testBit_and]
  cases x.testBit n <;> cases y.testBit n <;> rfl

theorem testBit_one_shiftLeft (i n : Nat) : (1 <<< i).testBit n = decide (i = n) := by
  rw [Nat.one_shiftLeft, Nat.testBit_two_pow]

theorem and_one_shiftLeft_ne_zero (m i : Nat) :
    m &&& (1 <<< i) ≠ 0 ↔ m.testBit i = true := by
  rw [Nat.one_shiftLeft, Nat.and_two_pow]
  cases m.testBit i <;> simp

theorem testBit_bitClear_lane (m i n : Nat) :
    (bitClear m (1 <<< i)).testBit n = (m.testBit n && !decide (i = n)) := by
  rw [testBit_bitClear, testBit_one_shiftLeft]

/-- The lanes `0 .. bcLaneCount - 1`, each once. -/
theorem lanes_nodup : (List.finRange bcLaneCount).Nodup :=
  List.nodup_finRange bcLaneCount

theorem lanes_mem (i : Fin bcLaneCount) : i ∈ List.finRange bcLaneCount :=
  List.mem_finRange i

/-- A loop that clears the bit of each lane selected by `c` and touches nothing else. -/
theorem testBit_clearLoop (c : Fin bcLaneCount → Prop) [DecidablePred c] (m n : Nat) :
    ((List.finRange bcLaneCount).foldl
        (fun msk i => if c i then bitClear msk (1 <<< i.val) else msk) m).testBit n
      = (m.testBit n && !decide (∃ i : Fin bcLaneCount, i.val = n ∧ c i)) := by
  by_cases hn : n < bcLaneCount
  · have key := foldl_lane
      (fun msk (i : Fin bcLaneCount) => if c i then bitClear msk (1 <<< i.val) else msk)
      (fun msk => msk.testBit n) ⟨n, hn⟩
      (by
        intro i hi s
        have hne : i.val ≠ n := fun e => hi (Fin.ext e)
        by_cases hc : c i
        · simp [hc, testBit_bitClear_lane, hne]
        · simp [hc])
      (by
        intro s t hst
        by_cases hc : c ⟨n, hn⟩
        · simp only [hc, if_true, testBit_bitClear_lane]
          simp only at hst
          rw [hst]
        · simpa [hc] using hst)
      (List.finRange bcLaneCount) lanes_nodup (lanes_mem _) m
    simp only at key
    rw [key]
    by_cases hc : c ⟨n, hn⟩
    · have hex : ∃ i : Fin bcLaneCount, i.val = n ∧ c i := ⟨⟨n, hn⟩, rfl, hc⟩
      simp [hc, hex, testBit_bitClear_lane]
    · have hex : ¬ ∃ i : Fin bcLaneCount, i.val = n ∧ c i := by
        rintro ⟨i, hi, hci⟩
        apply hc
        have : i = ⟨n, hn⟩ := Fin.ext hi
        rwa [this] at hci
      simp [hc, hex]
  · have hex : ¬ ∃ i : Fin bcLaneCount, i.val = n ∧ c i := by
      rintro ⟨i, hi, _⟩
      exact hn (hi ▸ i.isLt)
    rw [foldl_frame
      (fun msk (i : Fin bcLaneCount) => if c i then bitClear msk (1 <<< i.val) else msk)
      (fun msk => msk.testBit n) _ _ m]
    · simp [hex]
    · intro i _ s
      have hne : i.val ≠ n := fun e => hn (e ▸ i.isLt)
      by_cases hc : c i
      · simp [hc, testBit_bitClear_lane, hne]
      · simp [hc]

/-- Lane form of `testBit_clearLoop`. -/
theorem testBit_clearLoop_lane (c : Fin bcLaneCount → Prop) [DecidablePred c] (m : Nat)
    (i : Fin bcLaneCount) :
    ((List.finRange bcLaneCount).foldl
        (fun msk i => if c i then bitClear msk (1 <<< i.val) else msk) m).testBit i.val
      = (m.testBit i.val && !decide (c i)) := by
  rw [testBit_clearLoop]
  congr 2
  apply decide_eq_decide.mpr
  constructor
  · rintro ⟨j, hj, hc⟩
    have : j = i := Fin.ext hj
    rwa [this] at hc
  · intro hc
    exact ⟨i, rfl, hc⟩

/-- Lane form of `bcisnullvgo`. -/
theorem bcisnullvgo_lane (src : vRegData) (k : kRegData) (pc : Nat) (i : Fin bcLaneCount) :
    (bcisnullvgo src k pc).1.mask.testBit i.val = true
      ↔ k.mask.testBit i.val = true ∧ src.typeL i = 0x0F := by
  unfold bcisnullvgo
  simp only [testBit_clearLoop_lane, Bool.and_eq_true, Bool.not_eq_true',
    decide_eq_false_iff_not, ne_eq, not_not]

/-- Lane form of `bcisnotnullvgo`. -/
theorem bcisnotnullvgo_lane (src : vRegData) (k : kRegData) (pc : Nat)
    (i : Fin bcLaneCount) :
    (bcisnotnullvgo src k pc).1.mask.testBit i.val = true
      ↔ k.mask.testBit i.val = true ∧ src.typeL i ≠ 0x0F := by
  unfold bcisnotnullvgo
  simp only [testBit_clearLoop_lane, Bool.and_eq_true, Bool.not_eq_true',
    decide_eq_false_iff_not, ne_eq]

/-- Lane form of `bcistruevgo`. -/
theorem bcistruevgo_lane (src : vRegData) (k : kRegData) (pc : Nat) (i : Fin bcLaneCount) :
    (bcistruevgo src k pc).1.mask.testBit i.val = true
      ↔ k.mask.testBit i.val = true ∧ src.typeL i = 0x11 := by
  unfold bcistruevgo
  simp only [testBit_clearLoop_lane, Bool.and_eq_true, Bool.not_eq_true',
    decide_eq_false_iff_not, ne_eq, not_not]

/-- Lane form of `bcisfalsevgo`. -/
theorem bcisfalsevgo_lane (src : vRegData) (k : kRegData) (pc : Nat) (i : Fin bcLaneCount) :
    (bcisfalsevgo src k pc).1.mask.testBit i.val = true
      ↔ k.mask.testBit i.val = true ∧ src.typeL i = 0x10 := by
  unfold bcisfalsevgo
  simp only [testBit_clearLoop_lane, Bool.and_eq_true, Bool.not_eq_true',
    decide_eq_false_iff_not, ne_eq, not_not]

/-- Lane form of the loop of `bctypebitsgo`. -/
theorem bctypebitsgo_lane (src : vRegData) (k : kRegData) (pc : Nat) (i : Fin bcLaneCount) :
    (bctypebitsgo src k pc).1.values i
      = if k.mask.testBit i.val = true then Int.ofNat (typeBits (src.typeL i >>> 4))
        else 0 := by
  have key := foldl_lane
    (fun (dst : i64RegData) (i : Fin bcLaneCount) =>
      if k.mask &&& (1 <<< i.val) ≠ 0 then
        ({ values := Function.update dst.values i
            (Int.ofNat (typeBits (src.typeL i >>> 4))) } : i64RegData)
      else dst)
    (fun dst => dst.values i) i
    (by
      intro a ha s
      beta_reduce
      by_cases hb : k.mask &&& (1 <<< a.val) ≠ 0
      · rw [if_pos hb]
        exact Function.update_noteq (Ne.symm ha) _ _
      · rw [if_neg hb])
    (by
      intro s t hst
      beta_reduce
      by_cases hb : k.mask &&& (1 <<< i.val) ≠ 0
      · rw [if_pos hb, if_pos hb]
        simp only [Function.update_same]
      · rw [if_neg hb, if_neg hb]
        exact hst)
    (List.finRange bcLaneCount) lanes_nodup (lanes_mem i) i64RegData.zero
  unfold bctypebitsgo
  simp only at key ⊢
  rw [key]
  by_cases hb : k.mask.testBit i.val = true
  · rw [if_pos ((and_one_shiftLeft_ne_zero _ _).mpr hb), if_pos hb]
    simp only [Function.update_same]
  · rw [if_neg (fun h => hb ((and_one_shiftLeft_ne_zero _ _).mp h)), if_neg hb]
    rfl

/-- The step of `bcchecktaggo` with its two tests read as bit tests. -/
theorem bcchecktaggo_step_eq (src : vRegData) (tags : Nat) (st : vRegData × Nat)
    (i : Fin bcLaneCount) :
    bcchecktaggo.step src tags st i
      = if st.2.testBit i.val = true then
          if tags.testBit (src.typeL i >>> 4) = true then
            ({ offsets := Function.update st.1.offsets i (src.offsets i),
               sizes := Function.update st.1.sizes i (src.sizes i),
               typeL := Function.update st.1.typeL i (src.typeL i),
               headerSize := Function.update st.1.headerSize i (src.headerSize i) }, st.2)
          else (st.1, bitClear st.2 (1 <<< i.val))
        else st := by
  unfold bcchecktaggo.step
  simp only [and_one_shiftLeft_ne_zero]

/-- What the step of lane `i` of `bcchecktaggo` leaves in lane `i`. -/
theorem bcchecktaggo_step_own (src : vRegData) (tags : Nat) (st : vRegData × Nat)
    (i : Fin bcLaneCount) :
    ((bcchecktaggo.step src tags st i).1.slot i,
        (bcchecktaggo.step src tags st i).2.testBit i.val)
      = if st.2.testBit i.val = true ∧ tags.testBit (src.typeL i >>> 4) = true
        then (src.slot i, true) else (st.1.slot i, false) := by
  rw [bcchecktaggo_step_eq]
  by_cases hb : st.2.testBit i.val = true
  · by_cases ht : tags.testBit (src.typeL i >>> 4) = true
    · rw [if_pos hb, if_pos ht, if_pos ⟨hb, ht⟩]
      simp only [vRegData.slot, Function.update_same, hb]
    · rw [if_pos hb, if_neg ht, if_neg (fun h => ht h.2)]
      simp only [testBit_bitClear_lane, decide_True, Bool.not_true, Bool.and_false]
  · rw [if_neg hb, if_neg (fun h => hb h.1)]
    simp only [Bool.not_eq_true] at hb
    rw [hb]

/-- The step of another lane of `bcchecktaggo` leaves lane `i` as it is. -/
theorem bcchecktaggo_step_frame (src : vRegData) (tags : Nat) (st : vRegData × Nat)
    (a i : Fin bcLaneCount) (ha : a ≠ i) :
    ((bcchecktaggo.step src tags st a).1.slot i,
        (bcchecktaggo.step src tags st a).2.testBit i.val)
      = (st.1.slot i, st.2.testBit i.val) := by
  have hne : a.val ≠ i.val := fun e => ha (Fin.ext e)
  rw [bcchecktaggo_step_eq]
  by_cases hb : st.2.testBit a.val = true
  · by_cases ht : tags.testBit (src.typeL a >>> 4) = true
    · rw [if_pos hb, if_pos ht]
      simp only [vRegData.slot, Function.update_noteq (Ne.symm ha)]
    · rw [if_pos hb, if_neg ht]
      simp only [testBit_bitClear_lane, hne, decide_False, Bool.not_false, Bool.and_true]
  · rw [if_neg hb]

/-- Lane form of the loop of `bcchecktaggo`: the slot and the mask bit of lane `i`. -/
theorem bcchecktaggo_lane (src : vRegData) (tags : Nat) (k : kRegData) (pc : Nat)
    (i : Fin bcLaneCount) :
    ((bcchecktaggo src tags k pc).1.slot i,
        (bcchecktaggo src tags k pc).2.1.mask.testBit i.val)
      = if k.mask.testBit i.val = true ∧ tags.testBit (src.typeL i >>> 4) = true
        then (src.slot i, true) else ((0, 0, 0, 0), false) := by
  have key := foldl_lane (bcchecktaggo.step src tags)
    (fun st => (st.1.slot i, st.2.testBit i.val)) i
    (fun a ha s => bcchecktaggo_step_frame src tags s a i ha)
    (by
      intro s t hst
      beta_reduce at hst ⊢
      rw [bcchecktaggo_step_own, bcchecktaggo_step_own]
      simp only [Prod.mk.injEq] at hst
      rw [hst.1, hst.2])
    (List.finRange bcLaneCount) lanes_nodup (lanes_mem i) (vRegData.zero, k.mask)
  unfold bcchecktaggo
  simp only at key ⊢
  rw [key, bcchecktaggo_step_own]
  rfl

/-! ## Loops that can panic -/

theorem foldl_bind_none {S ι : Type} (step : S → ι → Option S) (l : List ι) :
    l.foldl (fun st i => st.bind (fun s => step s i)) none = none := by
  induction l with
  | nil => rfl
  | cons a t ih => rw [List.foldl_cons, Option.none_bind, ih]

/-- A loop completes when every step succeeds on the states of an invariant. -/
theorem foldl_bind_complete {S ι : Type} (step : S → ι → Option S) (I : S → Prop)
    (l : List ι) (hstep : ∀ i ∈ l, ∀ s, I s → ∃ t, step s i = some t ∧ I t)
    (s : S) (hs : I s) :
    ∃ r, l.foldl (fun st i => st.bind (fun s => step s i)) (some s) = some r ∧ I r := by
  induction l generalizing s with
  | nil => exact ⟨s, rfl, hs⟩
  | cons a t ih =>
    obtain ⟨u, hu, hIu⟩ := hstep a (List.mem_cons_self a t) s hs
    rw [List.foldl_cons, Option.some_bind, hu]
    exact ih (fun i hi => hstep i (List.mem_cons_of_mem a hi)) u hIu

/-- An observation that no successful step changes is the same after a completed loop. -/
theorem foldl_bind_frame {S ι V : Type} (step : S → ι → Option S) (v : S → V) (l : List ι)
    (h : ∀ i ∈ l, ∀ s t, step s i = some t → v t = v s) (s r : S)
    (hr : l.foldl (fun st i => st.bind (fun s => step s i)) (some s) = some r) :
    v r = v s := by
  induction l generalizing s with
  | nil =>
    simp only [List.foldl_nil, Option.some.injEq] at hr
    rw [hr]
  | cons a t ih =>
    rw [List.foldl_cons, Option.some_bind] at hr
    cases hu : step s a with
    | none =>
      rw [hu, foldl_bind_none] at hr
      exact absurd hr (by simp)
    | some u =>
      rw [hu] at hr
      rw [ih (fun i hi => h i (List.mem_cons_of_mem a hi)) u hr]
      exact h a (List.mem_cons_self a t) s u hu

/-- In a completed loop over distinct lanes, an observation of lane `j` that the steps of
the other lanes leave alone is made by the step of lane `j`, run on a state with the
initial observation. -/
theorem foldl_bind_lane {S ι V : Type} (step : S → ι → Option S) (v : S → V) (j : ι)
    (hframe : ∀ i, i ≠ j → ∀ s t, step s i = some t → v t = v s)
    (l : List ι) (hnd : l.Nodup) (hj : j ∈ l) (s r : S)
    (hr : l.foldl (fun st i => st.bind (fun s => step s i)) (some s) = some r) :
    ∃ s0 s1, v s0 = v s ∧ step s0 j = some s1 ∧ v r = v s1 := by
  induction l generalizing s with
  | nil => simp at hj
  | cons a t ih =>
    rw [List.nodup_cons] at hnd
    rw [List.foldl_cons, Option.some_bind] at hr
    cases hu : step s a with
    | none =>
      rw [hu, foldl_bind_none] at hr
      exact absurd hr (by simp)
    | some u =>
      rw [hu] at hr
      by_cases haj : a = j
      · subst haj
        refine ⟨s, u, rfl, hu, ?_⟩
        exact foldl_bind_frame step v t
          (fun i hi s0 t0 h0 => hframe i (fun e => hnd.1 (e ▸ hi)) s0 t0 h0) u r hr
      · have hjt : j ∈ t := by
          rcases List.mem_cons.mp hj with e | e
          · exact absurd e.symm haj
          · exact e
        obtain ⟨s0, s1, h0, h1, h2⟩ := ih hnd.2 hjt u hr
        exact ⟨s0, s1, h0.trans (hframe a haj s u hu), h1, h2⟩

/-! ## The child-counting walks -/

/-- On an empty message the loop of `countValuesInList` returns the count. -/
theorem countValuesInList_loop_nil (D : IonDecoder) (fuel : Nat) (c : Int) :
    countValuesInList.loop D fuel [] c = some c := by
  cases fuel <;> simp [countValuesInList.loop]

/-- The loop of `countValuesInList` counts a prefix of encoded values one by one. -/
theorem countValuesInList_loop_values (D : IonDecoder) (tail : List Nat)
    (vs : List (List Nat)) (h : ∀ v ∈ vs, D.IsValue v) (fuel : Nat) (c : Int)
    (hfuel : (vs.flatten ++ tail).length ≤ fuel) :
    countValuesInList.loop D fuel (vs.flatten ++ tail) c
      = countValuesInList.loop D (fuel - vs.length) tail (c + vs.length) := by
  induction vs generalizing fuel c with
  | nil => simp
  | cons v t ih =>
    obtain ⟨hpos, hsize⟩ := h v (List.mem_cons_self v t)
    have ht : ∀ w ∈ t, D.IsValue w := fun w hw => h w (List.mem_cons_of_mem v hw)
    rw [List.flatten_cons, List.append_assoc] at hfuel ⊢
    rw [List.length_append] at hfuel
    obtain ⟨f, rfl⟩ : ∃ f, fuel = f + 1 := ⟨fuel - 1, by omega⟩
    have hlen : (v ++ (t.flatten ++ tail)).length ≠ 0 := by
      rw [List.length_append]; omega
    have hdrop : List.drop v.length (v ++ (t.flatten ++ tail)) = t.flatten ++ tail :=
      List.drop_left v (t.flatten ++ tail)
    rw [countValuesInList.loop, if_pos hlen]
    simp only [hsize (t.flatten ++ tail)]
    rw [if_neg (by omega), if_neg (by rw [List.length_append]; push_cast; omega),
      Int.toNat_ofNat, hdrop, ih ht f (c + 1) (by omega)]
    congr 1
    · simp only [List.length_cons]; omega
    · simp only [List.length_cons]; push_cast; ring

/-- On an empty message the loop of `countValuesInStruct` returns the count. -/
theorem countValuesInStruct_loop_nil (D : IonDecoder) (fuel : Nat) (c : Int) :
    countValuesInStruct.loop D fuel [] c = some c := by
  cases fuel <;> simp [countValuesInStruct.loop]

/-- The loop of `countValuesInStruct` counts a prefix of encoded pairs one by one. -/
theorem countValuesInStruct_loop_fields (D : IonDecoder) (tail : List Nat)
    (fs : List (List Nat)) (h : ∀ f ∈ fs, D.IsField f) (fuel : Nat) (c : Int)
    (hfuel : (fs.flatten ++ tail).length ≤ fuel) :
    countValuesInStruct.loop D fuel (fs.flatten ++ tail) c
      = countValuesInStruct.loop D (fuel - fs.length) tail (c + fs.length) := by
  induction fs generalizing fuel c with
  | nil => simp
  | cons f t ih =>
    obtain ⟨l, v, sym, rfl, hlabel, hpos, hsize⟩ := h f (List.mem_cons_self f t)
    have ht : ∀ w ∈ t, D.IsField w := fun w hw => h w (List.mem_cons_of_mem (l ++ v) hw)
    rw [List.flatten_cons, List.append_assoc, List.append_assoc] at hfuel ⊢
    rw [List.length_append, List.length_append] at hfuel
    obtain ⟨g, rfl⟩ : ∃ g, fuel = g + 1 := ⟨fuel - 1, by omega⟩
    have hlen : (l ++ (v ++ (t.flatten ++ tail))).length ≠ 0 := by
      rw [List.length_append, List.length_append]; omega
    have hdrop : List.drop v.length (v ++ (t.flatten ++ tail)) = t.flatten ++ tail :=
      List.drop_left v (t.flatten ++ tail)
    rw [countValuesInStruct.loop, if_pos hlen, hlabel (v ++ (t.flatten ++ tail))]
    simp only [hsize (t.flatten ++ tail)]
    rw [if_neg (by omega), if_neg (by rw [List.length_append]; push_cast; omega),
      Int.toNat_ofNat, hdrop, ih ht g (c + 1) (by omega)]
    congr 1
    · simp only [List.length_cons]; omega
    · simp only [List.length_cons]; push_cast; ring

/-- `countValuesInList` returns `n` on the concatenation of `n` encoded values. -/
theorem countValuesInList_values (D : IonDecoder) (vs : List (List Nat))
    (h : ∀ v ∈ vs, D.IsValue v) : countValuesInList D vs.flatten = some (vs.length : Int) := by
  have := countValuesInList_loop_values D [] vs h vs.flatten.length 0 (by simp)
  rw [List.append_nil] at this
  rw [countValuesInList, this, countValuesInList_loop_nil, Int.zero_add]

/-- `countValuesInStruct` returns `n` on the concatenation of `n` encoded pairs. -/
theorem countValuesInStruct_fields (D : IonDecoder) (fs : List (List Nat))
    (h : ∀ f ∈ fs, D.IsField f) :
    countValuesInStruct D fs.flatten = some (fs.length : Int) := by
  have := countValuesInStruct_loop_fields D [] fs h fs.flatten.length 0 (by simp)
  rw [List.append_nil] at this
  rw [countValuesInStruct, this, countValuesInStruct_loop_nil, Int.zero_add]

/-- `countValuesInList` returns -1 when truncated content follows the encoded values. -/
theorem countValuesInList_truncated (D : IonDecoder) (vs : List (List Nat))
    (tail : List Nat) (h : ∀ v ∈ vs, D.IsValue v) (ht : D.IsTruncated tail) :
    countValuesInList D (vs.flatten ++ tail) = some (-1) := by
  have hlen : vs.length ≤ vs.flatten.length := by
    clear ht
    induction vs with
    | nil => simp
    | cons v t ih =>
      have hv := (h v (List.mem_cons_self v t)).1
      have := ih (fun w hw => h w (List.mem_cons_of_mem v hw))
      simp only [List.flatten_cons, List.length_append, List.length_cons]
      omega
  have htl : tail.length ≠ 0 := fun e => ht.1 (List.length_eq_zero.mp e)
  rw [countValuesInList, countValuesInList_loop_values D tail vs h _ 0 (Nat.le_refl _)]
  obtain ⟨g, hg⟩ : ∃ g, (vs.flatten ++ tail).length - vs.length = g + 1 :=
    ⟨(vs.flatten ++ tail).length - vs.length - 1, by rw [List.length_append]; omega⟩
  rw [hg, countValuesInList.loop, if_pos htl]
  simp only [ht.2, if_true]

/-- The fuel of the loop of `countValuesInList` never runs out: any two amounts of fuel
that cover the length of the message give the same result. -/
theorem countValuesInList_loop_fuel (D : IonDecoder) (fuel : Nat) :
    ∀ (fuel' : Nat) (msg : List Nat) (c : Int), msg.length ≤ fuel → msg.length ≤ fuel' →
      countValuesInList.loop D fuel msg c = countValuesInList.loop D fuel' msg c := by
  induction fuel with
  | zero =>
    intro fuel' msg c h _
    rw [List.length_eq_zero.mp (Nat.le_zero.mp h), countValuesInList_loop_nil,
      countValuesInList_loop_nil]
  | succ f ih =>
    intro fuel' msg c h h'
    cases fuel' with
    | zero =>
      rw [List.length_eq_zero.mp (Nat.le_zero.mp h'), countValuesInList_loop_nil,
        countValuesInList_loop_nil]
    | succ g =>
      rw [countValuesInList.loop, countValuesInList.loop]
      by_cases hlen : msg.length ≠ 0
      · rw [if_pos hlen, if_pos hlen]
        by_cases h0 : D.SizeOf msg ≤ 0
        · simp only [h0, if_true]
        · by_cases h1 : (msg.length : Int) < D.SizeOf msg
          · simp only [h0, h1, if_true, if_false]
          · simp only [h0, h1, if_false]
            have hd : (msg.drop (D.SizeOf msg).toNat).length ≤ msg.length - 1 := by
              rw [List.length_drop]; omega
            exact ih g _ _ (by omega) (by omega)
      · rw [if_neg hlen, if_neg hlen]

/-- The fuel of the loop of `countValuesInStruct` never runs out. -/
theorem countValuesInStruct_loop_fuel (D : IonDecoder) (fuel : Nat) :
    ∀ (fuel' : Nat) (msg : List Nat) (c : Int), msg.length ≤ fuel → msg.length ≤ fuel' →
      countValuesInStruct.loop D fuel msg c = countValuesInStruct.loop D fuel' msg c := by
  induction fuel with
  | zero =>
    intro fuel' msg c h _
    rw [List.length_eq_zero.mp (Nat.le_zero.mp h), countValuesInStruct_loop_nil,
      countValuesInStruct_loop_nil]
  | succ f ih =>
    intro fuel' msg c h h'
    cases fuel' with
    | zero =>
      rw [List.length_eq_zero.mp (Nat.le_zero.mp h'), countValuesInStruct_loop_nil,
        countValuesInStruct_loop_nil]
    | succ g =>
      rw [countValuesInStruct.loop, countValuesInStruct.loop]
      by_cases hlen : msg.length ≠ 0
      · rw [if_pos hlen, if_pos hlen]
        cases hl : D.ReadLabel msg with
        | none => rfl
        | some p =>
          obtain ⟨sym, val⟩ := p
          have hval : val.length ≤ msg.length := by
            unfold IonDecoder.ReadLabel at hl
            cases hq : D.labelOf msg with
            | none => rw [hq] at hl; exact absurd hl (by simp)
            | some q =>
              rw [hq, Option.map_some'] at hl
              have e : msg.drop q.2 = val := congrArg Prod.snd (Option.some.inj hl)
              rw [← e, List.length_drop]
              omega
          by_cases h0 : D.SizeOf val ≤ 0
          · simp only [h0, if_true]
          · by_cases h1 : (val.length : Int) < D.SizeOf val
            · simp only [h0, h1, if_true, if_false]
            · simp only [h0, h1, if_false]
              have hd : (val.drop (D.SizeOf val).toNat).length ≤ val.length - 1 := by
                rw [List.length_drop]; omega
              exact ih g _ _ (by omega) (by omega)
      · rw [if_neg hlen, if_neg hlen]

/-- The slice expression `msg[valueSize:]` of `countValuesInList` panics when the decoder
reads, at the start of a message that is not empty, a size beyond its end. -/
theorem countValuesInList_overrun (D : IonDecoder) (msg : List Nat) (hne : msg ≠ [])
    (h : (msg.length : Int) < D.SizeOf msg) : countValuesInList D msg = none := by
  have hpos : ¬ D.SizeOf msg ≤ 0 := by omega
  have hlen : msg.length ≠ 0 := fun e => hne (List.length_eq_zero.mp e)
  obtain ⟨g, hg⟩ : ∃ g, msg.length = g + 1 := ⟨msg.length - 1, by omega⟩
  rw [countValuesInList, hg, countValuesInList.loop, if_pos hlen]
  simp only [hpos, if_false]
  rw [if_pos h]

/-- The slice expression `val[valueSize:]` of `countValuesInStruct` panics when the
decoder reads, after the first label of the message, a size beyond the end. -/
theorem countValuesInStruct_overrun (D : IonDecoder) (msg : List Nat) (hne : msg ≠ [])
    (sym : Nat) (val : List Nat) (hl : D.ReadLabel msg = some (sym, val))
    (h : (val.length : Int) < D.SizeOf val) : countValuesInStruct D msg = none := by
  have hpos : ¬ D.SizeOf val ≤ 0 := by omega
  have hlen : msg.length ≠ 0 := fun e => hne (List.length_eq_zero.mp e)
  obtain ⟨g, hg⟩ : ∃ g, msg.length = g + 1 := ⟨msg.length - 1, by omega⟩
  rw [countValuesInStruct, hg, countValuesInStruct.loop, if_pos hlen, hl]
  simp only [hpos, if_false]
  rw [if_pos h]

/-- The walk of `countValuesInList` panics when the decoder reads, after the encoded
values, a size beyond the end of the content that follows them. -/
theorem countValuesInList_values_overrun (D : IonDecoder) (vs : List (List Nat))
    (tail : List Nat) (h : ∀ v ∈ vs, D.IsValue v) (hne : tail ≠ [])
    (ht : (tail.length : Int) < D.SizeOf tail) :
    countValuesInList D (vs.flatten ++ tail) = none := by
  have hlen : vs.length ≤ vs.flatten.length := by
    clear ht
    induction vs with
    | nil => simp
    | cons v t ih =>
      have hv := (h v (List.mem_cons_self v t)).1
      have := ih (fun w hw => h w (List.mem_cons_of_mem v hw))
      simp only [List.flatten_cons, List.length_append, List.length_cons]
      omega
  have htl : tail.length ≠ 0 := fun e => hne (List.length_eq_zero.mp e)
  have hpos : ¬ D.SizeOf tail ≤ 0 := by omega
  rw [countValuesInList, countValuesInList_loop_values D tail vs h _ 0 (Nat.le_refl _)]
  obtain ⟨g, hg⟩ : ∃ g, (vs.flatten ++ tail).length - vs.length = g + 1 :=
    ⟨(vs.flatten ++ tail).length - vs.length - 1, by rw [List.length_append]; omega⟩
  rw [hg, countValuesInList.loop, if_pos htl]
  simp only [hpos, if_false]
  rw [if_pos ht]

/-! ## The loop of object-size -/

theorem and_one_shiftLeft_eq_zero (m i : Nat) :
    m &&& (1 <<< i) = 0 ↔ m.testBit i = false := by
  have h := and_one_shiftLeft_ne_zero m i
  constructor
  · intro h0
    cases hb : m.testBit i with
    | false => rfl
    | true => exact absurd h0 (h.mpr hb)
  · intro hb
    by_contra h0
    rw [h.mp h0] at hb
    exact absurd hb (by decide)

/-- The step of `bcobjectsizego` skips a lane that is not active. -/
theorem bcobjectsizego_step_inactive (D : IonDecoder) (mem : vmref → List Nat)
    (src : vRegData) (st : i64RegData × Nat) (i : Fin bcLaneCount)
    (h : st.2.testBit i.val = false) : bcobjectsizego.step D mem src st i = some st := by
  rw [bcobjectsizego.step, if_pos ((and_one_shiftLeft_eq_zero _ _).mpr h)]

/-- The step of `bcobjectsizego` on an active lane, in terms of the count of the lane. -/
theorem bcobjectsizego_step_active (D : IonDecoder) (mem : vmref → List Nat)
    (src : vRegData) (st : i64RegData × Nat) (i : Fin bcLaneCount)
    (h : st.2.testBit i.val = true) :
    bcobjectsizego.step D mem src st i
      = (bcobjectsizego.count D mem src i).bind (fun c =>
          if 0 ≤ c then some ({ values := Function.update st.1.values i c }, st.2)
          else some (st.1, bitClear st.2 (1 <<< i.val))) := by
  have hb : ¬ (st.2 &&& (1 <<< i.val) = 0) := (and_one_shiftLeft_ne_zero _ _).mpr h
  rw [bcobjectsizego.step, if_neg hb]
  unfold bcobjectsizego.count
  by_cases hl : src.typeL i >>> 4 = ion.ListType
  · simp only [hl, if_true]
    cases countValuesInList D (bcobjectsizego.content mem src i) <;> rfl
  · by_cases hs : src.typeL i >>> 4 = ion.StructType
    · simp only [hl, hs, if_true, if_false]
      cases countValuesInStruct D (bcobjectsizego.content mem src i) <;> rfl
    · simp only [hl, hs, if_false, Option.some_bind]
      rw [if_neg (by decide)]

/-- A successful step of `bcobjectsizego` at lane `i` leaves the state as it is, writes
the integer of lane `i`, or clears the bit of lane `i`. -/
theorem bcobjectsizego_step_cases (D : IonDecoder) (mem : vmref → List Nat)
    (src : vRegData) (st t : i64RegData × Nat) (i : Fin bcLaneCount)
    (h : bcobjectsizego.step D mem src st i = some t) :
    t = st ∨ (∃ c : Int, t = ({ values := Function.update st.1.values i c }, st.2))
      ∨ t = (st.1, bitClear st.2 (1 <<< i.val)) := by
  cases hb : st.2.testBit i.val with
  | false =>
    rw [bcobjectsizego_step_inactive D mem src st i hb] at h
    exact Or.inl (Option.some.inj h).symm
  | true =>
    rw [bcobjectsizego_step_active D mem src st i hb] at h
    cases hc : bcobjectsizego.count D mem src i with
    | none =>
      rw [hc] at h
      exact absurd h (by simp)
    | some c =>
      rw [hc, Option.some_bind] at h
      by_cases h0 : 0 ≤ c
      · rw [if_pos h0] at h
        exact Or.inr (Or.inl ⟨c, (Option.some.inj h).symm⟩)
      · rw [if_neg h0] at h
        exact Or.inr (Or.inr (Option.some.inj h).symm)

/-- The step of another lane of `bcobjectsizego` leaves lane `j` as it is. -/
theorem bcobjectsizego_step_frame (D : IonDecoder) (mem : vmref → List Nat)
    (src : vRegData) (st t : i64RegData × Nat) (i j : Fin bcLaneCount) (hij : i ≠ j)
    (h : bcobjectsizego.step D mem src st i = some t) :
    (t.1.values j, t.2.testBit j.val) = (st.1.values j, st.2.testBit j.val) := by
  have hne : i.val ≠ j.val := fun e => hij (Fin.ext e)
  rcases bcobjectsizego_step_cases D mem src st t i h with e | ⟨c, e⟩ | e
  · rw [e]
  · rw [e]
    simp only [Function.update_noteq (Ne.symm hij)]
  · rw [e]
    simp only [testBit_bitClear_lane, hne, decide_False, Bool.not_false, Bool.and_true]

/-- No step of `bcobjectsizego` sets a mask bit. -/
theorem bcobjectsizego_step_mask (D : IonDecoder) (mem : vmref → List Nat)
    (src : vRegData) (st t : i64RegData × Nat) (i : Fin bcLaneCount)
    (h : bcobjectsizego.step D mem src st i = some t) (n : Nat)
    (hn : t.2.testBit n = true) : st.2.testBit n = true := by
  rcases bcobjectsizego_step_cases D mem src st t i h with e | ⟨c, e⟩ | e
  · rw [e] at hn; exact hn
  · rw [e] at hn; exact hn
  · rw [e] at hn
    simp only [testBit_bitClear_lane, Bool.and_eq_true] at hn
    exact hn.1

/-- The handler `bcobjectsizego` completes when the walk of no active lane panics, and
then every lane holds what its own count says: an active lane with a count `c ≥ 0` holds
`c` and stays active; every other lane holds 0 and is not active. -/
theorem bcobjectsizego_lanes (D : IonDecoder) (mem : vmref → List Nat) (bc : bytecode)
    (src : vRegData) (k : kRegData) (pc : Nat)
    (hsafe : ∀ j : Fin bcLaneCount, k.mask.testBit j.val = true →
      bcobjectsizego.count D mem src j ≠ none) :
    ∃ dst msk, (bcobjectsizego D mem bc src k pc).2 = some (dst, msk, pc + 8)
      ∧ ∀ i : Fin bcLaneCount,
        (k.mask.testBit i.val = false → dst.values i = 0 ∧ msk.mask.testBit i.val = false)
        ∧ (∀ c : Int, k.mask.testBit i.val = true →
            bcobjectsizego.count D mem src i = some c →
            (0 ≤ c → dst.values i = c ∧ msk.mask.testBit i.val = true)
            ∧ (c < 0 → dst.values i = 0 ∧ msk.mask.testBit i.val = false)) := by
  obtain ⟨r, hr, -⟩ := foldl_bind_complete (bcobjectsizego.step D mem src)
    (fun s => ∀ n, s.2.testBit n = true → k.mask.testBit n = true)
    (List.finRange bcLaneCount)
    (by
      intro i _ s hs
      cases hb : s.2.testBit i.val with
      | false =>
        exact ⟨s, bcobjectsizego_step_inactive D mem src s i hb, hs⟩
      | true =>
        cases hc : bcobjectsizego.count D mem src i with
        | none => exact absurd hc (hsafe i (hs _ hb))
        | some c =>
          have hstep := bcobjectsizego_step_active D mem src s i hb
          rw [hc, Option.some_bind] at hstep
          by_cases h0 : 0 ≤ c
          · rw [if_pos h0] at hstep
            exact ⟨_, hstep, fun n hn => hs n hn⟩
          · rw [if_neg h0] at hstep
            exact ⟨_, hstep, fun n hn =>
              hs n (bcobjectsizego_step_mask D mem src s _ i hstep n hn)⟩)
    (i64RegData.zero, k.mask) (fun n hn => hn)
  refine ⟨r.1, { mask := r.2 }, ?_, ?_⟩
  · unfold bcobjectsizego
    simp only [hr, Option.map_some']
  · intro i
    obtain ⟨s0, s1, h0, h1, h2⟩ := foldl_bind_lane (bcobjectsizego.step D mem src)
      (fun s => (s.1.values i, s.2.testBit i.val)) i
      (fun a ha s t hst => bcobjectsizego_step_frame D mem src s t a i ha hst)
      (List.finRange bcLaneCount) lanes_nodup (lanes_mem i) (i64RegData.zero, k.mask) r hr
    simp only [Prod.mk.injEq] at h0 h2
    have hz : s0.1.values i = 0 := h0.1
    constructor
    · intro hb
      have hb0 : s0.2.testBit i.val = false := h0.2.trans hb
      rw [bcobjectsizego_step_inactive D mem src s0 i hb0] at h1
      rw [← Option.some.inj h1] at h2
      exact ⟨h2.1.trans hz, h2.2.trans hb0⟩
    · intro c hb hc
      have hb0 : s0.2.testBit i.val = true := h0.2.trans hb
      rw [bcobjectsizego_step_active D mem src s0 i hb0, hc, Option.some_bind] at h1
      constructor
      · intro hc0
        rw [if_pos hc0] at h1
        rw [← Option.some.inj h1] at h2
        exact ⟨by rw [h2.1]; simp only [Function.update_same], h2.2.trans hb0⟩
      · intro hc0
        rw [if_neg (by omega)] at h1
        rw [← Option.some.inj h1] at h2
        refine ⟨h2.1.trans hz, ?_⟩
        rw [h2.2]
        simp only [testBit_bitClear_lane, decide_True, Bool.not_true, Bool.and_false]

/-- The handler `bcobjectsizego` does not complete when the walk of an active lane
panics. -/
theorem bcobjectsizego_panics (D : IonDecoder) (mem : vmref → List Nat) (bc : bytecode)
    (src : vRegData) (k : kRegData) (pc : Nat) (i : Fin bcLaneCount)
    (hact : k.mask.testBit i.val = true) (hcount : bcobjectsizego.count D mem src i = none) :
    (bcobjectsizego D mem bc src k pc).2 = none := by
  unfold bcobjectsizego
  dsimp only
  cases hf : (List.finRange bcLaneCount).foldl
      (fun st i => st.bind (fun s => bcobjectsizego.step D mem src s i))
      (some (i64RegData.zero, k.mask)) with
  | none => rfl
  | some r =>
    obtain ⟨s0, s1, h0, hstep, -⟩ := foldl_bind_lane (bcobjectsizego.step D mem src)
      (fun s => s.2.testBit i.val) i
      (fun j hj s t hst =>
        congrArg Prod.snd (bcobjectsizego_step_frame D mem src s t j i hj hst))
      (List.finRange bcLaneCount) lanes_nodup (lanes_mem i) _ r hf
    have hs0 : s0.2.testBit i.val = true := by
      have : s0.2.testBit i.val = k.mask.testBit i.val := h0
      rw [this, hact]
    rw [bcobjectsizego_step_active D mem src s0 i hs0, hcount] at hstep
    exact absurd hstep (by simp)

/-! ## Claims C1 to C7: classification, tag predicates and check-tag -/

/-- C1. `type-bits` gives every lane of the mask the table entry of the high nibble of its
tag; the table maps nibble 0 to 1, 1 to 2, 2..5 to 4, 6 to 8, 7 and 8 to 16, 0xB to 32,
0xD to 64 and nibbles 9, 0xA, 0xC, 0xE, 0xF to 0, so every entry is 0 or one of the seven
single bits `2 ^ 0 .. 2 ^ 6`. -/
theorem bctypebitsgo_table_lookup (src : vRegData) (k : kRegData) (pc : Nat)
    (i : Fin bcLaneCount) (h : k.mask.testBit i.val = true) :
    (bctypebitsgo src k pc).1.values i = Int.ofNat (typeBits (src.typeL i >>> 4))
      ∧ typeBitsLookupTable = [1, 2, 4, 4, 4, 4, 8, 16, 16, 0, 0, 32, 0, 64, 0, 0]
      ∧ (∀ n : Fin 16, typeBits n.val = 0 ∨ ∃ b : Fin 7, typeBits n.val = 2 ^ b.val)
      ∧ (∀ b : Fin 7, ∃ n : Fin 16, typeBits n.val = 2 ^ b.val) := by
  refine ⟨?_, by decide, by decide, by decide⟩
  rw [bctypebitsgo_lane, if_pos h]

/-- C1, witness: lane 0 active with the null sentinel `0x0F` receives the Null bit. -/
theorem bctypebitsgo_table_lookup_witness :
    (bctypebitsgo (vRegData.splat 0 1 0x0F 1) { mask := 1 } 0).1.values 0 = 1 :=
  (bctypebitsgo_table_lookup (vRegData.splat 0 1 0x0F 1) { mask := 1 } 0 0 (by decide)).1

/-- C2. The four tag predicates compare the whole tag byte with a sentinel: output bit `i`
of is-null is set iff input bit `i` is set and the tag is `0x0F`; of is-not-null iff the
input bit is set and the tag is not `0x0F`; of is-true iff the input bit is set and the tag
is `0x11`; of is-false iff the input bit is set and the tag is `0x10`. -/
theorem tag_predicates_compare_sentinel (src : vRegData) (k : kRegData) (pc : Nat)
    (i : Fin bcLaneCount) :
    ((bcisnullvgo src k pc).1.mask.testBit i.val = true
        ↔ k.mask.testBit i.val = true ∧ src.typeL i = 0x0F)
      ∧ ((bcisnotnullvgo src k pc).1.mask.testBit i.val = true
        ↔ k.mask.testBit i.val = true ∧ src.typeL i ≠ 0x0F)
      ∧ ((bcistruevgo src k pc).1.mask.testBit i.val = true
        ↔ k.mask.testBit i.val = true ∧ src.typeL i = 0x11)
      ∧ ((bcisfalsevgo src k pc).1.mask.testBit i.val = true
        ↔ k.mask.testBit i.val = true ∧ src.typeL i = 0x10) :=
  ⟨bcisnullvgo_lane src k pc i, bcisnotnullvgo_lane src k pc i, bcistruevgo_lane src k pc i,
    bcisfalsevgo_lane src k pc i⟩

/-- C3. The is-null and is-not-null output masks are exact complements over the input
mask `m` (a `uint16`): their bitwise OR is `m` and their bitwise AND is 0. -/
theorem isnull_isnotnull_complement (src : vRegData) (k : kRegData) (pc pc' : Nat)
    (hk : k.mask < 2 ^ bcLaneCount) :
    (bcisnullvgo src k pc).1.mask ||| (bcisnotnullvgo src k pc').1.mask = k.mask
      ∧ (bcisnullvgo src k pc).1.mask &&& (bcisnotnullvgo src k pc').1.mask = 0 := by
  unfold bcisnullvgo bcisnotnullvgo
  constructor
  · apply Nat.eq_of_testBit_eq
    intro n
    simp only [Nat.testBit_or, testBit_clearLoop]
    by_cases h1 : ∃ i : Fin bcLaneCount, i.val = n ∧ src.typeL i ≠ 0x0F
    · have h2 : ¬ ∃ i : Fin bcLaneCount, i.val = n ∧ src.typeL i = 0x0F := by
        rintro ⟨j, hj, hjt⟩
        obtain ⟨i, hi, hit⟩ := h1
        have : i = j := Fin.ext (hi.trans hj.symm)
        exact hit (this ▸ hjt)
      simp [h1, h2]
    · simp only [h1, decide_False, Bool.not_false, Bool.and_true]
      cases k.mask.testBit n <;> simp
  · apply Nat.eq_of_testBit_eq
    intro n
    simp only [Nat.testBit_and, testBit_clearLoop, Nat.zero_testBit]
    by_cases hn : n < bcLaneCount
    · by_cases ht : src.typeL ⟨n, hn⟩ = 0x0F
      · have h2 : ∃ i : Fin bcLaneCount, i.val = n ∧ src.typeL i = 0x0F :=
          ⟨⟨n, hn⟩, rfl, ht⟩
        simp [h2]
      · have h1 : ∃ i : Fin bcLaneCount, i.val = n ∧ src.typeL i ≠ 0x0F :=
          ⟨⟨n, hn⟩, rfl, ht⟩
        simp [h1]
    · have hbit : k.mask.testBit n = false :=
        Nat.testBit_lt_two_pow
          (Nat.lt_of_lt_of_le hk (Nat.pow_le_pow_right (by decide) (Nat.le_of_not_lt hn)))
      simp [hbit]

/-- C3, witness: the full mask over a batch of null sentinels. -/
theorem isnull_isnotnull_complement_witness :
    (bcisnullvgo (vRegData.splat 0 1 0x0F 1) { mask := 0xFFFF } 0).1.mask
        ||| (bcisnotnullvgo (vRegData.splat 0 1 0x0F 1) { mask := 0xFFFF } 0).1.mask = 0xFFFF
      ∧ (bcisnullvgo (vRegData.splat 0 1 0x0F 1) { mask := 0xFFFF } 0).1.mask
        &&& (bcisnotnullvgo (vRegData.splat 0 1 0x0F 1) { mask := 0xFFFF } 0).1.mask = 0 :=
  isnull_isnotnull_complement (vRegData.splat 0 1 0x0F 1) { mask := 0xFFFF } 0 0 (by decide)

/-- C4. For every value-vector and every pair of input masks the is-true and the is-false
output masks are disjoint: no lane has its bit set in both. -/
theorem istrue_isfalse_disjoint (src : vRegData) (k k' : kRegData) (pc pc' : Nat)
    (i : Fin bcLaneCount) :
    ¬ ((bcistruevgo src k pc).1.mask.testBit i.val = true
        ∧ (bcisfalsevgo src k' pc').1.mask.testBit i.val = true) := by
  rintro ⟨h1, h2⟩
  have t := ((bcistruevgo_lane src k pc i).mp h1).2
  have f := ((bcisfalsevgo_lane src k' pc' i).mp h2).2
  rw [t] at f
  exact absurd f (by decide)

/-- C5, as stated, fails: a string value (tag `0x83`, type-bit 16) tested against the
bitset 16 is active and its type-bit is in the bitset, yet check-tag clears the lane,
because the code tests bit 8 (the wire type code) of the bitset. -/
theorem bcchecktaggo_not_typebits :
    ¬ ((bcchecktaggo (vRegData.splat 0 4 0x83 1) 16 { mask := 1 } 0).2.1.mask.testBit 0 = true
        ↔ (Nat.testBit 1 0 = true ∧ typeBits (0x83 >>> 4) &&& 16 ≠ 0)) := by
  decide

/-- C5, amended. check-tag keeps an active lane exactly when the bit numbered by the wire
type code of its tag is present in the immediate bitset: output mask bit `i` is set iff
input mask bit `i` is set and `bitset AND (1 << (tag_i >> 4)) != 0`. -/
theorem bcchecktaggo_mask_iff (src : vRegData) (tags : Nat) (k : kRegData) (pc : Nat)
    (i : Fin bcLaneCount) :
    (bcchecktaggo src tags k pc).2.1.mask.testBit i.val = true
      ↔ k.mask.testBit i.val = true ∧ tags &&& (1 <<< (src.typeL i >>> 4)) ≠ 0 := by
  have h := congrArg Prod.snd (bcchecktaggo_lane src tags k pc i)
  rw [and_one_shiftLeft_ne_zero]
  by_cases hc : k.mask.testBit i.val = true ∧ tags.testBit (src.typeL i >>> 4) = true
  · rw [if_pos hc] at h
    simp only at h
    simp only [h, hc, and_self]
  · rw [if_neg hc] at h
    simp only at h
    simp only [h, hc]
    decide

/-- C6, as stated, fails: a clob lane (tag `0x90`, type-bit 0) stays active under the
bitset `1 << 9`. -/
theorem bcchecktaggo_keeps_clob :
    0x90 >>> 4 = 9 ∧ typeBits (0x90 >>> 4) = 0
      ∧ (bcchecktaggo (vRegData.splat 0 1 0x90 1) 0x200 { mask := 1 } 0).2.1.mask.testBit 0
        = true := by
  decide

/-- C6, amended. A value whose wire type code is unclassifiable (nibble 9, 0xA, 0xC, 0xE
or 0xF) has type-bit 0, and check-tag clears its lane for every mask and every immediate
bitset in which the bit numbered by that wire type code is clear. -/
theorem bcchecktaggo_unclassifiable (src : vRegData) (tags : Nat) (k : kRegData) (pc : Nat)
    (i : Fin bcLaneCount) (hn : src.typeL i >>> 4 ∈ [9, 0xA, 0xC, 0xE, 0xF])
    (ht : tags.testBit (src.typeL i >>> 4) = false) :
    typeBits (src.typeL i >>> 4) = 0
      ∧ (bcchecktaggo src tags k pc).2.1.mask.testBit i.val = false := by
  constructor
  · simp only [List.mem_cons, List.mem_singleton, List.not_mem_nil, or_false] at hn
    rcases hn with h | h | h | h | h <;> rw [h] <;> decide
  · have h := congrArg Prod.snd (bcchecktaggo_lane src tags k pc i)
    rw [if_neg (fun hc => by rw [ht] at hc; exact absurd hc.2 (by decide))] at h
    exact h

/-- C6, witness: a clob lane under the bitset of the seven classified categories. -/
theorem bcchecktaggo_unclassifiable_witness :
    typeBits (0x90 >>> 4) = 0
      ∧ (bcchecktaggo (vRegData.splat 0 1 0x90 1) 0x7F { mask := 1 } 0).2.1.mask.testBit 0
        = false :=
  bcchecktaggo_unclassifiable (vRegData.splat 0 1 0x90 1) 0x7F { mask := 1 } 0 0
    (by decide) (by decide)

/-- C7. The output value-vector of check-tag is a filtered copy: the slot (offset, size,
tag, header size) of a lane kept in the output mask equals the input slot, and the slot of
every other lane is all-zero. -/
theorem bcchecktaggo_filtered_copy (src : vRegData) (tags : Nat) (k : kRegData) (pc : Nat)
    (i : Fin bcLaneCount) :
    (bcchecktaggo src tags k pc).1.slot i
      = if (bcchecktaggo src tags k pc).2.1.mask.testBit i.val = true then src.slot i
        else (0, 0, 0, 0) := by
  have h := bcchecktaggo_lane src tags k pc i
  by_cases hc : k.mask.testBit i.val = true ∧ tags.testBit (src.typeL i >>> 4) = true
  · rw [if_pos hc] at h
    simp only [Prod.mk.injEq] at h
    rw [h.1, h.2, if_pos rfl]
  · rw [if_neg hc] at h
    simp only [Prod.mk.injEq] at h
    rw [h.1, h.2, if_neg (by decide)]

/-! ## Claims C8 to C10: object-size -/

/-- C8. object-size counts children: for an active lane whose value is a list whose body
is the concatenation of `n ≥ 0` encoded values, or a struct whose body is the
concatenation of `n ≥ 0` encoded (symbol-id, value) pairs, the handler (when the walk of
no other active lane panics) completes, the output integer of the lane is `n` and its mask
bit stays set; an empty body yields 0 with the bit set. -/
theorem bcobjectsizego_counts_children (D : IonDecoder) (mem : vmref → List Nat)
    (bc : bytecode) (src : vRegData) (k : kRegData) (pc : Nat) (i : Fin bcLaneCount)
    (body : List (List Nat))
    (hact : k.mask.testBit i.val = true)
    (hbody : bcobjectsizego.content mem src i = body.flatten)
    (hkind : (src.typeL i >>> 4 = ion.ListType ∧ ∀ v ∈ body, D.IsValue v)
      ∨ (src.typeL i >>> 4 = ion.StructType ∧ ∀ f ∈ body, D.IsField f))
    (hrest : ∀ j : Fin bcLaneCount, j ≠ i → k.mask.testBit j.val = true →
      bcobjectsizego.count D mem src j ≠ none) :
    ∃ dst msk, (bcobjectsizego D mem bc src k pc).2 = some (dst, msk, pc + 8)
      ∧ dst.values i = (body.length : Int) ∧ msk.mask.testBit i.val = true := by
  have hcount : bcobjectsizego.count D mem src i = some (body.length : Int) := by
    unfold bcobjectsizego.count
    rcases hkind with ⟨hl, hv⟩ | ⟨hs, hf⟩
    · rw [if_pos hl, hbody, countValuesInList_values D body hv]
    · have hl : ¬ src.typeL i >>> 4 = ion.ListType := by
        rw [hs]; decide
      rw [if_neg hl, if_pos hs, hbody, countValuesInStruct_fields D body hf]
  have hsafe : ∀ j : Fin bcLaneCount, k.mask.testBit j.val = true →
      bcobjectsizego.count D mem src j ≠ none := by
    intro j hj
    by_cases e : j = i
    · rw [e, hcount]; simp
    · exact hrest j e hj
  obtain ⟨dst, msk, hout, hl⟩ := bcobjectsizego_lanes D mem bc src k pc hsafe
  have := ((hl i).2 _ hact hcount).1 (Int.ofNat_nonneg _)
  exact ⟨dst, msk, hout, this.1, this.2⟩

/-- The two bytes `0x21 0x05` are one encoded value for the example decoder. -/
theorem ion_decoder_isValue_int : ion.decoder.IsValue [0x21, 0x05] := by
  refine ⟨by decide, fun rest => ?_⟩
  simp [ion.decoder, ion.declaredSize]

/-- The byte `0x11` is one encoded value for the example decoder. -/
theorem ion_decoder_isValue_true : ion.decoder.IsValue [0x11] := by
  refine ⟨by decide, fun rest => ?_⟩
  simp [ion.decoder, ion.declaredSize]

/-- C8, witness: the list `0xB3 0x21 0x05 0x11` of two children in the first two lanes. -/
theorem bcobjectsizego_counts_children_witness :
    ∃ dst msk,
      (bcobjectsizego ion.decoder (vmref.mem exampleScratch) exampleBytecode
          (vRegData.splat 0 4 0xB3 1) { mask := 3 } 0).2
        = some (dst, msk, 0 + 8)
      ∧ dst.values 0 = (2 : Int) ∧ msk.mask.testBit 0 = true :=
  bcobjectsizego_counts_children ion.decoder (vmref.mem exampleScratch)
    exampleBytecode (vRegData.splat 0 4 0xB3 1)
    { mask := 3 } 0 0 [[0x21, 0x05], [0x11]] (by decide) (by decide)
    (Or.inl ⟨by decide, by
      intro v hv
      simp only [List.mem_cons, List.mem_singleton, List.not_mem_nil, or_false] at hv
      rcases hv with e | e
      · rw [e]; exact ion_decoder_isValue_int
      · rw [e]; exact ion_decoder_isValue_true⟩)
    (by decide)

/-- The byte `0x11` is one encoded value for the decoder of the declared sizes. -/
theorem ion_headerDecoder_isValue_true : ion.headerDecoder.IsValue [0x11] := by
  refine ⟨by decide, fun rest => ?_⟩
  simp [ion.headerDecoder, ion.declaredSize]

/-- C9. What the code does for an active lane holding a list whose body ends, after the
encoded values `vs`, in content `tail` that is not empty. The fault field is never
touched. When the size decoder reads a non-positive size at `tail`, object-size (when the
walk of no other active lane panics) completes and clears the mask bit of the lane. When
the size decoder reads a size beyond the end of `tail`, the declared size of the last
child exceeding the bytes that remain, `countValuesInList` passes the test
`valueSize <= 0` and the slice expression `msg[valueSize:]` panics: the handler does not
complete and stores no mask. -/
theorem bcobjectsizego_truncated_tail (D : IonDecoder) (mem : vmref → List Nat)
    (bc : bytecode) (src : vRegData) (k : kRegData) (pc : Nat) (i : Fin bcLaneCount)
    (vs : List (List Nat)) (tail : List Nat)
    (hact : k.mask.testBit i.val = true)
    (hlist : src.typeL i >>> 4 = ion.ListType)
    (hbody : bcobjectsizego.content mem src i = vs.flatten ++ tail)
    (hvs : ∀ v ∈ vs, D.IsValue v) (hne : tail ≠ []) :
    (bcobjectsizego D mem bc src k pc).1.err = bc.err
      ∧ (D.SizeOf tail ≤ 0 →
          (∀ j : Fin bcLaneCount, j ≠ i → k.mask.testBit j.val = true →
            bcobjectsizego.count D mem src j ≠ none) →
          ∃ dst msk, (bcobjectsizego D mem bc src k pc).2 = some (dst, msk, pc + 8)
            ∧ msk.mask.testBit i.val = false)
      ∧ ((tail.length : Int) < D.SizeOf tail →
          (bcobjectsizego D mem bc src k pc).2 = none) := by
  refine ⟨rfl, ?_, ?_⟩
  · intro htail hrest
    have hcount : bcobjectsizego.count D mem src i = some (-1) := by
      unfold bcobjectsizego.count
      rw [if_pos hlist, hbody, countValuesInList_truncated D vs tail hvs ⟨hne, htail⟩]
    have hsafe : ∀ j : Fin bcLaneCount, k.mask.testBit j.val = true →
        bcobjectsizego.count D mem src j ≠ none := by
      intro j hj
      by_cases e : j = i
      · rw [e, hcount]; simp
      · exact hrest j e hj
    obtain ⟨dst, msk, hout, hl⟩ := bcobjectsizego_lanes D mem bc src k pc hsafe
    exact ⟨dst, msk, hout, (((hl i).2 _ hact hcount).2 (by decide)).2⟩
  · intro hover
    apply bcobjectsizego_panics D mem bc src k pc i hact
    unfold bcobjectsizego.count
    rw [if_pos hlist, hbody, countValuesInList_values_overrun D vs tail hvs hne hover]

/-- C9, witness: the list body `0x11 0x23`, whose last child declares four bytes where one
remains, under the decoder that reads the declared size: the handler panics. -/
theorem bcobjectsizego_truncated_tail_witness :
    (([0x23] : List Nat).length : Int) < ion.headerDecoder.SizeOf [0x23]
      ∧ (bcobjectsizego ion.headerDecoder (vmref.mem exampleScratch) exampleBytecode
          (vRegData.splat 4 3 0xB2 1) { mask := 3 } 0).2 = none :=
  ⟨by decide,
    (bcobjectsizego_truncated_tail ion.headerDecoder (vmref.mem exampleScratch)
      exampleBytecode (vRegData.splat 4 3 0xB2 1)
      { mask := 3 } 0 0 [[0x11]] [0x23] (by decide) (by decide) (by decide)
      (by
        intro v hv
        rw [List.mem_singleton.mp hv]
        exact ion_headerDecoder_isValue_true)
      (by decide)).2.2 (by decide)⟩

/-- C10. object-size never touches the fault field, and an active lane whose tag high
nibble is neither list (0xB) nor struct (0xD) has its mask bit cleared by the handler,
which completes when the walk of no other active lane panics. -/
theorem bcobjectsizego_inapplicable (D : IonDecoder) (mem : vmref → List Nat)
    (bc : bytecode) (src : vRegData) (k : kRegData) (pc : Nat) :
    (bcobjectsizego D mem bc src k pc).1.err = bc.err
      ∧ ∀ i : Fin bcLaneCount, k.mask.testBit i.val = true →
          src.typeL i >>> 4 ≠ ion.ListType → src.typeL i >>> 4 ≠ ion.StructType →
          (∀ j : Fin bcLaneCount, j ≠ i → k.mask.testBit j.val = true →
            bcobjectsizego.count D mem src j ≠ none) →
          ∃ dst msk, (bcobjectsizego D mem bc src k pc).2 = some (dst, msk, pc + 8)
            ∧ msk.mask.testBit i.val = false := by
  refine ⟨rfl, ?_⟩
  intro i hact hl hs hrest
  have hcount : bcobjectsizego.count D mem src i = some (-1) := by
    unfold bcobjectsizego.count
    rw [if_neg hl, if_neg hs]
  have hsafe : ∀ j : Fin bcLaneCount, k.mask.testBit j.val = true →
      bcobjectsizego.count D mem src j ≠ none := by
    intro j hj
    by_cases e : j = i
    · rw [e, hcount]; simp
    · exact hrest j e hj
  obtain ⟨dst, msk, hout, hlanes⟩ := bcobjectsizego_lanes D mem bc src k pc hsafe
  exact ⟨dst, msk, hout, (((hlanes i).2 _ hact hcount).2 (by decide)).2⟩

/-- C10, witness: the integer `0x21 0x05` in the first two lanes. -/
theorem bcobjectsizego_inapplicable_witness :
    ∃ dst msk,
      (bcobjectsizego ion.decoder (vmref.mem exampleScratch) exampleBytecode
          (vRegData.splat 1 2 0x21 1) { mask := 3 } 0).2
        = some (dst, msk, 0 + 8)
      ∧ msk.mask.testBit 0 = false :=
  (bcobjectsizego_inapplicable ion.decoder (vmref.mem exampleScratch)
    exampleBytecode (vRegData.splat 1 2 0x21 1)
    { mask := 3 } 0).2 0 (by decide) (by decide) (by decide) (by decide)

/-! ## Slots of a register -/

theorem slot_set_same (v : vRegData) (i : Fin bcLaneCount) (s : Nat × Nat × Nat × Nat) :
    (v.set i s).slot i = s := by
  simp only [vRegData.set, vRegData.slot, Function.update_same]

theorem slot_set_ne (v : vRegData) (i j : Fin bcLaneCount) (s : Nat × Nat × Nat × Nat)
    (h : i ≠ j) : (v.set i s).slot j = v.slot j := by
  simp only [vRegData.set, vRegData.slot, Function.update_noteq (Ne.symm h)]

theorem set_set (v : vRegData) (i : Fin bcLaneCount) (s t : Nat × Nat × Nat × Nat) :
    (v.set i s).set i t = v.set i t := by
  simp only [vRegData.set, Function.update_idem]

theorem slot_setLast_same (v : vRegData) (i : Fin bcLaneCount)
    (o : Option (Nat × Nat × Nat × Nat)) : (v.setLast i o).slot i = o.getD (v.slot i) := by
  cases o with
  | none => rfl
  | some s => exact slot_set_same v i s

theorem slot_setLast_ne (v : vRegData) (i j : Fin bcLaneCount)
    (o : Option (Nat × Nat × Nat × Nat)) (h : i ≠ j) :
    (v.setLast i o).slot j = v.slot j := by
  cases o with
  | none => rfl
  | some s => exact slot_set_ne v i j s h

/-- Two registers with the same slots are the same register. -/
theorem vRegData_ext (v w : vRegData) (h : ∀ i, v.slot i = w.slot i) : v = w := by
  cases v with
  | mk vo vs vt vh =>
    cases w with
    | mk wo ws wt wh =>
      simp only [vRegData.slot, Prod.mk.injEq] at h
      have h1 : vo = wo := funext fun i => (h i).1
      have h2 : vs = ws := funext fun i => (h i).2.1
      have h3 : vt = wt := funext fun i => (h i).2.2.1
      have h4 : vh = wh := funext fun i => (h i).2.2.2
      rw [h1, h2, h3, h4]

/-! ## The loop over the lanes of the symbol lookups -/

/-- The step of `bcfindsymgo` is the loop step for the effects of its lanes. -/
theorem bcfindsymgo_step_eq (D : IonDecoder) (mem : vmref → List Nat) (symbol : Nat)
    (src : bRegData) (srcmask : Nat) (st : findsym.State) (i : Fin bcLaneCount) :
    bcfindsymgo.step D mem symbol src srcmask st i
      = findsym.apply (bcfindsymgo.effect D mem symbol src srcmask) st i := by
  unfold bcfindsymgo.step findsym.apply bcfindsymgo.effect
  by_cases hs : st.stop = true
  · simp only [hs, if_true]
  · simp only [hs, if_false, Bool.false_eq_true]
    by_cases hm : srcmask &&& (1 <<< i.val) = 0
    · simp only [hm, if_true, vRegData.setLast, Bool.false_eq_true, if_false]
    · simp only [hm, if_false]
      cases bcfindsymgo.lane D mem symbol src i with
      | done last found =>
        cases last <;> simp only [findsym.finish, vRegData.setLast, set_set, Option.getD]
      | corrupt last =>
        cases last <;> simp only [findsym.finish, vRegData.setLast, set_set, Option.getD]
      | panic => rfl
      | hang => rfl

/-- The step of `bcfindsym2go` is the loop step for the effects of its lanes. -/
theorem bcfindsym2go_step_eq (D : IonDecoder) (mem : vmref → List Nat) (symbol : Nat)
    (srcb : bRegData) (srcv : vRegData) (srck srcmask : Nat) (st : findsym.State)
    (i : Fin bcLaneCount) :
    bcfindsym2go.step D mem symbol srcb srcv srck srcmask st i
      = findsym.apply (bcfindsym2go.effect D mem symbol srcb srcv srck srcmask) st i := by
  unfold bcfindsym2go.step findsym.apply bcfindsym2go.effect
  by_cases hs : st.stop = true
  · simp only [hs, if_true]
  · simp only [hs, if_false, Bool.false_eq_true]
    have hst : st.stop = false := by simpa using hs
    by_cases hm : srcmask &&& (1 <<< i.val) = 0
    · simp only [hm, if_true, vRegData.setLast, Bool.false_eq_true, if_false]
      cases st with
      | mk d r e b =>
        simp only at hst
        rw [hst]
    · simp only [hm, if_false]
      cases bcfindsym2go.lane D mem symbol srcb srcv srck i with
      | done last found => rfl
      | corrupt last => rfl
      | panic => rfl
      | hang => rfl

/-- Once `break outer` is taken, the rest of the loop leaves the state as it is. -/
theorem findsym_apply_stopped (eff : Fin bcLaneCount → findsym.Effect)
    (l : List (Fin bcLaneCount)) (s : findsym.State) (hs : s.stop = true) :
    l.foldl (fun st i => st.bind (fun s => findsym.apply eff s i)) (some s) = some s := by
  induction l with
  | nil => rfl
  | cons a t ih =>
    rw [List.foldl_cons, Option.some_bind]
    have : findsym.apply eff s a = some s := by
      unfold findsym.apply
      rw [if_pos hs]
    rw [this, ih]

/-- The loop over lanes that all go on: it completes without fault, every lane of the
list holds the slot of its effect (or its old slot when the effect assigns nothing) and
has its bit set exactly when its effect found the symbol or the bit was set before. -/
theorem findsym_apply_cont (eff : Fin bcLaneCount → findsym.Effect)
    (l : List (Fin bcLaneCount)) (hnd : l.Nodup) (hc : ∀ i ∈ l, (eff i).isCont = true)
    (s : findsym.State) (hs : s.stop = false) :
    ∃ r, l.foldl (fun st i => st.bind (fun s => findsym.apply eff s i)) (some s) = some r
      ∧ r.stop = false ∧ r.err = s.err
      ∧ (∀ i, i ∈ l → r.dstv.slot i = (eff i).slot.getD (s.dstv.slot i))
      ∧ (∀ i, i ∉ l → r.dstv.slot i = s.dstv.slot i)
      ∧ (∀ n, r.retmask.testBit n = true ↔
          s.retmask.testBit n = true
            ∨ ∃ i, i ∈ l ∧ i.val = n ∧ (eff i).found = true) := by
  induction l generalizing s with
  | nil =>
    refine ⟨s, rfl, hs, rfl, ?_, fun _ _ => rfl, ?_⟩
    · intro i hi
      exact absurd hi (List.not_mem_nil i)
    · intro n
      simp
  | cons a t ih =>
    rw [List.nodup_cons] at hnd
    have ha := hc a (List.mem_cons_self a t)
    obtain ⟨slot, found, he⟩ : ∃ slot found, eff a = findsym.Effect.cont slot found := by
      cases h : eff a with
      | cont slot found => exact ⟨slot, found, rfl⟩
      | fault slot => rw [h] at ha; exact absurd ha (by simp [findsym.Effect.isCont])
      | abort => rw [h] at ha; exact absurd ha (by simp [findsym.Effect.isCont])
    have hstep : findsym.apply eff s a
        = some { dstv := s.dstv.setLast a slot,
                 retmask := if found then s.retmask ||| (1 <<< a.val) else s.retmask,
                 err := s.err, stop := false } := by
      unfold findsym.apply
      rw [hs, he]
      rfl
    obtain ⟨r, hr, hstop, herr, hin, hout, hbits⟩ :=
      ih hnd.2 (fun i hi => hc i (List.mem_cons_of_mem a hi))
        { dstv := s.dstv.setLast a slot,
          retmask := if found then s.retmask ||| (1 <<< a.val) else s.retmask,
          err := s.err, stop := false } rfl
    refine ⟨r, ?_, hstop, herr, ?_, ?_, ?_⟩
    · rw [List.foldl_cons, Option.some_bind, hstep, hr]
    · intro i hi
      rcases List.mem_cons.mp hi with e | hit
      · rw [e, hout a hnd.1]
        simp only [slot_setLast_same, he, findsym.Effect.slot]
      · have hne : a ≠ i := fun e => hnd.1 (e ▸ hit)
        rw [hin i hit]
        simp only [slot_setLast_ne _ _ _ _ hne]
    · intro i hi
      have hne : a ≠ i := fun e => hi (e ▸ List.mem_cons_self a t)
      rw [hout i (fun h => hi (List.mem_cons_of_mem a h))]
      simp only [slot_setLast_ne _ _ _ _ hne]
    · intro n
      rw [hbits n]
      have hbit : (if found then s.retmask ||| (1 <<< a.val) else s.retmask).testBit n = true
          ↔ s.retmask.testBit n = true ∨ (a.val = n ∧ found = true) := by
        cases found with
        | false => simp
        | true =>
          simp only [if_true, Nat.testBit_or, testBit_one_shiftLeft, Bool.or_eq_true,
            decide_eq_true_eq, and_true]
      simp only at hbit
      rw [hbit]
      constructor
      · rintro (h | ⟨i, hi, hv, hf⟩)
        · rcases h with h | ⟨hv, hf⟩
          · exact Or.inl h
          · exact Or.inr ⟨a, List.mem_cons_self a t, hv, by
              rw [he]; exact hf⟩
        · exact Or.inr ⟨i, List.mem_cons_of_mem a hi, hv, hf⟩
      · rintro (h | ⟨i, hi, hv, hf⟩)
        · exact Or.inl (Or.inl h)
        · rcases List.mem_cons.mp hi with e | hit
          · rw [e, he] at hf
            rw [e] at hv
            exact Or.inl (Or.inr ⟨hv, hf⟩)
          · exact Or.inr ⟨i, hit, hv, hf⟩

/-- The lanes before `b`, then `b`, then the lanes after `b`. -/
theorem lanes_split (b : Fin bcLaneCount) :
    ∃ l1 l2, List.finRange bcLaneCount = l1 ++ b :: l2 ∧ l1.Nodup
      ∧ (∀ j, j ∈ l1 ↔ j < b) ∧ (∀ j, j ∈ l2 ↔ b < j) := by
  obtain ⟨l1, l2, h⟩ := List.append_of_mem (lanes_mem b)
  have hp := List.pairwise_lt_finRange bcLaneCount
  have hn := lanes_nodup
  rw [h] at hp hn
  obtain ⟨-, hp2, hp3⟩ := List.pairwise_append.mp hp
  have hp4 := (List.pairwise_cons.mp hp2).1
  have hmem : ∀ j : Fin bcLaneCount, j ∈ l1 ∨ j = b ∨ j ∈ l2 := by
    intro j
    have hj := lanes_mem j
    rw [h, List.mem_append, List.mem_cons] at hj
    exact hj
  refine ⟨l1, l2, h, (List.nodup_append.mp hn).1, ?_, ?_⟩
  · intro j
    constructor
    · intro hj
      exact hp3 j hj b (List.mem_cons_self b l2)
    · intro hj
      rcases hmem j with h1 | h1 | h1
      · exact h1
      · exact absurd hj (by rw [h1]; exact lt_irrefl b)
      · exact absurd hj (not_lt_of_gt (hp4 j h1))
  · intro j
    constructor
    · intro hj
      exact hp4 j hj
    · intro hj
      rcases hmem j with h1 | h1 | h1
      · exact absurd hj (not_lt_of_gt (hp3 j h1 b (List.mem_cons_self b l2)))
      · exact absurd hj (by rw [h1]; exact lt_irrefl b)
      · exact h1

/-- The loop over all lanes when every lane goes on. -/
theorem findsym_apply_all (eff : Fin bcLaneCount → findsym.Effect)
    (hc : ∀ i, (eff i).isCont = true) (s : findsym.State) (hs : s.stop = false) :
    ∃ r, (List.finRange bcLaneCount).foldl
          (fun st i => st.bind (fun s => findsym.apply eff s i)) (some s) = some r
      ∧ r.stop = false ∧ r.err = s.err
      ∧ (∀ i, r.dstv.slot i = (eff i).slot.getD (s.dstv.slot i))
      ∧ (∀ n, r.retmask.testBit n = true ↔
          s.retmask.testBit n = true
            ∨ ∃ i : Fin bcLaneCount, i.val = n ∧ (eff i).found = true) := by
  obtain ⟨r, hr, hstop, herr, hin, -, hbits⟩ :=
    findsym_apply_cont eff (List.finRange bcLaneCount) lanes_nodup (fun i _ => hc i) s hs
  refine ⟨r, hr, hstop, herr, fun i => hin i (lanes_mem i), ?_⟩
  intro n
  rw [hbits n]
  constructor
  · rintro (h | ⟨i, -, hv, hf⟩)
    · exact Or.inl h
    · exact Or.inr ⟨i, hv, hf⟩
  · rintro (h | ⟨i, hv, hf⟩)
    · exact Or.inl h
    · exact Or.inr ⟨i, lanes_mem i, hv, hf⟩

/-- The loop over all lanes when lane `b` is the first that does not go on and it ends by
`break outer`: the fault is set, the lanes before `b` are as in a loop without fault, the
lanes after `b` are untouched. -/
theorem findsym_apply_fault (eff : Fin bcLaneCount → findsym.Effect) (b : Fin bcLaneCount)
    (slot : Option (Nat × Nat × Nat × Nat)) (hb : eff b = findsym.Effect.fault slot)
    (hlt : ∀ j, j < b → (eff j).isCont = true) (s : findsym.State) (hs : s.stop = false) :
    ∃ r, (List.finRange bcLaneCount).foldl
          (fun st i => st.bind (fun s => findsym.apply eff s i)) (some s) = some r
      ∧ r.stop = true ∧ r.err = bcerrCorrupt
      ∧ (∀ i, i < b → r.dstv.slot i = (eff i).slot.getD (s.dstv.slot i))
      ∧ r.dstv.slot b = slot.getD (s.dstv.slot b)
      ∧ (∀ i, b < i → r.dstv.slot i = s.dstv.slot i)
      ∧ (∀ n, r.retmask.testBit n = true ↔
          s.retmask.testBit n = true
            ∨ ∃ i : Fin bcLaneCount, i < b ∧ i.val = n ∧ (eff i).found = true) := by
  obtain ⟨l1, l2, hl, hnd, h1, h2⟩ := lanes_split b
  obtain ⟨r, hr, hstop, herr, hin, hout, hbits⟩ :=
    findsym_apply_cont eff l1 hnd (fun i hi => hlt i ((h1 i).mp hi)) s hs
  have hstep : findsym.apply eff r b
      = some { dstv := r.dstv.setLast b slot, retmask := r.retmask, err := bcerrCorrupt,
               stop := true } := by
    unfold findsym.apply
    rw [hstop, hb]
    rfl
  refine ⟨{ dstv := r.dstv.setLast b slot, retmask := r.retmask, err := bcerrCorrupt,
            stop := true }, ?_, rfl, rfl, ?_, ?_, ?_, ?_⟩
  · rw [hl, List.foldl_append, hr, List.foldl_cons, Option.some_bind, hstep]
    exact findsym_apply_stopped eff l2 _ rfl
  · intro i hi
    have hne : b ≠ i := fun e => absurd hi (by rw [e]; exact lt_irrefl i)
    simp only [slot_setLast_ne _ _ _ _ hne]
    exact hin i ((h1 i).mpr hi)
  · simp only [slot_setLast_same]
    rw [hout b (fun h => absurd ((h1 b).mp h) (lt_irrefl b))]
  · intro i hi
    have hne : b ≠ i := fun e => absurd hi (by rw [e]; exact lt_irrefl i)
    simp only [slot_setLast_ne _ _ _ _ hne]
    exact hout i (fun h => absurd ((h1 i).mp h) (not_lt_of_gt hi))
  · intro n
    simp only
    rw [hbits n]
    constructor
    · rintro (h | ⟨i, hi, hv, hf⟩)
      · exact Or.inl h
      · exact Or.inr ⟨i, (h1 i).mp hi, hv, hf⟩
    · rintro (h | ⟨i, hi, hv, hf⟩)
      · exact Or.inl h
      · exact Or.inr ⟨i, (h1 i).mpr hi, hv, hf⟩

/-- The loop over all lanes when lane `b` is the first that does not go on and it does not
return: the handler does not return. -/
theorem findsym_apply_abort (eff : Fin bcLaneCount → findsym.Effect) (b : Fin bcLaneCount)
    (hb : eff b = findsym.Effect.abort)
    (hlt : ∀ j, j < b → (eff j).isCont = true) (s : findsym.State) (hs : s.stop = false) :
    (List.finRange bcLaneCount).foldl
        (fun st i => st.bind (fun s => findsym.apply eff s i)) (some s) = none := by
  obtain ⟨l1, l2, hl, hnd, h1, -⟩ := lanes_split b
  obtain ⟨r, hr, hstop, -, -, -, -⟩ :=
    findsym_apply_cont eff l1 hnd (fun i hi => hlt i ((h1 i).mp hi)) s hs
  have hstep : findsym.apply eff r b = none := by
    unfold findsym.apply
    rw [hstop, hb]
    rfl
  rw [hl, List.foldl_append, hr, List.foldl_cons, Option.some_bind, hstep]
  exact foldl_bind_none _ l2

/-- The loop of `bcfindsymgo` is the loop for the effects of its lanes. -/
theorem bcfindsymgo_loop_eq (D : IonDecoder) (mem : vmref → List Nat) (symbol : Nat)
    (src : bRegData) (srcmask : Nat) (l : List (Fin bcLaneCount))
    (s : Option findsym.State) :
    l.foldl (fun st i => st.bind (fun s => bcfindsymgo.step D mem symbol src srcmask s i)) s
      = l.foldl (fun st i => st.bind (fun s =>
          findsym.apply (bcfindsymgo.effect D mem symbol src srcmask) s i)) s := by
  congr 1
  funext st i
  congr 1
  funext t
  exact bcfindsymgo_step_eq D mem symbol src srcmask t i

/-- The loop of `bcfindsym2go` is the loop for the effects of its lanes. -/
theorem bcfindsym2go_loop_eq (D : IonDecoder) (mem : vmref → List Nat) (symbol : Nat)
    (srcb : bRegData) (srcv : vRegData) (srck srcmask : Nat) (l : List (Fin bcLaneCount))
    (s : Option findsym.State) :
    l.foldl (fun st i => st.bind (fun s =>
        bcfindsym2go.step D mem symbol srcb srcv srck srcmask s i)) s
      = l.foldl (fun st i => st.bind (fun s =>
          findsym.apply (bcfindsym2go.effect D mem symbol srcb srcv srck srcmask) s i)) s := by
  congr 1
  funext st i
  congr 1
  funext t
  exact bcfindsym2go_step_eq D mem symbol srcb srcv srck srcmask t i

/-- `bcfindsymgo` when every lane goes on: the handler returns without fault, every lane
holds the slot of its effect and the mask has the bits of the lanes that found the
symbol. -/
theorem bcfindsymgo_of_cont (D : IonDecoder) (mem : vmref → List Nat) (bc : bytecode)
    (dstv : vRegData) (srcb : bRegData) (symbol : Nat) (srck : kRegData) (pc : Nat)
    (hc : ∀ i, (bcfindsymgo.effect D mem symbol srcb srck.mask i).isCont = true) :
    ∃ dst msk, (bcfindsymgo D mem bc dstv srcb symbol srck pc).2 = some (dst, msk, pc + 12)
      ∧ (bcfindsymgo D mem bc dstv srcb symbol srck pc).1.err = bc.err
      ∧ (∀ i, dst.slot i
          = (bcfindsymgo.effect D mem symbol srcb srck.mask i).slot.getD (dstv.slot i))
      ∧ (∀ n, msk.mask.testBit n = true ↔ ∃ i : Fin bcLaneCount, i.val = n
          ∧ (bcfindsymgo.effect D mem symbol srcb srck.mask i).found = true) := by
  obtain ⟨r, hr, -, herr, hslot, hbits⟩ :=
    findsym_apply_all (bcfindsymgo.effect D mem symbol srcb srck.mask) hc
      { dstv := dstv, retmask := 0, err := bc.err, stop := false } rfl
  refine ⟨r.dstv, { mask := r.retmask }, ?_, ?_, hslot, ?_⟩
  · unfold bcfindsymgo
    rw [bcfindsymgo_loop_eq, hr]
  · unfold bcfindsymgo
    rw [bcfindsymgo_loop_eq, hr]
    exact herr
  · intro n
    rw [hbits n]
    simp only [Nat.zero_testBit, Bool.false_eq_true, false_or]

/-- `bcfindsymgo` when lane `b` is the first that does not go on and it cannot read a
label. -/
theorem bcfindsymgo_of_fault (D : IonDecoder) (mem : vmref → List Nat) (bc : bytecode)
    (dstv : vRegData) (srcb : bRegData) (symbol : Nat) (srck : kRegData) (pc : Nat)
    (b : Fin bcLaneCount) (slot : Option (Nat × Nat × Nat × Nat))
    (hb : bcfindsymgo.effect D mem symbol srcb srck.mask b = findsym.Effect.fault slot)
    (hlt : ∀ j, j < b → (bcfindsymgo.effect D mem symbol srcb srck.mask j).isCont = true) :
    ∃ dst msk, (bcfindsymgo D mem bc dstv srcb symbol srck pc).2 = some (dst, msk, pc + 12)
      ∧ (bcfindsymgo D mem bc dstv srcb symbol srck pc).1.err = bcerrCorrupt
      ∧ (∀ i, b < i → dst.slot i = dstv.slot i)
      ∧ (∀ n, msk.mask.testBit n = true ↔ ∃ i : Fin bcLaneCount, i < b ∧ i.val = n
          ∧ (bcfindsymgo.effect D mem symbol srcb srck.mask i).found = true) := by
  obtain ⟨r, hr, -, herr, -, -, hafter, hbits⟩ :=
    findsym_apply_fault (bcfindsymgo.effect D mem symbol srcb srck.mask) b slot hb hlt
      { dstv := dstv, retmask := 0, err := bc.err, stop := false } rfl
  refine ⟨r.dstv, { mask := r.retmask }, ?_, ?_, hafter, ?_⟩
  · unfold bcfindsymgo
    rw [bcfindsymgo_loop_eq, hr]
  · unfold bcfindsymgo
    rw [bcfindsymgo_loop_eq, hr]
    exact herr
  · intro n
    rw [hbits n]
    simp only [Nat.zero_testBit, Bool.false_eq_true, false_or]

/-- `bcfindsym2go` when every lane goes on. -/
theorem bcfindsym2go_of_cont (D : IonDecoder) (mem : vmref → List Nat) (bc : bytecode)
    (srcb : bRegData) (srcv : vRegData) (srck : kRegData) (symbol : Nat)
    (srcmask : kRegData) (pc : Nat)
    (hc : ∀ i,
      (bcfindsym2go.effect D mem symbol srcb srcv srck.mask srcmask.mask i).isCont = true) :
    ∃ dst msk,
      (bcfindsym2go D mem bc srcb srcv srck symbol srcmask pc).2 = some (dst, msk, pc + 16)
      ∧ (bcfindsym2go D mem bc srcb srcv srck symbol srcmask pc).1.err = bc.err
      ∧ (∀ i, dst.slot i
          = (bcfindsym2go.effect D mem symbol srcb srcv srck.mask srcmask.mask i).slot.getD
              (srcv.slot i))
      ∧ (∀ n, msk.mask.testBit n = true ↔ ∃ i : Fin bcLaneCount, i.val = n
          ∧ (bcfindsym2go.effect D mem symbol srcb srcv srck.mask srcmask.mask i).found
              = true) := by
  obtain ⟨r, hr, -, herr, hslot, hbits⟩ :=
    findsym_apply_all (bcfindsym2go.effect D mem symbol srcb srcv srck.mask srcmask.mask) hc
      { dstv := srcv, retmask := 0, err := bc.err, stop := false } rfl
  refine ⟨r.dstv, { mask := r.retmask }, ?_, ?_, hslot, ?_⟩
  · unfold bcfindsym2go
    rw [bcfindsym2go_loop_eq, hr]
  · unfold bcfindsym2go
    rw [bcfindsym2go_loop_eq, hr]
    exact herr
  · intro n
    rw [hbits n]
    simp only [Nat.zero_testBit, Bool.false_eq_true, false_or]

/-- `bcfindsym2go` when lane `b` is the first that does not go on and it cannot read a
label. -/
theorem bcfindsym2go_of_fault (D : IonDecoder) (mem : vmref → List Nat) (bc : bytecode)
    (srcb : bRegData) (srcv : vRegData) (srck : kRegData) (symbol : Nat)
    (srcmask : kRegData) (pc : Nat) (b : Fin bcLaneCount)
    (slot : Option (Nat × Nat × Nat × Nat))
    (hb : bcfindsym2go.effect D mem symbol srcb srcv srck.mask srcmask.mask b
      = findsym.Effect.fault slot)
    (hlt : ∀ j, j < b →
      (bcfindsym2go.effect D mem symbol srcb srcv srck.mask srcmask.mask j).isCont = true) :
    ∃ dst msk,
      (bcfindsym2go D mem bc srcb srcv srck symbol srcmask pc).2 = some (dst, msk, pc + 16)
      ∧ (bcfindsym2go D mem bc srcb srcv srck symbol srcmask pc).1.err = bcerrCorrupt
      ∧ (∀ i, b < i → dst.slot i = srcv.slot i)
      ∧ (∀ n, msk.mask.testBit n = true ↔ ∃ i : Fin bcLaneCount, i < b ∧ i.val = n
          ∧ (bcfindsym2go.effect D mem symbol srcb srcv srck.mask srcmask.mask i).found
              = true) := by
  obtain ⟨r, hr, -, herr, -, -, hafter, hbits⟩ :=
    findsym_apply_fault (bcfindsym2go.effect D mem symbol srcb srcv srck.mask srcmask.mask)
      b slot hb hlt { dstv := srcv, retmask := 0, err := bc.err, stop := false } rfl
  refine ⟨r.dstv, { mask := r.retmask }, ?_, ?_, hafter, ?_⟩
  · unfold bcfindsym2go
    rw [bcfindsym2go_loop_eq, hr]
  · unfold bcfindsym2go
    rw [bcfindsym2go_loop_eq, hr]
    exact herr
  · intro n
    rw [hbits n]
    simp only [Nat.zero_testBit, Bool.false_eq_true, false_or]

/-! ## The scan of a well-formed struct body -/

theorem fieldBytes_cons (f : Field) (t : List Field) :
    fieldBytes (f :: t) = f.label ++ (f.value ++ fieldBytes t) := by
  simp only [fieldBytes, List.map_cons, List.flatten_cons, Field.bytes, List.append_assoc]

theorem fieldBytes_append (p q : List Field) :
    fieldBytes (p ++ q) = fieldBytes p ++ fieldBytes q := by
  simp only [fieldBytes, List.map_append, List.flatten_append]

/-- On an empty byte range the scan assigns nothing and finds nothing. -/
theorem findsym_scan_nil (D : IonDecoder) (symbol e fuel : Nat)
    (last : Option (Nat × Nat × Nat × Nat)) :
    findsym.scan D symbol e fuel [] last = findsym.Scan.done last false := by
  cases fuel <;> simp [findsym.scan]

/-- The fuel of the scan never runs out: any two amounts of fuel that cover the length of
the bytes give the same result. -/
theorem findsym_scan_fuel (D : IonDecoder) (symbol e : Nat) (fuel : Nat) :
    ∀ (fuel' : Nat) (mem : List Nat) (last : Option (Nat × Nat × Nat × Nat)),
      mem.length ≤ fuel → mem.length ≤ fuel' →
      findsym.scan D symbol e fuel mem last = findsym.scan D symbol e fuel' mem last := by
  induction fuel with
  | zero =>
    intro fuel' mem last h _
    rw [List.length_eq_zero.mp (Nat.le_zero.mp h), findsym_scan_nil, findsym_scan_nil]
  | succ f ih =>
    intro fuel' mem last h h'
    cases fuel' with
    | zero =>
      rw [List.length_eq_zero.mp (Nat.le_zero.mp h'), findsym_scan_nil, findsym_scan_nil]
    | succ g =>
      rw [findsym.scan, findsym.scan]
      by_cases hlen : mem.length > 0
      · rw [if_pos hlen, if_pos hlen]
        cases D.ReadLabel mem with
        | none => rfl
        | some p =>
          obtain ⟨sym, val⟩ := p
          simp only
          by_cases hgt : sym > symbol
          · rw [if_pos hgt, if_pos hgt]
          · rw [if_neg hgt, if_neg hgt]
            cases val with
            | nil => rfl
            | cons tlv rest =>
              simp only
              by_cases hs : sym = symbol
              · rw [if_pos hs, if_pos hs]
              · rw [if_neg hs, if_neg hs]
                by_cases hp : D.SizeOf (tlv :: rest) < 0
                    ∨ ((tlv :: rest).length : Int) < D.SizeOf (tlv :: rest)
                · rw [if_pos hp, if_pos hp]
                · rw [if_neg hp, if_neg hp]
                  by_cases hd : (List.drop (D.SizeOf (tlv :: rest)).toNat (tlv :: rest)).length
                      < mem.length
                  · rw [if_pos hd, if_pos hd]
                    exact ih g _ _ (by omega) (by omega)
                  · rw [if_neg hd, if_neg hd]
      · rw [if_neg hlen, if_neg hlen]

/-- One iteration of the scan over a well-formed field below the symbol, or at it. -/
theorem findsym_scan_field (D : IonDecoder) (symbol e fuel : Nat) (f : Field)
    (rest : List Nat) (last : Option (Nat × Nat × Nat × Nat)) (hf : D.Encodes f)
    (hle : f.sym ≤ symbol) :
    findsym.scan D symbol e (fuel + 1) (f.label ++ (f.value ++ rest)) last
      = if f.sym = symbol then findsym.Scan.done (some (findsym.valueSlot D e f rest)) true
        else findsym.scan D symbol e fuel rest (some (findsym.valueSlot D e f rest)) := by
  obtain ⟨hlabel, ⟨hpos, hsize⟩, hhdr⟩ := hf
  obtain ⟨v0, vt, hv⟩ : ∃ v0 vt, f.value = v0 :: vt := by
    cases h : f.value with
    | nil => rw [h] at hpos; exact absurd hpos (by decide)
    | cons a t => exact ⟨a, t, rfl⟩
  have hlen : (f.label ++ (f.value ++ rest)).length > 0 := by
    simp only [List.length_append]; omega
  have hval : f.value ++ rest = v0 :: (vt ++ rest) := by rw [hv]; rfl
  have hS : D.SizeOf (v0 :: (vt ++ rest)) = (f.value.length : Int) := by
    rw [← hval]; exact hsize rest
  have hH : D.HeaderSizeOf (v0 :: (vt ++ rest)) = D.HeaderSizeOf f.value := by
    rw [← hval]; exact hhdr rest
  have hslot : ((e + (2 ^ 32 - (v0 :: (vt ++ rest)).length % 2 ^ 32)) % 2 ^ 32,
      (D.SizeOf (v0 :: (vt ++ rest)) % 2 ^ 32).toNat, v0,
      (D.HeaderSizeOf (v0 :: (vt ++ rest)) % 256).toNat) = findsym.valueSlot D e f rest := by
    rw [hS, hH, ← hval]
    simp only [findsym.valueSlot, hv, List.headD_cons]
  have hdrop : List.drop f.value.length (v0 :: (vt ++ rest)) = rest := by
    rw [← hval]; exact List.drop_left f.value rest
  rw [findsym.scan, if_pos hlen, hlabel (f.value ++ rest)]
  simp only
  rw [if_neg (by omega), hval]
  simp only
  rw [hslot]
  by_cases hs : f.sym = symbol
  · rw [if_pos hs, if_pos hs]
  · rw [if_neg hs, if_neg hs, hS]
    have h1 : ¬ ((f.value.length : Int) < 0 ∨ ((v0 :: (vt ++ rest)).length : Int)
        < (f.value.length : Int)) := by
      rw [← hval, List.length_append]; push_cast; omega
    rw [if_neg h1, Int.toNat_ofNat, hdrop, if_pos (by
      simp only [List.length_append, List.length_cons]; omega)]

/-- The scan of a well-formed struct body ends as the lookup in its fields says. -/
theorem findsym_scan_fields (D : IonDecoder) (symbol e : Nat) (fs : List Field)
    (h : ∀ f ∈ fs, D.Encodes f) (fuel : Nat) (hfuel : (fieldBytes fs).length ≤ fuel)
    (last : Option (Nat × Nat × Nat × Nat)) :
    findsym.scan D symbol e fuel (fieldBytes fs) last
      = findsym.Scan.done (findsym.lookup D symbol e fs last).1
          (findsym.lookup D symbol e fs last).2 := by
  induction fs generalizing fuel last with
  | nil =>
    simp only [fieldBytes, List.map_nil, List.flatten_nil, findsym.lookup]
    exact findsym_scan_nil D symbol e fuel last
  | cons f t ih =>
    have hf := h f (List.mem_cons_self f t)
    have ht : ∀ g ∈ t, D.Encodes g := fun g hg => h g (List.mem_cons_of_mem f hg)
    rw [fieldBytes_cons] at hfuel ⊢
    have hpos := hf.2.1.1
    simp only [List.length_append] at hfuel
    obtain ⟨g, rfl⟩ : ∃ g, fuel = g + 1 := ⟨fuel - 1, by omega⟩
    by_cases hgt : f.sym > symbol
    · have hlen : (f.label ++ (f.value ++ fieldBytes t)).length > 0 := by
        simp only [List.length_append]; omega
      rw [findsym.scan, if_pos hlen, hf.1 (f.value ++ fieldBytes t)]
      simp only [hgt, if_true, findsym.lookup]
    · rw [findsym_scan_field D symbol e g f (fieldBytes t) last hf (by omega)]
      simp only [findsym.lookup, hgt, if_false]
      by_cases hs : f.sym = symbol
      · simp only [hs, if_true]
      · simp only [hs, if_false]
        exact ih ht g (by omega) _

/-- The scan of well-formed fields below the symbol that are followed by bytes from which
no label can be read ends by `break outer`. -/
theorem findsym_scan_unreadable (D : IonDecoder) (symbol e : Nat) (fs : List Field)
    (tail : List Nat) (h : ∀ f ∈ fs, D.Encodes f ∧ f.sym < symbol) (ht : tail ≠ [])
    (hl : D.ReadLabel tail = none) (fuel : Nat)
    (hfuel : (fieldBytes fs ++ tail).length ≤ fuel)
    (last : Option (Nat × Nat × Nat × Nat)) :
    ∃ last', findsym.scan D symbol e fuel (fieldBytes fs ++ tail) last
      = findsym.Scan.corrupt last' := by
  induction fs generalizing fuel last with
  | nil =>
    simp only [fieldBytes, List.map_nil, List.flatten_nil, List.nil_append] at hfuel ⊢
    have hlen : tail.length > 0 := List.length_pos.mpr ht
    obtain ⟨g, rfl⟩ : ∃ g, fuel = g + 1 := ⟨fuel - 1, by omega⟩
    refine ⟨last, ?_⟩
    rw [findsym.scan, if_pos hlen, hl]
  | cons f t ih =>
    have hf := h f (List.mem_cons_self f t)
    have htl : ∀ g ∈ t, D.Encodes g ∧ g.sym < symbol :=
      fun g hg => h g (List.mem_cons_of_mem f hg)
    rw [fieldBytes_cons, List.append_assoc, List.append_assoc] at hfuel ⊢
    have hpos := hf.1.2.1.1
    simp only [List.length_append] at hfuel
    obtain ⟨g, rfl⟩ : ∃ g, fuel = g + 1 := ⟨fuel - 1, by omega⟩
    rw [findsym_scan_field D symbol e g f (fieldBytes t ++ tail) last hf.1 (by omega),
      if_neg (by omega)]
    exact ih htl g (by simp only [List.length_append]; omega) _

/-! ## The effect of a lane -/

theorem bcfindsymgo_effect_inactive (D : IonDecoder) (mem : vmref → List Nat)
    (symbol : Nat) (src : bRegData) (srcmask : Nat) (i : Fin bcLaneCount)
    (h : srcmask.testBit i.val = false) :
    bcfindsymgo.effect D mem symbol src srcmask i
      = findsym.Effect.cont (some (src.offsets i, 0, 0, 0)) false := by
  rw [bcfindsymgo.effect, if_pos ((and_one_shiftLeft_eq_zero _ _).mpr h)]

/-- An active lane of `bcfindsymgo` over a well-formed struct body. -/
theorem bcfindsymgo_effect_fields (D : IonDecoder) (mem : vmref → List Nat)
    (symbol : Nat) (src : bRegData) (srcmask : Nat) (i : Fin bcLaneCount)
    (fs : List Field) (hact : srcmask.testBit i.val = true)
    (hbody : mem { offset := src.offsets i, size := src.sizes i } = fieldBytes fs)
    (hwf : ∀ f ∈ fs, D.Encodes f) :
    bcfindsymgo.effect D mem symbol src srcmask i
      = findsym.Effect.cont
          (some ((findsym.lookup D symbol ((src.offsets i + src.sizes i) % 2 ^ 32) fs
            none).1.getD (src.offsets i, 0, 0, 0)))
          (findsym.lookup D symbol ((src.offsets i + src.sizes i) % 2 ^ 32) fs none).2 := by
  rw [bcfindsymgo.effect, if_neg ((and_one_shiftLeft_ne_zero _ _).mpr hact)]
  unfold bcfindsymgo.lane
  simp only [hbody]
  rw [findsym_scan_fields D symbol _ fs hwf _ (Nat.le_refl _) none]

/-- An active lane of `bcfindsymgo` that meets bytes from which no label can be read. -/
theorem bcfindsymgo_effect_unreadable (D : IonDecoder) (mem : vmref → List Nat)
    (symbol : Nat) (src : bRegData) (srcmask : Nat) (i : Fin bcLaneCount)
    (fs : List Field) (tail : List Nat) (hact : srcmask.testBit i.val = true)
    (hbody : mem { offset := src.offsets i, size := src.sizes i } = fieldBytes fs ++ tail)
    (hwf : ∀ f ∈ fs, D.Encodes f ∧ f.sym < symbol) (ht : tail ≠ [])
    (hl : D.ReadLabel tail = none) :
    ∃ slot, bcfindsymgo.effect D mem symbol src srcmask i = findsym.Effect.fault slot := by
  rw [bcfindsymgo.effect, if_neg ((and_one_shiftLeft_ne_zero _ _).mpr hact)]
  unfold bcfindsymgo.lane
  simp only [hbody]
  obtain ⟨last, hlast⟩ :=
    findsym_scan_unreadable D symbol ((src.offsets i + src.sizes i) % 2 ^ 32) fs tail hwf ht
      hl _ (Nat.le_refl _) none
  rw [hlast]
  exact ⟨_, rfl⟩

theorem bcfindsym2go_effect_inactive (D : IonDecoder) (mem : vmref → List Nat)
    (symbol : Nat) (srcb : bRegData) (srcv : vRegData) (srck srcmask : Nat)
    (i : Fin bcLaneCount) (h : srcmask.testBit i.val = false) :
    bcfindsym2go.effect D mem symbol srcb srcv srck srcmask i
      = findsym.Effect.cont none false := by
  rw [bcfindsym2go.effect, if_pos ((and_one_shiftLeft_eq_zero _ _).mpr h)]

/-- An active lane of `bcfindsym2go` whose search position is at or past the end. -/
theorem bcfindsym2go_effect_skip (D : IonDecoder) (mem : vmref → List Nat)
    (symbol : Nat) (srcb : bRegData) (srcv : vRegData) (srck srcmask : Nat)
    (i : Fin bcLaneCount) (hact : srcmask.testBit i.val = true)
    (hr : bcfindsym2go.range srcb srcv srck i = none) :
    bcfindsym2go.effect D mem symbol srcb srcv srck srcmask i
      = findsym.Effect.cont none false := by
  rw [bcfindsym2go.effect, if_neg ((and_one_shiftLeft_ne_zero _ _).mpr hact)]
  unfold bcfindsym2go.lane
  rw [hr]

/-- An active lane of `bcfindsym2go` that scans well-formed fields. -/
theorem bcfindsym2go_effect_fields (D : IonDecoder) (mem : vmref → List Nat)
    (symbol : Nat) (srcb : bRegData) (srcv : vRegData) (srck srcmask : Nat)
    (i : Fin bcLaneCount) (r : vmref) (fs : List Field)
    (hact : srcmask.testBit i.val = true)
    (hr : bcfindsym2go.range srcb srcv srck i = some r) (hbody : mem r = fieldBytes fs)
    (hwf : ∀ f ∈ fs, D.Encodes f) :
    bcfindsym2go.effect D mem symbol srcb srcv srck srcmask i
      = findsym.Effect.cont
          (findsym.lookup D symbol ((srcb.offsets i + srcb.sizes i) % 2 ^ 32) fs none).1
          (findsym.lookup D symbol ((srcb.offsets i + srcb.sizes i) % 2 ^ 32) fs none).2 := by
  rw [bcfindsym2go.effect, if_neg ((and_one_shiftLeft_ne_zero _ _).mpr hact)]
  unfold bcfindsym2go.lane
  rw [hr]
  simp only [hbody]
  rw [findsym_scan_fields D symbol _ fs hwf _ (Nat.le_refl _) none]

/-- An active lane of `bcfindsym2go` that meets bytes from which no label can be read. -/
theorem bcfindsym2go_effect_unreadable (D : IonDecoder) (mem : vmref → List Nat)
    (symbol : Nat) (srcb : bRegData) (srcv : vRegData) (srck srcmask : Nat)
    (i : Fin bcLaneCount) (r : vmref) (fs : List Field) (tail : List Nat)
    (hact : srcmask.testBit i.val = true)
    (hr : bcfindsym2go.range srcb srcv srck i = some r)
    (hbody : mem r = fieldBytes fs ++ tail)
    (hwf : ∀ f ∈ fs, D.Encodes f ∧ f.sym < symbol) (ht : tail ≠ [])
    (hl : D.ReadLabel tail = none) :
    ∃ slot, bcfindsym2go.effect D mem symbol srcb srcv srck srcmask i
      = findsym.Effect.fault slot := by
  rw [bcfindsym2go.effect, if_neg ((and_one_shiftLeft_ne_zero _ _).mpr hact)]
  unfold bcfindsym2go.lane
  rw [hr]
  simp only [hbody]
  obtain ⟨last, hlast⟩ :=
    findsym_scan_unreadable D symbol ((srcb.offsets i + srcb.sizes i) % 2 ^ 32) fs tail hwf
      ht hl _ (Nat.le_refl _) none
  rw [hlast]
  exact ⟨_, rfl⟩

/-- A lane whose effect found the symbol is active. -/
theorem bcfindsymgo_effect_found (D : IonDecoder) (mem : vmref → List Nat)
    (symbol : Nat) (src : bRegData) (srcmask : Nat) (i : Fin bcLaneCount)
    (h : (bcfindsymgo.effect D mem symbol src srcmask i).found = true) :
    srcmask.testBit i.val = true := by
  cases hb : srcmask.testBit i.val with
  | true => rfl
  | false =>
    rw [bcfindsymgo_effect_inactive D mem symbol src srcmask i hb] at h
    exact absurd h (by simp [findsym.Effect.found])

theorem bcfindsym2go_effect_found (D : IonDecoder) (mem : vmref → List Nat)
    (symbol : Nat) (srcb : bRegData) (srcv : vRegData) (srck srcmask : Nat)
    (i : Fin bcLaneCount)
    (h : (bcfindsym2go.effect D mem symbol srcb srcv srck srcmask i).found = true) :
    srcmask.testBit i.val = true := by
  cases hb : srcmask.testBit i.val with
  | true => rfl
  | false =>
    rw [bcfindsym2go_effect_inactive D mem symbol srcb srcv srck srcmask i hb] at h
    exact absurd h (by simp [findsym.Effect.found])

/-! ## The lookup in a sequence of fields -/

/-- In fields of ascending symbols the lookup finds the symbol iff a field has it. -/
theorem lookup_found_iff (D : IonDecoder) (symbol e : Nat) (fs : List Field)
    (hs : (fs.map Field.sym).Pairwise (· < ·)) (last : Option (Nat × Nat × Nat × Nat)) :
    (findsym.lookup D symbol e fs last).2 = true ↔ ∃ f ∈ fs, f.sym = symbol := by
  induction fs generalizing last with
  | nil => simp [findsym.lookup]
  | cons f t ih =>
    rw [List.map_cons, List.pairwise_cons] at hs
    rw [findsym.lookup]
    by_cases hgt : f.sym > symbol
    · rw [if_pos hgt]
      constructor
      · intro h; exact absurd h (by simp)
      · rintro ⟨g, hg, hgs⟩
        rcases List.mem_cons.mp hg with e1 | e1
        · rw [e1] at hgs; omega
        · have := hs.1 g.sym (List.mem_map_of_mem Field.sym e1)
          omega
    · rw [if_neg hgt]
      by_cases heq : f.sym = symbol
      · rw [if_pos heq]
        exact ⟨fun _ => ⟨f, List.mem_cons_self f t, heq⟩, fun _ => rfl⟩
      · rw [if_neg heq, ih hs.2]
        constructor
        · rintro ⟨g, hg, hgs⟩
          exact ⟨g, List.mem_cons_of_mem f hg, hgs⟩
        · rintro ⟨g, hg, hgs⟩
          rcases List.mem_cons.mp hg with e1 | e1
          · rw [e1] at hgs; exact absurd hgs heq
          · exact ⟨g, e1, hgs⟩

/-- The lookup passes fields below the symbol. -/
theorem lookup_skip (D : IonDecoder) (symbol e : Nat) (pre : List Field) (f : Field)
    (post : List Field) (hpre : ∀ g ∈ pre, g.sym < symbol) (hf : f.sym < symbol)
    (last : Option (Nat × Nat × Nat × Nat)) :
    findsym.lookup D symbol e (pre ++ f :: post) last
      = findsym.lookup D symbol e post (some (findsym.valueSlot D e f (fieldBytes post))) := by
  induction pre generalizing last with
  | nil =>
    rw [List.nil_append, findsym.lookup, if_neg (by omega), if_neg (by omega)]
  | cons p t ih =>
    have hp := hpre p (List.mem_cons_self p t)
    rw [List.cons_append, findsym.lookup, if_neg (by omega), if_neg (by omega)]
    exact ih (fun g hg => hpre g (List.mem_cons_of_mem p hg)) _

/-- The lookup stops at the first field with the symbol, after fields below it. -/
theorem lookup_hit (D : IonDecoder) (symbol e : Nat) (pre : List Field) (f : Field)
    (post : List Field) (hpre : ∀ g ∈ pre, g.sym < symbol) (hf : f.sym = symbol)
    (last : Option (Nat × Nat × Nat × Nat)) :
    findsym.lookup D symbol e (pre ++ f :: post) last
      = (some (findsym.valueSlot D e f (fieldBytes post)), true) := by
  induction pre generalizing last with
  | nil =>
    rw [List.nil_append, findsym.lookup, if_neg (by omega), if_pos hf]
  | cons p t ih =>
    have hp := hpre p (List.mem_cons_self p t)
    rw [List.cons_append, findsym.lookup, if_neg (by omega), if_neg (by omega)]
    exact ih (fun g hg => hpre g (List.mem_cons_of_mem p hg)) _

/-- A lookup that finds the symbol found it after fields below it. -/
theorem lookup_found_split (D : IonDecoder) (symbol e : Nat) (fs : List Field)
    (last : Option (Nat × Nat × Nat × Nat))
    (h : (findsym.lookup D symbol e fs last).2 = true) :
    ∃ pre f post,
      fs = pre ++ f :: post ∧ (∀ g ∈ pre, g.sym < symbol) ∧ f.sym = symbol := by
  induction fs generalizing last with
  | nil => simp [findsym.lookup] at h
  | cons f t ih =>
    rw [findsym.lookup] at h
    by_cases hgt : f.sym > symbol
    · rw [if_pos hgt] at h
      exact absurd h (by simp)
    · rw [if_neg hgt] at h
      by_cases heq : f.sym = symbol
      · exact ⟨[], f, t, rfl, fun g hg => absurd hg (List.not_mem_nil g), heq⟩
      · rw [if_neg heq] at h
        obtain ⟨pre, g, post, h1, h2, h3⟩ := ih _ h
        refine ⟨f :: pre, g, post, by rw [h1]; rfl, ?_, h3⟩
        intro x hx
        rcases List.mem_cons.mp hx with e1 | e1
        · rw [e1]; omega
        · exact h2 x e1

/-- The slot that the lookup had before matters only when the lookup visits no field. -/
theorem lookup_last (D : IonDecoder) (symbol e : Nat) (fs : List Field)
    (x : Nat × Nat × Nat × Nat) :
    (findsym.lookup D symbol e fs (some x)).1
        = some ((findsym.lookup D symbol e fs none).1.getD x)
      ∧ (findsym.lookup D symbol e fs (some x)).2 = (findsym.lookup D symbol e fs none).2 := by
  cases fs with
  | nil => simp [findsym.lookup]
  | cons f t =>
    rw [findsym.lookup, findsym.lookup]
    by_cases hgt : f.sym > symbol
    · simp [hgt]
    · rw [if_neg hgt, if_neg hgt]
      by_cases heq : f.sym = symbol
      · simp [heq]
      · rw [if_neg heq]
        refine ⟨?_, rfl⟩
        generalize findsym.valueSlot D e f (fieldBytes t) = y
        clear hgt heq
        induction t generalizing y with
        | nil => simp [findsym.lookup]
        | cons g u ih =>
          rw [findsym.lookup]
          by_cases h1 : g.sym > symbol
          · simp [h1]
          · rw [if_neg h1]
            by_cases h2 : g.sym = symbol
            · simp [h2]
            · rw [if_neg h2]
              exact ih _

/-- A lookup for a larger symbol that visits no field: neither does the lookup for a
smaller symbol. -/
theorem lookup_none_mono (D : IonDecoder) (a b e : Nat) (fs : List Field) (hab : a < b)
    (h : (findsym.lookup D b e fs none).1 = none) :
    (findsym.lookup D a e fs none).1 = none := by
  cases fs with
  | nil => rfl
  | cons f t =>
    rw [findsym.lookup] at h ⊢
    by_cases hgt : f.sym > b
    · rw [if_pos (by omega)]
    · rw [if_neg hgt] at h
      by_cases heq : f.sym = b
      · rw [if_pos heq] at h
        exact absurd h (by simp)
      · rw [if_neg heq] at h
        rw [(lookup_last D b e t _).1] at h
        exact absurd h (by simp)

/-! ## Slices of the scratch buffer -/

/-- A part of a resolved slice is the slice resolved at the part. -/
theorem vmref_mem_part (buffer : List Nat) (s w : Nat) (p q r : List Nat)
    (h : vmref.mem buffer { offset := s, size := w } = p ++ (q ++ r)) :
    vmref.mem buffer { offset := s + p.length, size := q.length } = q := by
  unfold vmref.mem at h ⊢
  simp only at h ⊢
  have h1 : buffer.drop s = (p ++ (q ++ r)) ++ (buffer.drop s).drop w := by
    rw [← h, List.take_append_drop]
  rw [← List.drop_drop, h1, List.append_assoc, List.drop_left, List.append_assoc,
    List.take_left]

/-- A slice inside the buffer has the length of its reference. -/
theorem vmref_mem_length (buffer : List Nat) (s w : Nat) (h : s + w ≤ buffer.length) :
    (vmref.mem buffer { offset := s, size := w }).length = w := by
  unfold vmref.mem
  simp only [List.length_take, List.length_drop]
  omega

/-- An active lane of `bcfindsymgo` whose scan is left normally goes on. -/
theorem bcfindsymgo_effect_done (D : IonDecoder) (mem : vmref → List Nat)
    (symbol : Nat) (src : bRegData) (srcmask : Nat) (i : Fin bcLaneCount)
    (last : Option (Nat × Nat × Nat × Nat)) (found : Bool)
    (h : bcfindsymgo.lane D mem symbol src i = findsym.Scan.done last found) :
    (bcfindsymgo.effect D mem symbol src srcmask i).isCont = true := by
  unfold bcfindsymgo.effect
  by_cases hm : srcmask &&& (1 <<< i.val) = 0
  · rw [if_pos hm]; rfl
  · rw [if_neg hm, h]; rfl

/-- An active lane of `bcfindsym2go` whose scan is left normally goes on. -/
theorem bcfindsym2go_effect_done (D : IonDecoder) (mem : vmref → List Nat)
    (symbol : Nat) (srcb : bRegData) (srcv : vRegData) (srck srcmask : Nat)
    (i : Fin bcLaneCount) (last : Option (Nat × Nat × Nat × Nat)) (found : Bool)
    (h : bcfindsym2go.lane D mem symbol srcb srcv srck i = findsym.Scan.done last found) :
    (bcfindsym2go.effect D mem symbol srcb srcv srck srcmask i).isCont = true := by
  unfold bcfindsym2go.effect
  by_cases hm : srcmask &&& (1 <<< i.val) = 0
  · rw [if_pos hm]; rfl
  · rw [if_neg hm, h]; rfl

/-- The lanes of `bcfindsymgo` go on when the scan of every active lane is left
normally. -/
theorem bcfindsymgo_effect_cont (D : IonDecoder) (mem : vmref → List Nat)
    (symbol : Nat) (src : bRegData) (srcmask : Nat) (j : Fin bcLaneCount)
    (h : srcmask.testBit j.val = true →
      ∃ last found, bcfindsymgo.lane D mem symbol src j = findsym.Scan.done last found) :
    (bcfindsymgo.effect D mem symbol src srcmask j).isCont = true := by
  cases hb : srcmask.testBit j.val with
  | false => rw [bcfindsymgo_effect_inactive D mem symbol src srcmask j hb]; rfl
  | true =>
    obtain ⟨last, found, hl⟩ := h hb
    exact bcfindsymgo_effect_done D mem symbol src srcmask j last found hl

/-- The lanes of `bcfindsym2go` go on when the scan of every active lane is left
normally. -/
theorem bcfindsym2go_effect_cont (D : IonDecoder) (mem : vmref → List Nat)
    (symbol : Nat) (srcb : bRegData) (srcv : vRegData) (srck srcmask : Nat)
    (j : Fin bcLaneCount)
    (h : srcmask.testBit j.val = true → ∃ last found,
      bcfindsym2go.lane D mem symbol srcb srcv srck j = findsym.Scan.done last found) :
    (bcfindsym2go.effect D mem symbol srcb srcv srck srcmask j).isCont = true := by
  cases hb : srcmask.testBit j.val with
  | false => rw [bcfindsym2go_effect_inactive D mem symbol srcb srcv srck srcmask j hb]; rfl
  | true =>
    obtain ⟨last, found, hl⟩ := h hb
    exact bcfindsym2go_effect_done D mem symbol srcb srcv srck srcmask j last found hl

/-- The effect of a lane of `bcfindsymgo` found the symbol iff the lane is active and its
scan is left at a match. -/
theorem bcfindsymgo_effect_found_iff (D : IonDecoder) (mem : vmref → List Nat)
    (symbol : Nat) (src : bRegData) (srcmask : Nat) (i : Fin bcLaneCount) :
    (bcfindsymgo.effect D mem symbol src srcmask i).found = true
      ↔ srcmask.testBit i.val = true
        ∧ ∃ last, bcfindsymgo.lane D mem symbol src i = findsym.Scan.done last true := by
  cases hb : srcmask.testBit i.val with
  | false =>
    rw [bcfindsymgo_effect_inactive D mem symbol src srcmask i hb]
    simp [findsym.Effect.found]
  | true =>
    rw [bcfindsymgo.effect, if_neg ((and_one_shiftLeft_ne_zero _ _).mpr hb)]
    cases bcfindsymgo.lane D mem symbol src i with
    | done last found => cases found <;> simp [findsym.Effect.found]
    | corrupt last => simp [findsym.Effect.found]
    | panic => simp [findsym.Effect.found]
    | hang => simp [findsym.Effect.found]

/-- The effect of a lane of `bcfindsym2go` found the symbol iff the lane is active and its
scan is left at a match. -/
theorem bcfindsym2go_effect_found_iff (D : IonDecoder) (mem : vmref → List Nat)
    (symbol : Nat) (srcb : bRegData) (srcv : vRegData) (srck srcmask : Nat)
    (i : Fin bcLaneCount) :
    (bcfindsym2go.effect D mem symbol srcb srcv srck srcmask i).found = true
      ↔ srcmask.testBit i.val = true ∧ ∃ last,
          bcfindsym2go.lane D mem symbol srcb srcv srck i = findsym.Scan.done last true := by
  cases hb : srcmask.testBit i.val with
  | false =>
    rw [bcfindsym2go_effect_inactive D mem symbol srcb srcv srck srcmask i hb]
    simp [findsym.Effect.found]
  | true =>
    rw [bcfindsym2go.effect, if_neg ((and_one_shiftLeft_ne_zero _ _).mpr hb)]
    cases bcfindsym2go.lane D mem symbol srcb srcv srck i with
    | done last found => cases found <;> simp [findsym.Effect.found]
    | corrupt last => simp [findsym.Effect.found]
    | panic => simp [findsym.Effect.found]
    | hang => simp [findsym.Effect.found]

/-- The fields of `exampleStruct` are well-formed for the example decoder. -/
theorem exampleFields_encoded : ∀ f ∈ exampleFields, ion.decoder.Encodes f := by
  intro f hf
  simp only [exampleFields, List.mem_cons, List.mem_singleton, List.not_mem_nil,
    or_false] at hf
  rcases hf with e | e | e <;> rw [e] <;>
    refine ⟨fun rest => ?_, ⟨by decide, fun rest => ?_⟩, fun rest => ?_⟩ <;>
    simp [IonDecoder.ReadLabel, ion.decoder, ion.readVarUInt, ion.declaredSize]

/-! ## Claims C11 to C14: find-symbol -/

/-- C11. find-symbol (fresh) decides field presence: for an active lane whose struct body
is a well-formed sequence of (symbol-id, value) pairs in strictly ascending symbol-id
order, the handler (when the scan of every other active lane is left normally) returns
without setting the fault field, and the output mask bit of the lane is set iff some field
has the target symbol. -/
theorem bcfindsymgo_decides_presence (D : IonDecoder) (mem : vmref → List Nat)
    (bc : bytecode) (dstv : vRegData) (srcb : bRegData) (symbol : Nat) (k : kRegData)
    (pc : Nat) (i : Fin bcLaneCount) (fs : List Field)
    (hact : k.mask.testBit i.val = true)
    (hbody : mem { offset := srcb.offsets i, size := srcb.sizes i } = fieldBytes fs)
    (hwf : ∀ f ∈ fs, D.Encodes f)
    (hasc : (fs.map Field.sym).Pairwise (· < ·))
    (hrest : ∀ j : Fin bcLaneCount, j ≠ i → k.mask.testBit j.val = true →
      ∃ last found, bcfindsymgo.lane D mem symbol srcb j = findsym.Scan.done last found) :
    ∃ dst msk,
      (bcfindsymgo D mem bc dstv srcb symbol k pc).2 = some (dst, msk, pc + 12)
      ∧ (bcfindsymgo D mem bc dstv srcb symbol k pc).1.err = bc.err
      ∧ (msk.mask.testBit i.val = true ↔ ∃ f ∈ fs, f.sym = symbol) := by
  have hi := bcfindsymgo_effect_fields D mem symbol srcb k.mask i fs hact hbody hwf
  have hc : ∀ j, (bcfindsymgo.effect D mem symbol srcb k.mask j).isCont = true := by
    intro j
    by_cases e : j = i
    · rw [e, hi]; rfl
    · exact bcfindsymgo_effect_cont D mem symbol srcb k.mask j (hrest j e)
  obtain ⟨dst, msk, hout, herr, -, hbits⟩ :=
    bcfindsymgo_of_cont D mem bc dstv srcb symbol k pc hc
  refine ⟨dst, msk, hout, herr, ?_⟩
  rw [hbits i.val, ← lookup_found_iff D symbol ((srcb.offsets i + srcb.sizes i) % 2 ^ 32)
    fs hasc none]
  constructor
  · rintro ⟨j, hj, hf⟩
    have : j = i := Fin.ext hj
    rw [this, hi] at hf
    exact hf
  · intro hf
    refine ⟨i, rfl, ?_⟩
    rw [hi]
    exact hf

/-- C11, witness: the struct `{2:"A", 5:"B", 9:"C"}` in lane 0, target 5. -/
theorem bcfindsymgo_decides_presence_witness :
    ∃ dst msk,
      (bcfindsymgo ion.decoder (vmref.mem exampleStruct) exampleBytecode vRegData.zero
          (bRegData.splat 1 9) 5 { mask := 1 } 0).2 = some (dst, msk, 0 + 12)
      ∧ msk.mask.testBit 0 = true := by
  obtain ⟨dst, msk, h1, -, h3⟩ :=
    bcfindsymgo_decides_presence ion.decoder (vmref.mem exampleStruct) exampleBytecode
      vRegData.zero (bRegData.splat 1 9) 5 { mask := 1 } 0 0 exampleFields (by decide)
      (by decide) exampleFields_encoded (by decide)
      (by
        intro j hj hb
        exfalso
        revert j
        decide)
  exact ⟨dst, msk, h1, h3.mpr ⟨{ sym := 5, label := [0x85], value := [0x81, 0x42] },
    by simp [exampleFields], rfl⟩⟩

/-- C12. When find-symbol (fresh) matches in a lane (a well-formed struct in the scratch
buffer, the scan of every other active lane left normally), the output ValueRef spans
exactly the value bytes of the matched field: its offset is the position right after the
label, its size is the total size of the value, its tag is the first byte of the value,
its header size is the header size of the value (as a byte), and resolving it yields the
encoding of the value. -/
theorem bcfindsymgo_match_slot (D : IonDecoder) (buffer : List Nat) (bc : bytecode)
    (dstv : vRegData) (srcb : bRegData) (symbol : Nat) (k : kRegData) (pc : Nat)
    (i : Fin bcLaneCount) (pre : List Field) (f : Field) (post : List Field)
    (hact : k.mask.testBit i.val = true)
    (hbuf : buffer.length < 2 ^ 32)
    (hin : srcb.offsets i + srcb.sizes i ≤ buffer.length)
    (hbody : vmref.mem buffer { offset := srcb.offsets i, size := srcb.sizes i }
      = fieldBytes (pre ++ f :: post))
    (hwf : ∀ g ∈ pre ++ f :: post, D.Encodes g)
    (hasc : ((pre ++ f :: post).map Field.sym).Pairwise (· < ·))
    (hsym : f.sym = symbol)
    (hrest : ∀ j : Fin bcLaneCount, j ≠ i → k.mask.testBit j.val = true →
      ∃ last found,
        bcfindsymgo.lane D (vmref.mem buffer) symbol srcb j = findsym.Scan.done last found) :
    ∃ dst msk,
      (bcfindsymgo D (vmref.mem buffer) bc dstv srcb symbol k pc).2
        = some (dst, msk, pc + 12)
      ∧ msk.mask.testBit i.val = true
      ∧ dst.offsets i = srcb.offsets i + (fieldBytes pre).length + f.label.length
      ∧ dst.sizes i = f.value.length
      ∧ f.value.head? = some (dst.typeL i)
      ∧ dst.headerSize i = (D.HeaderSizeOf f.value % 256).toNat
      ∧ vmref.mem buffer { offset := dst.offsets i, size := dst.sizes i } = f.value := by
  have hpre : ∀ g ∈ pre, g.sym < symbol := by
    intro g hg
    rw [List.map_append, List.map_cons] at hasc
    have := (List.pairwise_append.mp hasc).2.2 g.sym (List.mem_map_of_mem Field.sym hg)
      f.sym (List.mem_cons_self _ _)
    omega
  have hi := bcfindsymgo_effect_fields D (vmref.mem buffer) symbol srcb k.mask i
    (pre ++ f :: post) hact hbody hwf
  rw [lookup_hit D symbol _ pre f post hpre hsym none] at hi
  have hc : ∀ j,
      (bcfindsymgo.effect D (vmref.mem buffer) symbol srcb k.mask j).isCont = true := by
    intro j
    by_cases e : j = i
    · rw [e, hi]; rfl
    · exact bcfindsymgo_effect_cont D (vmref.mem buffer) symbol srcb k.mask j (hrest j e)
  obtain ⟨dst, msk, hout, -, hslot, hbits⟩ :=
    bcfindsymgo_of_cont D (vmref.mem buffer) bc dstv srcb symbol k pc hc
  have hs := hslot i
  rw [hi] at hs
  simp only [findsym.Effect.slot, Option.getD_some, vRegData.slot, findsym.valueSlot,
    Prod.mk.injEq] at hs
  obtain ⟨ho, hsz, hty, hhs⟩ := hs
  have hlen := vmref_mem_length buffer _ _ hin
  rw [hbody, fieldBytes_append, fieldBytes_cons] at hlen
  simp only [List.length_append] at hlen
  have hvpos := (hwf f (by simp)).2.1.1
  have hpow : (2 : Nat) ^ 32 = 4294967296 := by norm_num
  rw [hpow] at hbuf
  have ho' : dst.offsets i = srcb.offsets i + (fieldBytes pre).length + f.label.length := by
    rw [ho, List.length_append, hpow]
    omega
  have hsz' : dst.sizes i = f.value.length := by
    rw [hsz]
    have : ((f.value.length : Int) % 2 ^ 32) = (f.value.length : Int) := by
      apply Int.emod_eq_of_lt <;> omega
    rw [this, Int.toNat_ofNat]
  refine ⟨dst, msk, hout, ?_, ho', hsz', ?_, hhs, ?_⟩
  · rw [hbits i.val]
    refine ⟨i, rfl, ?_⟩
    rw [hi]; rfl
  · rw [hty]
    cases hv : f.value with
    | nil => rw [hv] at hvpos; exact absurd hvpos (by decide)
    | cons a t => rfl
  · rw [ho', hsz']
    have hb2 : vmref.mem buffer { offset := srcb.offsets i, size := srcb.sizes i }
        = (fieldBytes pre ++ f.label) ++ (f.value ++ fieldBytes post) := by
      rw [hbody, fieldBytes_append, fieldBytes_cons, List.append_assoc]
    have := vmref_mem_part buffer _ _ _ _ _ hb2
    rw [List.length_append, ← Nat.add_assoc] at this
    exact this

/-- C12, witness: the struct `{2:"A", 5:"B", 9:"C"}` in lane 0, target 5: the slot is
offset 5, size 2, tag `0x81`, header size 1, and resolves to `0x81 0x42`. -/
theorem bcfindsymgo_match_slot_witness :
    ∃ dst msk,
      (bcfindsymgo ion.decoder (vmref.mem exampleStruct) exampleBytecode vRegData.zero
          (bRegData.splat 1 9) 5 { mask := 1 } 0).2 = some (dst, msk, 0 + 12)
      ∧ dst.offsets 0 = 5 ∧ dst.sizes 0 = 2
      ∧ vmref.mem exampleStruct { offset := dst.offsets 0, size := dst.sizes 0 }
        = [0x81, 0x42] := by
  obtain ⟨dst, msk, h1, -, h3, h4, -, -, h7⟩ :=
    bcfindsymgo_match_slot ion.decoder exampleStruct exampleBytecode vRegData.zero
      (bRegData.splat 1 9) 5 { mask := 1 } 0 0
      [{ sym := 2, label := [0x82], value := [0x81, 0x41] }]
      { sym := 5, label := [0x85], value := [0x81, 0x42] }
      [{ sym := 9, label := [0x89], value := [0x81, 0x43] }]
      (by decide) (by decide) (by decide) (by decide) exampleFields_encoded (by decide)
      rfl
      (by
        intro j hj hb
        exfalso
        revert j
        decide)
  exact ⟨dst, msk, h1, h3, h4, h7⟩

/-- C13. In find-symbol (fresh and resume), when the scan of an active lane `i` passes
well-formed fields below the target and then meets bytes from which no symbol id can be
read (the scans of the active lanes before `i` being left normally), the handler returns
with the fault field set to the corruption fault, every lane after `i` keeps the slot the
output register had before the loop, and the output mask holds exactly the matches of the
active lanes before `i`. -/
theorem findsym_unreadable_label (D : IonDecoder) (mem : vmref → List Nat) (bc : bytecode)
    (symbol : Nat) (pc : Nat) (i : Fin bcLaneCount) (fs : List Field) (tail : List Nat)
    (hwf : ∀ f ∈ fs, D.Encodes f ∧ f.sym < symbol) (ht : tail ≠ [])
    (hl : D.ReadLabel tail = none) :
    (∀ (dstv : vRegData) (srcb : bRegData) (k : kRegData),
      k.mask.testBit i.val = true →
      mem { offset := srcb.offsets i, size := srcb.sizes i } = fieldBytes fs ++ tail →
      (∀ j : Fin bcLaneCount, j < i → k.mask.testBit j.val = true → ∃ last found,
        bcfindsymgo.lane D mem symbol srcb j = findsym.Scan.done last found) →
      ∃ dst msk,
        (bcfindsymgo D mem bc dstv srcb symbol k pc).2 = some (dst, msk, pc + 12)
        ∧ (bcfindsymgo D mem bc dstv srcb symbol k pc).1.err = bcerrCorrupt
        ∧ (∀ j, i < j → dst.slot j = dstv.slot j)
        ∧ (∀ n, msk.mask.testBit n = true ↔ ∃ j : Fin bcLaneCount, j < i ∧ j.val = n
            ∧ k.mask.testBit j.val = true
            ∧ ∃ last, bcfindsymgo.lane D mem symbol srcb j = findsym.Scan.done last true))
    ∧ (∀ (srcb : bRegData) (srcv : vRegData) (srck k : kRegData) (r : vmref),
      k.mask.testBit i.val = true →
      bcfindsym2go.range srcb srcv srck.mask i = some r →
      mem r = fieldBytes fs ++ tail →
      (∀ j : Fin bcLaneCount, j < i → k.mask.testBit j.val = true → ∃ last found,
        bcfindsym2go.lane D mem symbol srcb srcv srck.mask j
          = findsym.Scan.done last found) →
      ∃ dst msk,
        (bcfindsym2go D mem bc srcb srcv srck symbol k pc).2 = some (dst, msk, pc + 16)
        ∧ (bcfindsym2go D mem bc srcb srcv srck symbol k pc).1.err = bcerrCorrupt
        ∧ (∀ j, i < j → dst.slot j = srcv.slot j)
        ∧ (∀ n, msk.mask.testBit n = true ↔ ∃ j : Fin bcLaneCount, j < i ∧ j.val = n
            ∧ k.mask.testBit j.val = true
            ∧ ∃ last, bcfindsym2go.lane D mem symbol srcb srcv srck.mask j
                = findsym.Scan.done last true)) := by
  constructor
  · intro dstv srcb k hact hbody hbefore
    obtain ⟨slot, hslot⟩ :=
      bcfindsymgo_effect_unreadable D mem symbol srcb k.mask i fs tail hact hbody hwf ht hl
    obtain ⟨dst, msk, h1, h2, h3, h4⟩ :=
      bcfindsymgo_of_fault D mem bc dstv srcb symbol k pc i slot hslot
        (fun j hj => bcfindsymgo_effect_cont D mem symbol srcb k.mask j (hbefore j hj))
    refine ⟨dst, msk, h1, h2, h3, ?_⟩
    intro n
    rw [h4 n]
    simp only [bcfindsymgo_effect_found_iff]
  · intro srcb srcv srck k r hact hr hbody hbefore
    obtain ⟨slot, hslot⟩ :=
      bcfindsym2go_effect_unreadable D mem symbol srcb srcv srck.mask k.mask i r fs tail
        hact hr hbody hwf ht hl
    obtain ⟨dst, msk, h1, h2, h3, h4⟩ :=
      bcfindsym2go_of_fault D mem bc srcb srcv srck symbol k pc i slot hslot
        (fun j hj =>
          bcfindsym2go_effect_cont D mem symbol srcb srcv srck.mask k.mask j (hbefore j hj))
    refine ⟨dst, msk, h1, h2, h3, ?_⟩
    intro n
    rw [h4 n]
    simp only [bcfindsym2go_effect_found_iff]

/-- C13, witness: lane 0 holds the field `0x82 0x81 0x41` followed by the unreadable byte
`0x05`; find-symbol for 5 sets the fault and leaves lane 1 untouched. -/
theorem findsym_unreadable_label_witness :
    ∃ dst msk,
      (bcfindsymgo ion.decoder (vmref.mem exampleUnreadable) exampleBytecode
          (vRegData.splat 7 7 7 7) (bRegData.splat 0 4) 5 { mask := 3 } 0).2
        = some (dst, msk, 0 + 12)
      ∧ (bcfindsymgo ion.decoder (vmref.mem exampleUnreadable) exampleBytecode
          (vRegData.splat 7 7 7 7) (bRegData.splat 0 4) 5 { mask := 3 } 0).1.err
        = bcerrCorrupt
      ∧ dst.slot 1 = (7, 7, 7, 7) := by
  obtain ⟨dst, msk, h1, h2, h3, -⟩ :=
    (findsym_unreadable_label ion.decoder (vmref.mem exampleUnreadable) exampleBytecode 5 0
      0 [{ sym := 2, label := [0x82], value := [0x81, 0x41] }] [0x05]
      (by
        intro f hf
        rw [List.mem_singleton.mp hf]
        exact ⟨exampleFields_encoded _ (by simp [exampleFields]), by decide⟩)
      (by decide) (by decide)).1 (vRegData.splat 7 7 7 7) (bRegData.splat 0 4) { mask := 3 }
      (by decide) (by decide)
      (by
        intro j hj
        exact absurd hj (by revert j; decide))
  exact ⟨dst, msk, h1, h2, h3 1 (by decide)⟩

/-- C14, the code at the failing inputs. With the label `0x85` alone in lane 0 and the
target 5, `mem[0]` panics: neither find-symbol returns and no fault is set. With the label
`0x85` followed by the value header `0x23`, for which the size decoder reads -1,
find-symbol records the size `0xFFFFFFFF` and a match, and no fault is set. -/
theorem findsym_size_not_checked :
    ion.decoder.ReadLabel exampleNoValue = some (5, [])
      ∧ (bcfindsymgo ion.decoder (vmref.mem exampleNoValue) exampleBytecode vRegData.zero
          (bRegData.splat 0 1) 5 { mask := 1 } 0).2.isNone = true
      ∧ (bcfindsymgo ion.decoder (vmref.mem exampleNoValue) exampleBytecode vRegData.zero
          (bRegData.splat 0 1) 5 { mask := 1 } 0).1.err = 0
      ∧ (bcfindsym2go ion.decoder (vmref.mem exampleNoValue) exampleBytecode
          (bRegData.splat 0 1) vRegData.zero { mask := 0 } 5 { mask := 1 } 0).2.isNone = true
      ∧ (bcfindsym2go ion.decoder (vmref.mem exampleNoValue) exampleBytecode
          (bRegData.splat 0 1) vRegData.zero { mask := 0 } 5 { mask := 1 } 0).1.err = 0
      ∧ ion.decoder.ReadLabel exampleNoSize = some (5, [0x23])
      ∧ ion.decoder.SizeOf [0x23] = -1
      ∧ (bcfindsymgo ion.decoder (vmref.mem exampleNoSize) exampleBytecode vRegData.zero
          (bRegData.splat 0 2) 5 { mask := 1 } 0).1.err = 0
      ∧ (bcfindsymgo ion.decoder (vmref.mem exampleNoSize) exampleBytecode vRegData.zero
          (bRegData.splat 0 2) 5 { mask := 1 } 0).2.map
            (fun r => (r.1.slot 0, r.2.1.mask)) = some ((1, 0xFFFFFFFF, 0x23, 1), 1)
      ∧ (bcfindsym2go ion.decoder (vmref.mem exampleNoSize) exampleBytecode
          (bRegData.splat 0 2) vRegData.zero { mask := 0 } 5 { mask := 1 } 0).1.err = 0
      ∧ (bcfindsym2go ion.decoder (vmref.mem exampleNoSize) exampleBytecode
          (bRegData.splat 0 2) vRegData.zero { mask := 0 } 5 { mask := 1 } 0).2.map
            (fun r => (r.1.slot 0, r.2.1.mask)) = some ((1, 0xFFFFFFFF, 0x23, 1), 1) := by
  decide

/-! ## Resuming a lookup -/

theorem toNat_emod_small (n : Nat) (h : n < 2 ^ 32) : ((n : Int) % 2 ^ 32).toNat = n := by
  have : ((n : Int) % 2 ^ 32) = (n : Int) := by
    apply Int.emod_eq_of_lt <;> omega
  rw [this, Int.toNat_ofNat]

/-- Well-formed fields take at least one byte each. -/
theorem fieldBytes_eq_nil (D : IonDecoder) (fs : List Field) (h : ∀ f ∈ fs, D.Encodes f)
    (hlen : (fieldBytes fs).length = 0) : fs = [] := by
  cases fs with
  | nil => rfl
  | cons f t =>
    have hpos := (h f (List.mem_cons_self f t)).2.1.1
    rw [fieldBytes_cons] at hlen
    simp only [List.length_append] at hlen
    omega

/-- The byte range that `bcfindsym2go` scans after a match of `bcfindsymgo`: the fields
after the matched one. -/
theorem bcfindsym2go_effect_after_match (D : IonDecoder) (buffer : List Nat) (b : Nat)
    (srcb : bRegData) (v1 : vRegData) (k1 srcmask : Nat) (i : Fin bcLaneCount)
    (pre : List Field) (f : Field) (post : List Field)
    (hact : srcmask.testBit i.val = true)
    (hbuf : buffer.length < 2 ^ 32)
    (hin : srcb.offsets i + srcb.sizes i ≤ buffer.length)
    (hbody : vmref.mem buffer { offset := srcb.offsets i, size := srcb.sizes i }
      = fieldBytes (pre ++ f :: post))
    (hwf : ∀ g ∈ pre ++ f :: post, D.Encodes g)
    (hv1 : v1.slot i
      = findsym.valueSlot D ((srcb.offsets i + srcb.sizes i) % 2 ^ 32) f (fieldBytes post))
    (hk1 : k1.testBit i.val = true) :
    bcfindsym2go.effect D (vmref.mem buffer) b srcb v1 k1 srcmask i
      = findsym.Effect.cont
          (findsym.lookup D b ((srcb.offsets i + srcb.sizes i) % 2 ^ 32) post none).1
          (findsym.lookup D b ((srcb.offsets i + srcb.sizes i) % 2 ^ 32) post none).2 := by
  have hpow : (2 : Nat) ^ 32 = 4294967296 := by norm_num
  have hlen := vmref_mem_length buffer _ _ hin
  rw [hbody, fieldBytes_append, fieldBytes_cons] at hlen
  simp only [List.length_append] at hlen
  have hvpos := (hwf f (by simp)).2.1.1
  have hpost : ∀ g ∈ post, D.Encodes g := fun g hg => hwf g (by simp [hg])
  simp only [vRegData.slot, findsym.valueSlot, Prod.mk.injEq] at hv1
  obtain ⟨ho, hsz, -, -⟩ := hv1
  rw [toNat_emod_small _ (by rw [hpow] at hbuf ⊢; omega)] at hsz
  rw [List.length_append] at ho
  have hpos : (v1.offsets i + v1.sizes i) % 2 ^ 32
      = srcb.offsets i + (fieldBytes pre).length + f.label.length + f.value.length := by
    rw [ho, hsz]
    rw [hpow] at hbuf ⊢
    omega
  have he : (srcb.offsets i + srcb.sizes i) % 2 ^ 32 = srcb.offsets i + srcb.sizes i := by
    rw [hpow] at hbuf ⊢
    omega
  by_cases hp : (fieldBytes post).length = 0
  · have hnil := fieldBytes_eq_nil D post hpost hp
    have hr : bcfindsym2go.range srcb v1 k1 i = none := by
      unfold bcfindsym2go.range
      simp only
      rw [if_pos ((and_one_shiftLeft_ne_zero _ _).mpr hk1), hpos, he, if_pos (by omega)]
    rw [bcfindsym2go_effect_skip D (vmref.mem buffer) b srcb v1 k1 srcmask i hact hr, hnil]
    rfl
  · have hr : bcfindsym2go.range srcb v1 k1 i
        = some { offset := srcb.offsets i
                   + (fieldBytes pre ++ (f.label ++ f.value)).length,
                 size := (fieldBytes post).length } := by
      unfold bcfindsym2go.range
      simp only
      rw [if_pos ((and_one_shiftLeft_ne_zero _ _).mpr hk1), hpos, he, if_neg (by omega)]
      simp only [List.length_append, Option.some.injEq, vmref.mk.injEq]
      constructor
      · omega
      · rw [hpow] at hbuf ⊢
        omega
    have hb2 : vmref.mem buffer { offset := srcb.offsets i, size := srcb.sizes i }
        = (fieldBytes pre ++ (f.label ++ f.value)) ++ (fieldBytes post ++ []) := by
      rw [hbody, fieldBytes_append, fieldBytes_cons]
      simp only [List.append_assoc, List.append_nil]
    exact bcfindsym2go_effect_fields D (vmref.mem buffer) b srcb v1 k1 srcmask i _ post hact
      hr (vmref_mem_part buffer _ _ _ _ _ hb2) hpost

/-- The byte range that `bcfindsym2go` scans when `bcfindsymgo` found nothing: the whole
struct body. -/
theorem bcfindsym2go_effect_no_match (D : IonDecoder) (buffer : List Nat) (b : Nat)
    (srcb : bRegData) (v1 : vRegData) (k1 srcmask : Nat) (i : Fin bcLaneCount)
    (fs : List Field)
    (hact : srcmask.testBit i.val = true)
    (hbuf : buffer.length < 2 ^ 32)
    (hin : srcb.offsets i + srcb.sizes i ≤ buffer.length)
    (hbody : vmref.mem buffer { offset := srcb.offsets i, size := srcb.sizes i }
      = fieldBytes fs)
    (hwf : ∀ g ∈ fs, D.Encodes g)
    (hk1 : k1.testBit i.val = false) :
    bcfindsym2go.effect D (vmref.mem buffer) b srcb v1 k1 srcmask i
      = findsym.Effect.cont
          (findsym.lookup D b ((srcb.offsets i + srcb.sizes i) % 2 ^ 32) fs none).1
          (findsym.lookup D b ((srcb.offsets i + srcb.sizes i) % 2 ^ 32) fs none).2 := by
  have hpow : (2 : Nat) ^ 32 = 4294967296 := by norm_num
  have hlen := vmref_mem_length buffer _ _ hin
  rw [hbody] at hlen
  have he : (srcb.offsets i + srcb.sizes i) % 2 ^ 32 = srcb.offsets i + srcb.sizes i := by
    rw [hpow] at hbuf ⊢
    omega
  have hk : ¬ (k1 &&& (1 <<< i.val) ≠ 0) := by
    intro h
    rw [(and_one_shiftLeft_ne_zero _ _).mp h] at hk1
    exact absurd hk1 (by decide)
  by_cases hw : srcb.sizes i = 0
  · have hnil := fieldBytes_eq_nil D fs hwf (by omega)
    have hr : bcfindsym2go.range srcb v1 k1 i = none := by
      unfold bcfindsym2go.range
      simp only
      rw [if_neg hk, he, if_pos (by omega)]
    rw [bcfindsym2go_effect_skip D (vmref.mem buffer) b srcb v1 k1 srcmask i hact hr, hnil]
    rfl
  · have hr : bcfindsym2go.range srcb v1 k1 i
        = some { offset := srcb.offsets i, size := srcb.sizes i } := by
      unfold bcfindsym2go.range
      simp only
      rw [if_neg hk, he, if_neg (by omega)]
      simp only [Option.some.injEq, vmref.mk.injEq, true_and]
      rw [hpow] at hbuf ⊢
      omega
    exact bcfindsym2go_effect_fields D (vmref.mem buffer) b srcb v1 k1 srcmask i _ fs hact
      hr hbody hwf

/-- One active lane of the resume composition: after the fresh lookup for `a` left the
slot and the mask bit of `findsym.lookup`, the resumed lookup for `b > a` goes on, and
leaves the slot and the match of the fresh lookup for `b`. -/
theorem bcfindsym2go_effect_resume (D : IonDecoder) (buffer : List Nat) (a b : Nat)
    (srcb : bRegData) (v1 : vRegData) (k1 srcmask : Nat) (i : Fin bcLaneCount)
    (fs : List Field) (hab : a < b)
    (hact : srcmask.testBit i.val = true)
    (hbuf : buffer.length < 2 ^ 32)
    (hin : srcb.offsets i + srcb.sizes i ≤ buffer.length)
    (hbody : vmref.mem buffer { offset := srcb.offsets i, size := srcb.sizes i }
      = fieldBytes fs)
    (hwf : ∀ g ∈ fs, D.Encodes g)
    (hv1 : v1.slot i
      = (findsym.lookup D a ((srcb.offsets i + srcb.sizes i) % 2 ^ 32) fs none).1.getD
          (srcb.offsets i, 0, 0, 0))
    (hk1 : k1.testBit i.val
      = (findsym.lookup D a ((srcb.offsets i + srcb.sizes i) % 2 ^ 32) fs none).2) :
    ∃ slot found,
      bcfindsym2go.effect D (vmref.mem buffer) b srcb v1 k1 srcmask i
        = findsym.Effect.cont slot found
      ∧ slot.getD (v1.slot i)
        = (findsym.lookup D b ((srcb.offsets i + srcb.sizes i) % 2 ^ 32) fs none).1.getD
            (srcb.offsets i, 0, 0, 0)
      ∧ found = (findsym.lookup D b ((srcb.offsets i + srcb.sizes i) % 2 ^ 32) fs none).2 := by
  cases hfa : (findsym.lookup D a ((srcb.offsets i + srcb.sizes i) % 2 ^ 32) fs none).2 with
  | true =>
    obtain ⟨pre, f, post, hF, hpre, hf⟩ := lookup_found_split D a _ fs none hfa
    subst hF
    have hhit := lookup_hit D a ((srcb.offsets i + srcb.sizes i) % 2 ^ 32) pre f post hpre
      hf none
    rw [hhit] at hv1
    rw [hfa] at hk1
    simp only [Option.getD_some] at hv1
    refine ⟨_, _, bcfindsym2go_effect_after_match D buffer b srcb v1 k1 srcmask i pre f post
      hact hbuf hin hbody hwf hv1 hk1, ?_, ?_⟩
    · rw [lookup_skip D b _ pre f post (fun g hg => by have := hpre g hg; omega)
        (by omega) none, (lookup_last D b _ post _).1, hv1]
      rfl
    · rw [lookup_skip D b _ pre f post (fun g hg => by have := hpre g hg; omega)
        (by omega) none, (lookup_last D b _ post _).2]
  | false =>
    rw [hfa] at hk1
    refine ⟨_, _, bcfindsym2go_effect_no_match D buffer b srcb v1 k1 srcmask i fs hact hbuf
      hin hbody hwf hk1, ?_, rfl⟩
    cases hb : (findsym.lookup D b ((srcb.offsets i + srcb.sizes i) % 2 ^ 32) fs none).1 with
    | some x => rfl
    | none =>
      rw [hv1, lookup_none_mono D a b _ fs hab hb]
      rfl

/-- `bcfindsymgo` over a batch whose active lanes hold well-formed structs: the handler
returns without fault; an active lane holds the slot of the lookup in its fields and has
its bit set when the lookup finds the symbol; any other lane holds its offset and zeros. -/
theorem bcfindsymgo_of_fields (D : IonDecoder) (mem : vmref → List Nat) (bc : bytecode)
    (dstv : vRegData) (srcb : bRegData) (symbol : Nat) (k : kRegData) (pc : Nat)
    (fs : Fin bcLaneCount → List Field)
    (hwf : ∀ i, k.mask.testBit i.val = true →
      mem { offset := srcb.offsets i, size := srcb.sizes i } = fieldBytes (fs i)
        ∧ ∀ f ∈ fs i, D.Encodes f) :
    ∃ dst msk,
      (bcfindsymgo D mem bc dstv srcb symbol k pc).2 = some (dst, msk, pc + 12)
      ∧ (bcfindsymgo D mem bc dstv srcb symbol k pc).1.err = bc.err
      ∧ (∀ i, k.mask.testBit i.val = true → dst.slot i
          = (findsym.lookup D symbol ((srcb.offsets i + srcb.sizes i) % 2 ^ 32) (fs i)
              none).1.getD (srcb.offsets i, 0, 0, 0))
      ∧ (∀ i, k.mask.testBit i.val = false → dst.slot i = (srcb.offsets i, 0, 0, 0))
      ∧ (∀ n, msk.mask.testBit n = true ↔ ∃ i : Fin bcLaneCount, i.val = n
          ∧ k.mask.testBit i.val = true
          ∧ (findsym.lookup D symbol ((srcb.offsets i + srcb.sizes i) % 2 ^ 32) (fs i)
              none).2 = true) := by
  have hact : ∀ i, k.mask.testBit i.val = true →
      bcfindsymgo.effect D mem symbol srcb k.mask i
        = findsym.Effect.cont
            (some ((findsym.lookup D symbol ((srcb.offsets i + srcb.sizes i) % 2 ^ 32)
              (fs i) none).1.getD (srcb.offsets i, 0, 0, 0)))
            (findsym.lookup D symbol ((srcb.offsets i + srcb.sizes i) % 2 ^ 32) (fs i)
              none).2 :=
    fun i hi => bcfindsymgo_effect_fields D mem symbol srcb k.mask i (fs i) hi (hwf i hi).1
      (hwf i hi).2
  have hc : ∀ i, (bcfindsymgo.effect D mem symbol srcb k.mask i).isCont = true := by
    intro i
    cases hb : k.mask.testBit i.val with
    | false => rw [bcfindsymgo_effect_inactive D mem symbol srcb k.mask i hb]; rfl
    | true => rw [hact i hb]; rfl
  obtain ⟨dst, msk, hout, herr, hslot, hbits⟩ :=
    bcfindsymgo_of_cont D mem bc dstv srcb symbol k pc hc
  refine ⟨dst, msk, hout, herr, ?_, ?_, ?_⟩
  · intro i hi
    rw [hslot i, hact i hi]
    rfl
  · intro i hi
    rw [hslot i, bcfindsymgo_effect_inactive D mem symbol srcb k.mask i hi]
    rfl
  · intro n
    rw [hbits n]
    constructor
    · rintro ⟨i, hv, hf⟩
      have hi := bcfindsymgo_effect_found D mem symbol srcb k.mask i hf
      rw [hact i hi] at hf
      exact ⟨i, hv, hi, hf⟩
    · rintro ⟨i, hv, hi, hf⟩
      refine ⟨i, hv, ?_⟩
      rw [hact i hi]
      exact hf

/-- A mask bit named by a lane, as a Boolean. -/
theorem testBit_of_lanes (m : Nat) (P : Fin bcLaneCount → Prop)
    (h : ∀ n, m.testBit n = true ↔ ∃ i : Fin bcLaneCount, i.val = n ∧ P i)
    (i : Fin bcLaneCount) : m.testBit i.val = true ↔ P i := by
  rw [h i.val]
  constructor
  · rintro ⟨j, hj, hp⟩
    have : j = i := Fin.ext hj
    rwa [this] at hp
  · intro hp
    exact ⟨i, rfl, hp⟩

/-! ## Claim C15: resume composition -/

/-- C15. Resume composition: for a batch whose active lanes hold well-formed structs
inside the scratch buffer and for symbol ids `a < b`, find-symbol-resume for `b`, run on
the value-vector and the mask that find-symbol (fresh) for `a` produced, over the same
byte-range register and active mask, returns the output value-vector and the output mask
of find-symbol (fresh) for `b`; the three handlers return. -/
theorem findsym_resume_composition (D : IonDecoder) (buffer : List Nat)
    (bc bc' bc'' : bytecode) (dstv dstv' : vRegData) (srcb : bRegData) (k : kRegData)
    (a b pc pc' pc'' : Nat) (fs : Fin bcLaneCount → List Field)
    (hab : a < b) (hbuf : buffer.length < 2 ^ 32)
    (hwf : ∀ i, k.mask.testBit i.val = true →
      srcb.offsets i + srcb.sizes i ≤ buffer.length
        ∧ vmref.mem buffer { offset := srcb.offsets i, size := srcb.sizes i }
          = fieldBytes (fs i)
        ∧ ∀ f ∈ fs i, D.Encodes f) :
    ∃ v1 k1 v2 k2 v3 k3,
      (bcfindsymgo D (vmref.mem buffer) bc dstv srcb a k pc).2 = some (v1, k1, pc + 12)
      ∧ (bcfindsym2go D (vmref.mem buffer) bc' srcb v1 k1 b k pc').2
        = some (v2, k2, pc' + 16)
      ∧ (bcfindsymgo D (vmref.mem buffer) bc'' dstv' srcb b k pc'').2
        = some (v3, k3, pc'' + 12)
      ∧ v2 = v3 ∧ k2 = k3 := by
  have hwf' : ∀ i, k.mask.testBit i.val = true →
      vmref.mem buffer { offset := srcb.offsets i, size := srcb.sizes i }
          = fieldBytes (fs i) ∧ ∀ f ∈ fs i, D.Encodes f :=
    fun i hi => ⟨(hwf i hi).2.1, (hwf i hi).2.2⟩
  obtain ⟨v1, k1, h1, -, h1a, h1i, h1b⟩ :=
    bcfindsymgo_of_fields D (vmref.mem buffer) bc dstv srcb a k pc fs hwf'
  obtain ⟨v3, k3, h3, -, h3a, h3i, h3b⟩ :=
    bcfindsymgo_of_fields D (vmref.mem buffer) bc'' dstv' srcb b k pc'' fs hwf'
  have hk1 : ∀ i, k.mask.testBit i.val = true → k1.mask.testBit i.val
      = (findsym.lookup D a ((srcb.offsets i + srcb.sizes i) % 2 ^ 32) (fs i) none).2 := by
    intro i hi
    have := testBit_of_lanes k1.mask _ h1b i
    rw [Bool.eq_iff_iff, this]
    exact ⟨fun h => h.2, fun h => ⟨hi, h⟩⟩
  have hlane : ∀ i, k.mask.testBit i.val = true → ∃ slot found,
      bcfindsym2go.effect D (vmref.mem buffer) b srcb v1 k1.mask k.mask i
        = findsym.Effect.cont slot found
      ∧ slot.getD (v1.slot i)
        = (findsym.lookup D b ((srcb.offsets i + srcb.sizes i) % 2 ^ 32) (fs i)
            none).1.getD (srcb.offsets i, 0, 0, 0)
      ∧ found
        = (findsym.lookup D b ((srcb.offsets i + srcb.sizes i) % 2 ^ 32) (fs i) none).2 :=
    fun i hi => bcfindsym2go_effect_resume D buffer a b srcb v1 k1.mask k.mask i (fs i) hab
      hi hbuf (hwf i hi).1 (hwf i hi).2.1 (hwf i hi).2.2 (h1a i hi) (hk1 i hi)
  have hc : ∀ i, (bcfindsym2go.effect D (vmref.mem buffer) b srcb v1 k1.mask k.mask
      i).isCont = true := by
    intro i
    cases hb : k.mask.testBit i.val with
    | false =>
      rw [bcfindsym2go_effect_inactive D (vmref.mem buffer) b srcb v1 k1.mask k.mask i hb]
      rfl
    | true =>
      obtain ⟨slot, found, he, -, -⟩ := hlane i hb
      rw [he]; rfl
  obtain ⟨v2, k2, h2, -, h2s, h2b⟩ :=
    bcfindsym2go_of_cont D (vmref.mem buffer) bc' srcb v1 k1 b k pc' hc
  refine ⟨v1, k1, v2, k2, v3, k3, h1, h2, h3, ?_, ?_⟩
  · apply vRegData_ext
    intro i
    rw [h2s i]
    cases hb : k.mask.testBit i.val with
    | false =>
      rw [bcfindsym2go_effect_inactive D (vmref.mem buffer) b srcb v1 k1.mask k.mask i hb,
        h3i i hb]
      exact h1i i hb
    | true =>
      obtain ⟨slot, found, he, hs, -⟩ := hlane i hb
      rw [he, h3a i hb]
      exact hs
  · have hm : k2.mask = k3.mask := by
      apply Nat.eq_of_testBit_eq
      intro n
      rw [Bool.eq_iff_iff, h2b n, h3b n]
      constructor
      · rintro ⟨i, hv, hf⟩
        have hi := bcfindsym2go_effect_found D (vmref.mem buffer) b srcb v1 k1.mask k.mask i
          hf
        obtain ⟨slot, found, he, -, hfo⟩ := hlane i hi
        rw [he] at hf
        exact ⟨i, hv, hi, by rw [← hfo]; exact hf⟩
      · rintro ⟨i, hv, hi, hf⟩
        obtain ⟨slot, found, he, -, hfo⟩ := hlane i hi
        refine ⟨i, hv, ?_⟩
        rw [he, findsym.Effect.found, hfo]
        exact hf
    cases k2
    cases k3
    simp only at hm
    rw [hm]

/-- C15, witness: the struct `{2:"A", 5:"B", 9:"C"}` in lanes 0 and 1, resumed for 9
after a lookup of 5. -/
theorem findsym_resume_composition_witness :
    ∃ v1 k1 v2 k2 v3 k3,
      (bcfindsymgo ion.decoder (vmref.mem exampleStruct) exampleBytecode vRegData.zero
          (bRegData.splat 1 9) 5 { mask := 3 } 0).2 = some (v1, k1, 0 + 12)
      ∧ (bcfindsym2go ion.decoder (vmref.mem exampleStruct) exampleBytecode
          (bRegData.splat 1 9) v1 k1 9 { mask := 3 } 12).2 = some (v2, k2, 12 + 16)
      ∧ (bcfindsymgo ion.decoder (vmref.mem exampleStruct) exampleBytecode vRegData.zero
          (bRegData.splat 1 9) 9 { mask := 3 } 0).2 = some (v3, k3, 0 + 12)
      ∧ v2 = v3 ∧ k2 = k3 :=
  findsym_resume_composition ion.decoder exampleStruct exampleBytecode exampleBytecode
    exampleBytecode vRegData.zero vRegData.zero (bRegData.splat 1 9) { mask := 3 } 5 9 0 12
    0 (fun _ => exampleFields) (by decide) (by decide)
    (fun _ _ => ⟨show 1 + 9 ≤ exampleStruct.length by decide,
      show vmref.mem exampleStruct { offset := 1, size := 9 } = fieldBytes exampleFields
        by decide,
      exampleFields_encoded⟩)

/-! ## Invariants of the loops -/

/-- A property that every step keeps holds after the loop. -/
theorem foldl_invariant {S ι : Type} (step : S → ι → S) (I : S → Prop) (l : List ι)
    (hstep : ∀ i ∈ l, ∀ s, I s → I (step s i)) (s : S) (hs : I s) : I (l.foldl step s) := by
  induction l generalizing s with
  | nil => exact hs
  | cons a t ih =>
    rw [List.foldl_cons]
    exact ih (fun i hi => hstep i (List.mem_cons_of_mem a hi)) _
      (hstep a (List.mem_cons_self a t) s hs)

/-- A property that every successful step keeps holds after a completed loop. -/
theorem foldl_bind_invariant {S ι : Type} (step : S → ι → Option S) (I : S → Prop)
    (l : List ι) (hstep : ∀ i ∈ l, ∀ s t, I s → step s i = some t → I t) (s r : S)
    (hs : I s)
    (hr : l.foldl (fun st i => st.bind (fun s => step s i)) (some s) = some r) : I r := by
  induction l generalizing s with
  | nil =>
    simp only [List.foldl_nil, Option.some.injEq] at hr
    rw [← hr]; exact hs
  | cons a t ih =>
    rw [List.foldl_cons, Option.some_bind] at hr
    cases hu : step s a with
    | none =>
      rw [hu, foldl_bind_none] at hr
      exact absurd hr (by simp)
    | some u =>
      rw [hu] at hr
      exact ih (fun i hi => hstep i (List.mem_cons_of_mem a hi)) u
        (hstep a (List.mem_cons_self a t) s u hs hu) hr

/-- No step of `bcchecktaggo` sets a mask bit. -/
theorem bcchecktaggo_mask_le (src : vRegData) (tags : Nat) (k : kRegData) (pc n : Nat)
    (h : (bcchecktaggo src tags k pc).2.1.mask.testBit n = true) :
    k.mask.testBit n = true := by
  unfold bcchecktaggo at h
  simp only at h
  refine foldl_invariant (bcchecktaggo.step src tags)
    (fun st => st.2.testBit n = true → k.mask.testBit n = true) _ ?_ _ (fun hn => hn) h
  intro i _ s hs hn
  rw [bcchecktaggo_step_eq] at hn
  by_cases hb : s.2.testBit i.val = true
  · by_cases ht : tags.testBit (src.typeL i >>> 4) = true
    · rw [if_pos hb, if_pos ht] at hn
      exact hs hn
    · rw [if_pos hb, if_neg ht] at hn
      simp only [testBit_bitClear_lane, Bool.and_eq_true] at hn
      exact hs hn.1
  · rw [if_neg hb] at hn
    exact hs hn

/-- No step of `bcobjectsizego` sets a mask bit. -/
theorem bcobjectsizego_mask_le (D : IonDecoder) (mem : vmref → List Nat) (bc : bytecode)
    (src : vRegData) (k : kRegData) (pc n : Nat) (r : i64RegData × kRegData × Nat)
    (hr : (bcobjectsizego D mem bc src k pc).2 = some r)
    (h : r.2.1.mask.testBit n = true) : k.mask.testBit n = true := by
  unfold bcobjectsizego at hr
  simp only at hr
  cases hf : (List.finRange bcLaneCount).foldl
      (fun st i => st.bind (fun s => bcobjectsizego.step D mem src s i))
      (some (i64RegData.zero, k.mask)) with
  | none => rw [hf] at hr; exact absurd hr (by simp)
  | some s =>
    rw [hf, Option.map_some', Option.some.injEq] at hr
    rw [← hr] at h
    exact foldl_bind_invariant (bcobjectsizego.step D mem src)
      (fun st => st.2.testBit n = true → k.mask.testBit n = true) _
      (fun i _ s t hs hst hn => hs (bcobjectsizego_step_mask D mem src s t i hst n hn))
      _ s (fun hn => hn) hf h

/-- The loop step of the symbol lookups sets the bit of a lane only when its effect found
the symbol. -/
theorem findsym_apply_mask (eff : Fin bcLaneCount → findsym.Effect) (s t : findsym.State)
    (i : Fin bcLaneCount) (h : findsym.apply eff s i = some t) (n : Nat)
    (hn : t.retmask.testBit n = true) :
    s.retmask.testBit n = true ∨ (i.val = n ∧ (eff i).found = true) := by
  unfold findsym.apply at h
  by_cases hs : s.stop = true
  · rw [if_pos hs] at h
    rw [← Option.some.inj h] at hn
    exact Or.inl hn
  · rw [if_neg hs] at h
    cases he : eff i with
    | cont slot found =>
      rw [he] at h
      simp only [Option.some.injEq] at h
      rw [← h] at hn
      simp only at hn
      cases found with
      | false => exact Or.inl (by simpa using hn)
      | true =>
        simp only [if_true, Nat.testBit_or, testBit_one_shiftLeft, Bool.or_eq_true,
          decide_eq_true_eq] at hn
        rcases hn with hn | hn
        · exact Or.inl hn
        · exact Or.inr ⟨hn, rfl⟩
    | fault slot =>
      rw [he] at h
      simp only [Option.some.injEq] at h
      rw [← h] at hn
      exact Or.inl hn
    | abort =>
      rw [he] at h
      exact absurd h (by simp)

/-- The mask of `bcfindsymgo` has only bits of active lanes. -/
theorem bcfindsymgo_mask_le (D : IonDecoder) (mem : vmref → List Nat) (bc : bytecode)
    (dstv : vRegData) (srcb : bRegData) (symbol : Nat) (k : kRegData) (pc n : Nat)
    (r : vRegData × kRegData × Nat)
    (hr : (bcfindsymgo D mem bc dstv srcb symbol k pc).2 = some r)
    (h : r.2.1.mask.testBit n = true) : k.mask.testBit n = true := by
  unfold bcfindsymgo at hr
  rw [bcfindsymgo_loop_eq] at hr
  cases hf : (List.finRange bcLaneCount).foldl
      (fun st i => st.bind (fun s =>
        findsym.apply (bcfindsymgo.effect D mem symbol srcb k.mask) s i))
      (some { dstv := dstv, retmask := 0, err := bc.err, stop := false }) with
  | none => rw [hf] at hr; exact absurd hr (by simp)
  | some s =>
    rw [hf] at hr
    simp only [Option.some.injEq] at hr
    rw [← hr] at h
    refine foldl_bind_invariant (findsym.apply (bcfindsymgo.effect D mem symbol srcb k.mask))
      (fun st => st.retmask.testBit n = true → k.mask.testBit n = true) _ ?_ _ s
      (fun hn => absurd hn (by simp)) hf h
    intro i _ s t hs hst hn
    rcases findsym_apply_mask _ s t i hst n hn with h1 | ⟨h1, h2⟩
    · exact hs h1
    · rw [← h1]
      exact bcfindsymgo_effect_found D mem symbol srcb k.mask i h2

/-- The mask of `bcfindsym2go` has only bits of active lanes. -/
theorem bcfindsym2go_mask_le (D : IonDecoder) (mem : vmref → List Nat) (bc : bytecode)
    (srcb : bRegData) (srcv : vRegData) (srck : kRegData) (symbol : Nat) (k : kRegData)
    (pc n : Nat) (r : vRegData × kRegData × Nat)
    (hr : (bcfindsym2go D mem bc srcb srcv srck symbol k pc).2 = some r)
    (h : r.2.1.mask.testBit n = true) : k.mask.testBit n = true := by
  unfold bcfindsym2go at hr
  rw [bcfindsym2go_loop_eq] at hr
  cases hf : (List.finRange bcLaneCount).foldl
      (fun st i => st.bind (fun s =>
        findsym.apply (bcfindsym2go.effect D mem symbol srcb srcv srck.mask k.mask) s i))
      (some { dstv := srcv, retmask := 0, err := bc.err, stop := false }) with
  | none => rw [hf] at hr; exact absurd hr (by simp)
  | some s =>
    rw [hf] at hr
    simp only [Option.some.injEq] at hr
    rw [← hr] at h
    refine foldl_bind_invariant
      (findsym.apply (bcfindsym2go.effect D mem symbol srcb srcv srck.mask k.mask))
      (fun st => st.retmask.testBit n = true → k.mask.testBit n = true) _ ?_ _ s
      (fun hn => absurd hn (by simp)) hf h
    intro i _ s t hs hst hn
    rcases findsym_apply_mask _ s t i hst n hn with h1 | ⟨h1, h2⟩
    · exact hs h1
    · rw [← h1]
      exact bcfindsym2go_effect_found D mem symbol srcb srcv srck.mask k.mask i h2

/-! ## Claims C16, C17 and C19 -/

/-- C16. Mask narrowing: for is-null, is-not-null, is-true, is-false, check-tag,
object-size, find-symbol and find-symbol-resume, every bit of the output mask is a bit of
the active input mask operand (for the three handlers that may not return: whenever they
return). -/
theorem mask_narrowing (D : IonDecoder) (mem : vmref → List Nat) (bc : bytecode)
    (src dstv srcv : vRegData) (srcb : bRegData) (srck k : kRegData)
    (tags symbol pc n : Nat) :
    ((bcisnullvgo src k pc).1.mask.testBit n = true → k.mask.testBit n = true)
      ∧ ((bcisnotnullvgo src k pc).1.mask.testBit n = true → k.mask.testBit n = true)
      ∧ ((bcistruevgo src k pc).1.mask.testBit n = true → k.mask.testBit n = true)
      ∧ ((bcisfalsevgo src k pc).1.mask.testBit n = true → k.mask.testBit n = true)
      ∧ ((bcchecktaggo src tags k pc).2.1.mask.testBit n = true → k.mask.testBit n = true)
      ∧ (∀ r, (bcobjectsizego D mem bc src k pc).2 = some r →
          r.2.1.mask.testBit n = true → k.mask.testBit n = true)
      ∧ (∀ r, (bcfindsymgo D mem bc dstv srcb symbol k pc).2 = some r →
          r.2.1.mask.testBit n = true → k.mask.testBit n = true)
      ∧ (∀ r, (bcfindsym2go D mem bc srcb srcv srck symbol k pc).2 = some r →
          r.2.1.mask.testBit n = true → k.mask.testBit n = true) := by
  refine ⟨?_, ?_, ?_, ?_, bcchecktaggo_mask_le src tags k pc n,
    fun r hr h => bcobjectsizego_mask_le D mem bc src k pc n r hr h,
    fun r hr h => bcfindsymgo_mask_le D mem bc dstv srcb symbol k pc n r hr h,
    fun r hr h => bcfindsym2go_mask_le D mem bc srcb srcv srck symbol k pc n r hr h⟩
  · intro h
    unfold bcisnullvgo at h
    simp only [testBit_clearLoop, Bool.and_eq_true] at h
    exact h.1
  · intro h
    unfold bcisnotnullvgo at h
    simp only [testBit_clearLoop, Bool.and_eq_true] at h
    exact h.1
  · intro h
    unfold bcistruevgo at h
    simp only [testBit_clearLoop, Bool.and_eq_true] at h
    exact h.1
  · intro h
    unfold bcisfalsevgo at h
    simp only [testBit_clearLoop, Bool.and_eq_true] at h
    exact h.1

/-- C16, witness: over a batch of null sentinels with the mask 1, is-null keeps bit 0. -/
theorem mask_narrowing_witness :
    (bcisnullvgo (vRegData.splat 0 1 0x0F 1) { mask := 1 } 0).1.mask.testBit 0 = true
      ∧ Nat.testBit 1 0 = true :=
  ⟨by decide,
    (mask_narrowing ion.decoder (vmref.mem exampleScratch) exampleBytecode
      (vRegData.splat 0 1 0x0F 1) vRegData.zero vRegData.zero (bRegData.splat 0 0)
      { mask := 0 } { mask := 1 } 0 0 0 0).1 (by decide)⟩

/-- C17. literal-ref broadcasts one constant: every lane of the valid-lanes mask receives
the slot (immediate offset plus scratch offset modulo `2 ^ 32`, immediate size, immediate
type tag, immediate header size) and the slot of every other lane is all-zero. -/
theorem bclitrefgo_broadcast (bc : bytecode) (offset size tlv headerSize pc : Nat)
    (i : Fin bcLaneCount) :
    (bclitrefgo bc offset size tlv headerSize pc).1.slot i
      = if bc.validLanes.testBit i.val = true then
          ((offset + bc.scratchoff) % 2 ^ 32, size, tlv, headerSize)
        else (0, 0, 0, 0) := by
  have key := foldl_lane
    (fun (dst : vRegData) (j : Fin bcLaneCount) =>
      if bc.validLanes &&& (1 <<< j.val) ≠ 0 then
        dst.set j ((offset + bc.scratchoff) % 2 ^ 32, size, tlv, headerSize)
      else dst)
    (fun dst => dst.slot i) i
    (by
      intro a ha s
      beta_reduce
      by_cases hb : bc.validLanes &&& (1 <<< a.val) ≠ 0
      · rw [if_pos hb]
        exact slot_set_ne s a i _ ha
      · rw [if_neg hb])
    (by
      intro s t hst
      beta_reduce
      by_cases hb : bc.validLanes &&& (1 <<< i.val) ≠ 0
      · rw [if_pos hb, if_pos hb, slot_set_same, slot_set_same]
      · rw [if_neg hb, if_neg hb]
        exact hst)
    (List.finRange bcLaneCount) lanes_nodup (lanes_mem i) vRegData.zero
  unfold bclitrefgo
  simp only at key ⊢
  rw [key]
  by_cases hb : bc.validLanes.testBit i.val = true
  · rw [if_pos ((and_one_shiftLeft_ne_zero _ _).mpr hb), if_pos hb, slot_set_same]
  · rw [if_neg (fun h => hb ((and_one_shiftLeft_ne_zero _ _).mp h)), if_neg hb]
    rfl

/-- C19. Every handler returns `pc` plus the fixed width of its opcode, whatever the
registers, the mask and the fault field: 12 for literal-ref, 6 for is-null, is-not-null,
is-true, is-false and type-bits, 10 for check-tag, 8 for object-size, 12 for find-symbol
and 16 for find-symbol-resume (the last three whenever they return). -/
theorem handlers_next_pc (D : IonDecoder) (mem : vmref → List Nat) (bc : bytecode)
    (src dstv srcv : vRegData) (srcb : bRegData) (srck k : kRegData)
    (offset size tlv headerSize tags symbol pc : Nat) :
    (bclitrefgo bc offset size tlv headerSize pc).2 = pc + 12
      ∧ (bcisnullvgo src k pc).2 = pc + 6
      ∧ (bcisnotnullvgo src k pc).2 = pc + 6
      ∧ (bcistruevgo src k pc).2 = pc + 6
      ∧ (bcisfalsevgo src k pc).2 = pc + 6
      ∧ (bctypebitsgo src k pc).2 = pc + 6
      ∧ (bcchecktaggo src tags k pc).2.2 = pc + 10
      ∧ ((bcobjectsizego D mem bc src k pc).2 = none
          ∨ ∃ dst msk, (bcobjectsizego D mem bc src k pc).2 = some (dst, msk, pc + 8))
      ∧ ((bcfindsymgo D mem bc dstv srcb symbol k pc).2 = none
          ∨ ∃ dst msk,
            (bcfindsymgo D mem bc dstv srcb symbol k pc).2 = some (dst, msk, pc + 12))
      ∧ ((bcfindsym2go D mem bc srcb srcv srck symbol k pc).2 = none
          ∨ ∃ dst msk,
            (bcfindsym2go D mem bc srcb srcv srck symbol k pc).2
              = some (dst, msk, pc + 16)) := by
  refine ⟨rfl, rfl, rfl, rfl, rfl, rfl, rfl, ?_, ?_, ?_⟩
  · unfold bcobjectsizego
    simp only
    cases (List.finRange bcLaneCount).foldl
        (fun st i => st.bind (fun s => bcobjectsizego.step D mem src s i))
        (some (i64RegData.zero, k.mask)) with
    | none => exact Or.inl rfl
    | some s => exact Or.inr ⟨_, _, rfl⟩
  · unfold bcfindsymgo
    cases (List.finRange bcLaneCount).foldl
        (fun st i => st.bind (fun s => bcfindsymgo.step D mem symbol srcb k.mask s i))
        (some { dstv := dstv, retmask := 0, err := bc.err, stop := false }) with
    | none => exact Or.inl rfl
    | some s => exact Or.inr ⟨_, _, rfl⟩
  · unfold bcfindsym2go
    cases (List.finRange bcLaneCount).foldl
        (fun st i => st.bind (fun s =>
          bcfindsym2go.step D mem symbol srcb srcv srck.mask k.mask s i))
        (some { dstv := srcv, retmask := 0, err := bc.err, stop := false }) with
    | none => exact Or.inl rfl
    | some s => exact Or.inr ⟨_, _, rfl⟩

/-! ## Two runs side by side -/

/-- Two loops whose steps keep a relation between their states either both fail or both
complete in related states. -/
theorem foldl_bind_rel {S T ι : Type} (f : S → ι → Option S) (g : T → ι → Option T)
    (R : S → T → Prop) (l : List ι)
    (h : ∀ i ∈ l, ∀ s t, R s t →
      (f s i = none ∧ g t i = none)
        ∨ ∃ s' t', f s i = some s' ∧ g t i = some t' ∧ R s' t')
    (s : S) (t : T) (hst : R s t) :
    (l.foldl (fun st i => st.bind (fun s => f s i)) (some s) = none
        ∧ l.foldl (fun st i => st.bind (fun t => g t i)) (some t) = none)
      ∨ ∃ s' t', l.foldl (fun st i => st.bind (fun s => f s i)) (some s) = some s'
          ∧ l.foldl (fun st i => st.bind (fun t => g t i)) (some t) = some t' ∧ R s' t' := by
  induction l generalizing s t with
  | nil => exact Or.inr ⟨s, t, rfl, rfl, hst⟩
  | cons a u ih =>
    rw [List.foldl_cons, List.foldl_cons, Option.some_bind, Option.some_bind]
    rcases h a (List.mem_cons_self a u) s t hst with ⟨h1, h2⟩ | ⟨s', t', h1, h2, h3⟩
    · rw [h1, h2, foldl_bind_none, foldl_bind_none]
      exact Or.inl ⟨rfl, rfl⟩
    · rw [h1, h2]
      exact ih (fun i hi => h i (List.mem_cons_of_mem a hi)) s' t' h3

/-- The effect of a lane of `bcfindsymgo` depends on the byte range of the lane only. -/
theorem bcfindsymgo_effect_congr (D : IonDecoder) (mem : vmref → List Nat) (symbol : Nat)
    (src src' : bRegData) (srcmask : Nat) (i : Fin bcLaneCount)
    (ho : src.offsets i = src'.offsets i) (hs : src.sizes i = src'.sizes i) :
    bcfindsymgo.effect D mem symbol src srcmask i
      = bcfindsymgo.effect D mem symbol src' srcmask i := by
  unfold bcfindsymgo.effect bcfindsymgo.lane
  rw [ho, hs]

/-- Two runs of `bcfindsymgo` from the same output register whose byte-range registers
agree on the active lanes: they set the same fault, both return or both do not, and when
they return the masks are equal, the slots of the active lanes are equal and the slots of
all lanes agree in size, tag and header size. -/
theorem bcfindsymgo_agree (D : IonDecoder) (mem : vmref → List Nat) (bc : bytecode)
    (dstv : vRegData) (srcb srcb' : bRegData) (symbol : Nat) (k : kRegData) (pc : Nat)
    (hagree : ∀ i : Fin bcLaneCount, k.mask.testBit i.val = true →
      srcb.offsets i = srcb'.offsets i ∧ srcb.sizes i = srcb'.sizes i) :
    (bcfindsymgo D mem bc dstv srcb symbol k pc).1.err
        = (bcfindsymgo D mem bc dstv srcb' symbol k pc).1.err
      ∧ (((bcfindsymgo D mem bc dstv srcb symbol k pc).2 = none
          ∧ (bcfindsymgo D mem bc dstv srcb' symbol k pc).2 = none)
        ∨ ∃ dst dst' msk,
            (bcfindsymgo D mem bc dstv srcb symbol k pc).2 = some (dst, msk, pc + 12)
            ∧ (bcfindsymgo D mem bc dstv srcb' symbol k pc).2 = some (dst', msk, pc + 12)
            ∧ (∀ i, k.mask.testBit i.val = true → dst.slot i = dst'.slot i)
            ∧ (∀ i, dst.sizes i = dst'.sizes i ∧ dst.typeL i = dst'.typeL i
                ∧ dst.headerSize i = dst'.headerSize i)) := by
  have hrel := foldl_bind_rel
    (findsym.apply (bcfindsymgo.effect D mem symbol srcb k.mask))
    (findsym.apply (bcfindsymgo.effect D mem symbol srcb' k.mask))
    (fun s t => s.retmask = t.retmask ∧ s.err = t.err ∧ s.stop = t.stop
      ∧ (∀ j, (s.dstv.slot j).2 = (t.dstv.slot j).2)
      ∧ (∀ j : Fin bcLaneCount, k.mask.testBit j.val = true →
          s.dstv.slot j = t.dstv.slot j))
    (List.finRange bcLaneCount)
    (by
      intro i _ s t hst
      obtain ⟨hm, he, hs, h2, hact⟩ := hst
      unfold findsym.apply
      by_cases hstop : s.stop = true
      · rw [if_pos hstop, if_pos (hs ▸ hstop)]
        exact Or.inr ⟨s, t, rfl, rfl, hm, he, hs, h2, hact⟩
      · rw [if_neg hstop, if_neg (hs ▸ hstop)]
        cases hb : k.mask.testBit i.val with
        | false =>
          rw [bcfindsymgo_effect_inactive D mem symbol srcb k.mask i hb,
            bcfindsymgo_effect_inactive D mem symbol srcb' k.mask i hb]
          refine Or.inr ⟨_, _, rfl, rfl, ?_, he, rfl, ?_, ?_⟩
          · simp only [Bool.false_eq_true, if_false]
            exact hm
          · intro j
            by_cases e : i = j
            · rw [← e, slot_setLast_same, slot_setLast_same]
              rfl
            · rw [slot_setLast_ne _ _ _ _ e, slot_setLast_ne _ _ _ _ e]
              exact h2 j
          · intro j hj
            have e : i ≠ j := fun e => by
              rw [e, hj] at hb
              exact absurd hb (by decide)
            rw [slot_setLast_ne _ _ _ _ e, slot_setLast_ne _ _ _ _ e]
            exact hact j hj
        | true =>
          rw [← bcfindsymgo_effect_congr D mem symbol srcb srcb' k.mask i (hagree i hb).1
            (hagree i hb).2]
          have hslots : ∀ (o : Option (Nat × Nat × Nat × Nat)) (j : Fin bcLaneCount),
              ((s.dstv.setLast i o).slot j).2 = ((t.dstv.setLast i o).slot j).2
              ∧ (k.mask.testBit j.val = true →
                  (s.dstv.setLast i o).slot j = (t.dstv.setLast i o).slot j) := by
            intro o j
            by_cases e : i = j
            · rw [← e, slot_setLast_same, slot_setLast_same, hact i hb]
              exact ⟨rfl, fun _ => rfl⟩
            · rw [slot_setLast_ne _ _ _ _ e, slot_setLast_ne _ _ _ _ e]
              exact ⟨h2 j, hact j⟩
          cases bcfindsymgo.effect D mem symbol srcb k.mask i with
          | cont slot found =>
            refine Or.inr ⟨_, _, rfl, rfl, ?_, he, rfl, fun j => (hslots slot j).1,
              fun j => (hslots slot j).2⟩
            simp only [hm]
          | fault slot =>
            exact Or.inr ⟨_, _, rfl, rfl, hm, rfl, rfl, fun j => (hslots slot j).1,
              fun j => (hslots slot j).2⟩
          | abort => exact Or.inl ⟨rfl, rfl⟩)
    { dstv := dstv, retmask := 0, err := bc.err, stop := false }
    { dstv := dstv, retmask := 0, err := bc.err, stop := false }
    ⟨rfl, rfl, rfl, fun _ => rfl, fun _ _ => rfl⟩
  unfold bcfindsymgo
  rw [bcfindsymgo_loop_eq, bcfindsymgo_loop_eq]
  rcases hrel with ⟨h1, h2⟩ | ⟨s, t, h1, h2, hm, he, -, hall, hact⟩
  · rw [h1, h2]
    exact ⟨rfl, Or.inl ⟨rfl, rfl⟩⟩
  · rw [h1, h2]
    refine ⟨he, Or.inr ⟨s.dstv, t.dstv, { mask := s.retmask }, rfl, ?_, hact, ?_⟩⟩
    · simp only [hm]
    · intro i
      have := hall i
      simp only [vRegData.slot, Prod.mk.injEq] at this
      exact this

/-! ## Claim C18: reads of find-symbol under the mask -/

/-- C18, as stated, fails: the byte-range registers `bRegData.splat 1 9` and
`exampleRanges` agree on lane 0, the only lane of the mask 1, but lane 1 of the output
value-vector has the offset 1 in one run and 100 in the other. -/
theorem bcfindsymgo_copies_masked_out_offset :
    (∀ i : Fin bcLaneCount, Nat.testBit 1 i.val = true →
        (bRegData.splat 1 9).offsets i = exampleRanges.offsets i
          ∧ (bRegData.splat 1 9).sizes i = exampleRanges.sizes i)
      ∧ (bcfindsymgo ion.decoder (vmref.mem exampleStruct) exampleBytecode vRegData.zero
          (bRegData.splat 1 9) 5 { mask := 1 } 0).2.map (fun r => r.1.offsets 1) = some 1
      ∧ (bcfindsymgo ion.decoder (vmref.mem exampleStruct) exampleBytecode vRegData.zero
          exampleRanges 5 { mask := 1 } 0).2.map (fun r => r.1.offsets 1) = some 100 := by
  decide

/-- C18, amended. Two runs of find-symbol (fresh) over the same buffer, immediate symbol,
mask and prior output register whose byte-range registers agree on every masked-in lane
set the same fault and both return or both do not; when they return, the output masks are
equal, the output slots of the masked-in lanes are equal, and the output slots of all
lanes agree in size, tag and header size. -/
theorem bcfindsymgo_masked_reads (D : IonDecoder) (mem : vmref → List Nat) (bc : bytecode)
    (dstv : vRegData) (srcb srcb' : bRegData) (symbol : Nat) (k : kRegData) (pc : Nat)
    (hagree : ∀ i : Fin bcLaneCount, k.mask.testBit i.val = true →
      srcb.offsets i = srcb'.offsets i ∧ srcb.sizes i = srcb'.sizes i) :
    (bcfindsymgo D mem bc dstv srcb symbol k pc).1.err
        = (bcfindsymgo D mem bc dstv srcb' symbol k pc).1.err
      ∧ (((bcfindsymgo D mem bc dstv srcb symbol k pc).2 = none
          ∧ (bcfindsymgo D mem bc dstv srcb' symbol k pc).2 = none)
        ∨ ∃ dst dst' msk,
            (bcfindsymgo D mem bc dstv srcb symbol k pc).2 = some (dst, msk, pc + 12)
            ∧ (bcfindsymgo D mem bc dstv srcb' symbol k pc).2 = some (dst', msk, pc + 12)
            ∧ (∀ i, k.mask.testBit i.val = true → dst.slot i = dst'.slot i)
            ∧ (∀ i, dst.sizes i = dst'.sizes i ∧ dst.typeL i = dst'.typeL i
                ∧ dst.headerSize i = dst'.headerSize i)) :=
  bcfindsymgo_agree D mem bc dstv srcb srcb' symbol k pc hagree

/-- C18, witness: the registers `bRegData.splat 1 9` and `exampleRanges` under the
mask 1. -/
theorem bcfindsymgo_masked_reads_witness :
    (bcfindsymgo ion.decoder (vmref.mem exampleStruct) exampleBytecode vRegData.zero
        (bRegData.splat 1 9) 5 { mask := 1 } 0).1.err
      = (bcfindsymgo ion.decoder (vmref.mem exampleStruct) exampleBytecode vRegData.zero
        exampleRanges 5 { mask := 1 } 0).1.err :=
  (bcfindsymgo_masked_reads ion.decoder (vmref.mem exampleStruct) exampleBytecode
    vRegData.zero (bRegData.splat 1 9) exampleRanges 5 { mask := 1 } 0 (by decide)).1

/-! ## Claim C20: lanes are independent -/

/-- The count of a lane of `bcobjectsizego` depends on the slot of the lane only. -/
theorem bcobjectsizego_count_congr (D : IonDecoder) (mem : vmref → List Nat)
    (src src' : vRegData) (i : Fin bcLaneCount) (h : src.slot i = src'.slot i) :
    bcobjectsizego.count D mem src i = bcobjectsizego.count D mem src' i := by
  simp only [vRegData.slot, Prod.mk.injEq] at h
  obtain ⟨h1, h2, h3, h4⟩ := h
  unfold bcobjectsizego.count bcobjectsizego.content
  rw [h1, h2, h3, h4]

/-- What a returning `bcobjectsizego` leaves in lane `i`, from the mask bit and the count
of the lane. -/
theorem bcobjectsizego_lane_of_some (D : IonDecoder) (mem : vmref → List Nat)
    (bc : bytecode) (src : vRegData) (k : kRegData) (pc : Nat)
    (r : i64RegData × kRegData × Nat) (i : Fin bcLaneCount)
    (hr : (bcobjectsizego D mem bc src k pc).2 = some r) :
    (r.1.values i, r.2.1.mask.testBit i.val)
      = if k.mask.testBit i.val = true then
          match bcobjectsizego.count D mem src i with
          | some c => if 0 ≤ c then (c, true) else (0, false)
          | none => (0, false)
        else (0, false) := by
  unfold bcobjectsizego at hr
  simp only at hr
  cases hf : (List.finRange bcLaneCount).foldl
      (fun st i => st.bind (fun s => bcobjectsizego.step D mem src s i))
      (some (i64RegData.zero, k.mask)) with
  | none => rw [hf] at hr; exact absurd hr (by simp)
  | some s =>
    rw [hf, Option.map_some', Option.some.injEq] at hr
    rw [← hr]
    obtain ⟨s0, s1, h0, h1, h2⟩ := foldl_bind_lane (bcobjectsizego.step D mem src)
      (fun s => (s.1.values i, s.2.testBit i.val)) i
      (fun a ha s t hst => bcobjectsizego_step_frame D mem src s t a i ha hst)
      (List.finRange bcLaneCount) lanes_nodup (lanes_mem i) (i64RegData.zero, k.mask) s hf
    simp only [Prod.mk.injEq] at h0
    have hz : s0.1.values i = 0 := h0.1
    simp only at h2 ⊢
    rw [h2]
    cases hb : k.mask.testBit i.val with
    | false =>
      have hb0 : s0.2.testBit i.val = false := h0.2.trans hb
      rw [bcobjectsizego_step_inactive D mem src s0 i hb0] at h1
      rw [← Option.some.inj h1, hz, hb0]
      rfl
    | true =>
      have hb0 : s0.2.testBit i.val = true := h0.2.trans hb
      rw [bcobjectsizego_step_active D mem src s0 i hb0] at h1
      cases hc : bcobjectsizego.count D mem src i with
      | none =>
        rw [hc] at h1
        exact absurd h1 (by simp)
      | some c =>
        rw [hc, Option.some_bind] at h1
        by_cases h0c : 0 ≤ c
        · rw [if_pos h0c] at h1
          rw [← Option.some.inj h1]
          simp only [Function.update_same, hb0, if_true, h0c]
        · rw [if_neg h0c] at h1
          rw [← Option.some.inj h1]
          simp only [testBit_bitClear_lane, decide_True, Bool.not_true, Bool.and_false, hz,
            if_true, h0c, if_false]

/-- C20. Lanes are stable and independent for the lane-wise opcodes: for is-null,
is-not-null, is-true, is-false, type-bits, check-tag and object-size, the output of lane
`i` (its value slot and its mask bit) is the same in two runs whose inputs agree in lane
`i` (the input slot and the mask bit; immediates, decoder and buffer being the same),
whatever the other lanes hold; for object-size, whenever both runs return. -/
theorem lanes_independent (D : IonDecoder) (mem : vmref → List Nat) (bc bc' : bytecode)
    (src src' : vRegData) (k k' : kRegData) (tags pc pc' : Nat) (i : Fin bcLaneCount)
    (hslot : src.slot i = src'.slot i)
    (hbit : k.mask.testBit i.val = k'.mask.testBit i.val) :
    (bcisnullvgo src k pc).1.mask.testBit i.val
        = (bcisnullvgo src' k' pc').1.mask.testBit i.val
      ∧ (bcisnotnullvgo src k pc).1.mask.testBit i.val
        = (bcisnotnullvgo src' k' pc').1.mask.testBit i.val
      ∧ (bcistruevgo src k pc).1.mask.testBit i.val
        = (bcistruevgo src' k' pc').1.mask.testBit i.val
      ∧ (bcisfalsevgo src k pc).1.mask.testBit i.val
        = (bcisfalsevgo src' k' pc').1.mask.testBit i.val
      ∧ (bctypebitsgo src k pc).1.values i = (bctypebitsgo src' k' pc').1.values i
      ∧ (bcchecktaggo src tags k pc).1.slot i = (bcchecktaggo src' tags k' pc').1.slot i
      ∧ (bcchecktaggo src tags k pc).2.1.mask.testBit i.val
        = (bcchecktaggo src' tags k' pc').2.1.mask.testBit i.val
      ∧ (∀ r r', (bcobjectsizego D mem bc src k pc).2 = some r →
          (bcobjectsizego D mem bc' src' k' pc').2 = some r' →
          r.1.values i = r'.1.values i
            ∧ r.2.1.mask.testBit i.val = r'.2.1.mask.testBit i.val) := by
  have htag : src.typeL i = src'.typeL i := by
    simp only [vRegData.slot, Prod.mk.injEq] at hslot
    exact hslot.2.2.1
  have hct := bcchecktaggo_lane src tags k pc i
  rw [hslot, htag, hbit, ← bcchecktaggo_lane src' tags k' pc' i, Prod.mk.injEq] at hct
  refine ⟨?_, ?_, ?_, ?_, ?_, hct.1, hct.2, ?_⟩
  · rw [Bool.eq_iff_iff, bcisnullvgo_lane, bcisnullvgo_lane, htag, hbit]
  · rw [Bool.eq_iff_iff, bcisnotnullvgo_lane, bcisnotnullvgo_lane, htag, hbit]
  · rw [Bool.eq_iff_iff, bcistruevgo_lane, bcistruevgo_lane, htag, hbit]
  · rw [Bool.eq_iff_iff, bcisfalsevgo_lane, bcisfalsevgo_lane, htag, hbit]
  · rw [bctypebitsgo_lane, bctypebitsgo_lane, htag, hbit]
  · intro r r' hr hr'
    have h1 := bcobjectsizego_lane_of_some D mem bc src k pc r i hr
    have h2 := bcobjectsizego_lane_of_some D mem bc' src' k' pc' r' i hr'
    rw [bcobjectsizego_count_congr D mem src src' i hslot, hbit, ← h2, Prod.mk.injEq] at h1
    exact h1

/-- C20, witness: lane 0 of a batch of null sentinels and lane 0 of `exampleValues`, whose
other lanes hold something else, under the masks 1 and `0xFFFF`. -/
theorem lanes_independent_witness :
    (bcisnullvgo (vRegData.splat 0 1 0x0F 1) { mask := 1 } 0).1.mask.testBit 0
      = (bcisnullvgo exampleValues { mask := 0xFFFF } 6).1.mask.testBit 0 :=
  (lanes_independent ion.decoder (vmref.mem exampleScratch) exampleBytecode exampleBytecode
    (vRegData.splat 0 1 0x0F 1) exampleValues { mask := 1 } { mask := 0xFFFF } 0 0 6 0
    (by decide) (by decide)).1

/-! ## Claims C26 to C29: zeroing, resumed lookups and the child-counting walks -/

/-- C26. Zeroing policy of the integer outputs: type-bits writes 0 to the integer slot of
every lane whose input mask bit is clear, and object-size, whenever it returns, writes 0
to the integer slot of every lane whose output mask bit is clear. -/
theorem integer_outputs_zeroed (D : IonDecoder) (mem : vmref → List Nat) (bc : bytecode)
    (src : vRegData) (k : kRegData) (pc : Nat) (i : Fin bcLaneCount) :
    (k.mask.testBit i.val = false → (bctypebitsgo src k pc).1.values i = 0)
      ∧ (∀ r, (bcobjectsizego D mem bc src k pc).2 = some r →
          r.2.1.mask.testBit i.val = false → r.1.values i = 0) := by
  constructor
  · intro h
    rw [bctypebitsgo_lane, h]
    rfl
  · intro r hr hbit
    have key := bcobjectsizego_lane_of_some D mem bc src k pc r i hr
    rw [hbit] at key
    cases hk : k.mask.testBit i.val with
    | false =>
      rw [hk] at key
      simp only [Bool.false_eq_true, if_false, Prod.mk.injEq] at key
      exact key.1
    | true =>
      rw [hk] at key
      simp only [if_true] at key
      cases hc : bcobjectsizego.count D mem src i with
      | none =>
        rw [hc] at key
        simp only [Prod.mk.injEq] at key
        exact key.1
      | some c =>
        rw [hc] at key
        simp only at key
        by_cases h0 : 0 ≤ c
        · rw [if_pos h0] at key
          simp only [Prod.mk.injEq, Bool.false_eq_true, and_false] at key
        · rw [if_neg h0] at key
          simp only [Prod.mk.injEq] at key
          exact key.1

/-- C26, witness: in a batch of the list `0xB2 0x11 0x23`, whose second child is
truncated, with the mask 1, lane 1 is masked out for type-bits, and object-size returns
with the output bit and the integer of lane 0 cleared. -/
theorem integer_outputs_zeroed_witness :
    (bctypebitsgo (vRegData.splat 4 3 0xB2 1) { mask := 1 } 0).1.values 1 = 0
      ∧ ∃ r, (bcobjectsizego ion.decoder (vmref.mem exampleScratch) exampleBytecode
          (vRegData.splat 4 3 0xB2 1) { mask := 1 } 0).2 = some r
        ∧ r.2.1.mask.testBit 0 = false ∧ r.1.values 0 = 0 := by
  refine ⟨(integer_outputs_zeroed ion.decoder (vmref.mem exampleScratch) exampleBytecode
      (vRegData.splat 4 3 0xB2 1) { mask := 1 } 0 1).1 (by decide), ?_⟩
  obtain ⟨dst, msk, hout, hl⟩ := bcobjectsizego_lanes ion.decoder
    (vmref.mem exampleScratch) exampleBytecode (vRegData.splat 4 3 0xB2 1) { mask := 1 } 0
    (by decide)
  have hbit : msk.mask.testBit 0 = false :=
    (((hl 0).2 (-1) (by decide) (by decide)).2 (by decide)).2
  exact ⟨(dst, msk, 0 + 8), hout, hbit,
    (integer_outputs_zeroed ion.decoder (vmref.mem exampleScratch) exampleBytecode
      (vRegData.splat 4 3 0xB2 1) { mask := 1 } 0 0).2 (dst, msk, 0 + 8) hout hbit⟩

/-- A lane whose effect assigns nothing keeps its slot and its bit of `retmask` through
the loop over the lanes, whenever the loop completes. -/
theorem findsym_apply_idle (eff : Fin bcLaneCount → findsym.Effect) (i : Fin bcLaneCount)
    (hi : eff i = findsym.Effect.cont none false) (l : List (Fin bcLaneCount))
    (s r : findsym.State)
    (hr : l.foldl (fun st j => st.bind (fun s => findsym.apply eff s j)) (some s) = some r) :
    r.dstv.slot i = s.dstv.slot i ∧ r.retmask.testBit i.val = s.retmask.testBit i.val := by
  have key := foldl_bind_frame (findsym.apply eff)
    (fun s : findsym.State => (s.dstv.slot i, s.retmask.testBit i.val)) l
    (by
      intro j _ s t hst
      unfold findsym.apply at hst
      by_cases hstop : s.stop = true
      · rw [if_pos hstop] at hst
        cases hst
        rfl
      · rw [if_neg hstop] at hst
        by_cases hji : j = i
        · subst hji
          rw [hi] at hst
          simp only [Option.some.injEq] at hst
          rw [← hst]
          rfl
        · have hne : i ≠ j := fun e => hji e.symm
          have hv : i.val ≠ j.val := fun e => hne (Fin.ext e)
          cases he : eff j with
          | cont slot found =>
            rw [he] at hst
            simp only [Option.some.injEq] at hst
            rw [← hst]
            simp only [Prod.mk.injEq]
            refine ⟨slot_setLast_ne _ _ _ _ hji, ?_⟩
            cases found with
            | false => rfl
            | true =>
              simp only [if_true, Nat.testBit_or, testBit_one_shiftLeft]
              rw [decide_eq_false (fun e => hv e.symm), Bool.or_false]
          | fault slot =>
            rw [he] at hst
            simp only [Option.some.injEq] at hst
            rw [← hst]
            simp only [Prod.mk.injEq]
            exact ⟨slot_setLast_ne _ _ _ _ hji, trivial⟩
          | abort =>
            rw [he] at hst
            cases hst)
    s r hr
  simp only [Prod.mk.injEq] at key
  exact key

/-- The byte range of a lane of `bcfindsym2go` is empty when its resume position is at or
past the end of the struct body. -/
theorem bcfindsym2go_range_none (srcb : bRegData) (srcv : vRegData) (srck : Nat)
    (i : Fin bcLaneCount)
    (h : (if srck.testBit i.val = true then (srcv.offsets i + srcv.sizes i) % 2 ^ 32
      else srcb.offsets i) ≥ (srcb.offsets i + srcb.sizes i) % 2 ^ 32) :
    bcfindsym2go.range srcb srcv srck i = none := by
  unfold bcfindsym2go.range
  simp only
  cases hb : srck.testBit i.val with
  | true =>
    rw [hb] at h
    simp only [if_true] at h
    rw [if_pos ((and_one_shiftLeft_ne_zero _ _).mpr hb), if_pos h]
  | false =>
    rw [hb] at h
    simp only [Bool.false_eq_true, if_false] at h
    have hk : ¬ (srck &&& (1 <<< i.val) ≠ 0) := by
      intro hne
      rw [(and_one_shiftLeft_ne_zero _ _).mp hne] at hb
      exact absurd hb (by decide)
    rw [if_neg hk, if_pos h]

/-- C27. find-symbol-resume starts from the previous value state: for every lane whose
active-mask bit is clear, and for every active lane whose resume position (the end of the
previous match if the prior mask bit is set, otherwise the body start) is at or past
the end of the struct body, the output value slot equals the slot of the prior
value-vector for that lane and the output mask bit is clear, whenever the handler
returns. -/
theorem bcfindsym2go_keeps_idle_lane (D : IonDecoder) (mem : vmref → List Nat)
    (bc : bytecode) (srcb : bRegData) (srcv : vRegData) (srck : kRegData) (symbol : Nat)
    (srcmask : kRegData) (pc : Nat) (i : Fin bcLaneCount)
    (hidle : srcmask.mask.testBit i.val = false
      ∨ (if srck.mask.testBit i.val = true then (srcv.offsets i + srcv.sizes i) % 2 ^ 32
          else srcb.offsets i) ≥ (srcb.offsets i + srcb.sizes i) % 2 ^ 32)
    (r : vRegData × kRegData × Nat)
    (hr : (bcfindsym2go D mem bc srcb srcv srck symbol srcmask pc).2 = some r) :
    r.1.slot i = srcv.slot i ∧ r.2.1.mask.testBit i.val = false := by
  have heff : bcfindsym2go.effect D mem symbol srcb srcv srck.mask srcmask.mask i
      = findsym.Effect.cont none false := by
    cases hb : srcmask.mask.testBit i.val with
    | false => exact bcfindsym2go_effect_inactive D mem symbol srcb srcv _ _ i hb
    | true =>
      rcases hidle with h | h
      · rw [hb] at h; exact absurd h (by decide)
      · exact bcfindsym2go_effect_skip D mem symbol srcb srcv _ _ i hb
          (bcfindsym2go_range_none srcb srcv srck.mask i h)
  unfold bcfindsym2go at hr
  rw [bcfindsym2go_loop_eq] at hr
  cases hf : (List.finRange bcLaneCount).foldl
      (fun st j => st.bind (fun s =>
        findsym.apply (bcfindsym2go.effect D mem symbol srcb srcv srck.mask srcmask.mask)
          s j))
      (some { dstv := srcv, retmask := 0, err := bc.err, stop := false }) with
  | none =>
    rw [hf] at hr
    exact absurd hr (by simp)
  | some st =>
    rw [hf] at hr
    simp only [Option.some.injEq] at hr
    obtain ⟨h1, h2⟩ := findsym_apply_idle _ i heff _ _ st hf
    rw [← hr]
    exact ⟨h1, by rw [h2]; exact Nat.zero_testBit _⟩

/-- C27, witness: lane 0 is active and its previous match, the field `9:"C"`, ends where
the struct body ends; lane 1 is masked out. -/
theorem bcfindsym2go_keeps_idle_lane_witness :
    ∃ r, (bcfindsym2go ion.decoder (vmref.mem exampleStruct) exampleBytecode
        (bRegData.splat 1 9) (vRegData.splat 8 2 0x81 1) { mask := 1 } 9 { mask := 1 } 0).2
        = some r
      ∧ (r.1.slot 0 = (vRegData.splat 8 2 0x81 1).slot 0 ∧ r.2.1.mask.testBit 0 = false)
      ∧ (r.1.slot 1 = (vRegData.splat 8 2 0x81 1).slot 1
        ∧ r.2.1.mask.testBit 1 = false) := by
  obtain ⟨dst, msk, hout, -⟩ := bcfindsym2go_of_cont ion.decoder (vmref.mem exampleStruct)
    exampleBytecode (bRegData.splat 1 9) (vRegData.splat 8 2 0x81 1) { mask := 1 } 9
    { mask := 1 } 0 (by decide)
  exact ⟨(dst, msk, 0 + 16), hout,
    bcfindsym2go_keeps_idle_lane ion.decoder (vmref.mem exampleStruct) exampleBytecode
      (bRegData.splat 1 9) (vRegData.splat 8 2 0x81 1) { mask := 1 } 9 { mask := 1 } 0 0
      (Or.inr (by decide)) (dst, msk, 0 + 16) hout,
    bcfindsym2go_keeps_idle_lane ion.decoder (vmref.mem exampleStruct) exampleBytecode
      (bRegData.splat 1 9) (vRegData.splat 8 2 0x81 1) { mask := 1 } 9 { mask := 1 } 0 1
      (Or.inl (by decide)) (dst, msk, 0 + 16) hout⟩

/-- A lookup for a symbol below every symbol of the fields visits none of them. -/
theorem lookup_above (D : IonDecoder) (symbol e : Nat) (fs : List Field)
    (h : ∀ g ∈ fs, symbol < g.sym) : findsym.lookup D symbol e fs none = (none, false) := by
  cases fs with
  | nil => rfl
  | cons g t =>
    rw [findsym.lookup, if_pos (h g (List.mem_cons_self g t))]

/-- One active lane of a lookup resumed for the same symbol `a`: it goes on; and in a
struct with strictly ascending symbols that holds `a` it assigns nothing. -/
theorem bcfindsym2go_effect_same (D : IonDecoder) (buffer : List Nat) (a : Nat)
    (srcb : bRegData) (v1 : vRegData) (k1 srcmask : Nat) (i : Fin bcLaneCount)
    (fs : List Field)
    (hact : srcmask.testBit i.val = true)
    (hbuf : buffer.length < 2 ^ 32)
    (hin : srcb.offsets i + srcb.sizes i ≤ buffer.length)
    (hbody : vmref.mem buffer { offset := srcb.offsets i, size := srcb.sizes i }
      = fieldBytes fs)
    (hwf : ∀ g ∈ fs, D.Encodes g)
    (hv1 : v1.slot i
      = (findsym.lookup D a ((srcb.offsets i + srcb.sizes i) % 2 ^ 32) fs none).1.getD
          (srcb.offsets i, 0, 0, 0))
    (hk1 : k1.testBit i.val
      = (findsym.lookup D a ((srcb.offsets i + srcb.sizes i) % 2 ^ 32) fs none).2) :
    (bcfindsym2go.effect D (vmref.mem buffer) a srcb v1 k1 srcmask i).isCont = true
      ∧ ((fs.map Field.sym).Pairwise (· < ·) → (∃ f ∈ fs, f.sym = a) →
        bcfindsym2go.effect D (vmref.mem buffer) a srcb v1 k1 srcmask i
          = findsym.Effect.cont none false) := by
  cases hfa : (findsym.lookup D a ((srcb.offsets i + srcb.sizes i) % 2 ^ 32) fs none).2 with
  | true =>
    obtain ⟨pre, f, post, hF, hpre, hf⟩ := lookup_found_split D a _ fs none hfa
    subst hF
    have hhit := lookup_hit D a ((srcb.offsets i + srcb.sizes i) % 2 ^ 32) pre f post hpre
      hf none
    rw [hhit] at hv1
    rw [hfa] at hk1
    simp only [Option.getD_some] at hv1
    have heff := bcfindsym2go_effect_after_match D buffer a srcb v1 k1 srcmask i pre f post
      hact hbuf hin hbody hwf hv1 hk1
    refine ⟨by rw [heff]; rfl, fun hasc _ => ?_⟩
    rw [heff]
    have hpost : ∀ g ∈ post, a < g.sym := by
      intro g hg
      rw [List.map_append, List.map_cons, List.pairwise_append] at hasc
      have := (List.pairwise_cons.mp hasc.2.1).1 g.sym (List.mem_map_of_mem Field.sym hg)
      omega
    rw [lookup_above D a _ post hpost]
  | false =>
    rw [hfa] at hk1
    have heff := bcfindsym2go_effect_no_match D buffer a srcb v1 k1 srcmask i fs hact hbuf
      hin hbody hwf hk1
    refine ⟨by rw [heff]; rfl, fun hasc hmem => ?_⟩
    have := (lookup_found_iff D a ((srcb.offsets i + srcb.sizes i) % 2 ^ 32) fs hasc
      none).mpr hmem
    rw [hfa] at this
    exact absurd this (by decide)

/-- C28. Resuming with the same symbol does not re-find it: for a batch whose active
lanes hold well-formed structs inside the scratch buffer, find-symbol (fresh) for `a`
returns, and find-symbol-resume for `a`, run on the value-vector and the mask that it
produced, returns; in a lane `i` whose struct has strictly ascending symbol ids and
contains `a`, the fresh lookup sets the mask bit, and the resumed lookup clears it and
leaves the value slot as it was. -/
theorem findsym_resume_same_symbol (D : IonDecoder) (buffer : List Nat)
    (bc bc' : bytecode) (dstv : vRegData) (srcb : bRegData) (k : kRegData)
    (a pc pc' : Nat) (fs : Fin bcLaneCount → List Field)
    (hbuf : buffer.length < 2 ^ 32)
    (hwf : ∀ j, k.mask.testBit j.val = true →
      srcb.offsets j + srcb.sizes j ≤ buffer.length
        ∧ vmref.mem buffer { offset := srcb.offsets j, size := srcb.sizes j }
          = fieldBytes (fs j)
        ∧ ∀ f ∈ fs j, D.Encodes f)
    (i : Fin bcLaneCount) (hi : k.mask.testBit i.val = true)
    (hasc : ((fs i).map Field.sym).Pairwise (· < ·)) (hmem : ∃ f ∈ fs i, f.sym = a) :
    ∃ v1 k1 v2 k2,
      (bcfindsymgo D (vmref.mem buffer) bc dstv srcb a k pc).2 = some (v1, k1, pc + 12)
      ∧ k1.mask.testBit i.val = true
      ∧ (bcfindsym2go D (vmref.mem buffer) bc' srcb v1 k1 a k pc').2
        = some (v2, k2, pc' + 16)
      ∧ k2.mask.testBit i.val = false ∧ v2.slot i = v1.slot i := by
  have hwf' : ∀ j, k.mask.testBit j.val = true →
      vmref.mem buffer { offset := srcb.offsets j, size := srcb.sizes j }
          = fieldBytes (fs j) ∧ ∀ f ∈ fs j, D.Encodes f :=
    fun j hj => ⟨(hwf j hj).2.1, (hwf j hj).2.2⟩
  obtain ⟨v1, k1, h1, -, h1a, -, h1b⟩ :=
    bcfindsymgo_of_fields D (vmref.mem buffer) bc dstv srcb a k pc fs hwf'
  have hk1 : ∀ j, k.mask.testBit j.val = true → k1.mask.testBit j.val
      = (findsym.lookup D a ((srcb.offsets j + srcb.sizes j) % 2 ^ 32) (fs j) none).2 := by
    intro j hj
    have := testBit_of_lanes k1.mask _ h1b j
    rw [Bool.eq_iff_iff, this]
    exact ⟨fun h => h.2, fun h => ⟨hj, h⟩⟩
  have hlane := fun j (hj : k.mask.testBit j.val = true) =>
    bcfindsym2go_effect_same D buffer a srcb v1 k1.mask k.mask j (fs j) hj hbuf
      (hwf j hj).1 (hwf j hj).2.1 (hwf j hj).2.2 (h1a j hj) (hk1 j hj)
  have hc : ∀ j, (bcfindsym2go.effect D (vmref.mem buffer) a srcb v1 k1.mask k.mask
      j).isCont = true := by
    intro j
    cases hb : k.mask.testBit j.val with
    | false =>
      rw [bcfindsym2go_effect_inactive D (vmref.mem buffer) a srcb v1 k1.mask k.mask j hb]
      rfl
    | true => exact (hlane j hb).1
  obtain ⟨v2, k2, h2, -, h2s, h2b⟩ :=
    bcfindsym2go_of_cont D (vmref.mem buffer) bc' srcb v1 k1 a k pc' hc
  have heff := (hlane i hi).2 hasc hmem
  refine ⟨v1, k1, v2, k2, h1, ?_, h2, ?_, ?_⟩
  · rw [hk1 i hi]
    exact (lookup_found_iff D a _ (fs i) hasc none).mpr hmem
  · cases hb : k2.mask.testBit i.val with
    | false => rfl
    | true =>
      have := (testBit_of_lanes k2.mask _ h2b i).mp hb
      rw [heff] at this
      exact absurd this (by decide)
  · rw [h2s i, heff]
    rfl

/-- C28, witness: the struct `{2:"A", 5:"B", 9:"C"}` in lanes 0 and 1, looked up for 5
and resumed for 5. -/
theorem findsym_resume_same_symbol_witness :
    ∃ v1 k1 v2 k2,
      (bcfindsymgo ion.decoder (vmref.mem exampleStruct) exampleBytecode vRegData.zero
          (bRegData.splat 1 9) 5 { mask := 3 } 0).2 = some (v1, k1, 0 + 12)
      ∧ k1.mask.testBit 0 = true
      ∧ (bcfindsym2go ion.decoder (vmref.mem exampleStruct) exampleBytecode
          (bRegData.splat 1 9) v1 k1 5 { mask := 3 } 12).2 = some (v2, k2, 12 + 16)
      ∧ k2.mask.testBit 0 = false ∧ v2.slot 0 = v1.slot 0 :=
  findsym_resume_same_symbol ion.decoder exampleStruct exampleBytecode exampleBytecode
    vRegData.zero (bRegData.splat 1 9) { mask := 3 } 5 0 12 (fun _ => exampleFields)
    (by decide)
    (fun _ _ => ⟨show 1 + 9 ≤ exampleStruct.length by decide,
      show vmref.mem exampleStruct { offset := 1, size := 9 } = fieldBytes exampleFields
        by decide,
      exampleFields_encoded⟩)
    0 (by decide) (by decide) (by decide)

/-- The count that the loop of `countValuesInList` returns is -1 or lies between the count
it started with and that count plus the length of the message. -/
theorem countValuesInList_loop_bound (D : IonDecoder) (fuel : Nat) :
    ∀ (msg : List Nat) (c r : Int), countValuesInList.loop D fuel msg c = some r →
      r = -1 ∨ (c ≤ r ∧ r ≤ c + msg.length) := by
  induction fuel with
  | zero =>
    intro msg c r h
    rw [countValuesInList.loop] at h
    cases h
    exact Or.inr ⟨le_refl _, by omega⟩
  | succ f ih =>
    intro msg c r h
    rw [countValuesInList.loop] at h
    by_cases hlen : msg.length ≠ 0
    · rw [if_pos hlen] at h
      by_cases h0 : D.SizeOf msg ≤ 0
      · simp only [h0, if_true, Option.some.injEq] at h
        exact Or.inl h.symm
      · by_cases h1 : (msg.length : Int) < D.SizeOf msg
        · simp only [h0, h1, if_true, if_false] at h
          cases h
        · simp only [h0, h1, if_false] at h
          rcases ih _ _ _ h with e | ⟨e1, e2⟩
          · exact Or.inl e
          · have hd : (msg.drop (D.SizeOf msg).toNat).length ≤ msg.length - 1 := by
              rw [List.length_drop]; omega
            exact Or.inr ⟨by omega, by omega⟩
    · rw [if_neg hlen] at h
      cases h
      exact Or.inr ⟨le_refl _, by omega⟩

/-- The bound of `countValuesInList_loop_bound` for the loop of `countValuesInStruct`. -/
theorem countValuesInStruct_loop_bound (D : IonDecoder) (fuel : Nat) :
    ∀ (msg : List Nat) (c r : Int), countValuesInStruct.loop D fuel msg c = some r →
      r = -1 ∨ (c ≤ r ∧ r ≤ c + msg.length) := by
  induction fuel with
  | zero =>
    intro msg c r h
    rw [countValuesInStruct.loop] at h
    cases h
    exact Or.inr ⟨le_refl _, by omega⟩
  | succ f ih =>
    intro msg c r h
    rw [countValuesInStruct.loop] at h
    by_cases hlen : msg.length ≠ 0
    · rw [if_pos hlen] at h
      cases hl : D.labelOf msg with
      | none =>
        simp only [IonDecoder.ReadLabel, hl, Option.map_none'] at h
        cases h
        exact Or.inl rfl
      | some p =>
        simp only [IonDecoder.ReadLabel, hl, Option.map_some'] at h
        by_cases h0 : D.SizeOf (msg.drop p.2) ≤ 0
        · simp only [h0, if_true, Option.some.injEq] at h
          exact Or.inl h.symm
        · by_cases h1 : ((msg.drop p.2).length : Int) < D.SizeOf (msg.drop p.2)
          · simp only [h0, h1, if_true, if_false] at h
            cases h
          · simp only [h0, h1, if_false] at h
            rcases ih _ _ _ h with e | ⟨e1, e2⟩
            · exact Or.inl e
            · have hd : ((msg.drop p.2).drop (D.SizeOf (msg.drop p.2)).toNat).length
                  ≤ msg.length - 1 := by
                rw [List.length_drop, List.length_drop]
                rw [List.length_drop] at h1
                omega
              exact Or.inr ⟨by omega, by omega⟩
    · rw [if_neg hlen] at h
      cases h
      exact Or.inr ⟨le_refl _, by omega⟩

/-- With a size decoder that reads no size beyond the end of its message, the loop of
`countValuesInList` returns. -/
theorem countValuesInList_loop_returns (D : IonDecoder)
    (hsz : ∀ m : List Nat, D.SizeOf m ≤ (m.length : Int)) (fuel : Nat) :
    ∀ (msg : List Nat) (c : Int), ∃ r, countValuesInList.loop D fuel msg c = some r := by
  induction fuel with
  | zero => intro msg c; exact ⟨c, rfl⟩
  | succ f ih =>
    intro msg c
    rw [countValuesInList.loop]
    by_cases hlen : msg.length ≠ 0
    · rw [if_pos hlen]
      by_cases h0 : D.SizeOf msg ≤ 0
      · exact ⟨-1, by simp only [h0, if_true]⟩
      · have h1 : ¬ (msg.length : Int) < D.SizeOf msg := not_lt.mpr (hsz msg)
        simp only [h0, h1, if_false]
        exact ih _ _
    · rw [if_neg hlen]
      exact ⟨c, rfl⟩

/-- With a size decoder that reads no size beyond the end of its message, the loop of
`countValuesInStruct` returns. -/
theorem countValuesInStruct_loop_returns (D : IonDecoder)
    (hsz : ∀ m : List Nat, D.SizeOf m ≤ (m.length : Int)) (fuel : Nat) :
    ∀ (msg : List Nat) (c : Int), ∃ r, countValuesInStruct.loop D fuel msg c = some r := by
  induction fuel with
  | zero => intro msg c; exact ⟨c, rfl⟩
  | succ f ih =>
    intro msg c
    rw [countValuesInStruct.loop]
    by_cases hlen : msg.length ≠ 0
    · rw [if_pos hlen]
      cases hl : D.labelOf msg with
      | none =>
        simp only [IonDecoder.ReadLabel, hl, Option.map_none']
        exact ⟨-1, rfl⟩
      | some p =>
        simp only [IonDecoder.ReadLabel, hl, Option.map_some']
        by_cases h0 : D.SizeOf (msg.drop p.2) ≤ 0
        · exact ⟨-1, by simp only [h0, if_true]⟩
        · have h1 : ¬ ((msg.drop p.2).length : Int) < D.SizeOf (msg.drop p.2) :=
            not_lt.mpr (hsz _)
          simp only [h0, h1, if_false]
          exact ih _ _
    · rw [if_neg hlen]
      exact ⟨c, rfl⟩

/-- The size decoder of the examples reads no size beyond the end of its message. -/
theorem ion_decoder_sizeOf_le (m : List Nat) : ion.decoder.SizeOf m ≤ (m.length : Int) := by
  show (match ion.declaredSize m with
    | none => (-1 : Int)
    | some n => if n ≤ m.length then (n : Int) else -1) ≤ (m.length : Int)
  cases ion.declaredSize m with
  | none => show (-1 : Int) ≤ _; omega
  | some n =>
    show (if n ≤ m.length then (n : Int) else -1) ≤ _
    by_cases h : n ≤ m.length
    · rw [if_pos h]; omega
    · rw [if_neg h]; omega

/-- C29. What the code does: for every byte string `msg` and every size decoder the loops
of `countValuesInList` and `countValuesInStruct` end within `len(msg)` iterations (more
fuel changes nothing, each iteration shortening the remaining bytes by the positive size
of a counted value), and whenever the walks return, they return -1 or a count `c` with
`0 <= c <= len(msg)`. They return when the size decoder reads no size beyond the end of
its message. The code does not compare `valueSize` with the remaining bytes: when the
size read at the start of `msg` (after the first label, for a struct) is beyond the end,
the slice expression `msg[valueSize:]` (`val[valueSize:]`) panics and nothing is returned,
as for the value header `0x23` with no content behind it. -/
theorem countValues_return_or_overrun (D : IonDecoder) (msg : List Nat) :
    (∀ fuel, msg.length ≤ fuel →
        countValuesInList.loop D fuel msg 0 = countValuesInList D msg
          ∧ countValuesInStruct.loop D fuel msg 0 = countValuesInStruct D msg)
      ∧ (∀ c, countValuesInList D msg = some c → c = -1 ∨ (0 ≤ c ∧ c ≤ msg.length))
      ∧ (∀ c, countValuesInStruct D msg = some c → c = -1 ∨ (0 ≤ c ∧ c ≤ msg.length))
      ∧ ((∀ m : List Nat, D.SizeOf m ≤ (m.length : Int)) →
          (∃ c, countValuesInList D msg = some c ∧ (c = -1 ∨ (0 ≤ c ∧ c ≤ msg.length)))
            ∧ ∃ c, countValuesInStruct D msg = some c
              ∧ (c = -1 ∨ (0 ≤ c ∧ c ≤ msg.length)))
      ∧ (msg ≠ [] → (msg.length : Int) < D.SizeOf msg → countValuesInList D msg = none)
      ∧ (∀ sym val, msg ≠ [] → D.ReadLabel msg = some (sym, val) →
          (val.length : Int) < D.SizeOf val → countValuesInStruct D msg = none)
      ∧ countValuesInList ion.headerDecoder [0x23] = none
      ∧ countValuesInStruct ion.headerDecoder [0x85, 0x23] = none := by
  have hl : ∀ c, countValuesInList D msg = some c →
      c = -1 ∨ (0 ≤ c ∧ c ≤ msg.length) := by
    intro c h
    have := countValuesInList_loop_bound D msg.length msg 0 c h
    simpa using this
  have hs : ∀ c, countValuesInStruct D msg = some c →
      c = -1 ∨ (0 ≤ c ∧ c ≤ msg.length) := by
    intro c h
    have := countValuesInStruct_loop_bound D msg.length msg 0 c h
    simpa using this
  refine ⟨fun fuel hf => ⟨?_, ?_⟩, hl, hs, fun hsz => ⟨?_, ?_⟩, ?_, ?_, by decide,
    by decide⟩
  · exact countValuesInList_loop_fuel D fuel msg.length msg 0 hf (le_refl _)
  · exact countValuesInStruct_loop_fuel D fuel msg.length msg 0 hf (le_refl _)
  · obtain ⟨r, hr⟩ := countValuesInList_loop_returns D hsz msg.length msg 0
    exact ⟨r, hr, hl r hr⟩
  · obtain ⟨r, hr⟩ := countValuesInStruct_loop_returns D hsz msg.length msg 0
    exact ⟨r, hr, hs r hr⟩
  · exact fun hne h => countValuesInList_overrun D msg hne h
  · exact fun sym val hne hlab h => countValuesInStruct_overrun D msg hne sym val hlab h

/-- C29, witness: under the decoder of the examples, which reads no size beyond the end,
the list body `0x21 0x05 0x11` of two values, and the same bytes walked as a struct body,
whose first label is `0x21`: no label ends in it. -/
theorem countValues_return_or_overrun_witness :
    (∀ m : List Nat, ion.decoder.SizeOf m ≤ (m.length : Int))
      ∧ countValuesInList ion.decoder [0x21, 0x05, 0x11] = some 2
      ∧ countValuesInStruct ion.decoder [0x21, 0x05, 0x11] = some (-1)
      ∧ (∃ c, countValuesInList ion.decoder [0x21, 0x05, 0x11] = some c
          ∧ (c = -1 ∨ (0 ≤ c ∧ c ≤ ([0x21, 0x05, 0x11] : List Nat).length)))
      ∧ ∃ c, countValuesInStruct ion.decoder [0x21, 0x05, 0x11] = some c
          ∧ (c = -1 ∨ (0 ≤ c ∧ c ≤ ([0x21, 0x05, 0x11] : List Nat).length)) :=
  ⟨ion_decoder_sizeOf_le, by decide, by decide,
    (countValues_return_or_overrun ion.decoder [0x21, 0x05, 0x11]).2.2.2.1
      ion_decoder_sizeOf_le⟩

end vm

namespace sort

/-- The binary search keeps `f` false below `i` and true from `j` on. -/
theorem Search_loop_spec (f : Nat → Bool) (n : Nat)
    (hmono : ∀ a b, a ≤ b → b < n → f a = true → f b = true) (fuel : Nat) :
    ∀ i j, i ≤ j → j ≤ n → j - i ≤ fuel → (∀ k, k < i → f k = false) →
      (∀ k, j ≤ k → k < n → f k = true) →
      Search.loop f fuel i j ≤ n ∧ (∀ k, k < Search.loop f fuel i j → f k = false) ∧
        (∀ k, Search.loop f fuel i j ≤ k → k < n → f k = true) := by
  induction fuel with
  | zero =>
    intro i j hij hjn hfuel hlo hhi
    have : i = j := by omega
    subst this
    exact ⟨hjn, hlo, hhi⟩
  | succ fuel ih =>
    intro i j hij hjn hfuel hlo hhi
    rw [Search.loop]
    by_cases hlt : i < j
    · rw [if_pos hlt]
      dsimp only
      have hh : (i + j) / 2 < j := by omega
      have hh' : i ≤ (i + j) / 2 := by omega
      cases hf : f ((i + j) / 2) with
      | false =>
        simp only [Bool.not_false, if_true]
        refine ih ((i + j) / 2 + 1) j (by omega) hjn (by omega) ?_ hhi
        intro k hk
        cases hfk : f k with
        | false => rfl
        | true =>
          have := hmono k ((i + j) / 2) (by omega) (by omega) hfk
          rw [hf] at this
          exact absurd this (by decide)
      | true =>
        simp only [Bool.not_true, if_false]
        refine ih i ((i + j) / 2) hh' (by omega) (by omega) hlo ?_
        intro k hk hkn
        exact hmono _ k hk hkn hf
    · rw [if_neg hlt]
      have : i = j := by omega
      subst this
      exact ⟨hjn, hlo, hhi⟩

/-- On a predicate that is false on a prefix of `[0, n)` and true on the rest,
`sort.Search` returns the length of the prefix. -/
theorem Search_spec (f : Nat → Bool) (n : Nat)
    (hmono : ∀ a b, a ≤ b → b < n → f a = true → f b = true) :
    Search n f ≤ n ∧ (∀ k, k < Search n f → f k = false) ∧
      (∀ k, Search n f ≤ k → k < n → f k = true) :=
  Search_loop_spec f n hmono n 0 n (Nat.zero_le n) (Nat.le_refl n) (by omega)
    (fun k hk => absurd hk (Nat.not_lt_zero k)) (fun k hk hkn => absurd hkn (by omega))

end sort

namespace blockfmt

theorem push_indices {T : Type} (X : TimeIndex T)
    (pathless : List String → List String → Bool) (s : SparseIndex T)
    (path : List String) (a b : date.Time) :
    (s.push X pathless path a b).indices =
      upsert s.indices (s.find pathless path) path (fun t => X.Push t a b)
        (X.Push X.zero a b) := by
  unfold SparseIndex.push upsert
  dsimp only
  split
  · split <;> rfl
  · rfl

theorem update_indices {T : Type} (X : TimeIndex T)
    (pathless : List String → List String → Bool) (s : SparseIndex T)
    (path : List String) (a b : date.Time) :
    (s.update X pathless path a b).indices =
      upsert s.indices (s.find pathless path) path (fun t => X.EditLatest t a b)
        (X.PushEmpty (X.Push X.zero a b) (s.blocks - 1)) := by
  unfold SparseIndex.update upsert
  dsimp only
  split
  · split <;> rfl
  · rfl

theorem push_blocks {T : Type} (X : TimeIndex T)
    (pathless : List String → List String → Bool) (s : SparseIndex T)
    (path : List String) (a b : date.Time) :
    (s.push X pathless path a b).blocks = s.blocks := by
  unfold SparseIndex.push
  dsimp only
  split
  · split <;> rfl
  · rfl

/-- The entries before and after an upsert, whatever the index `j`: either a fresh entry
is put between two parts of the list, or one entry with the path has its ranges changed. -/
theorem upsert_split {T : Type} (indices : List (timeIndex T)) (j : Nat)
    (path : List String) (hit : T → T) (fresh : T) :
    (indices = indices.take j ++ indices.drop j ∧
      (∀ e, indices[j]? = some e → e.path ≠ path) ∧
      upsert indices j path hit fresh =
        indices.take j ++ { path := path, ranges := fresh } :: indices.drop j) ∨
    (∃ t, indices[j]? = some { path := path, ranges := t } ∧
      indices = indices.take j ++ { path := path, ranges := t } :: indices.drop (j + 1) ∧
      upsert indices j path hit fresh =
        indices.take j ++ { path := path, ranges := hit t } :: indices.drop (j + 1)) := by
  unfold upsert
  cases hj : indices[j]? with
  | none =>
    exact Or.inl ⟨(List.take_append_drop j indices).symm, (fun e he => by cases he), rfl⟩
  | some e =>
    dsimp only
    by_cases hp : path = e.path
    · rw [if_pos hp]
      right
      obtain ⟨hlt, he⟩ := List.getElem?_eq_some_iff.mp hj
      refine ⟨e.ranges, ?_, ?_, ?_⟩
      · rw [hp]
      · rw [hp]
        have : indices.drop j = e :: indices.drop (j + 1) := by
          rw [← he]; exact List.drop_eq_getElem_cons hlt
        conv_lhs => rw [← List.take_append_drop j indices, this]
      · rw [List.set_eq_take_append_cons_drop, if_pos hlt, hp]
    · rw [if_neg hp]
      refine Or.inl ⟨(List.take_append_drop j indices).symm, fun e' he' => ?_, rfl⟩
      cases he'
      exact fun h => hp h.symm


/-- On sorted entries the closure of the binary search is false on a prefix and true on
the rest. -/
theorem find_mono {T : Type} (pathless : List String → List String → Bool)
    (hord : StrictTotal pathless) (s : SparseIndex T) (hs : s.Sorted pathless)
    (path : List String) (a b : Nat) (hab : a ≤ b) (hb : b < s.indices.length)
    (ha : (match s.indices[a]? with
      | some e => !pathless e.path path
      | none => true) = true) :
    (match s.indices[b]? with
      | some e => !pathless e.path path
      | none => true) = true := by
  have hal : a < s.indices.length := by omega
  rw [List.getElem?_eq_getElem hal] at ha
  rw [List.getElem?_eq_getElem hb]
  dsimp only at ha ⊢
  rcases Nat.eq_or_lt_of_le hab with h | h
  · subst h; exact ha
  · have hlt := (List.pairwise_iff_getElem.mp hs) a b hal hb h
    cases hb' : pathless s.indices[b].path path with
    | false => rfl
    | true =>
      have := hord.2.1 _ _ _ hlt hb'
      rw [this] at ha
      exact absurd ha (by decide)

/-- On sorted entries `sort.Search` splits the entries into those below `path` and those
not below it. -/
theorem find_spec {T : Type} (pathless : List String → List String → Bool)
    (hord : StrictTotal pathless) (s : SparseIndex T) (hs : s.Sorted pathless)
    (path : List String) :
    (∀ e ∈ s.indices.take (s.find pathless path), pathless e.path path = true) ∧
    (∀ e ∈ s.indices.drop (s.find pathless path), pathless e.path path = false) := by
  obtain ⟨_, hlo, hhi⟩ := sort.Search_spec _ s.indices.length
    (find_mono pathless hord s hs path)
  constructor
  · intro e he
    obtain ⟨k, hk, hlen, rfl⟩ := List.mem_take_iff_getElem.mp he
    have := hlo k (lt_of_lt_of_le hk (Nat.min_le_left _ _))
    rw [List.getElem?_eq_getElem (lt_of_lt_of_le hk (Nat.min_le_right _ _))] at this
    simpa using this
  · intro e he
    obtain ⟨k, hk⟩ := List.mem_iff_getElem?.mp he
    rw [List.getElem?_drop] at hk
    obtain ⟨hlen, rfl⟩ := List.getElem?_eq_some_iff.mp hk
    have := hhi (s.find pathless path + k) (Nat.le_add_right _ _) hlen
    rw [List.getElem?_eq_getElem hlen] at this
    simpa using this


/-- On sorted entries an upsert at the index of the binary search puts the fresh entry
between the entries below `path` and the entries above it, or changes the ranges of the
one entry with the path. -/
theorem upsert_sorted_split {T : Type} (pathless : List String → List String → Bool)
    (hord : StrictTotal pathless) (s : SparseIndex T) (hs : s.Sorted pathless)
    (path : List String) (hit : T → T) (fresh : T) :
    ∃ pre post, (∀ e ∈ pre, pathless e.path path = true) ∧
      (∀ e ∈ post, pathless path e.path = true) ∧
      ((s.indices = pre ++ post ∧
          upsert s.indices (s.find pathless path) path hit fresh =
            pre ++ { path := path, ranges := fresh } :: post) ∨
        (∃ t, s.indices = pre ++ { path := path, ranges := t } :: post ∧
          upsert s.indices (s.find pathless path) path hit fresh =
            pre ++ { path := path, ranges := hit t } :: post)) := by
  obtain ⟨hlo, hhi⟩ := find_spec pathless hord s hs path
  rcases upsert_split s.indices (s.find pathless path) path hit fresh with
    ⟨hsplit, hne, hres⟩ | ⟨t, hj, hsplit, hres⟩
  · refine ⟨_, _, hlo, ?_, Or.inl ⟨hsplit, hres⟩⟩
    intro e he
    have hfalse := hhi e he
    have hne' : e.path ≠ path := by
      obtain ⟨k, hk⟩ := List.mem_iff_getElem?.mp he
      rw [List.getElem?_drop] at hk
      cases k with
      | zero => exact hne e hk
      | succ k =>
        obtain ⟨hlen, hek⟩ := List.getElem?_eq_some_iff.mp hk
        have hjl : s.find pathless path < s.indices.length := by omega
        have hlt := (List.pairwise_iff_getElem.mp hs) (s.find pathless path)
          (s.find pathless path + (k + 1)) hjl hlen (by omega)
        have hj0 : pathless (s.indices[s.find pathless path]).path path = false := by
          apply hhi
          rw [List.drop_eq_getElem_cons hjl]
          exact List.mem_cons_self _ _
        intro hp
        rw [hek, hp, hj0] at hlt
        exact absurd hlt (by decide)
    rcases hord.2.2 e.path path hne' with h | h
    · rw [hfalse] at h; exact absurd h (by decide)
    · exact h
  · refine ⟨_, _, hlo, ?_, Or.inr ⟨t, hsplit, hres⟩⟩
    have hs' := hs
    unfold SparseIndex.Sorted at hs'
    rw [hsplit, List.pairwise_append] at hs'
    exact (List.pairwise_cons.mp hs'.2.1).1

/-- An upsert at the index of the binary search keeps sorted entries sorted. -/
theorem upsert_sorted {T : Type} (pathless : List String → List String → Bool)
    (hord : StrictTotal pathless) (s : SparseIndex T) (hs : s.Sorted pathless)
    (path : List String) (hit : T → T) (fresh : T) :
    (upsert s.indices (s.find pathless path) path hit fresh).Pairwise
      (fun a b => pathless a.path b.path = true) := by
  obtain ⟨pre, post, hpre, hpost, h⟩ :=
    upsert_sorted_split pathless hord s hs path hit fresh
  have hs' := hs
  unfold SparseIndex.Sorted at hs'
  rcases h with ⟨hsplit, hres⟩ | ⟨t, hsplit, hres⟩
  · rw [hres]
    rw [hsplit, List.pairwise_append] at hs'
    rw [List.pairwise_append]
    refine ⟨hs'.1, List.pairwise_cons.mpr ⟨hpost, hs'.2.1⟩, ?_⟩
    intro a ha b hb
    rcases List.mem_cons.mp hb with rfl | hb
    · exact hpre a ha
    · exact hs'.2.2 a ha b hb
  · rw [hres]
    rw [hsplit, List.pairwise_append] at hs'
    rw [List.pairwise_append]
    refine ⟨hs'.1, List.pairwise_cons.mpr ⟨hpost, (List.pairwise_cons.mp hs'.2.1).2⟩, ?_⟩
    intro a ha b hb
    rcases List.mem_cons.mp hb with rfl | hb
    · exact hpre a ha
    · exact hs'.2.2 a ha b (List.mem_cons_of_mem _ hb)

/-- The paths after an upsert are the paths before it and `path`, whatever the index. -/
theorem upsert_paths {T : Type} (indices : List (timeIndex T)) (j : Nat)
    (path : List String) (hit : T → T) (fresh : T) (q : List String) :
    q ∈ (upsert indices j path hit fresh).map (fun e => e.path) ↔
      q ∈ indices.map (fun e => e.path) ∨ q = path := by
  rcases upsert_split indices j path hit fresh with ⟨hsplit, _, hres⟩ | ⟨t, _, hsplit, hres⟩
  · rw [hres]
    conv_rhs => rw [hsplit]
    simp only [List.map_append, List.map_cons, List.mem_append, List.mem_cons]
    tauto
  · rw [hres]
    conv_rhs => rw [hsplit]
    simp only [List.map_append, List.map_cons, List.mem_append, List.mem_cons]
    tauto

/-- On sorted entries `search` returns the entry with the path, and `nil` when there is
none. -/
theorem search_sorted {T : Type} (pathless : List String → List String → Bool)
    (hord : StrictTotal pathless) (s : SparseIndex T) (hs : s.Sorted pathless)
    (path : List String) (e : timeIndex T) :
    s.search pathless path = some e ↔ e ∈ s.indices ∧ e.path = path := by
  unfold SparseIndex.search
  dsimp only
  constructor
  · intro h
    cases hj : s.indices[s.find pathless path]? with
    | none => rw [hj] at h; cases h
    | some e0 =>
      rw [hj] at h
      dsimp only at h
      by_cases hp : path = e0.path
      · rw [if_pos hp] at h
        cases h
        exact ⟨List.mem_iff_getElem?.mpr ⟨_, hj⟩, hp.symm⟩
      · rw [if_neg hp] at h; cases h
  · rintro ⟨he, hp⟩
    obtain ⟨hlo, hhi⟩ := find_spec pathless hord s hs path
    have hmem : e ∈ s.indices.take (s.find pathless path) ++
        s.indices.drop (s.find pathless path) := by
      rw [List.take_append_drop]; exact he
    rcases List.mem_append.mp hmem with h | h
    · have := hlo e h
      rw [hp, hord.1] at this
      exact absurd this (by decide)
    · obtain ⟨k, hk⟩ := List.mem_iff_getElem?.mp h
      rw [List.getElem?_drop] at hk
      cases k with
      | zero =>
        rw [Nat.add_zero] at hk
        rw [hk]
        dsimp only
        rw [if_pos hp.symm]
      | succ k =>
        obtain ⟨hlen, hek⟩ := List.getElem?_eq_some_iff.mp hk
        have hjl : s.find pathless path < s.indices.length := by omega
        have hlt := (List.pairwise_iff_getElem.mp hs) (s.find pathless path)
          (s.find pathless path + (k + 1)) hjl hlen (by omega)
        have hj0 : pathless (s.indices[s.find pathless path]).path path = false := by
          apply hhi
          rw [List.drop_eq_getElem_cons hjl]
          exact List.mem_cons_self _ _
        rw [hek, hp, hj0] at hlt
        exact absurd hlt (by decide)


/-- The paths of the entries of an index. -/
theorem sorted_iff_paths {T : Type} (pathless : List String → List String → Bool)
    (s : SparseIndex T) :
    s.Sorted pathless ↔
      (s.indices.map (fun e => e.path)).Pairwise (fun a b => pathless a b = true) := by
  unfold SparseIndex.Sorted
  rw [List.pairwise_map]

theorem push_sorted {T : Type} (X : TimeIndex T)
    (pathless : List String → List String → Bool) (hord : StrictTotal pathless)
    (s : SparseIndex T) (hs : s.Sorted pathless) (path : List String) (a b : date.Time) :
    (s.push X pathless path a b).Sorted pathless := by
  unfold SparseIndex.Sorted
  rw [push_indices]
  exact upsert_sorted pathless hord s hs path _ _

theorem update_sorted {T : Type} (X : TimeIndex T)
    (pathless : List String → List String → Bool) (hord : StrictTotal pathless)
    (s : SparseIndex T) (hs : s.Sorted pathless) (path : List String) (a b : date.Time) :
    (s.update X pathless path a b).Sorted pathless := by
  unfold SparseIndex.Sorted
  rw [update_indices]
  exact upsert_sorted pathless hord s hs path _ _

theorem push_paths {T : Type} (X : TimeIndex T)
    (pathless : List String → List String → Bool) (s : SparseIndex T)
    (path : List String) (a b : date.Time) (q : List String) :
    q ∈ (s.push X pathless path a b).indices.map (fun e => e.path) ↔
      q ∈ s.indices.map (fun e => e.path) ∨ q = path := by
  rw [push_indices]
  exact upsert_paths _ _ _ _ _ q

/-- The loop of `bump` changes no path. -/
theorem bump_loop_paths {T : Type} (X : TimeIndex T) (blocks : Int) :
    ∀ (l l' : List (timeIndex T)), SparseIndex.bump.loop X blocks l = some l' →
      l'.map (fun e => e.path) = l.map (fun e => e.path) := by
  intro l
  induction l with
  | nil =>
    intro l' h
    rw [SparseIndex.bump.loop] at h
    cases h
    rfl
  | cons e rest ih =>
    intro l' h
    rw [SparseIndex.bump.loop] at h
    cases hr : SparseIndex.bump.loop X blocks rest with
    | none =>
      rw [hr] at h
      split at h
      · cases h
      · split at h <;> cases h
    | some r =>
      rw [hr] at h
      have := ih r hr
      split at h
      · cases h
        simp only [List.map_cons, this]
      · split at h
        · cases h
        · cases h
          simp only [List.map_cons, this]

theorem bump_paths {T : Type} (X : TimeIndex T) (s s' : SparseIndex T)
    (h : s.bump X = some s') :
    s'.indices.map (fun e => e.path) = s.indices.map (fun e => e.path) := by
  unfold SparseIndex.bump at h
  cases hl : SparseIndex.bump.loop X (s.blocks + 1) s.indices with
  | none => rw [hl] at h; cases h
  | some l =>
    rw [hl] at h
    cases h
    exact bump_loop_paths X _ _ _ hl

theorem bump_sorted {T : Type} (X : TimeIndex T)
    (pathless : List String → List String → Bool) (s s' : SparseIndex T)
    (h : s.bump X = some s') (hs : s.Sorted pathless) : s'.Sorted pathless := by
  rw [sorted_iff_paths] at hs ⊢
  rw [bump_paths X s s' h]
  exact hs

/-- The loop of `Push` over the ranges keeps sorted entries sorted. -/
theorem Push_loop_sorted {T : Type} (X : TimeIndex T)
    (pathless : List String → List String → Bool) (hord : StrictTotal pathless)
    (rng : List Range) (s : SparseIndex T) (hs : s.Sorted pathless) :
    (rng.foldl (SparseIndex.Push.step X pathless) s).Sorted pathless := by
  induction rng generalizing s with
  | nil => exact hs
  | cons r rest ih =>
    rw [List.foldl_cons]
    apply ih
    cases r with
    | TimeRange tr => exact push_sorted X pathless hord s hs _ _ _
    | other p => exact hs

/-- The paths after the loop of `Push` are the paths before it and the paths of the time
ranges. -/
theorem Push_loop_paths {T : Type} (X : TimeIndex T)
    (pathless : List String → List String → Bool) (rng : List Range) (s : SparseIndex T)
    (q : List String) :
    q ∈ (rng.foldl (SparseIndex.Push.step X pathless) s).indices.map (fun e => e.path) ↔
      q ∈ s.indices.map (fun e => e.path) ∨
        ∃ tr, Range.TimeRange tr ∈ rng ∧ tr.path = q := by
  induction rng generalizing s with
  | nil => simp
  | cons r rest ih =>
    rw [List.foldl_cons, ih]
    cases r with
    | TimeRange tr =>
      simp only [SparseIndex.Push.step, push_paths, List.mem_cons, Range.TimeRange.injEq]
      constructor
      · rintro ((h | h) | ⟨tr', h, rfl⟩)
        · exact Or.inl h
        · exact Or.inr ⟨tr, Or.inl rfl, h.symm⟩
        · exact Or.inr ⟨tr', Or.inr h, rfl⟩
      · rintro (h | ⟨tr', h | h, rfl⟩)
        · exact Or.inl (Or.inl h)
        · subst h; exact Or.inl (Or.inr rfl)
        · exact Or.inr ⟨tr', h, rfl⟩
    | other p =>
      simp only [SparseIndex.Push.step, List.mem_cons, reduceCtorEq, false_or]

theorem Push_call_sorted {T : Type} (X : TimeIndex T)
    (pathless : List String → List String → Bool) (hord : StrictTotal pathless)
    (s s' : SparseIndex T) (rng : List Range) (h : s.Push X pathless rng = some s')
    (hs : s.Sorted pathless) : s'.Sorted pathless :=
  bump_sorted X pathless _ s' h (Push_loop_sorted X pathless hord rng s hs)

theorem Push_call_paths {T : Type} (X : TimeIndex T)
    (pathless : List String → List String → Bool)
    (s s' : SparseIndex T) (rng : List Range) (h : s.Push X pathless rng = some s')
    (q : List String) :
    q ∈ s'.indices.map (fun e => e.path) ↔
      q ∈ s.indices.map (fun e => e.path) ∨
        ∃ tr, Range.TimeRange tr ∈ rng ∧ tr.path = q := by
  rw [bump_paths X _ s' h]
  exact Push_loop_paths X pathless rng s q

/-- The index of `mkindex` after one more block. -/
theorem mkindex_append {T : Type} (X : TimeIndex T)
    (pathless : List String → List String → Bool) (rs : List (List Range))
    (r : List Range) :
    mkindex X pathless (rs ++ [r]) =
      (mkindex X pathless rs).bind (fun s => s.Push X pathless r) := by
  unfold mkindex
  rw [List.foldl_append]
  rfl

/-- The entries of an index built by `Push` from the zero value are sorted, and their
paths are the paths of the time ranges of the blocks. -/
theorem mkindex_sorted_paths {T : Type} (X : TimeIndex T)
    (pathless : List String → List String → Bool) (hord : StrictTotal pathless)
    (rs : List (List Range)) :
    ∀ s, mkindex X pathless rs = some s → s.Sorted pathless ∧
      ∀ q, q ∈ s.indices.map (fun e => e.path) ↔
        ∃ r ∈ rs, ∃ tr, Range.TimeRange tr ∈ r ∧ tr.path = q := by
  induction rs using List.reverseRecOn with
  | nil =>
    intro s h
    cases h
    exact ⟨List.Pairwise.nil, fun q => by simp [SparseIndex.zero]⟩
  | append_singleton rs r ih =>
    intro s h
    rw [mkindex_append] at h
    cases h0 : mkindex X pathless rs with
    | none => rw [h0] at h; cases h
    | some s0 =>
      rw [h0, Option.some_bind] at h
      obtain ⟨hs0, hp0⟩ := ih s0 h0
      refine ⟨Push_call_sorted X pathless hord s0 s r h hs0, fun q => ?_⟩
      rw [Push_call_paths X pathless s0 s r h q, hp0 q]
      simp only [List.mem_append, List.mem_singleton]
      constructor
      · rintro (⟨r', hr', tr, h1, h2⟩ | ⟨tr, h1, h2⟩)
        · exact ⟨r', Or.inl hr', tr, h1, h2⟩
        · exact ⟨r, Or.inr rfl, tr, h1, h2⟩
      · rintro ⟨r', hr' | rfl, tr, h1, h2⟩
        · exact Or.inl ⟨r', hr', tr, h1, h2⟩
        · exact Or.inr ⟨tr, h1, h2⟩

theorem Get_eq_some {T : Type} (pathless : List String → List String → Bool)
    (hord : StrictTotal pathless) (s : SparseIndex T) (hs : s.Sorted pathless)
    (path : List String) (t : T) :
    s.Get pathless path = some t ↔
      ∃ e ∈ s.indices, e.path = path ∧ e.ranges = t := by
  unfold SparseIndex.Get
  constructor
  · intro h
    cases hsearch : s.search pathless path with
    | none => rw [hsearch] at h; cases h
    | some e =>
      rw [hsearch] at h
      cases h
      obtain ⟨h1, h2⟩ := (search_sorted pathless hord s hs path e).mp hsearch
      exact ⟨e, h1, h2, rfl⟩
  · rintro ⟨e, h1, h2, rfl⟩
    rw [(search_sorted pathless hord s hs path e).mpr ⟨h1, h2⟩]

theorem Get_eq_none {T : Type} (pathless : List String → List String → Bool)
    (hord : StrictTotal pathless) (s : SparseIndex T) (hs : s.Sorted pathless)
    (path : List String) :
    s.Get pathless path = none ↔ path ∉ s.indices.map (fun e => e.path) := by
  constructor
  · intro h hmem
    obtain ⟨e, he, hp⟩ := List.mem_map.mp hmem
    have := (Get_eq_some pathless hord s hs path e.ranges).mpr ⟨e, he, hp, rfl⟩
    rw [h] at this
    cases this
  · intro h
    cases hg : s.Get pathless path with
    | none => rfl
    | some t =>
      obtain ⟨e, he, hp, _⟩ := (Get_eq_some pathless hord s hs path t).mp hg
      exact absurd (List.mem_map.mpr ⟨e, he, hp⟩) h


example : examplePathless ["t", "ts"] ["x", "xx"] = true := by decide
example : examplePathless ["x", "xx"] ["t", "ts"] = false := by decide

theorem exampleTimeIndex_countsBlocks : exampleTimeIndex.CountsBlocks :=
  ⟨rfl, fun _ _ _ => rfl, fun _ _ _ => rfl⟩

theorem exampleTimeIndex_keepsExtremes : exampleTimeIndex.KeepsExtremes := by
  refine ⟨rfl, rfl, ?_, ?_⟩
  · rintro ⟨n, _ | ⟨lo, hi⟩⟩ a b <;> rfl
  · rintro ⟨n, _ | ⟨lo, hi⟩⟩ a b <;> rfl

theorem examplePathless_strictTotal : StrictTotal examplePathless := by
  have hst : IsStrictTotalOrder (List (List Char))
      (List.Lex (List.Lex (fun x y : Char => x < y))) := inferInstance
  have hinj : Function.Injective (fun a : List String => a.map String.data) :=
    List.map_injective_iff.mpr (fun s t h => String.ext h)
  refine ⟨fun a => ?_, fun a b c hab hbc => ?_, fun a b hne => ?_⟩
  · exact decide_eq_false (hst.toIsStrictOrder.toIsIrrefl.irrefl _)
  · exact decide_eq_true (hst.toIsStrictOrder.toIsTrans.trans _ _ _
      (of_decide_eq_true hab) (of_decide_eq_true hbc))
  · rcases hst.toIsTrichotomous.trichotomous (a.map String.data) (b.map String.data) with
      h | h | h
    · exact Or.inl (decide_eq_true h)
    · exact absurd (hinj h) hne
    · exact Or.inr (decide_eq_true h)


theorem timePaths_cons_time (tr : TimeRange) (rest : List Range) :
    timePaths (.TimeRange tr :: rest) = tr.path :: timePaths rest := rfl

theorem timePaths_cons_other (p : List String) (rest : List Range) :
    timePaths (.other p :: rest) = timePaths rest := rfl

theorem mem_timePaths (rng : List Range) (q : List String) :
    q ∈ timePaths rng ↔ ∃ tr, Range.TimeRange tr ∈ rng ∧ tr.path = q := by
  induction rng with
  | nil => simp [timePaths]
  | cons r rest ih =>
    cases r with
    | TimeRange tr =>
      rw [timePaths_cons_time, List.mem_cons, ih]
      constructor
      · rintro (h | ⟨tr', h, rfl⟩)
        · exact ⟨tr, List.mem_cons_self _ _, h.symm⟩
        · exact ⟨tr', List.mem_cons_of_mem _ h, rfl⟩
      · rintro ⟨tr', h, rfl⟩
        rcases List.mem_cons.mp h with h | h
        · cases h; exact Or.inl rfl
        · exact Or.inr ⟨tr', h, rfl⟩
    | other p =>
      rw [timePaths_cons_other, ih]
      simp only [List.mem_cons, reduceCtorEq, false_or]

/-- One call of `push` for a path that no earlier call of this block had: the entries
whose path was not pushed keep the old block count, and no entry has more than one block
beyond it. -/
theorem push_counts {T : Type} (X : TimeIndex T) (hX : X.CountsBlocks)
    (pathless : List String → List String → Bool) (B : Int) (hB : 0 ≤ B)
    (done : List (List String)) (s : SparseIndex T)
    (hinv : ∀ e ∈ s.indices, (e.path ∉ done → X.Blocks e.ranges = B) ∧
      X.Blocks e.ranges ≤ B + 1)
    (path : List String) (hp : path ∉ done) (a b : date.Time) :
    ∀ e ∈ (s.push X pathless path a b).indices,
      (e.path ∉ path :: done → X.Blocks e.ranges = B) ∧ X.Blocks e.ranges ≤ B + 1 := by
  rw [push_indices]
  rcases upsert_split s.indices (s.find pathless path) path (fun t => X.Push t a b)
    (X.Push X.zero a b) with ⟨hsplit, _, hres⟩ | ⟨t, _, hsplit, hres⟩
  · rw [hres]
    intro e he
    rcases List.mem_append.mp he with h | h
    · have := hinv e (by rw [hsplit]; exact List.mem_append_left _ h)
      exact ⟨fun hn => this.1 (fun hd => hn (List.mem_cons_of_mem _ hd)), this.2⟩
    · rcases List.mem_cons.mp h with rfl | h
      · refine ⟨fun hn => absurd (List.mem_cons_self _ _) hn, ?_⟩
        show X.Blocks (X.Push X.zero a b) ≤ B + 1
        rw [hX.Push, hX.zero]
        omega
      · have := hinv e (by rw [hsplit]; exact List.mem_append_right _ h)
        exact ⟨fun hn => this.1 (fun hd => hn (List.mem_cons_of_mem _ hd)), this.2⟩
  · rw [hres]
    have ht : X.Blocks t = B := by
      have := hinv { path := path, ranges := t }
        (by rw [hsplit]; exact List.mem_append_right _ (List.mem_cons_self _ _))
      exact this.1 hp
    intro e he
    rcases List.mem_append.mp he with h | h
    · have := hinv e (by rw [hsplit]; exact List.mem_append_left _ h)
      exact ⟨fun hn => this.1 (fun hd => hn (List.mem_cons_of_mem _ hd)), this.2⟩
    · rcases List.mem_cons.mp h with rfl | h
      · refine ⟨fun hn => absurd (List.mem_cons_self _ _) hn, ?_⟩
        show X.Blocks (X.Push t a b) ≤ B + 1
        rw [hX.Push, ht]
      · have := hinv e (by
          rw [hsplit]
          exact List.mem_append_right _ (List.mem_cons_of_mem _ h))
        exact ⟨fun hn => this.1 (fun hd => hn (List.mem_cons_of_mem _ hd)), this.2⟩

/-- The loop of `Push` over ranges with pairwise distinct time paths leaves no entry with
more than one block beyond the old count. -/
theorem Push_loop_counts {T : Type} (X : TimeIndex T) (hX : X.CountsBlocks)
    (pathless : List String → List String → Bool) (B : Int) (hB : 0 ≤ B)
    (rng : List Range) :
    ∀ (done : List (List String)) (s : SparseIndex T),
      (∀ e ∈ s.indices, (e.path ∉ done → X.Blocks e.ranges = B) ∧
        X.Blocks e.ranges ≤ B + 1) →
      (timePaths rng).Nodup → (∀ q ∈ timePaths rng, q ∉ done) →
      ∀ e ∈ (rng.foldl (SparseIndex.Push.step X pathless) s).indices,
        X.Blocks e.ranges ≤ B + 1 := by
  induction rng with
  | nil => intro done s hinv _ _ e he; exact (hinv e he).2
  | cons r rest ih =>
    intro done s hinv hnd hdis
    rw [List.foldl_cons]
    cases r with
    | TimeRange tr =>
      rw [timePaths_cons_time, List.nodup_cons] at hnd
      rw [timePaths_cons_time] at hdis
      refine ih (tr.path :: done) _
        (push_counts X hX pathless B hB done s hinv tr.path
          (hdis _ (List.mem_cons_self _ _)) tr.min tr.max) hnd.2 ?_
      intro q hq hmem
      rcases List.mem_cons.mp hmem with rfl | h
      · exact hnd.1 hq
      · exact hdis q (List.mem_cons_of_mem _ hq) h
    | other p =>
      rw [timePaths_cons_other] at hnd hdis
      exact ih done s hinv hnd hdis

theorem Push_loop_blocks {T : Type} (X : TimeIndex T)
    (pathless : List String → List String → Bool) (rng : List Range) (s : SparseIndex T) :
    (rng.foldl (SparseIndex.Push.step X pathless) s).blocks = s.blocks := by
  induction rng generalizing s with
  | nil => rfl
  | cons r rest ih =>
    rw [List.foldl_cons, ih]
    cases r with
    | TimeRange tr => exact push_blocks X pathless s _ _ _
    | other p => rfl

/-- The loop of `bump` does not panic on entries with at most `blocks` blocks, and leaves
every entry with `blocks` blocks; an entry that has them already stays as it is. -/
theorem bump_loop_aligned {T : Type} (X : TimeIndex T) (hX : X.CountsBlocks) (blocks : Int)
    (l : List (timeIndex T)) (h : ∀ e ∈ l, X.Blocks e.ranges ≤ blocks) :
    ∃ l', SparseIndex.bump.loop X blocks l = some l' ∧
      (∀ e ∈ l', X.Blocks e.ranges = blocks) ∧
      (∀ e ∈ l, X.Blocks e.ranges = blocks → e ∈ l') := by
  induction l with
  | nil => exact ⟨[], rfl, fun e he => absurd he (List.not_mem_nil e),
      fun e he => absurd he (List.not_mem_nil e)⟩
  | cons e rest ih =>
    obtain ⟨l', hl', hall, hkeep⟩ := ih (fun e' he' => h e' (List.mem_cons_of_mem _ he'))
    have he := h e (List.mem_cons_self _ _)
    rw [SparseIndex.bump.loop, hl']
    by_cases hlt : X.Blocks e.ranges < blocks
    · rw [if_pos hlt]
      refine ⟨_, rfl, ?_, ?_⟩
      · intro e' he'
        rcases List.mem_cons.mp he' with rfl | h'
        · show X.Blocks (X.PushEmpty e.ranges (blocks - X.Blocks e.ranges)) = blocks
          rw [hX.PushEmpty _ _ (by omega)]; omega
        · exact hall e' h'
      · intro e' he' hb
        rcases List.mem_cons.mp he' with rfl | h'
        · omega
        · exact List.mem_cons_of_mem _ (hkeep e' h' hb)
    · rw [if_neg hlt, if_neg (by omega)]
      refine ⟨_, rfl, ?_, ?_⟩
      · intro e' he'
        rcases List.mem_cons.mp he' with rfl | h'
        · omega
        · exact hall e' h'
      · intro e' he' hb
        rcases List.mem_cons.mp he' with rfl | h'
        · exact List.mem_cons_self _ _
        · exact List.mem_cons_of_mem _ (hkeep e' h' hb)

/-- A call of `Push` with pairwise distinct time paths on an aligned index returns an
aligned index with one more block, in which the entries pushed once are as the loop over
the ranges left them. -/
theorem Push_aligned {T : Type} (X : TimeIndex T) (hX : X.CountsBlocks)
    (pathless : List String → List String → Bool) (s : SparseIndex T) (rng : List Range)
    (h0 : 0 ≤ s.blocks) (halign : ∀ e ∈ s.indices, X.Blocks e.ranges = s.blocks)
    (hdist : (timePaths rng).Nodup) :
    ∃ s', s.Push X pathless rng = some s' ∧ s'.blocks = s.blocks + 1 ∧
      (∀ e ∈ s'.indices, X.Blocks e.ranges = s'.blocks) ∧
      (∀ e ∈ (rng.foldl (SparseIndex.Push.step X pathless) s).indices,
        X.Blocks e.ranges = s.blocks + 1 → e ∈ s'.indices) := by
  have hle := Push_loop_counts X hX pathless s.blocks h0 rng [] s
    (fun e he => ⟨fun _ => halign e he, by rw [halign e he]; omega⟩) hdist
    (fun q _ hq => absurd hq (List.not_mem_nil q))
  have hb := Push_loop_blocks X pathless rng s
  obtain ⟨l', hl', hall, hkeep⟩ := bump_loop_aligned X hX (s.blocks + 1) _ hle
  refine ⟨{ indices := l', blocks := s.blocks + 1 }, ?_, rfl, hall, hkeep⟩
  unfold SparseIndex.Push SparseIndex.bump
  rw [hb, hl']
  rfl

/-- The ranges that are not time ranges do not matter to `Push`. -/
theorem Push_loop_filter {T : Type} (X : TimeIndex T)
    (pathless : List String → List String → Bool) (rng : List Range) (s : SparseIndex T) :
    (rng.filter Range.isTimeRange).foldl (SparseIndex.Push.step X pathless) s =
      rng.foldl (SparseIndex.Push.step X pathless) s := by
  induction rng generalizing s with
  | nil => rfl
  | cons r rest ih =>
    cases r with
    | TimeRange tr =>
      rw [List.filter_cons_of_pos (by rfl), List.foldl_cons, List.foldl_cons, ih]
    | other p =>
      rw [List.filter_cons_of_neg (by simp [Range.isTimeRange]), List.foldl_cons, ih]
      rfl


/-- On sorted entries `Get` returns the ranges of the entry with the path. -/
theorem Get_eq_some_mem {T : Type} (pathless : List String → List String → Bool)
    (hord : StrictTotal pathless) (s : SparseIndex T) (hs : s.Sorted pathless)
    (path : List String) (t : T) :
    s.Get pathless path = some t ↔ { path := path, ranges := t } ∈ s.indices := by
  rw [Get_eq_some pathless hord s hs]
  constructor
  · rintro ⟨e, he, rfl, rfl⟩; exact he
  · intro h; exact ⟨_, h, rfl, rfl⟩

/-- A call of `push` for another path leaves what `Get` returns. -/
theorem push_Get_other {T : Type} (X : TimeIndex T)
    (pathless : List String → List String → Bool) (hord : StrictTotal pathless)
    (s : SparseIndex T) (hs : s.Sorted pathless) (q path : List String) (hne : q ≠ path)
    (a b : date.Time) :
    (s.push X pathless q a b).Get pathless path = s.Get pathless path := by
  have hs' := push_sorted X pathless hord s hs q a b
  apply Option.ext
  intro t
  simp only [Option.mem_def]
  rw [Get_eq_some_mem pathless hord _ hs', Get_eq_some_mem pathless hord s hs, push_indices]
  have hq : ∀ u : T, ({ path := path, ranges := t } : timeIndex T) ≠
      { path := q, ranges := u } := by
    intro u h
    exact hne (congrArg timeIndex.path h).symm
  rcases upsert_split s.indices (s.find pathless q) q (fun t => X.Push t a b)
    (X.Push X.zero a b) with ⟨hsplit, _, hres⟩ | ⟨u, _, hsplit, hres⟩
  · rw [hres]
    conv_rhs => rw [hsplit]
    simp only [List.mem_append, List.mem_cons, hq, false_or]
  · rw [hres]
    conv_rhs => rw [hsplit]
    simp only [List.mem_append, List.mem_cons, hq, false_or]

/-- After a call of `push`, `Get` returns for its path the ranges that were there, or the
zero value, with the range pushed. -/
theorem push_Get_same {T : Type} (X : TimeIndex T)
    (pathless : List String → List String → Bool) (hord : StrictTotal pathless)
    (s : SparseIndex T) (hs : s.Sorted pathless) (path : List String) (a b : date.Time) :
    (s.push X pathless path a b).Get pathless path =
      some (X.Push ((s.Get pathless path).getD X.zero) a b) := by
  have hs' := push_sorted X pathless hord s hs path a b
  rw [Get_eq_some_mem pathless hord _ hs', push_indices]
  obtain ⟨pre, post, hpre, hpost, h⟩ := upsert_sorted_split pathless hord s hs path
    (fun t => X.Push t a b) (X.Push X.zero a b)
  rcases h with ⟨hsplit, hres⟩ | ⟨t, hsplit, hres⟩
  · have hnone : s.Get pathless path = none := by
      rw [Get_eq_none pathless hord s hs, hsplit]
      intro hmem
      obtain ⟨e, he, hp⟩ := List.mem_map.mp hmem
      rcases List.mem_append.mp he with h | h
      · have := hpre e h
        rw [hp, hord.1] at this
        exact absurd this (by decide)
      · have := hpost e h
        rw [hp, hord.1] at this
        exact absurd this (by decide)
    rw [hres, hnone]
    exact List.mem_append_right _ (List.mem_cons_self _ _)
  · have hsome : s.Get pathless path = some t := by
      rw [Get_eq_some_mem pathless hord s hs, hsplit]
      exact List.mem_append_right _ (List.mem_cons_self _ _)
    rw [hres, hsome]
    exact List.mem_append_right _ (List.mem_cons_self _ _)

theorem Push_step_time {T : Type} (X : TimeIndex T)
    (pathless : List String → List String → Bool) (s : SparseIndex T) (tr : TimeRange) :
    SparseIndex.Push.step X pathless s (.TimeRange tr) =
      s.push X pathless tr.path tr.min tr.max := rfl

/-- The loop of `Push` over ranges without the path leaves what `Get` returns for it. -/
theorem Push_loop_Get_other {T : Type} (X : TimeIndex T)
    (pathless : List String → List String → Bool) (hord : StrictTotal pathless)
    (path : List String) (rng : List Range) (hp : path ∉ timePaths rng)
    (s : SparseIndex T) (hs : s.Sorted pathless) :
    (rng.foldl (SparseIndex.Push.step X pathless) s).Get pathless path =
      s.Get pathless path := by
  induction rng generalizing s with
  | nil => rfl
  | cons r rest ih =>
    rw [List.foldl_cons]
    cases r with
    | TimeRange tr =>
      rw [timePaths_cons_time, List.mem_cons, not_or] at hp
      rw [Push_step_time, ih hp.2 _ (push_sorted X pathless hord s hs _ _ _)]
      exact push_Get_other X pathless hord s hs tr.path path (fun h => hp.1 h.symm) _ _
    | other p =>
      rw [timePaths_cons_other] at hp
      exact ih hp s hs

/-- After the loop of `Push` over ranges with pairwise distinct time paths, `Get` returns
for the path of one of them the ranges that were there, or the zero value, with that range
pushed. -/
theorem Push_loop_Get {T : Type} (X : TimeIndex T)
    (pathless : List String → List String → Bool) (hord : StrictTotal pathless)
    (path : List String) (a b : date.Time) (rng : List Range)
    (hmem : Range.TimeRange { path := path, min := a, max := b } ∈ rng)
    (hnd : (timePaths rng).Nodup) (s : SparseIndex T) (hs : s.Sorted pathless) :
    (rng.foldl (SparseIndex.Push.step X pathless) s).Get pathless path =
      some (X.Push ((s.Get pathless path).getD X.zero) a b) := by
  induction rng generalizing s with
  | nil => cases hmem
  | cons r rest ih =>
    rw [List.foldl_cons]
    cases r with
    | TimeRange tr =>
      rw [timePaths_cons_time, List.nodup_cons] at hnd
      by_cases hp : tr.path = path
      · have hrest : path ∉ timePaths rest := hp ▸ hnd.1
        have htr : tr = { path := path, min := a, max := b } := by
          rcases List.mem_cons.mp hmem with h | h
          · cases h; rfl
          · exact absurd ((mem_timePaths rest path).mpr ⟨_, h, rfl⟩) hrest
        subst htr
        rw [Push_step_time, Push_loop_Get_other X pathless hord path rest hrest _
          (push_sorted X pathless hord s hs _ _ _)]
        exact push_Get_same X pathless hord s hs path a b
      · have hmem' : Range.TimeRange { path := path, min := a, max := b } ∈ rest := by
          rcases List.mem_cons.mp hmem with h | h
          · cases h; exact absurd rfl hp
          · exact h
        rw [Push_step_time, ih hmem' hnd.2 _ (push_sorted X pathless hord s hs _ _ _)]
        rw [push_Get_other X pathless hord s hs tr.path path hp]
    | other p =>
      rw [timePaths_cons_other] at hnd
      have hmem' : Range.TimeRange { path := path, min := a, max := b } ∈ rest := by
        rcases List.mem_cons.mp hmem with h | h
        · cases h
        · exact h
      exact ih hmem' hnd s hs

/-- The state that `mkindex` keeps between the blocks: sorted entries, each with as many
blocks as the index. -/
theorem Push_entry {T : Type} (X : TimeIndex T) (hX : X.CountsBlocks)
    (pathless : List String → List String → Bool) (hord : StrictTotal pathless)
    (s : SparseIndex T) (hs : s.Sorted pathless) (h0 : 0 ≤ s.blocks)
    (halign : ∀ e ∈ s.indices, X.Blocks e.ranges = s.blocks)
    (path : List String) (a b : date.Time) (rng : List Range)
    (hmem : Range.TimeRange { path := path, min := a, max := b } ∈ rng)
    (hnd : (timePaths rng).Nodup)
    (hold : X.Blocks ((s.Get pathless path).getD X.zero) = s.blocks) :
    ∃ s', s.Push X pathless rng = some s' ∧ s'.Sorted pathless ∧ 0 ≤ s'.blocks ∧
      (∀ e ∈ s'.indices, X.Blocks e.ranges = s'.blocks) ∧
      s'.Get pathless path = some (X.Push ((s.Get pathless path).getD X.zero) a b) := by
  obtain ⟨s', hs', hblocks, halign', hkeep⟩ :=
    Push_aligned X hX pathless s rng h0 halign hnd
  have hsorted' := Push_call_sorted X pathless hord s s' rng hs' hs
  refine ⟨s', hs', hsorted', by omega, halign', ?_⟩
  have hloop := Push_loop_Get X pathless hord path a b rng hmem hnd s hs
  rw [Get_eq_some_mem pathless hord _ (Push_loop_sorted X pathless hord rng s hs)] at hloop
  rw [Get_eq_some_mem pathless hord s' hsorted']
  apply hkeep _ hloop
  show X.Blocks (X.Push ((s.Get pathless path).getD X.zero) a b) = s.blocks + 1
  rw [hX.Push, hold]

/-- The extremes of a time index after a sequence of calls of `Push`. -/
theorem extremes_foldl {T : Type} (X : TimeIndex T) (hE : X.KeepsExtremes)
    (spans : List (date.Time × date.Time)) :
    ∀ t : T, spans ≠ [] →
      (X.Min (spans.foldl (fun t sp => X.Push t sp.1 sp.2) t)).2 = true ∧
      (X.Max (spans.foldl (fun t sp => X.Push t sp.1 sp.2) t)).2 = true ∧
      (∀ sp ∈ spans, (X.Min (spans.foldl (fun t sp => X.Push t sp.1 sp.2) t)).1 ≤ sp.1) ∧
      (∀ sp ∈ spans, sp.2 ≤ (X.Max (spans.foldl (fun t sp => X.Push t sp.1 sp.2) t)).1) ∧
      ((X.Min t).2 = true →
        (X.Min (spans.foldl (fun t sp => X.Push t sp.1 sp.2) t)).1 ≤ (X.Min t).1) ∧
      ((X.Max t).2 = true →
        (X.Max t).1 ≤ (X.Max (spans.foldl (fun t sp => X.Push t sp.1 sp.2) t)).1) ∧
      ((X.Min (spans.foldl (fun t sp => X.Push t sp.1 sp.2) t)).1 ∈ spans.map Prod.fst ∨
        ((X.Min t).2 = true ∧
          (X.Min (spans.foldl (fun t sp => X.Push t sp.1 sp.2) t)).1 = (X.Min t).1)) ∧
      ((X.Max (spans.foldl (fun t sp => X.Push t sp.1 sp.2) t)).1 ∈ spans.map Prod.snd ∨
        ((X.Max t).2 = true ∧
          (X.Max (spans.foldl (fun t sp => X.Push t sp.1 sp.2) t)).1 = (X.Max t).1)) := by
  induction spans with
  | nil => intro t h; exact absurd rfl h
  | cons sp rest ih =>
    intro t _
    rw [List.foldl_cons]
    have hmin := hE.PushMin t sp.1 sp.2
    have hmax := hE.PushMax t sp.1 sp.2
    by_cases hrest : rest = []
    · subst hrest
      simp only [List.foldl_nil, List.mem_singleton, forall_eq, List.map_cons, List.map_nil]
      rw [hmin, hmax]
      refine ⟨rfl, rfl, ?_, ?_, ?_, ?_, ?_, ?_⟩
      · dsimp only; split <;> [exact min_le_right _ _; exact le_refl _]
      · dsimp only; split <;> [exact le_max_right _ _; exact le_refl _]
      · intro h; dsimp only; rw [if_pos h]; exact min_le_left _ _
      · intro h; dsimp only; rw [if_pos h]; exact le_max_left _ _
      · dsimp only
        by_cases h : (X.Min t).2 = true
        · rw [if_pos h]
          rcases min_choice (X.Min t).1 sp.1 with hc | hc
          · exact Or.inr ⟨h, hc⟩
          · exact Or.inl hc
        · rw [if_neg h]; exact Or.inl rfl
      · dsimp only
        by_cases h : (X.Max t).2 = true
        · rw [if_pos h]
          rcases max_choice (X.Max t).1 sp.2 with hc | hc
          · exact Or.inr ⟨h, hc⟩
          · exact Or.inl hc
        · rw [if_neg h]; exact Or.inl rfl
    · obtain ⟨h1, h2, h3, h4, h5, h6, h7, h8⟩ := ih (X.Push t sp.1 sp.2) hrest
      have hmin2 : (X.Min (X.Push t sp.1 sp.2)).2 = true := by rw [hmin]
      have hmax2 : (X.Max (X.Push t sp.1 sp.2)).2 = true := by rw [hmax]
      have hminle : (X.Min (X.Push t sp.1 sp.2)).1 ≤ sp.1 := by
        rw [hmin]; dsimp only; split <;> [exact min_le_right _ _; exact le_refl _]
      have hmaxle : sp.2 ≤ (X.Max (X.Push t sp.1 sp.2)).1 := by
        rw [hmax]; dsimp only; split <;> [exact le_max_right _ _; exact le_refl _]
      refine ⟨h1, h2, ?_, ?_, ?_, ?_, ?_, ?_⟩
      · intro sp' hsp'
        rcases List.mem_cons.mp hsp' with rfl | h
        · exact le_trans (h5 hmin2) hminle
        · exact h3 sp' h
      · intro sp' hsp'
        rcases List.mem_cons.mp hsp' with rfl | h
        · exact le_trans hmaxle (h6 hmax2)
        · exact h4 sp' h
      · intro h
        refine le_trans (h5 hmin2) ?_
        rw [hmin]; dsimp only; rw [if_pos h]; exact min_le_left _ _
      · intro h
        refine le_trans ?_ (h6 hmax2)
        rw [hmax]; dsimp only; rw [if_pos h]; exact le_max_left _ _
      · rcases h7 with h | ⟨_, h⟩
        · exact Or.inl (by rw [List.map_cons]; exact List.mem_cons_of_mem _ h)
        · rw [h, hmin]
          dsimp only
          by_cases ht : (X.Min t).2 = true
          · rw [if_pos ht]
            rcases min_choice (X.Min t).1 sp.1 with hc | hc
            · exact Or.inr ⟨ht, hc⟩
            · exact Or.inl (by rw [hc, List.map_cons]; exact List.mem_cons_self _ _)
          · rw [if_neg ht]
            exact Or.inl (by rw [List.map_cons]; exact List.mem_cons_self _ _)
      · rcases h8 with h | ⟨_, h⟩
        · exact Or.inl (by rw [List.map_cons]; exact List.mem_cons_of_mem _ h)
        · rw [h, hmax]
          dsimp only
          by_cases ht : (X.Max t).2 = true
          · rw [if_pos ht]
            rcases max_choice (X.Max t).1 sp.2 with hc | hc
            · exact Or.inr ⟨ht, hc⟩
            · exact Or.inl (by rw [hc, List.map_cons]; exact List.mem_cons_self _ _)
          · rw [if_neg ht]
            exact Or.inl (by rw [List.map_cons]; exact List.mem_cons_self _ _)


/-- Blocks that each hold a time range for `path` leave, in the entry of `path`, the time
index to which the ranges were pushed in order. -/
theorem mkindex_entry {T : Type} (X : TimeIndex T) (hX : X.CountsBlocks)
    (pathless : List String → List String → Bool) (hord : StrictTotal pathless)
    (path : List String) (rs : List (List Range)) (spans : List (date.Time × date.Time))
    (hF : List.Forall₂ (fun r sp =>
      Range.TimeRange { path := path, min := sp.1, max := sp.2 } ∈ r ∧
        (timePaths r).Nodup) rs spans) :
    ∀ s : SparseIndex T, s.Sorted pathless → 0 ≤ s.blocks →
      (∀ e ∈ s.indices, X.Blocks e.ranges = s.blocks) →
      X.Blocks ((s.Get pathless path).getD X.zero) = s.blocks →
      ∃ s', rs.foldl (fun t r => t.bind (fun s => s.Push X pathless r)) (some s) = some s' ∧
        (spans = [] → s' = s) ∧
        (spans ≠ [] → s'.Get pathless path =
          some (spans.foldl (fun t sp => X.Push t sp.1 sp.2)
            ((s.Get pathless path).getD X.zero))) := by
  induction hF with
  | nil =>
    intro s _ _ _ _
    exact ⟨s, rfl, fun _ => rfl, fun h => absurd rfl h⟩
  | @cons r sp rs spans hr _ ih =>
    intro s hs h0 halign hold
    obtain ⟨s1, hs1, hsorted1, h01, halign1, hget1⟩ :=
      Push_entry X hX pathless hord s hs h0 halign path sp.1 sp.2 r hr.1 hr.2 hold
    have hold1 : X.Blocks ((s1.Get pathless path).getD X.zero) = s1.blocks := by
      rw [hget1]
      exact halign1 _ ((Get_eq_some_mem pathless hord s1 hsorted1 path _).mp hget1)
    obtain ⟨s', hs', hnil, hcons⟩ := ih s1 hsorted1 h01 halign1 hold1
    refine ⟨s', ?_, fun h => absurd h (List.cons_ne_nil sp spans), fun _ => ?_⟩
    · rw [List.foldl_cons, Option.some_bind, hs1]
      exact hs'
    · rw [List.foldl_cons]
      by_cases hsp : spans = []
      · rw [hnil hsp, hsp, hget1]
        rfl
      · rw [hcons hsp, hget1]
        rfl


/-! ## Claims C21 to C23 and C30: the sparse index -/

/-- C21: for a `SparseIndex` built from the zero value by a sequence of `Push` calls (the
index of `mkindex`), `Get(path)` returns the `TimeIndex` stored for `path`, which exists,
if some pushed time range had exactly that path, and returns `nil` otherwise. The order
`pathless` of the binary search is a strict total order of the paths. -/
theorem Get_finds_pushed_paths {T : Type} (X : TimeIndex T)
    (pathless : List String → List String → Bool) (hord : StrictTotal pathless)
    (rs : List (List Range)) (s : SparseIndex T) (h : mkindex X pathless rs = some s)
    (path : List String) :
    ((∃ r ∈ rs, ∃ tr, Range.TimeRange tr ∈ r ∧ tr.path = path) →
      (∃ e ∈ s.indices, e.path = path) ∧
      ∀ e ∈ s.indices, e.path = path → s.Get pathless path = some e.ranges) ∧
    ((¬ ∃ r ∈ rs, ∃ tr, Range.TimeRange tr ∈ r ∧ tr.path = path) →
      s.Get pathless path = none) := by
  obtain ⟨hs, hp⟩ := mkindex_sorted_paths X pathless hord rs s h
  constructor
  · intro hpushed
    obtain ⟨e, he, hpath⟩ := List.mem_map.mp ((hp path).mpr hpushed)
    exact ⟨⟨e, he, hpath⟩, fun e' he' hpath' =>
      (Get_eq_some pathless hord s hs path e'.ranges).mpr ⟨e', he', hpath', rfl⟩⟩
  · intro hnot
    rw [Get_eq_none pathless hord s hs]
    exact fun hmem => hnot ((hp path).mp hmem)

/-- The claim C21 on the index of the test in `plan/pir/build_test.go`: `x.xx` is
found. -/
theorem Get_finds_pushed_paths_witness :
    StrictTotal examplePathless ∧
    mkindex exampleTimeIndex examplePathless exampleBlocks = some exampleIndex ∧
    (((∃ r ∈ exampleBlocks, ∃ tr, Range.TimeRange tr ∈ r ∧ tr.path = ["x", "xx"]) →
      (∃ e ∈ exampleIndex.indices, e.path = ["x", "xx"]) ∧
      ∀ e ∈ exampleIndex.indices, e.path = ["x", "xx"] →
        exampleIndex.Get examplePathless ["x", "xx"] = some e.ranges) ∧
    ((¬ ∃ r ∈ exampleBlocks, ∃ tr, Range.TimeRange tr ∈ r ∧ tr.path = ["x", "xx"]) →
      exampleIndex.Get examplePathless ["x", "xx"] = none)) :=
  ⟨examplePathless_strictTotal, by decide,
    Get_finds_pushed_paths exampleTimeIndex examplePathless examplePathless_strictTotal
      exampleBlocks exampleIndex (by decide) ["x", "xx"]⟩

/-- C22: if before the call the block count is not negative, every index satisfies
`ranges.Blocks() = s.blocks` and the time ranges of the argument have pairwise distinct
paths, then `Push` returns without a panic, the block count is the old count plus 1 and
every index again satisfies `ranges.Blocks() = s.blocks`; the ranges that are not time
ranges are ignored, the block being still counted. `Blocks` counts one block for `Push`
and `n` for `PushEmpty(n)`. -/
theorem Push_extends_one_block {T : Type} (X : TimeIndex T) (hX : X.CountsBlocks)
    (pathless : List String → List String → Bool) (s : SparseIndex T) (rng : List Range)
    (h0 : 0 ≤ s.blocks) (halign : ∀ e ∈ s.indices, X.Blocks e.ranges = s.blocks)
    (hdist : (timePaths rng).Nodup) :
    ∃ s', s.Push X pathless rng = some s' ∧ s'.blocks = s.blocks + 1 ∧
      (∀ e ∈ s'.indices, X.Blocks e.ranges = s'.blocks) ∧
      s.Push X pathless (rng.filter Range.isTimeRange) = some s' := by
  obtain ⟨s', hs', hb, ha, _⟩ := Push_aligned X hX pathless s rng h0 halign hdist
  refine ⟨s', hs', hb, ha, ?_⟩
  rw [← hs']
  unfold SparseIndex.Push
  rw [Push_loop_filter]

/-- The claim C22 on a third block for the index of the examples. -/
theorem Push_extends_one_block_witness :
    exampleTimeIndex.CountsBlocks ∧ 0 ≤ exampleIndex.blocks ∧
    (∀ e ∈ exampleIndex.indices, exampleTimeIndex.Blocks e.ranges = exampleIndex.blocks) ∧
    (timePaths exampleThirdBlock).Nodup ∧
    ∃ s', exampleIndex.Push exampleTimeIndex examplePathless exampleThirdBlock = some s' ∧
      s'.blocks = exampleIndex.blocks + 1 ∧
      (∀ e ∈ s'.indices, exampleTimeIndex.Blocks e.ranges = s'.blocks) ∧
      exampleIndex.Push exampleTimeIndex examplePathless
        (exampleThirdBlock.filter Range.isTimeRange) = some s' :=
  ⟨exampleTimeIndex_countsBlocks, by decide, by decide, by decide,
    Push_extends_one_block exampleTimeIndex exampleTimeIndex_countsBlocks examplePathless
      exampleIndex exampleThirdBlock (by decide) (by decide) (by decide)⟩

/-- C23: after `k >= 1` blocks are pushed to the zero value, each with pairwise distinct
time paths and with the time range `[min_j, max_j]` for the path `p`, `MinMax(p)` returns
`ok = true`, the smallest `min_j` and the largest `max_j`; for a path that is no sequence
of fields or that no time range of the blocks has, it returns `ok = false`. `Min` and `Max`
report the extremes of the ranges pushed to a `TimeIndex`. -/
theorem MinMax_summarises_blocks {T : Type} (X : TimeIndex T) (hX : X.CountsBlocks)
    (hE : X.KeepsExtremes) (pathless : List String → List String → Bool)
    (hord : StrictTotal pathless) (p : expr.Path) (flat : List String)
    (hflat : SparseIndex.GetPath.flatten p.Rest [p.First] = some flat)
    (rs : List (List Range)) (spans : List (date.Time × date.Time)) (hne : rs ≠ [])
    (hF : List.Forall₂ (fun r sp =>
      Range.TimeRange { path := flat, min := sp.1, max := sp.2 } ∈ r ∧
        (timePaths r).Nodup) rs spans) :
    ∃ s, mkindex X pathless rs = some s ∧
      (∃ lo hi, s.MinMax X pathless p = (lo, hi, true) ∧
        lo ∈ spans.map Prod.fst ∧ (∀ sp ∈ spans, lo ≤ sp.1) ∧
        hi ∈ spans.map Prod.snd ∧ (∀ sp ∈ spans, sp.2 ≤ hi)) ∧
      ∀ q : expr.Path,
        (∀ path, SparseIndex.GetPath.flatten q.Rest [q.First] = some path →
          ¬ ∃ r ∈ rs, ∃ tr, Range.TimeRange tr ∈ r ∧ tr.path = path) →
        s.MinMax X pathless q = (0, 0, false) := by
  have hzero : (SparseIndex.zero : SparseIndex T).Sorted pathless := List.Pairwise.nil
  have hnone : (SparseIndex.zero : SparseIndex T).Get pathless flat = none := by
    rw [Get_eq_none pathless hord _ hzero]
    exact List.not_mem_nil _
  have hspans : spans ≠ [] := by
    intro h
    subst h
    cases hF
    exact hne rfl
  obtain ⟨s, hs, _, hget⟩ := mkindex_entry X hX pathless hord flat rs spans hF
    SparseIndex.zero hzero (le_refl _) (fun e he => absurd he (List.not_mem_nil e))
    (by rw [hnone]; exact hX.zero)
  have hget' := hget hspans
  rw [hnone] at hget'
  obtain ⟨h1, _, h3, h4, _, _, h7, h8⟩ := extremes_foldl X hE spans X.zero hspans
  obtain ⟨_, hpaths⟩ := mkindex_sorted_paths X pathless hord rs s hs
  have hsorted := (mkindex_sorted_paths X pathless hord rs s hs).1
  refine ⟨s, hs, ⟨_, _, ?_, ?_, h3, ?_, h4⟩, ?_⟩
  · unfold SparseIndex.MinMax SparseIndex.GetPath
    rw [hflat]
    dsimp only
    rw [hget']
    dsimp only [Option.getD]
    rw [h1]
  · rcases h7 with h | ⟨h, _⟩
    · exact h
    · rw [hE.zeroMin] at h; exact absurd h (by decide)
  · rcases h8 with h | ⟨h, _⟩
    · exact h
    · rw [hE.zeroMax] at h; exact absurd h (by decide)
  · intro q hq
    unfold SparseIndex.MinMax SparseIndex.GetPath
    cases hfq : SparseIndex.GetPath.flatten q.Rest [q.First] with
    | none => rfl
    | some path =>
      dsimp only
      rw [(Get_eq_none pathless hord s hsorted path).mpr
        (fun hmem => hq path hfq ((hpaths path).mp hmem))]

/-- The claim C23 on the index of the test in `plan/pir/build_test.go`: for the blocks
`[t0, t0+1h]` and `[t0+1h, t0+2h]` of `t.ts`, `MinMax` returns `t0` and `t0+2h`. -/
theorem MinMax_summarises_blocks_witness :
    exampleTimeIndex.CountsBlocks ∧ exampleTimeIndex.KeepsExtremes ∧
    StrictTotal examplePathless ∧
    SparseIndex.GetPath.flatten examplePath.Rest [examplePath.First] = some ["t", "ts"] ∧
    exampleBlocks ≠ [] ∧
    exampleIndex.MinMax exampleTimeIndex examplePathless examplePath = (0, 2, true) ∧
    ∃ s, mkindex exampleTimeIndex examplePathless exampleBlocks = some s ∧
      (∃ lo hi, s.MinMax exampleTimeIndex examplePathless examplePath = (lo, hi, true) ∧
        lo ∈ exampleSpans.map Prod.fst ∧ (∀ sp ∈ exampleSpans, lo ≤ sp.1) ∧
        hi ∈ exampleSpans.map Prod.snd ∧ (∀ sp ∈ exampleSpans, sp.2 ≤ hi)) ∧
      ∀ q : expr.Path,
        (∀ path, SparseIndex.GetPath.flatten q.Rest [q.First] = some path →
          ¬ ∃ r ∈ exampleBlocks, ∃ tr, Range.TimeRange tr ∈ r ∧ tr.path = path) →
        s.MinMax exampleTimeIndex examplePathless q = (0, 0, false) :=
  ⟨exampleTimeIndex_countsBlocks, exampleTimeIndex_keepsExtremes,
    examplePathless_strictTotal, by decide, by decide, by decide,
    MinMax_summarises_blocks exampleTimeIndex exampleTimeIndex_countsBlocks
      exampleTimeIndex_keepsExtremes examplePathless examplePathless_strictTotal
      examplePath ["t", "ts"] (by decide) exampleBlocks exampleSpans (by decide)
      (List.Forall₂.cons ⟨by decide, by decide⟩
        (List.Forall₂.cons ⟨by decide, by decide⟩ List.Forall₂.nil))⟩

/-- The entries stay sorted under `push` and `update`. -/
theorem calls_sorted {T : Type} (X : TimeIndex T)
    (pathless : List String → List String → Bool) (hord : StrictTotal pathless)
    (calls : List Call) (s : SparseIndex T) (hs : s.Sorted pathless) :
    (calls.foldl (SparseIndex.call X pathless) s).Sorted pathless := by
  induction calls generalizing s with
  | nil => exact hs
  | cons c rest ih =>
    rw [List.foldl_cons]
    apply ih
    cases c with
    | push path a b => exact push_sorted X pathless hord s hs path a b
    | update path a b => exact update_sorted X pathless hord s hs path a b

/-- C30: starting from the empty index, after any sequence of `push` and `update` calls
the paths of `s.indices` are strictly increasing in the order `pathless` of the binary
search, a strict total order of the paths; so each path occurs at most once, and `search`
returns the entry with the path when there is one and `nil` when there is none. -/
theorem indices_strictly_increasing {T : Type} (X : TimeIndex T)
    (pathless : List String → List String → Bool) (hord : StrictTotal pathless)
    (calls : List Call) :
    (calls.foldl (SparseIndex.call X pathless) SparseIndex.zero).Sorted pathless ∧
    ((calls.foldl (SparseIndex.call X pathless) SparseIndex.zero).indices.map
      (fun e => e.path)).Nodup ∧
    ∀ path e,
      (calls.foldl (SparseIndex.call X pathless) SparseIndex.zero).search pathless path =
          some e ↔
        e ∈ (calls.foldl (SparseIndex.call X pathless) SparseIndex.zero).indices ∧
          e.path = path := by
  have hs := calls_sorted X pathless hord calls SparseIndex.zero List.Pairwise.nil
  refine ⟨hs, ?_, fun path e => search_sorted pathless hord _ hs path e⟩
  have hp := (sorted_iff_paths pathless _).mp hs
  refine List.Pairwise.imp ?_ hp
  intro a b hab heq
  rw [heq, hord.1] at hab
  exact absurd hab (by decide)

/-- The claim C30 on calls with paths out of order. -/
theorem indices_strictly_increasing_witness :
    StrictTotal examplePathless ∧
    (exampleCalls.foldl (SparseIndex.call exampleTimeIndex examplePathless)
      SparseIndex.zero).indices.map (fun e => e.path) = [["a"], ["t", "ts"], ["x", "xx"]] ∧
    (exampleCalls.foldl (SparseIndex.call exampleTimeIndex examplePathless)
      SparseIndex.zero).Sorted examplePathless ∧
    ((exampleCalls.foldl (SparseIndex.call exampleTimeIndex examplePathless)
      SparseIndex.zero).indices.map (fun e => e.path)).Nodup ∧
    ∀ path e,
      (exampleCalls.foldl (SparseIndex.call exampleTimeIndex examplePathless)
        SparseIndex.zero).search examplePathless path = some e ↔
        e ∈ (exampleCalls.foldl (SparseIndex.call exampleTimeIndex examplePathless)
          SparseIndex.zero).indices ∧ e.path = path :=
  ⟨examplePathless_strictTotal, by decide,
    indices_strictly_increasing exampleTimeIndex examplePathless
      examplePathless_strictTotal exampleCalls⟩

/-! ## Claim C31: a path pushed twice in one block -/

/-- The loop of `bump` panics when an entry has more than `blocks` blocks. -/
theorem bump_loop_panics {T : Type} (X : TimeIndex T) (blocks : Int)
    (l : List (timeIndex T)) (h : ∃ e ∈ l, blocks < X.Blocks e.ranges) :
    SparseIndex.bump.loop X blocks l = none := by
  induction l with
  | nil =>
    obtain ⟨e, he, _⟩ := h
    exact absurd he (List.not_mem_nil e)
  | cons e rest ih =>
    rw [SparseIndex.bump.loop]
    obtain ⟨e', he', hlt⟩ := h
    by_cases hb : X.Blocks e.ranges < blocks
    · rcases List.mem_cons.mp he' with rfl | hr
      · omega
      · rw [if_pos hb, ih ⟨e', hr, hlt⟩]
        rfl
    · rw [if_neg hb]
      by_cases hg : X.Blocks e.ranges > blocks
      · rw [if_pos hg]
      · rcases List.mem_cons.mp he' with rfl | hr
        · omega
        · rw [if_neg hg, ih ⟨e', hr, hlt⟩]
          rfl

/-- After the loop of `Push`, the entry of a path has one block more for every time range
of the argument with this path. -/
theorem Push_loop_Get_count {T : Type} (X : TimeIndex T) (hX : X.CountsBlocks)
    (pathless : List String → List String → Bool) (hord : StrictTotal pathless)
    (path : List String) (rng : List Range) :
    ∀ (s : SparseIndex T), s.Sorted pathless → ∀ t, s.Get pathless path = some t →
      ∃ t', (rng.foldl (SparseIndex.Push.step X pathless) s).Get pathless path = some t' ∧
        X.Blocks t' = X.Blocks t + (timePaths rng).count path := by
  induction rng with
  | nil => intro s _ t ht; exact ⟨t, ht, by simp [timePaths]⟩
  | cons r rest ih =>
    intro s hs t ht
    rw [List.foldl_cons]
    cases r with
    | TimeRange tr =>
      have hs' := push_sorted X pathless hord s hs tr.path tr.min tr.max
      rw [Push_step_time, timePaths_cons_time]
      by_cases hp : tr.path = path
      · have hget := push_Get_same X pathless hord s hs path tr.min tr.max
        rw [ht] at hget
        rw [hp]
        rw [hp] at hs'
        obtain ⟨t', ht', hb⟩ := ih _ hs' _ hget
        refine ⟨t', ht', ?_⟩
        rw [hb, hX.Push, List.count_cons_self]
        simp only [Option.getD_some]
        push_cast
        omega
      · have hget := push_Get_other X pathless hord s hs tr.path path hp tr.min tr.max
        rw [ht] at hget
        obtain ⟨t', ht', hb⟩ := ih _ hs' _ hget
        refine ⟨t', ht', ?_⟩
        rw [hb, List.count_cons_of_ne (fun h => hp h.symm)]
    | other p =>
      rw [timePaths_cons_other]
      exact ih s hs t ht

/-- C31. Pushing the same path twice in one block breaks the bookkeeping: if the index,
its entries sorted as `push` keeps them, has an entry for the path `p` whose
`ranges.Blocks()` is `s.blocks`, and the argument of `Push` contains two time ranges (or
more) with the path `p`, then `Push` does not return: `bump` panics with "bad block
bookkeeping". -/
theorem Push_twice_panics {T : Type} (X : TimeIndex T) (hX : X.CountsBlocks)
    (pathless : List String → List String → Bool) (hord : StrictTotal pathless)
    (s : SparseIndex T) (hs : s.Sorted pathless) (p : List String) (e : timeIndex T)
    (he : e ∈ s.indices) (hp : e.path = p) (hb : X.Blocks e.ranges = s.blocks)
    (rng : List Range) (h2 : 2 ≤ (timePaths rng).count p) :
    s.Push X pathless rng = none := by
  have hget : s.Get pathless p = some e.ranges := by
    rw [Get_eq_some_mem pathless hord s hs, ← hp]
    exact he
  obtain ⟨t', ht', hcount⟩ := Push_loop_Get_count X hX pathless hord p rng s hs _ hget
  rw [Get_eq_some_mem pathless hord _ (Push_loop_sorted X pathless hord rng s hs)] at ht'
  unfold SparseIndex.Push SparseIndex.bump
  rw [Push_loop_blocks, bump_loop_panics X (s.blocks + 1) _ ⟨_, ht', ?_⟩]
  · rfl
  · show s.blocks + 1 < X.Blocks t'
    rw [hcount, hb]
    omega

/-- C31, witness: the index of two blocks of the examples, whose entry for `t.ts` has two
blocks, and a third block with two time ranges of the path `t.ts`. -/
theorem Push_twice_panics_witness :
    exampleIndex.Sorted examplePathless
      ∧ ({ path := ["t", "ts"], ranges := { blocks := 2, extremes := some (0, 2) } } :
          timeIndex Summary) ∈ exampleIndex.indices
      ∧ exampleTimeIndex.Blocks { blocks := 2, extremes := some (0, 2) }
        = exampleIndex.blocks
      ∧ 2 ≤ (timePaths exampleTwice).count ["t", "ts"]
      ∧ exampleIndex.Push exampleTimeIndex examplePathless exampleTwice = none :=
  have hs : exampleIndex.Sorted examplePathless := by
    unfold SparseIndex.Sorted
    decide
  ⟨hs, by decide, by decide, by decide,
    Push_twice_panics exampleTimeIndex exampleTimeIndex_countsBlocks examplePathless
      examplePathless_strictTotal exampleIndex hs ["t", "ts"]
      { path := ["t", "ts"], ranges := { blocks := 2, extremes := some (0, 2) } }
      (by decide) rfl (by decide) exampleTwice (by decide)⟩

end blockfmt

namespace expr

/-! ## Claims C24 and C25: the expression simplifier -/

/-- C24. Constant folding of string concatenation: for all string constants `x` and `y`,
`simplifyClass1` on `CONCAT(x, y)`, and so `simplify1`, returns the single string constant
`x` followed by `y`, whatever the type hint and the declarations behind `Prims`; so
`'foo' || 'bar'` becomes `'foobar'`. -/
theorem concat_constants_fold (P : Prims) (h : Hint) (x y : String) :
    simplifyClass1 P .Concat [.String x, .String y] h = some (.String (x ++ y))
      ∧ simplify1 P (.Builtin .Concat [.String x, .String y]) h = some (.String (x ++ y))
      ∧ simplify1 P (.Builtin .Concat [.String "foo", .String "bar"]) h
        = some (.String "foobar") :=
  ⟨rfl, rfl, rfl⟩

/-- C25. Missing-ness tests on values that cannot be missing are decided statically: for
every expression `x` whose type set under the hint does not contain MISSING (a type set
that is not empty), `simplifyClass3`, and so `simplify1`, returns the constant TRUE for
`x IS NOT MISSING` and the constant FALSE for `x IS MISSING`. -/
theorem missing_tests_decided (P : Prims) (h : Hint) (x : Node)
    (hM : P.MissingType ≠ 0) (hx : P.TypeOf x h &&& P.MissingType = 0) :
    simplifyClass3 P .IsNotMissing x h = some (.Bool true)
      ∧ simplifyClass3 P .IsMissing x h = some (.Bool false)
      ∧ simplify1 P (.IsKey .IsNotMissing x) h = some (.Bool true)
      ∧ simplify1 P (.IsKey .IsMissing x) h = some (.Bool false) := by
  have hne : ¬ P.TypeOf x h = P.MissingType := by
    intro e
    rw [e, Nat.and_self] at hx
    exact hM hx
  have h1 : simplifyClass3 P .IsNotMissing x h = some (.Bool true) := by
    unfold simplifyClass3
    simp only [if_neg hne, if_pos hx]
    by_cases hc : P.isConstant x = true
    · simp [hc]
    · simp [hc]
  have h2 : simplifyClass3 P .IsMissing x h = some (.Bool false) := by
    unfold simplifyClass3
    simp only [if_pos hx]
    rfl
  exact ⟨h1, h2, h1, h2⟩

/-- C25, witness: the count `c` of the test "`c is not missing`", whose type is unsigned. -/
theorem missing_tests_decided_witness :
    examplePrims.MissingType ≠ 0
      ∧ examplePrims.TypeOf exampleCount exampleHint &&& examplePrims.MissingType = 0
      ∧ simplifyClass3 examplePrims .IsNotMissing exampleCount exampleHint
        = some (.Bool true)
      ∧ simplifyClass3 examplePrims .IsMissing exampleCount exampleHint = some (.Bool false)
      ∧ simplify1 examplePrims (.IsKey .IsNotMissing exampleCount) exampleHint
        = some (.Bool true)
      ∧ simplify1 examplePrims (.IsKey .IsMissing exampleCount) exampleHint
        = some (.Bool false) :=
  ⟨by decide, by decide,
    missing_tests_decided examplePrims exampleHint exampleCount (by decide) (by decide)⟩

/-! ## Claims C32 to C34 and C38: rules of the simplifier on constants and on repeated
operands -/

/-- C32. Simplification of a logical operator on two Boolean constants is its truth table:
for all Booleans `a` and `b` and every type hint, `simplifyClass4` returns the constant
`a AND b` for AND, `a OR b` for OR, `a != b` for XOR and `a = b` for XNOR, whichever of
the overlapping rules fires first, that is whatever type sets `TypeOf` reports. `Equals`,
declared outside the file, holds of two Boolean constants only when they are the same. -/
theorem logical_constants_truth_table (P : Prims) (h : Hint) (a b : Bool)
    (hEq : P.Equals (.Bool a) (.Bool b) = true → a = b) :
    simplifyClass4 P .OpAnd (.Bool a) (.Bool b) h = some (.Bool (a && b))
      ∧ simplifyClass4 P .OpOr (.Bool a) (.Bool b) h = some (.Bool (a || b))
      ∧ simplifyClass4 P .OpXor (.Bool a) (.Bool b) h = some (.Bool (a != b))
      ∧ simplifyClass4 P .OpXnor (.Bool a) (.Bool b) h = some (.Bool (a == b))
      ∧ simplify1 P (.Logical .OpAnd (.Bool a) (.Bool b)) h = some (.Bool (a && b))
      ∧ simplify1 P (.Logical .OpOr (.Bool a) (.Bool b)) h = some (.Bool (a || b)) := by
  have hand : simplifyClass4 P .OpAnd (.Bool a) (.Bool b) h = some (.Bool (a && b)) := by
    unfold simplifyClass4
    by_cases he : P.Equals (.Bool a) (.Bool b) = true
    · have hab := hEq he
      subst hab
      by_cases ht : P.TypeOf (.Bool a) h = P.LogicalType
      · cases a <;> simp [he, ht]
      · cases a <;> simp [he, ht]
    · by_cases ha : P.TypeOf (.Bool a) h = P.LogicalType
      · by_cases hb : P.TypeOf (.Bool b) h = P.LogicalType
        · cases a <;> cases b <;> simp_all
        · cases a <;> cases b <;> simp_all
      · by_cases hb : P.TypeOf (.Bool b) h = P.LogicalType
        · cases a <;> cases b <;> simp_all
        · cases a <;> cases b <;> simp_all
  have hor : simplifyClass4 P .OpOr (.Bool a) (.Bool b) h = some (.Bool (a || b)) := by
    unfold simplifyClass4
    by_cases he : P.Equals (.Bool a) (.Bool b) = true
    · have hab := hEq he
      subst hab
      by_cases ht : P.TypeOf (.Bool a) h = P.LogicalType
      · cases a <;> simp [he, ht]
      · cases a <;> simp [he, ht]
    · by_cases ha : P.TypeOf (.Bool a) h = P.LogicalType
      · by_cases hb : P.TypeOf (.Bool b) h = P.LogicalType
        · cases a <;> cases b <;> simp_all
        · cases a <;> cases b <;> simp_all
      · by_cases hb : P.TypeOf (.Bool b) h = P.LogicalType
        · cases a <;> cases b <;> simp_all
        · cases a <;> cases b <;> simp_all
  exact ⟨hand, hor, rfl, rfl, hand, hor⟩

/-- C32, witness: TRUE and FALSE under the instance of the examples, where the first
operand is returned by the rule `(and x (bool y))` and by the rule `(or (bool x) y)`. -/
theorem logical_constants_truth_table_witness :
    (examplePrims.Equals (.Bool true) (.Bool false) = true → true = false)
      ∧ simplifyClass4 examplePrims .OpAnd (.Bool true) (.Bool false) exampleHint
        = some (.Bool false)
      ∧ simplifyClass4 examplePrims .OpOr (.Bool true) (.Bool false) exampleHint
        = some (.Bool true)
      ∧ simplifyClass4 examplePrims .OpXor (.Bool true) (.Bool false) exampleHint
        = some (.Bool true)
      ∧ simplifyClass4 examplePrims .OpXnor (.Bool true) (.Bool false) exampleHint
        = some (.Bool false) :=
  have hEq : examplePrims.Equals (.Bool true) (.Bool false) = true → true = false := by
    decide
  have hc := logical_constants_truth_table examplePrims exampleHint true false hEq
  ⟨hEq, hc.1, hc.2.1, hc.2.2.1, hc.2.2.2.1⟩

/-- C33. Division and modulus by the integer literal 0 simplify to MISSING: for every left
operand `x` and every type hint, `simplifyClass0` on `(div x 0)` and on `(mod x 0)`, and
so `simplify1`, returns the MISSING node. `Equals`, declared outside the file, tells the
integer literals 0 and 1 apart. -/
theorem division_by_zero_missing (P : Prims) (h : Hint) (x : Node)
    (h0 : P.Equals (.Integer 0) (.Integer 0) = true)
    (h1 : P.Equals (.Integer 1) (.Integer 0) = false) :
    simplifyClass0 P .DivOp x (.Integer 0) h = some .Missing
      ∧ simplifyClass0 P .ModOp x (.Integer 0) h = some .Missing
      ∧ simplify1 P (.Arithmetic .DivOp x (.Integer 0)) h = some .Missing
      ∧ simplify1 P (.Arithmetic .ModOp x (.Integer 0)) h = some .Missing := by
  have hdiv : simplifyClass0 P .DivOp x (.Integer 0) h = some .Missing := by
    unfold simplifyClass0
    simp [h0, h1]
  have hmod : simplifyClass0 P .ModOp x (.Integer 0) h = some .Missing := by
    unfold simplifyClass0
    simp [h0]
  exact ⟨hdiv, hmod, hdiv, hmod⟩

/-- C33, witness: the count `c` divided by 0. -/
theorem division_by_zero_missing_witness :
    examplePrims.Equals (.Integer 0) (.Integer 0) = true
      ∧ examplePrims.Equals (.Integer 1) (.Integer 0) = false
      ∧ simplifyClass0 examplePrims .DivOp exampleCount (.Integer 0) exampleHint
        = some .Missing
      ∧ simplifyClass0 examplePrims .ModOp exampleCount (.Integer 0) exampleHint
        = some .Missing :=
  have hc := division_by_zero_missing examplePrims exampleHint exampleCount
    (by decide) (by decide)
  ⟨by decide, by decide, hc.1, hc.2.1⟩

/-- C34. What the code does with the two-argument `SUBSTRING(LOWER(x), off)`: for every
expression `x`, every offset `off` and every type hint, `simplifyClass1` returns the
three-argument `SUBSTRING(LOWER(x), off, 1<<21)` of the rule `(substring s x)`, which
stands before the rule `(substring (lower x) off)` and returns for every pair of
arguments; only `SUBSTRING(UPPER(x), off)` becomes `UPPER(SUBSTRING(x, off))`. Under the
instance of the examples the result for `LOWER(c)` is not `LOWER(SUBSTRING(c, 2))`. -/
theorem substring_lower_rule_shadowed (P : Prims) (h : Hint) (x off : Node) :
    simplifyClass1 P .Substring [.Builtin .Lower [x], off] h
        = some (P.Call "SUBSTRING" [.Builtin .Lower [x], off, .Integer (2 ^ 21)])
      ∧ simplifyClass1 P .Substring [.Builtin .Upper [x], off] h
        = some (P.Call "UPPER" [P.Call "SUBSTRING" [x, off]])
      ∧ sameNode (.Builtin .Substring [.Builtin .Lower [exampleCount], .Integer 2,
          .Integer 2097152])
        (examplePrims.Call "LOWER" [examplePrims.Call "SUBSTRING" [exampleCount, .Integer 2]])
        = false
      ∧ simplifyClass1 examplePrims .Substring [.Builtin .Lower [exampleCount], .Integer 2]
          exampleHint
        = some (.Builtin .Substring [.Builtin .Lower [exampleCount], .Integer 2,
          .Integer 2097152]) :=
  ⟨rfl, rfl, by decide, rfl⟩

/-- C38. What the code does with a comparison `x op x` of an expression with itself whose
type set has no MISSING: `simplifyClass2` returns the constant TRUE for `=`, `>=` and `<=`,
and the constant TRUE for `<>` as well, where `v <> v` is FALSE for every value `v`. -/
theorem reflexive_comparisons_all_true (P : Prims) (h : Hint) (x : Node)
    (hEq : P.Equals x x = true) (hx : P.TypeOf x h &&& P.MissingType = 0) :
    simplifyClass2 P .Equals x x h = some (.Bool true)
      ∧ simplifyClass2 P .GreaterEquals x x h = some (.Bool true)
      ∧ simplifyClass2 P .LessEquals x x h = some (.Bool true)
      ∧ simplifyClass2 P .NotEquals x x h = some (.Bool true)
      ∧ simplify1 P (.Comparison .NotEquals x x) h = some (.Bool true) := by
  have hne : simplifyClass2 P .NotEquals x x h = some (.Bool true) := by
    unfold simplifyClass2
    cases x <;> simp [hEq, hx]
  refine ⟨?_, ?_, ?_, hne, hne⟩
  · unfold simplifyClass2
    cases x <;> simp [hEq, hx]
  · unfold simplifyClass2
    simp [hEq, hx]
  · unfold simplifyClass2
    cases x <;> simp [hEq, hx]

/-- C38, witness: the comparison `3 <> 3` of the integer constant 3 with itself becomes
TRUE. -/
theorem reflexive_comparisons_all_true_witness :
    examplePrims.Equals (.Integer 3) (.Integer 3) = true
      ∧ examplePrims.TypeOf (.Integer 3) exampleHint &&& examplePrims.MissingType = 0
      ∧ simplifyClass2 examplePrims .NotEquals (.Integer 3) (.Integer 3) exampleHint
        = some (.Bool true)
      ∧ simplifyClass2 examplePrims .Equals (.Integer 3) (.Integer 3) exampleHint
        = some (.Bool true) :=
  have hc := reflexive_comparisons_all_true examplePrims exampleHint (.Integer 3)
    (by decide) (by decide)
  ⟨by decide, by decide, hc.2.2.2.1, hc.1⟩

end expr

namespace partiql

/-! ## Claim C35: the position that `findBestSplit` returns -/

/-- The inner loop of `findBestSplit` returns when the position is inside every keyword:
the set keeps its bytes and gains the bytes of the words at the position, each once. -/
theorem findBestSplit_set_spec (idx : Nat) (words : List Entry) :
    ∀ set : List Nat, set.Nodup → (∀ w ∈ words, idx < w.keyword.length) →
      ∃ set', findBestSplit.set idx words set = some set' ∧ set'.Nodup ∧
        ∀ c, c ∈ set' ↔ c ∈ set ∨ c ∈ words.filterMap (fun w => w.keyword[idx]?) := by
  induction words with
  | nil =>
    intro set hnd _
    exact ⟨set, rfl, hnd, fun c => by simp⟩
  | cons word words ih =>
    intro set hnd hin
    have hlt := hin word (List.mem_cons_self _ _)
    have hget : word.keyword[idx]? = some word.keyword[idx] := List.getElem?_eq_getElem hlt
    obtain ⟨set', hset', hnd', hmem⟩ := ih (List.insert word.keyword[idx] set)
      (hnd.insert) (fun w hw => hin w (List.mem_cons_of_mem _ hw))
    refine ⟨set', ?_, hnd', ?_⟩
    · rw [findBestSplit.set, hget]
      exact hset'
    · intro c
      rw [hmem c, List.filterMap_cons, hget]
      simp only [List.mem_insert_iff, List.mem_cons]
      tauto

/-- The difference `len(words) - len(set)` that `findBestSplit` computes for a position
inside every keyword is the number of collisions at the position. -/
theorem findBestSplit_set_length (idx : Nat) (words : List Entry)
    (hin : ∀ w ∈ words, idx < w.keyword.length) :
    ∃ set, findBestSplit.set idx words [] = some set ∧
      (words.length : Int) - (set.length : Int) = collisions words idx := by
  obtain ⟨set, hset, hnd, hmem⟩ := findBestSplit_set_spec idx words [] List.nodup_nil hin
  refine ⟨set, hset, ?_⟩
  have hfin : set.toFinset = (words.filterMap (fun w => w.keyword[idx]?)).toFinset := by
    ext c
    simp only [List.mem_toFinset, hmem c, List.not_mem_nil, false_or]
  have hcard : set.length = (words.filterMap (fun w => w.keyword[idx]?)).dedup.length := by
    rw [← List.toFinset_card_of_nodup hnd, hfin, List.card_toFinset]
  unfold collisions
  rw [hcard]

/-- The number of collisions is not negative, and below the number of words when the
position is inside every keyword of a list that is not empty. -/
theorem collisions_bounds (idx : Nat) (words : List Entry) :
    0 ≤ collisions words idx ∧
      (words ≠ [] → (∀ w ∈ words, idx < w.keyword.length) →
        collisions words idx < words.length) := by
  unfold collisions
  have h1 : (words.filterMap (fun w => w.keyword[idx]?)).dedup.length ≤ words.length :=
    le_trans (List.dedup_sublist _).length_le (List.length_filterMap_le _ _)
  refine ⟨by omega, ?_⟩
  intro hne hin
  cases words with
  | nil => exact absurd rfl hne
  | cons word rest =>
    have hlt := hin word (List.mem_cons_self _ _)
    have hget : word.keyword[idx]? = some word.keyword[idx] := List.getElem?_eq_getElem hlt
    have hmem : word.keyword[idx] ∈
        ((word :: rest).filterMap (fun w => w.keyword[idx]?)).dedup := by
      rw [List.mem_dedup, List.filterMap_cons, hget]
      exact List.mem_cons_self _ _
    have hpos := List.length_pos_of_mem hmem
    omega

/-- The loop of `findBestSplit`: the state after the positions before `i` is kept, and
the loop ends with a position of the fewest collisions. -/
theorem findBestSplit_loop_spec (words : List Entry) (L : Nat) (hw : words ≠ [])
    (hlen : ∀ w ∈ words, w.keyword.length = L) (all : List Int)
    (hrange : ∀ idx ∈ all, idx < L) (hfree : ∃ jdx ∈ all, 0 ≤ jdx) :
    ∀ (rest : List Int) (i : Nat) (index conflicts : Int),
      all.drop i = rest → 0 < conflicts →
      (∀ (j : Nat) (jdx : Int), j < i → all[j]? = some jdx → 0 ≤ jdx →
        conflicts ≤ collisions words jdx.toNat) →
      ((index < 0 ∧ conflicts = words.length ∧
          ∀ (j : Nat) (jdx : Int), j < i → all[j]? = some jdx → jdx < 0) ∨
        ∃ (r : Nat) (idx : Int), index = r ∧ all[r]? = some idx ∧ 0 ≤ idx ∧
          collisions words idx.toNat = conflicts) →
      ∃ (r : Nat) (idx : Int),
        findBestSplit.loop words rest i index conflicts = some (r : Int) ∧
        all[r]? = some idx ∧ 0 ≤ idx ∧
        ∀ jdx ∈ all, 0 ≤ jdx → collisions words idx.toNat ≤ collisions words jdx.toNat := by
  intro rest
  induction rest with
  | nil =>
    intro i index conflicts hdrop _ hmin hbest
    have hi : all.length ≤ i := List.drop_eq_nil_iff.mp hdrop
    have hall : ∀ jdx ∈ all, ∃ j, j < i ∧ all[j]? = some jdx := by
      intro jdx hj
      obtain ⟨j, hjlt, hjget⟩ := List.mem_iff_getElem.mp hj
      exact ⟨j, by omega, by rw [List.getElem?_eq_getElem hjlt, hjget]⟩
    rcases hbest with ⟨_, _, hneg⟩ | ⟨r, idx, hr, hget, hidx, hcol⟩
    · obtain ⟨jdx, hj, hj0⟩ := hfree
      obtain ⟨j, hjlt, hjget⟩ := hall jdx hj
      have := hneg j jdx hjlt hjget
      omega
    · refine ⟨r, idx, ?_, hget, hidx, ?_⟩
      · rw [findBestSplit.loop, if_neg (by omega), hr]
      · intro jdx hj hj0
        obtain ⟨j, hjlt, hjget⟩ := hall jdx hj
        rw [hcol]
        exact hmin j jdx hjlt hjget hj0
  | cons idx rest ih =>
    intro i index conflicts hdrop hpos hmin hbest
    have hget : all[i]? = some idx := by
      have := congrArg List.head? hdrop
      rw [List.head?_drop] at this
      exact this
    have hdrop' : all.drop (i + 1) = rest := by
      rw [← List.tail_drop, hdrop]
      rfl
    have hmem : idx ∈ all := List.mem_iff_getElem?.mpr ⟨i, hget⟩
    rw [findBestSplit.loop]
    by_cases hneg : idx < 0
    · rw [if_pos hneg]
      refine ih (i + 1) index conflicts hdrop' hpos ?_ ?_
      · intro j jdx hj hjget hj0
        rcases Nat.lt_succ_iff_lt_or_eq.mp hj with h | h
        · exact hmin j jdx h hjget hj0
        · subst h
          rw [hget] at hjget
          cases hjget
          omega
      · rcases hbest with ⟨h1, h2, h3⟩ | h
        · left
          refine ⟨h1, h2, ?_⟩
          intro j jdx hj hjget
          rcases Nat.lt_succ_iff_lt_or_eq.mp hj with h | h
          · exact h3 j jdx h hjget
          · subst h
            rw [hget] at hjget
            cases hjget
            exact hneg
        · exact Or.inr h
    · rw [if_neg hneg]
      have hin : ∀ w ∈ words, idx.toNat < w.keyword.length := by
        intro w hwm
        have := hrange idx hmem
        rw [hlen w hwm]
        omega
      obtain ⟨set, hset, hdiff⟩ := findBestSplit_set_length idx.toNat words hin
      have hb := collisions_bounds idx.toNat words
      have hb2 := hb.2 hw hin
      rw [hset]
      dsimp only
      rw [hdiff]
      by_cases hlt : collisions words idx.toNat < conflicts
      · rw [if_pos hlt]
        by_cases hz : collisions words idx.toNat = 0
        · rw [if_pos hz]
          refine ⟨i, idx, rfl, hget, by omega, ?_⟩
          intro jdx _ _
          rw [hz]
          exact (collisions_bounds jdx.toNat words).1
        · rw [if_neg hz]
          refine ih (i + 1) (i : Int) (collisions words idx.toNat) hdrop' (by omega) ?_ ?_
          · intro j jdx hj hjget hj0
            rcases Nat.lt_succ_iff_lt_or_eq.mp hj with h | h
            · have := hmin j jdx h hjget hj0
              omega
            · subst h
              rw [hget] at hjget
              cases hjget
              exact le_refl _
          · exact Or.inr ⟨i, idx, rfl, hget, by omega, rfl⟩
      · rw [if_neg hlt]
        refine ih (i + 1) index conflicts hdrop' hpos ?_ ?_
        · intro j jdx hj hjget hj0
          rcases Nat.lt_succ_iff_lt_or_eq.mp hj with h | h
          · exact hmin j jdx h hjget hj0
          · subst h
            rw [hget] at hjget
            cases hjget
            omega
        · rcases hbest with ⟨_, h2, _⟩ | h
          · omega
          · exact Or.inr h

/-- C35. `findBestSplit` picks a least-colliding free position: for every list of at least
two keywords of the same length `L` and every `freeIndices` with entries below `L` and
at least one free position (an entry that is not negative), the function returns the
index `r` of a free position whose number of collisions (the number of words minus the
number of distinct bytes at that position) is minimal over all free positions, and zero
whenever a free position has zero collisions. The byte position is the entry
`freeIndices[r]`, which is `r` itself when every free entry holds its own index, as the
generator keeps them. -/
theorem findBestSplit_least_collisions (words : List Entry) (freeIndices : List Int)
    (L : Nat) (h2 : 2 ≤ words.length) (hlen : ∀ w ∈ words, w.keyword.length = L)
    (hrange : ∀ idx ∈ freeIndices, idx < L) (hfree : ∃ idx ∈ freeIndices, 0 ≤ idx) :
    ∃ (r : Nat) (idx : Int), findBestSplit words freeIndices = some (r : Int)
      ∧ freeIndices[r]? = some idx ∧ 0 ≤ idx
      ∧ (∀ jdx ∈ freeIndices, 0 ≤ jdx →
          collisions words idx.toNat ≤ collisions words jdx.toNat)
      ∧ ((∃ jdx ∈ freeIndices, 0 ≤ jdx ∧ collisions words jdx.toNat = 0) →
          collisions words idx.toNat = 0)
      ∧ ((∀ (j : Nat) (jdx : Int), freeIndices[j]? = some jdx → 0 ≤ jdx → jdx = j) →
          idx = r) := by
  have hw : words ≠ [] := by
    intro h
    rw [h] at h2
    simp at h2
  obtain ⟨r, idx, hres, hget, hidx, hmin⟩ :=
    findBestSplit_loop_spec words L hw hlen freeIndices hrange hfree freeIndices 0 (-1)
      words.length rfl (by omega) (fun j jdx hj => absurd hj (Nat.not_lt_zero j))
      (Or.inl ⟨by omega, rfl, fun j jdx hj => absurd hj (Nat.not_lt_zero j)⟩)
  refine ⟨r, idx, ?_, hget, hidx, hmin, ?_, fun h => h r idx hget hidx⟩
  · unfold findBestSplit
    rw [if_neg (by omega)]
    exact hres
  · rintro ⟨jdx, hj, hj0, hz⟩
    have := hmin jdx hj hj0
    have := (collisions_bounds idx.toNat words).1
    omega

/-- C35, witness: four keywords of three letters with all positions free; the first
letters collide three times, the second and the third letters once, and the function
returns the position 1. -/
theorem findBestSplit_least_collisions_witness :
    ∃ (r : Nat) (idx : Int), findBestSplit exampleWords [0, 1, 2] = some (r : Int)
      ∧ ([0, 1, 2] : List Int)[r]? = some idx ∧ 0 ≤ idx
      ∧ (∀ jdx ∈ ([0, 1, 2] : List Int), 0 ≤ jdx →
          collisions exampleWords idx.toNat ≤ collisions exampleWords jdx.toNat)
      ∧ ((∃ jdx ∈ ([0, 1, 2] : List Int), 0 ≤ jdx ∧ collisions exampleWords jdx.toNat = 0) →
          collisions exampleWords idx.toNat = 0)
      ∧ ((∀ (j : Nat) (jdx : Int), ([0, 1, 2] : List Int)[j]? = some jdx → 0 ≤ jdx →
          jdx = j) → idx = r) :=
  findBestSplit_least_collisions exampleWords [0, 1, 2] 3 (by decide) (by decide)
    (by decide) ⟨0, by decide, by decide⟩

/-! ## Claims C36 and C37: the comparison of letters and the bounds of the lengths -/

/-- A byte whose bits other than the bit `0x20` are zero is `0` or `0x20`. -/
theorem masked_byte_zero (x : Nat) (hx : x < 256) (h : x &&& 0xdf = 0) : x = 0 ∨ x = 0x20 := by
  interval_cases x <;> simp_all

/-- The bit `0x20` of an upper-case letter is zero: setting it adds `0x20`. -/
theorem upper_xor_lower (u : Nat) (h1 : 0x41 ≤ u) (h2 : u ≤ 0x5A) :
    u ^^^ 0x20 = u + 0x20 ∧ u ^^^ (u + 0x20) = 0x20 := by
  interval_cases u <;> decide

/-- The test of one pair of bytes in `equalASCIILettersN`. -/
theorem letter_test (u c : Nat) (hu : 0x41 ≤ u ∧ u ≤ 0x5A) (hc : c < 256) :
    (u ^^^ c) &&& 0xdf = 0 ↔ (c = u ∨ c = u + 0x20) := by
  constructor
  · intro h
    have hlt : u ^^^ c < 2 ^ 8 :=
      Nat.xor_lt_two_pow (show u < 2 ^ 8 by omega) (show c < 2 ^ 8 by omega)
    have hcu : c = u ^^^ (u ^^^ c) := by
      rw [← Nat.xor_assoc, Nat.xor_self, Nat.zero_xor]
    rcases masked_byte_zero (u ^^^ c) hlt h with h0 | h0
    · left
      rw [hcu, h0, Nat.xor_zero]
    · right
      rw [hcu, h0]
      exact (upper_xor_lower u hu.1 hu.2).1
  · rintro (rfl | rfl)
    · rw [Nat.xor_self]
      rfl
    · rw [(upper_xor_lower u hu.1 hu.2).2]
      rfl

/-- C36. The generated `equalASCIILetters` comparison is a case-insensitive match against
upper-case letters: for every byte `u` in `'A'..'Z'` and every byte `c`,
`(u XOR c) AND 0xdf = 0` holds iff `c = u` or `c` is the lower-case form of `u`
(`u + 0x20`); so the generated function, on two arrays of the same length, the second of
upper-case letters, returns true iff every input byte equals the corresponding keyword
letter ignoring ASCII case. -/
theorem equalASCIILetters_ignores_case (u c : Nat) (hu : 0x41 ≤ u ∧ u ≤ 0x5A)
    (hc : c < 256) (anyCase upperCaseLetters : List Nat)
    (hlen : anyCase.length = upperCaseLetters.length)
    (hupper : ∀ l ∈ upperCaseLetters, 0x41 ≤ l ∧ l ≤ 0x5A)
    (hbytes : ∀ b ∈ anyCase, b < 256) :
    ((u ^^^ c) &&& 0xdf = 0 ↔ (c = u ∨ c = u + 0x20))
      ∧ (equalASCIILetters anyCase upperCaseLetters = true ↔
        List.Forall₂ (fun b l => b = l ∨ b = l + 0x20) anyCase upperCaseLetters) := by
  refine ⟨letter_test u c hu hc, ?_⟩
  induction anyCase generalizing upperCaseLetters with
  | nil =>
    cases upperCaseLetters with
    | nil => simp [equalASCIILetters]
    | cons l ls => simp at hlen
  | cons b bs ih =>
    cases upperCaseLetters with
    | nil => simp at hlen
    | cons l ls =>
      have hl := hupper l (List.mem_cons_self _ _)
      have hb := hbytes b (List.mem_cons_self _ _)
      have htest := letter_test l b hl hb
      have hrec := ih ls (by simpa using hlen)
        (fun x hx => hupper x (List.mem_cons_of_mem _ hx))
        (fun x hx => hbytes x (List.mem_cons_of_mem _ hx))
      rw [equalASCIILetters, List.forall₂_cons, ← htest, ← hrec]
      by_cases h0 : (l ^^^ b) &&& 0xdf = 0
      · simp [h0]
      · simp [h0]

/-- C36, witness: the input `aNd` against the keyword `AND`. -/
theorem equalASCIILetters_ignores_case_witness :
    ((0x41 ^^^ 0x61) &&& 0xdf = 0 ↔ (0x61 = 0x41 ∨ 0x61 = 0x41 + 0x20))
      ∧ (equalASCIILetters [0x61, 0x4E, 0x64] [0x41, 0x4E, 0x44] = true ↔
        List.Forall₂ (fun b l => b = l ∨ b = l + 0x20) [0x61, 0x4E, 0x64]
          [0x41, 0x4E, 0x44]) :=
  equalASCIILetters_ignores_case 0x41 0x61 (by decide) (by decide) [0x61, 0x4E, 0x64]
    [0x41, 0x4E, 0x44] rfl (by decide) (by decide)

/-- C37. What the code computes for the keywords `AS`, `AND` in this order, and for every
list of one keyword: `maxlength` is the length of the longest keyword, but `minlength`
stays `100_000`, since a keyword that raises `maxlength` is not compared with `minlength`
(the `else if`); the guard then rejects the lengths 2 and 3 of the keywords and the switch
has no case. The same keywords in the order `AND`, `AS` get the bounds 2 and 3 and both
cases. -/
theorem writeLookupFunctionBody_misses_shortest :
    writeLookupFunctionBody exampleAscending
        = { minlength := 100000, maxlength := 3, cases := [] }
      ∧ (writeLookupFunctionBody exampleAscending).rejects 2 = true
      ∧ (writeLookupFunctionBody exampleAscending).rejects 3 = true
      ∧ writeLookupFunctionBody exampleAscending.reverse
        = { minlength := 2, maxlength := 3, cases := [2, 3] }
      ∧ ∀ (c : Nat) (cs : List Nat) (govalue : String),
        (writeLookupFunctionBody [{ keyword := c :: cs, govalue := govalue }]).minlength
          = 100000 := by
  refine ⟨by decide, by decide, by decide, by decide, ?_⟩
  intro c cs govalue
  have h : ((cs.length + 1 : Nat) : Int) > 0 := by omega
  simp [writeLookupFunctionBody, writeLookupFunctionBody.lengths, h]

end partiql

namespace plan

/-! ## Claim C39: the parallelism per input -/

/-- C39, counter-example: with `Parallel` the largest `int` and two inputs, the sum
`Parallel + 2 - 1` wraps to a negative value and `subp` is set to 1, while
`1 * 2 < Parallel`. -/
theorem mkexec_sum_wraps :
    (1 : Int) ≤ 2 ^ 63 - 1
      ∧ (mkexec { Parallel := 2 ^ 63 - 1 } [0, 1]).subp = 1
      ∧ ¬ ((2 : Int) ^ 63 - 1 ≤ 1 * (([0, 1] : List Nat).length : Int)) := by
  decide

/-- C39, amended. For every `ExecParams` and input list, `mkexec` sets `subp >= 1`; when
there are `n >= 1` inputs, `Parallel >= 1` and the sum `Parallel + n - 1` is an `int`
(below `2^63`), `subp` is the least integer `s` with `s * n >= Parallel`, and there are
`n` tasks; with no inputs `subp = 1` and there are no tasks. -/
theorem mkexec_subp_ceiling {Input : Type} (ep : ExecParams) (inputs : List Input) :
    1 ≤ (mkexec ep inputs).subp
      ∧ (1 ≤ inputs.length → 1 ≤ ep.Parallel →
          ep.Parallel + (inputs.length : Int) - 1 < 2 ^ 63 →
          ep.Parallel ≤ (mkexec ep inputs).subp * (inputs.length : Int)
            ∧ (∀ s : Int, ep.Parallel ≤ s * (inputs.length : Int) →
              (mkexec ep inputs).subp ≤ s)
            ∧ (mkexec ep inputs).tasks.length = inputs.length)
      ∧ (inputs = [] → (mkexec ep inputs).subp = 1 ∧ (mkexec ep inputs).tasks = []) := by
  refine ⟨?_, ?_, ?_⟩
  · unfold mkexec
    dsimp only
    split
    · split
      · exact le_refl _
      · dsimp only
        omega
    · exact le_refl _
  · intro hn hP hsum
    have hn0 : (0 : Int) < (inputs.length : Int) := by omega
    have hwrap : wrapInt (ep.Parallel + (inputs.length : Int) - 1)
        = ep.Parallel + (inputs.length : Int) - 1 := by
      unfold wrapInt
      norm_num at hsum ⊢
      omega
    have hdiv : (ep.Parallel + (inputs.length : Int) - 1).tdiv (inputs.length : Int)
        = (ep.Parallel + (inputs.length : Int) - 1) / (inputs.length : Int) :=
      Int.tdiv_eq_ediv (by omega) (by omega)
    have h1 := Int.ediv_mul_le (ep.Parallel + (inputs.length : Int) - 1) (ne_of_gt hn0)
    have h2 := Int.lt_ediv_add_one_mul_self (ep.Parallel + (inputs.length : Int) - 1) hn0
    rw [Int.add_mul, Int.one_mul] at h2
    have hq : 0 < (ep.Parallel + (inputs.length : Int) - 1) / (inputs.length : Int) := by
      by_contra hle
      have := Int.mul_le_mul_of_nonneg_right (Int.not_lt.mp hle) (Int.le_of_lt hn0)
      omega
    have hsub : (mkexec ep inputs).subp
        = (ep.Parallel + (inputs.length : Int) - 1) / (inputs.length : Int) := by
      unfold mkexec
      dsimp only
      rw [if_pos (by omega), hwrap, hdiv, if_neg (by omega)]
    have htasks : (mkexec ep inputs).tasks.length = inputs.length := by
      unfold mkexec
      dsimp only
      rw [if_pos (by omega), hwrap, hdiv, if_neg (by omega)]
      exact List.length_replicate _ _
    rw [hsub]
    refine ⟨by omega, ?_, htasks⟩
    intro s hs
    by_contra hlt
    have := Int.mul_le_mul_of_nonneg_right
      (show s + 1 ≤ (ep.Parallel + (inputs.length : Int) - 1) / (inputs.length : Int) by
        omega) (Int.le_of_lt hn0)
    rw [Int.add_mul, Int.one_mul] at this
    omega
  · rintro rfl
    exact ⟨rfl, rfl⟩

/-- C39, witness: `Parallel = 7` over two inputs gives `subp = 4`. -/
theorem mkexec_subp_ceiling_witness :
    (7 : Int) ≤ (mkexec { Parallel := 7 } [0, 1]).subp * 2
      ∧ (∀ s : Int, 7 ≤ s * 2 → (mkexec { Parallel := 7 } [0, 1]).subp ≤ s)
      ∧ (mkexec { Parallel := 7 } [0, 1]).subp = 4
      ∧ (mkexec { Parallel := 7 } ([] : List Nat)).subp = 1 :=
  have hc := (mkexec_subp_ceiling { Parallel := 7 } [0, 1]).2.1 (by decide) (by decide)
    (by decide)
  ⟨hc.1, hc.2.1, by decide,
    ((mkexec_subp_ceiling { Parallel := 7 } ([] : List Nat)).2.2 rfl).1⟩

end plan
